import Mathlib

/-!
Room detection of the floor-plan editor (`utils/helpers.ts` in `src/bundle.part1.js`)

A shallow embedding of the geometry helpers and of `findRoomFromPoint`.

Number model.  JavaScript numbers are idealised as exact rationals (`ℚ`): no rounding,
no overflow, no `NaN`, no signed zero.  Two library functions of the source have no
rational value, and both are only ever *compared* in `findRoomFromPoint`:

* `Math.sqrt`: every distance is carried as its radicand (the squared distance) and a
  test `Math.sqrt(r) < EPSILON` is the test `r < EPSILON ^ 2`; `Math.sqrt` is strictly
  increasing on non-negative numbers, so the order of two distances is the order of
  their radicands.
* `Math.atan2` and the normalisation of an angle difference into `(-π, π]`: the
  normalised difference of the direction angles of two vectors is the signed angle
  `atan2 (cross, dot)` of the rotation taking the first to the second; it is carried as
  the "diamond" pseudo-angle of `(dot, cross)`, a rational number in `(-2, 2]` that is
  strictly increasing in that signed angle.

Object identity.  Graph nodes live in a JavaScript `Map` (insertion ordered); a node is
addressed here by its position in the insertion order, and `===` on nodes is equality of
positions.
-/

namespace PhacThao

/-! ## Data model -/

/-- A point `{x, y}`. -/
structure Point where
  x : ℚ
  y : ℚ
deriving DecidableEq, Inhabited

/-- The part of a wall record that `findRoomFromPoint` reads: `{x1, y1, x2, y2}`. -/
structure Wall where
  x1 : ℚ
  y1 : ℚ
  x2 : ℚ
  y2 : ℚ
deriving DecidableEq, Inhabited

/-- A room `{points}`. -/
structure Room where
  points : List Point
deriving DecidableEq, Inhabited

/-- An edge `{node1, node2, wall}`; the nodes are positions in the node map. -/
structure Edge where
  node1 : Nat
  node2 : Nat
  wall : Wall
deriving DecidableEq, Inhabited

/-- A graph node `{x, y, edges}`. -/
structure Node where
  x : ℚ
  y : ℚ
  edges : List Edge
deriving DecidableEq, Inhabited

/-- The value of `x.toFixed(4)`: whether a minus sign is printed, and the digits read as
an integer (the nearest multiple of `10⁻⁴` to `|x|`, the larger one on a tie). -/
abbrev Fixed4 := Bool × ℤ

/-- The key of a node in the node map: the string `"<x.toFixed(4)>,<y.toFixed(4)>"`. -/
abbrev Key := Fixed4 × Fixed4

/-- The node map `nodes`, in insertion order. -/
abbrev NodeMap := List (Key × Node)

/-! ## Geometry helpers -/

/-- The constant `EPSILON = 1e-6`. -/
def EPSILON : ℚ := 1 / 1000000

/-- The radicand of the value returned by `pointToSegmentDistance`: the source returns
`Math.sqrt` of this number. -/
def pointToSegmentDistanceSq (px py x1 y1 x2 y2 : ℚ) : ℚ :=
  let l2 := (x1 - x2) ^ 2 + (y1 - y2) ^ 2
  if l2 = 0 then (px - x1) ^ 2 + (py - y1) ^ 2
  else
    let t := ((px - x1) * (x2 - x1) + (py - y1) * (y2 - y1)) / l2
    let t := max 0 (min 1 t)
    let dx := x1 + t * (x2 - x1) - px
    let dy := y1 + t * (y2 - y1) - py
    dx ^ 2 + dy ^ 2

/-- The record `{x, y, t, dist}` returned by `findClosestPointOnSegment`; `distSq` is the
radicand of `dist`, which the source returns as `Math.sqrt` of this number. -/
structure ClosestPoint where
  x : ℚ
  y : ℚ
  t : ℚ
  distSq : ℚ
deriving DecidableEq, Inhabited

/-- The function `findClosestPointOnSegment`. -/
def findClosestPointOnSegment (px py x1 y1 x2 y2 : ℚ) : ClosestPoint :=
  let l2 := (x1 - x2) ^ 2 + (y1 - y2) ^ 2
  if l2 = 0 then ⟨x1, y1, 0, (px - x1) ^ 2 + (py - y1) ^ 2⟩
  else
    let t := ((px - x1) * (x2 - x1) + (py - y1) * (y2 - y1)) / l2
    let t := max 0 (min 1 t)
    let x := x1 + t * (x2 - x1)
    let y := y1 + t * (y2 - y1)
    ⟨x, y, t, (px - x) ^ 2 + (py - y) ^ 2⟩

/-- The `i`-th element of a point array (the origin outside the array, which the loops
below never read). -/
def pointAt (points : List Point) (i : Nat) : Point :=
  points.getD i ⟨0, 0⟩

/-- The sum accumulated by the shoelace loops of `calculatePolygonArea` and of the
winding check of `findRoomFromPoint`: over `i = 0 .. n-1` with `j = (i + 1) % n`,
`points[i].x * points[j].y - points[j].x * points[i].y`. -/
def shoelaceSum (points : List Point) : ℚ :=
  (List.range points.length).foldl
    (fun area i =>
      let j := (i + 1) % points.length
      area + (pointAt points i).x * (pointAt points j).y
        - (pointAt points j).x * (pointAt points i).y)
    0

/-- The function `calculatePolygonArea`. -/
def calculatePolygonArea (points : List Point) : ℚ :=
  |shoelaceSum points / 2|

/-- One iteration of the first loop of `calculatePolygonCentroid`; the state is
`(cx, cy, signedArea)`. -/
def centroidStep (points : List Point) (st : ℚ × ℚ × ℚ) (i : Nat) : ℚ × ℚ × ℚ :=
  let x0 := (pointAt points i).x
  let y0 := (pointAt points i).y
  let x1 := (pointAt points ((i + 1) % points.length)).x
  let y1 := (pointAt points ((i + 1) % points.length)).y
  let a := x0 * y1 - x1 * y0
  (st.1 + (x0 + x1) * a, st.2.1 + (y0 + y1) * a, st.2.2 + a)

/-- The function `calculatePolygonCentroid`.  The test `Math.abs(signedArea) < 1e-6` reads
the accumulated sum before the statement `signedArea *= 0.5`. -/
def calculatePolygonCentroid (points : List Point) : Point :=
  let n := points.length
  if n = 0 then ⟨0, 0⟩
  else
    let st := (List.range n).foldl (centroidStep points) (0, 0, 0)
    if |st.2.2| < 1 / 1000000 then
      let avg := points.foldl (fun (acc : ℚ × ℚ) p => (acc.1 + p.x, acc.2 + p.y)) (0, 0)
      ⟨avg.1 / n, avg.2 / n⟩
    else
      let signedArea := st.2.2 * (1 / 2)
      ⟨st.1 / (6 * signedArea), st.2.1 / (6 * signedArea)⟩

/-- One iteration of the loop of `isPointInPolygon`; the state is `(inside, j)`. -/
def isPointInPolygonStep (point : Point) (polygon : List Point)
    (st : Bool × Nat) (i : Nat) : Bool × Nat :=
  let xi := (pointAt polygon i).x
  let yi := (pointAt polygon i).y
  let xj := (pointAt polygon st.2).x
  let yj := (pointAt polygon st.2).y
  let intersect := (decide (yi > point.y) != decide (yj > point.y)) &&
    decide (point.x < (xj - xi) * (point.y - yi) / (yj - yi) + xi)
  (if intersect then !st.1 else st.1, i)

/-- The function `isPointInPolygon`: `for (i = 0, j = n - 1; i < n; j = i++)`. -/
def isPointInPolygon (point : Point) (polygon : List Point) : Bool :=
  ((List.range polygon.length).foldl (isPointInPolygonStep point polygon)
    (false, polygon.length - 1)).1

/-- The function `findIntersection`. -/
def findIntersection (x1 y1 x2 y2 x3 y3 x4 y4 : ℚ) : Option Point :=
  let den := (x1 - x2) * (y3 - y4) - (y1 - y2) * (x3 - x4)
  if |den| < EPSILON then none
  else
    let t := ((x1 - x3) * (y3 - y4) - (y1 - y3) * (x3 - x4)) / den
    let u := -((x1 - x2) * (y1 - y3) - (y1 - y2) * (x1 - x3)) / den
    if t ≥ -EPSILON ∧ t ≤ 1 + EPSILON ∧ u ≥ -EPSILON ∧ u ≤ 1 + EPSILON then
      some ⟨x1 + t * (x2 - x1), y1 + t * (y2 - y1)⟩
    else none

/-- The value of `v.toFixed(4)`. -/
def toFixed4 (v : ℚ) : Fixed4 :=
  (decide (v < 0), ⌊|v| * 10000 + 1 / 2⌋)

/-- The function `pointKey`. -/
def pointKey (p : Point) : Key :=
  (toFixed4 p.x, toFixed4 p.y)

/-! ## The planar graph -/

/-- The closure `getOrCreateNode`: the node stored under the key of `p`, created at the
end of the map when the key is new.  Returns the map and the node's position. -/
def getOrCreateNode (nodes : NodeMap) (p : Point) : NodeMap × Nat :=
  let key := pointKey p
  let i := nodes.findIdx (fun kn => decide (kn.1 = key))
  if i < nodes.length then (nodes, i)
  else (nodes ++ [(key, ⟨p.x, p.y, []⟩)], nodes.length)

/-- The first loop over the walls: both endpoints of every wall are registered. -/
def registerEndpoints (walls : List Wall) (nodes : NodeMap) : NodeMap :=
  walls.foldl
    (fun nodes wall =>
      (getOrCreateNode (getOrCreateNode nodes ⟨wall.x1, wall.y1⟩).1 ⟨wall.x2, wall.y2⟩).1)
    nodes

/-- The inner loop `for (j = i + 1; ...)` of the intersection pass, for one `w1`. -/
def registerIntersectionsWith (w1 : Wall) (rest : List Wall) (nodes : NodeMap) : NodeMap :=
  rest.foldl
    (fun nodes w2 =>
      match findIntersection w1.x1 w1.y1 w1.x2 w1.y2 w2.x1 w2.y1 w2.x2 w2.y2 with
      | some p => (getOrCreateNode nodes p).1
      | none => nodes)
    nodes

/-- The intersection pass: every pair `i < j` of walls, in the order of the two loops. -/
def registerIntersections : List Wall → NodeMap → NodeMap
  | [], nodes => nodes
  | w1 :: rest, nodes => registerIntersections rest (registerIntersectionsWith w1 rest nodes)

/-- Insertion of `a` into a list sorted by `key`: before the first element whose key is
strictly greater. -/
def insertByKey (key : Point → ℚ) (a : Point) : List Point → List Point
  | [] => [a]
  | b :: rest => if key b ≤ key a then b :: insertByKey key a rest else a :: b :: rest

/-- The call `pointsOnWall.sort((a, b) => key(a) - key(b))`: the stable sort by `key`. -/
def sortByKey (key : Point → ℚ) (points : List Point) : List Point :=
  points.foldl (fun sorted a => insertByKey key a sorted) []

/-- The array `pointsOnWall` of a wall, sorted: the nodes within `EPSILON` of the wall,
by squared distance from the wall's first endpoint. -/
def pointsOnWall (nodes : NodeMap) (wall : Wall) : List Point :=
  sortByKey (fun a => (a.x - wall.x1) ^ 2 + (a.y - wall.y1) ^ 2)
    ((nodes.filter (fun kn =>
        decide (pointToSegmentDistanceSq kn.2.x kn.2.y wall.x1 wall.y1 wall.x2 wall.y2
          < EPSILON ^ 2))).map
      (fun kn => (⟨kn.2.x, kn.2.y⟩ : Point)))

/-- The statement `node.edges.push(edge)` for the node at position `i`. -/
def pushEdge (nodes : NodeMap) (i : Nat) (edge : Edge) : NodeMap :=
  nodes.modify (fun kn => (kn.1, { kn.2 with edges := kn.2.edges ++ [edge] })) i

/-- The loop over the consecutive pairs `pointsOnWall[i], pointsOnWall[i+1]` of one wall;
the state is the node map and the array `edges`. -/
def assembleWallEdges (wall : Wall) : List Point → NodeMap × List Edge → NodeMap × List Edge
  | p1 :: p2 :: rest, st =>
    if (p1.x - p2.x) ^ 2 + (p1.y - p2.y) ^ 2 < EPSILON ^ 2 then
      assembleWallEdges wall (p2 :: rest) st
    else
      let r1 := getOrCreateNode st.1 p1
      let r2 := getOrCreateNode r1.1 p2
      let edge : Edge := ⟨r1.2, r2.2, wall⟩
      assembleWallEdges wall (p2 :: rest)
        (pushEdge (pushEdge r2.1 r1.2 edge) r2.2 edge, st.2 ++ [edge])
  | _, st => st

/-- The second loop over the walls: the edges of every wall. -/
def assembleEdges (walls : List Wall) (nodes : NodeMap) : NodeMap × List Edge :=
  walls.foldl (fun st wall => assembleWallEdges wall (pointsOnWall st.1 wall) st) (nodes, [])

/-- The graph built by `findRoomFromPoint`: the node map and the array `edges`. -/
def buildGraph (walls : List Wall) : NodeMap × List Edge :=
  assembleEdges walls (registerIntersections walls (registerEndpoints walls []))

/-- The node at a position of the node map (a node at the origin outside the map). -/
def nodeAt (nodes : NodeMap) (i : Nat) : Node :=
  (nodes.getD i (((false, 0), (false, 0)), ⟨0, 0, []⟩)).2

/-! ## Seed edge -/

/-- One iteration of the seed loop; the state is `(startingEdge, minDistance)` with the
distance squared, `none` being `null` and `Infinity`. -/
def seedStep (nodes : NodeMap) (startPoint : Point) (st : Option Edge × Option ℚ)
    (edge : Edge) : Option Edge × Option ℚ :=
  match findIntersection startPoint.x startPoint.y
      (startPoint.x + 1000000) (startPoint.y + 1 / 10000)
      (nodeAt nodes edge.node1).x (nodeAt nodes edge.node1).y
      (nodeAt nodes edge.node2).x (nodeAt nodes edge.node2).y with
  | none => st
  | some p =>
    let distance := (p.x - startPoint.x) ^ 2 + (p.y - startPoint.y) ^ 2
    match st.2 with
    | none => (some edge, some distance)
    | some minDistance => if distance < minDistance then (some edge, some distance) else st

/-- The edge `startingEdge` after the seed loop. -/
def findStartingEdge (nodes : NodeMap) (edges : List Edge) (startPoint : Point) :
    Option Edge :=
  (edges.foldl (seedStep nodes startPoint) (none, none)).1

/-! ## Face trace -/

/-- The direction whose `Math.atan2` angle a vector has: `atan2(0, 0)` is `0`, the angle
of `(1, 0)`. -/
def direction (vx vy : ℚ) : ℚ × ℚ :=
  if vx = 0 ∧ vy = 0 then (1, 0) else (vx, vy)

/-- The diamond pseudo-angle of a vector `(d, c)` that is not zero: a number in `(-2, 2]`
strictly increasing in `atan2 (c, d)`, with `0` for the positive `d` axis and `2` for the
negative one. -/
def diamondAngle (d c : ℚ) : ℚ :=
  if 0 ≤ c then
    if 0 < d then c / (d + c) else 1 + (-d) / (c - d)
  else
    if 0 ≤ d then c / (d - c) else -1 - d / (d + c)

/-- The variable `rightTurnAngle` for an incoming and an outgoing vector, as a pseudo
angle: the difference of the two `atan2` angles, normalised into `(-π, π]`, is the signed
angle of `(dot, cross)`. -/
def rightTurnAngle (inX inY outX outY : ℚ) : ℚ :=
  let i := direction inX inY
  let o := direction outX outY
  diamondAngle (i.1 * o.1 + i.2 * o.2) (i.1 * o.2 - i.2 * o.1)

/-- The node `nextNode` of an edge seen from `currentNode`:
`(edge.node1 === currentNode) ? edge.node2 : edge.node1`. -/
def farNode (edge : Edge) (currentNode : Nat) : Nat :=
  if edge.node1 = currentNode then edge.node2 else edge.node1

/-- One iteration of the loop over `currentNode.edges`; the state is
`(bestNextNode, maxAngleDiff)`, `none` being `null` and `-Infinity`. -/
def turnStep (nodes : NodeMap) (prevNode currentNode : Nat) (st : Option Nat × Option ℚ)
    (edge : Edge) : Option Nat × Option ℚ :=
  let nextNode := farNode edge currentNode
  if nextNode = prevNode then st
  else
    let angle := rightTurnAngle
      ((nodeAt nodes currentNode).x - (nodeAt nodes prevNode).x)
      ((nodeAt nodes currentNode).y - (nodeAt nodes prevNode).y)
      ((nodeAt nodes nextNode).x - (nodeAt nodes currentNode).x)
      ((nodeAt nodes nextNode).y - (nodeAt nodes currentNode).y)
    match st.2 with
    | none => (some nextNode, some angle)
    | some maxAngleDiff => if angle > maxAngleDiff then (some nextNode, some angle) else st

/-- The node `bestNextNode` chosen at `currentNode` when coming from `prevNode`. -/
def bestNextNode (nodes : NodeMap) (prevNode currentNode : Nat) : Option Nat :=
  ((nodeAt nodes currentNode).edges.foldl (turnStep nodes prevNode currentNode)
    (none, none)).1

/-- The trace loop `for (i = 0; i < nodes.size + 1; i++)` with `fuel` iterations left.
The result is `none` for `return null` inside the loop, and otherwise the array
`polygon` with the node `currentNode` at the exit of the loop. -/
def traceLoop (nodes : NodeMap) (startNode : Nat) :
    Nat → Nat → Nat → List Nat → Option (List Nat × Nat)
  | 0, _, currentNode, polygon => some (polygon, currentNode)
  | fuel + 1, prevNode, currentNode, polygon =>
    match bestNextNode nodes prevNode currentNode with
    | none => none
    | some best =>
      if best = startNode then some (polygon ++ [currentNode], best)
      else traceLoop nodes startNode fuel currentNode best (polygon ++ [currentNode])

/-- The pair `(prevNode, currentNode)` the trace starts from: the sign of `crossProduct`
decides in which direction the seed edge is walked. -/
def seedDirection (nodes : NodeMap) (startPoint : Point) (startingEdge : Edge) : Nat × Nat :=
  let n1 := nodeAt nodes startingEdge.node1
  let n2 := nodeAt nodes startingEdge.node2
  let crossProduct :=
    (n2.x - n1.x) * (startPoint.y - n1.y) - (n2.y - n1.y) * (startPoint.x - n1.x)
  if crossProduct > 0 then (startingEdge.node1, startingEdge.node2)
  else (startingEdge.node2, startingEdge.node1)

/-- The array `polygonPoints`: the coordinates of the traced nodes. -/
def polygonPoints (nodes : NodeMap) (polygon : List Nat) : List Point :=
  polygon.map (fun n => ⟨(nodeAt nodes n).x, (nodeAt nodes n).y⟩)

/-- The checks after the trace loop: the loop is closed, has at least three nodes,
contains the query point and has no negative signed area. -/
def validateRoom (nodes : NodeMap) (startPoint : Point) (startNode : Nat)
    (traced : List Nat × Nat) : Option Room :=
  if traced.2 ≠ startNode ∨ traced.1.length < 3 then none
  else if !isPointInPolygon startPoint (polygonPoints nodes traced.1) then none
  else if shoelaceSum (polygonPoints nodes traced.1) < 0 then none
  else some ⟨polygonPoints nodes traced.1⟩

/-- The part of `findRoomFromPoint` after the graph is built and a seed edge is found:
direction, trace and validation. -/
def traceRoom (nodes : NodeMap) (startPoint : Point) (startingEdge : Edge) : Option Room :=
  let d := seedDirection nodes startPoint startingEdge
  match traceLoop nodes d.2 (nodes.length + 1) d.1 d.2 [] with
  | none => none
  | some traced => validateRoom nodes startPoint d.2 traced

/-- The function `findRoomFromPoint`. -/
def findRoomFromPoint (startPoint : Point) (walls : List Wall) (existingRooms : List Room) :
    Option Room :=
  if walls.length = 0 then none
  else if existingRooms.any (fun room => isPointInPolygon startPoint room.points) then none
  else
    let g := buildGraph walls
    match findStartingEdge g.1 g.2 startPoint with
    | none => none
    | some startingEdge => traceRoom g.1 startPoint startingEdge

/-! ## Example inputs and specification-level notions -/

/-- The square of the concrete scenario: four walls of length 100 around the perimeter. -/
def squareWalls : List Wall :=
  [⟨0, 0, 100, 0⟩, ⟨100, 0, 100, 100⟩, ⟨100, 100, 0, 100⟩, ⟨0, 100, 0, 0⟩]

/-- A square room with a triangular pillar that touches the bottom wall in the single
point `(50, 0)`. -/
def pillarWalls : List Wall :=
  squareWalls ++ [⟨50, 0, 40, 20⟩, ⟨40, 20, 60, 20⟩, ⟨60, 20, 50, 0⟩]

/-- The corners of the axis-aligned rectangle of width `w` and height `h`, around the
perimeter: `(0,0), (w,0), (w,h), (0,h)`. -/
def rectCorner (w h : ℚ) : Fin 4 → Point
  | 0 => ⟨0, 0⟩
  | 1 => ⟨w, 0⟩
  | 2 => ⟨w, h⟩
  | 3 => ⟨0, h⟩

/-- The side `k` of the rectangle as a wall, from corner `k` to the next corner. -/
def rectSide (w h : ℚ) : Fin 4 → Wall
  | 0 => ⟨0, 0, w, 0⟩
  | 1 => ⟨w, 0, w, h⟩
  | 2 => ⟨w, h, 0, h⟩
  | 3 => ⟨0, h, 0, 0⟩

/-- The same wall drawn from its other end. -/
def reverseWall (wall : Wall) : Wall :=
  ⟨wall.x2, wall.y2, wall.x1, wall.y1⟩

/-- The wall runs along side `k` of the rectangle, in either direction. -/
def IsRectSide (w h : ℚ) (k : Fin 4) (wall : Wall) : Prop :=
  wall = rectSide w h k ∨ wall = reverseWall (rectSide w h k)

/-- The four sides of the rectangle, one wall per side, listed around the perimeter. -/
def rectWalls (w h : ℚ) : List Wall :=
  [rectSide w h 0, rectSide w h 1, rectSide w h 2, rectSide w h 3]

/-- The corner of the rectangle at a point (corner 3 for a point that is no corner). -/
def cornerOf (w h : ℚ) (p : Point) : Fin 4 :=
  if p = rectCorner w h 0 then 0
  else if p = rectCorner w h 1 then 1
  else if p = rectCorner w h 2 then 2
  else 3

/-- The rank of a corner on the path that the sides other than side `m` form: it runs
from corner `m + 1` (rank 0) to corner `m` (rank 3). -/
def cornerRank (m j : Fin 4) : ℤ :=
  ((j - (m + 1) : Fin 4) : ℕ)

/-- The two adjacent cells of claim C4: walls `L, M, R, T, BL, BR`. -/
def twoCellWalls (a b h : ℚ) : List Wall :=
  [⟨0, 0, 0, h⟩, ⟨a, 0, a, h⟩, ⟨a + b, 0, a + b, h⟩, ⟨0, 0, a + b, 0⟩, ⟨0, h, a, h⟩,
    ⟨a, h, a + b, h⟩]

/-- The nodes of the graph of the rectangle, with their edge lists. -/
def rectNodes (w h : ℚ) : NodeMap :=
  [(pointKey ⟨0, 0⟩, ⟨0, 0, [⟨0, 1, ⟨0, 0, w, 0⟩⟩, ⟨3, 0, ⟨0, h, 0, 0⟩⟩]⟩),
   (pointKey ⟨w, 0⟩, ⟨w, 0, [⟨0, 1, ⟨0, 0, w, 0⟩⟩, ⟨1, 2, ⟨w, 0, w, h⟩⟩]⟩),
   (pointKey ⟨w, h⟩, ⟨w, h, [⟨1, 2, ⟨w, 0, w, h⟩⟩, ⟨2, 3, ⟨w, h, 0, h⟩⟩]⟩),
   (pointKey ⟨0, h⟩, ⟨0, h, [⟨2, 3, ⟨w, h, 0, h⟩⟩, ⟨3, 0, ⟨0, h, 0, 0⟩⟩]⟩)]

/-- The edges of the graph of the rectangle, in creation order. -/
def rectEdges (w h : ℚ) : List Edge :=
  [⟨0, 1, ⟨0, 0, w, 0⟩⟩, ⟨1, 2, ⟨w, 0, w, h⟩⟩, ⟨2, 3, ⟨w, h, 0, h⟩⟩, ⟨3, 0, ⟨0, h, 0, 0⟩⟩]

/-- The nodes of the graph of the two adjacent cells, with their edge lists. -/
def twoCellNodes (a b h : ℚ) : NodeMap :=
  [(pointKey ⟨0, 0⟩, ⟨0, 0, [⟨0, 1, ⟨0, 0, 0, h⟩⟩, ⟨0, 2, ⟨0, 0, a + b, 0⟩⟩]⟩),
   (pointKey ⟨0, h⟩, ⟨0, h, [⟨0, 1, ⟨0, 0, 0, h⟩⟩, ⟨1, 3, ⟨0, h, a, h⟩⟩]⟩),
   (pointKey ⟨a, 0⟩, ⟨a, 0, [⟨2, 3, ⟨a, 0, a, h⟩⟩, ⟨0, 2, ⟨0, 0, a + b, 0⟩⟩, ⟨2, 4, ⟨0, 0, a + b, 0⟩⟩]⟩),
   (pointKey ⟨a, h⟩, ⟨a, h, [⟨2, 3, ⟨a, 0, a, h⟩⟩, ⟨1, 3, ⟨0, h, a, h⟩⟩, ⟨3, 5, ⟨a, h, a + b, h⟩⟩]⟩),
   (pointKey ⟨a + b, 0⟩, ⟨a + b, 0, [⟨4, 5, ⟨a + b, 0, a + b, h⟩⟩, ⟨2, 4, ⟨0, 0, a + b, 0⟩⟩]⟩),
   (pointKey ⟨a + b, h⟩, ⟨a + b, h, [⟨4, 5, ⟨a + b, 0, a + b, h⟩⟩, ⟨3, 5, ⟨a, h, a + b, h⟩⟩]⟩)]

/-- The edges of the graph of the two adjacent cells, in creation order. -/
def twoCellEdges (a b h : ℚ) : List Edge :=
  [⟨0, 1, ⟨0, 0, 0, h⟩⟩, ⟨2, 3, ⟨a, 0, a, h⟩⟩, ⟨4, 5, ⟨a + b, 0, a + b, h⟩⟩,
   ⟨0, 2, ⟨0, 0, a + b, 0⟩⟩, ⟨2, 4, ⟨0, 0, a + b, 0⟩⟩, ⟨1, 3, ⟨0, h, a, h⟩⟩,
   ⟨3, 5, ⟨a, h, a + b, h⟩⟩]

/-- The coordinates of the nodes of a node map, in insertion order. -/
def nodeCoords (nodes : NodeMap) : List Point :=
  nodes.map (fun kn => ⟨kn.2.x, kn.2.y⟩)

/-- The keys of a node map, in insertion order. -/
def nodeKeys (nodes : NodeMap) : List Key :=
  nodes.map Prod.fst

/-- A trace that closes: started in the state `(prevNode, currentNode)`, the loop pushes
exactly the nodes `visited` and then steps onto `startNode`. -/
inductive ClosedTrace (nodes : NodeMap) (startNode : Nat) : Nat → Nat → List Nat → Prop
  | last {prevNode currentNode : Nat} :
      bestNextNode nodes prevNode currentNode = some startNode →
      ClosedTrace nodes startNode prevNode currentNode [currentNode]
  | step {prevNode currentNode best : Nat} {rest : List Nat} :
      bestNextNode nodes prevNode currentNode = some best → best ≠ startNode →
      ClosedTrace nodes startNode currentNode best rest →
      ClosedTrace nodes startNode prevNode currentNode (currentNode :: rest)

/-- The directed sides of a closed polygon: every point paired with its successor, the
last point with the first. -/
def directedSides {α : Type} (points : List α) : List (α × α) :=
  points.zip (points.rotate 1)

/-- The invariant of the graph under construction.  The keys are the keys of the node
coordinates and are pairwise different; every edge joins two different nodes of the
map, both within `EPSILON` of the edge's wall; the edge list of a node holds only edges
of the graph that are incident to the node. -/
structure GraphInv (st : NodeMap × List Edge) : Prop where
  key_eq : nodeKeys st.1 = (nodeCoords st.1).map pointKey
  nodup : (nodeKeys st.1).Nodup
  edge_ok : ∀ e ∈ st.2, e.node1 ≠ e.node2 ∧ e.node1 < st.1.length ∧ e.node2 < st.1.length
  node_edges : ∀ i, ∀ e ∈ (nodeAt st.1 i).edges, e ∈ st.2 ∧ (e.node1 = i ∨ e.node2 = i)
  on_wall : ∀ e ∈ st.2,
    pointToSegmentDistanceSq (nodeAt st.1 e.node1).x (nodeAt st.1 e.node1).y
        e.wall.x1 e.wall.y1 e.wall.x2 e.wall.y2 < EPSILON ^ 2 ∧
      pointToSegmentDistanceSq (nodeAt st.1 e.node2).x (nodeAt st.1 e.node2).y
        e.wall.x1 e.wall.y1 e.wall.x2 e.wall.y2 < EPSILON ^ 2

/-- The invariant of the node map while nodes are registered: the keys are the keys of
the node coordinates and are pairwise different, no node has an edge yet, and every node
is at a point of `S`. -/
structure RegInv (S : Point → Prop) (nodes : NodeMap) : Prop where
  key_eq : nodeKeys nodes = (nodeCoords nodes).map pointKey
  nodup : (nodeKeys nodes).Nodup
  no_edges : ∀ kn ∈ nodes, kn.2.edges = []
  coords_in : ∀ q ∈ nodeCoords nodes, S q

/-- The points that `findRoomFromPoint` registers for a wall list: the endpoints of the
walls and the intersection points of pairs of walls. -/
def IsRegistered (walls : List Wall) (q : Point) : Prop :=
  (∃ w ∈ walls, q = ⟨w.x1, w.y1⟩ ∨ q = ⟨w.x2, w.y2⟩) ∨
    ∃ w1 ∈ walls, ∃ w2 ∈ walls,
      findIntersection w1.x1 w1.y1 w1.x2 w1.y2 w2.x1 w2.y1 w2.x2 w2.y2 = some q

/-- The arithmetic mean of the vertices of a point list. -/
def vertexMean (points : List Point) : Point :=
  ⟨(points.map (fun p => p.x)).sum / points.length,
    (points.map (fun p => p.y)).sum / points.length⟩

/-- The term `a_i = x_i * y_(i+1) - x_(i+1) * y_i` of the shoelace sum, indices taken
cyclically. -/
def shoelaceTerm (points : List Point) (i : Nat) : ℚ :=
  (pointAt points i).x * (pointAt points ((i + 1) % points.length)).y
    - (pointAt points ((i + 1) % points.length)).x * (pointAt points i).y

/-- The signed shoelace area `A`: half the sum of the terms `a_i`. -/
def signedArea (points : List Point) : ℚ :=
  (∑ i in Finset.range points.length, shoelaceTerm points i) / 2

/-- The area-weighted centroid: the sums of `(x_i + x_(i+1)) * a_i` and of
`(y_i + y_(i+1)) * a_i`, divided by `6 * A`. -/
def weightedCentroid (points : List Point) : Point :=
  ⟨(∑ i in Finset.range points.length,
      ((pointAt points i).x + (pointAt points ((i + 1) % points.length)).x)
        * shoelaceTerm points i) / (6 * signedArea points),
    (∑ i in Finset.range points.length,
      ((pointAt points i).y + (pointAt points ((i + 1) % points.length)).y)
        * shoelaceTerm points i) / (6 * signedArea points)⟩

/-- The orientation of the triple `a, b, c`: twice the signed area of the triangle,
positive when `c` lies to the left of the directed line from `a` to `b`. -/
def orientation (a b c : Point) : ℚ :=
  (b.x - a.x) * (c.y - a.y) - (b.y - a.y) * (c.x - a.x)

/-- The vertex list turns one way, given by the sign `s` (`1` or `-1`): every vertex lies
on the line of every side or on the side of that line that the sign selects. -/
def IsConvexWith (s : ℚ) (points : List Point) : Prop :=
  ∀ i < points.length, ∀ k < points.length,
    0 ≤ s * orientation (pointAt points i) (pointAt points ((i + 1) % points.length))
      (pointAt points k)

instance (s : ℚ) (points : List Point) : Decidable (IsConvexWith s points) :=
  inferInstanceAs (Decidable (∀ i < points.length, ∀ k < points.length,
    0 ≤ s * orientation (pointAt points i) (pointAt points ((i + 1) % points.length))
      (pointAt points k)))

/-- The vertex list of a convex polygon: at least three pairwise different vertices, not
all on one line, listed around the boundary in either orientation, so that every vertex
lies on the line of every side or on its inner side.  Vertices in the interior of a side
are allowed. -/
def IsConvexPolygon (points : List Point) : Prop :=
  3 ≤ points.length ∧ points.Nodup ∧
    (∃ i < points.length, ∃ k < points.length,
      orientation (pointAt points i) (pointAt points ((i + 1) % points.length))
        (pointAt points k) ≠ 0) ∧
    (IsConvexWith 1 points ∨ IsConvexWith (-1) points)

instance (points : List Point) : Decidable (IsConvexPolygon points) :=
  inferInstanceAs (Decidable (3 ≤ points.length ∧ points.Nodup ∧
    (∃ i < points.length, ∃ k < points.length,
      orientation (pointAt points i) (pointAt points ((i + 1) % points.length))
        (pointAt points k) ≠ 0) ∧
    (IsConvexWith 1 points ∨ IsConvexWith (-1) points)))

/-- The vertex `k` of a vertex list, indices taken cyclically. -/
def cyclicPoint (points : List Point) (k : Nat) : Point :=
  pointAt points (k % points.length)

/-- The test `intersect` of `isPointInPolygon` for the side from the vertex `a` (the
source's `polygon[j]`) to the vertex `b` (the source's `polygon[i]`). -/
def sideCrossing (point a b : Point) : Bool :=
  (decide (b.y > point.y) != decide (a.y > point.y)) &&
    decide (point.x < (a.x - b.x) * (point.y - b.y) / (a.y - b.y) + b.x)

/-- A convex polygon as a periodic sequence of vertices with period `n ≥ 3`: the vertices
of one period are pairwise different and not all on one line, and every vertex lies on the
line of every side or on the side of that line that the sign `s` selects. -/
structure ConvexCycle (n : Nat) (s : ℚ) (P : Nat → Point) : Prop where
  three : 3 ≤ n
  sign : s = 1 ∨ s = -1
  periodic : ∀ k, P (k + n) = P k
  nonneg : ∀ i k, 0 ≤ s * orientation (P i) (P (i + 1)) (P k)
  injective : ∀ i k, P i = P k → i % n = k % n
  proper : ∃ i k, orientation (P i) (P (i + 1)) (P k) ≠ 0

/-- The sides of a convex polygon around a point `c`, each directed from its tail `T m`
to its head `H m` so that the polygon and `c` are on its left; the side `prev m` is the
side whose head is the tail of the side `m`. -/
structure SideFamily (n : Nat) (c : Point) (T H : Nat → Point) (prev : Nat → Nat) : Prop where
  pos : 0 < n
  periodicT : ∀ k, T (k + n) = T k
  congrH : ∀ m k, m % n = k % n → H m = H k
  left : ∀ m k, 0 ≤ orientation (T m) (H m) (T k) ∧ 0 ≤ orientation (T m) (H m) (H k)
  inside : ∀ m, 0 < orientation (T m) (H m) c
  link : ∀ m, H (prev m) = T m
  ne : ∀ m, T m ≠ H m
  injective : ∀ m k, T m = T k → m % n = k % n

/-- The shoelace term of the side from vertex `k` to vertex `k + 1` of a vertex sequence. -/
def cycleTerm (P : Nat → Point) (k : Nat) : ℚ :=
  (P k).x * (P (k + 1)).y - (P (k + 1)).x * (P k).y

/-- The mean of the first `n` vertices of a vertex sequence. -/
def cycleMean (n : Nat) (P : Nat → Point) : Point :=
  ⟨(∑ k in Finset.range n, (P k).x) / n, (∑ k in Finset.range n, (P k).y) / n⟩

/-- The area-weighted centroid of the polygon of the first `n` vertices of a periodic
vertex sequence. -/
def cycleCentroid (n : Nat) (P : Nat → Point) : Point :=
  ⟨(∑ k in Finset.range n, ((P k).x + (P (k + 1)).x) * cycleTerm P k)
      / (3 * ∑ k in Finset.range n, cycleTerm P k),
    (∑ k in Finset.range n, ((P k).y + (P (k + 1)).y) * cycleTerm P k)
      / (3 * ∑ k in Finset.range n, cycleTerm P k)⟩

/-! ## Notions for the statements about the graph, the seed and the turn -/

/-- The squared distance of two points: the radicand of their Euclidean distance. -/
def distanceSq (a b : Point) : ℚ :=
  (a.x - b.x) ^ 2 + (a.y - b.y) ^ 2

/-- The point at which the node at a position of the node map lies. -/
def nodePoint (nodes : NodeMap) (i : Nat) : Point :=
  ⟨(nodeAt nodes i).x, (nodeAt nodes i).y⟩

/-- The node map after the two registration loops, before the edges are assembled. -/
def registeredNodes (walls : List Wall) : NodeMap :=
  registerIntersections walls (registerEndpoints walls [])

/-- The test `pointToSegmentDistance(p.x, p.y, wall.x1, wall.y1, wall.x2, wall.y2) <
EPSILON` of the edge assembly, on the squared distance. -/
def liesOnWall (wall : Wall) (p : Point) : Bool :=
  decide (pointToSegmentDistanceSq p.x p.y wall.x1 wall.y1 wall.x2 wall.y2 < EPSILON ^ 2)

/-- The sort key of the array `pointsOnWall`: the squared distance from the first endpoint
of the wall. -/
def wallOrderKey (wall : Wall) (a : Point) : ℚ :=
  (a.x - wall.x1) ^ 2 + (a.y - wall.y1) ^ 2

/-- The points of the nodes that lie on a wall, in the order of the node map. -/
def nodesOnWall (nodes : NodeMap) (wall : Wall) : List Point :=
  (nodeCoords nodes).filter (liesOnWall wall)

/-- The points of the nodes that lie within `EPSILON` of a point. -/
def nodesNear (nodes : NodeMap) (p : Point) : List Point :=
  (nodeCoords nodes).filter (fun c => decide (distanceSq c p < EPSILON ^ 2))

/-- The points of the nodes whose coordinates have the key of a point. -/
def nodesWithKey (nodes : NodeMap) (p : Point) : List Point :=
  (nodeCoords nodes).filter (fun c => decide (pointKey c = pointKey p))

/-- The edges of an edge list that have the node at position `i` as `node1` or `node2`, in
the order of the list. -/
def incidentEdges (edges : List Edge) (i : Nat) : List Edge :=
  edges.filter (fun e => decide (e.node1 = i ∨ e.node2 = i))

/-- The edges of an edge list that were made for a wall. -/
def edgesOfWall (edges : List Edge) (wall : Wall) : List Edge :=
  edges.filter (fun e => decide (e.wall = wall))

/-- The number of the other walls of a list whose `findIntersection` with the wall `W`
is a point. -/
def crossingCount (walls : List Wall) (W : Wall) : Nat :=
  ((walls.erase W).filter (fun w =>
    (findIntersection W.x1 W.y1 W.x2 W.y2 w.x1 w.y1 w.x2 w.y2).isSome)).length

/-- The three statements `node1.edges.push(edge); node2.edges.push(edge);
edges.push(edge)` for the edge of a wall between the nodes at two positions. -/
def addEdge (st : NodeMap × List Edge) (i1 i2 : Nat) (wall : Wall) : NodeMap × List Edge :=
  (pushEdge (pushEdge st.1 i1 ⟨i1, i2, wall⟩) i2 ⟨i1, i2, wall⟩, st.2 ++ [⟨i1, i2, wall⟩])

/-- The variable `intersection` of the seed loop: where the ray from the query point to
`(x + 1e6, y + 1e-4)` meets an edge, if it does. -/
def rayHit (nodes : NodeMap) (startPoint : Point) (edge : Edge) : Option Point :=
  findIntersection startPoint.x startPoint.y
    (startPoint.x + 1000000) (startPoint.y + 1 / 10000)
    (nodeAt nodes edge.node1).x (nodeAt nodes edge.node1).y
    (nodeAt nodes edge.node2).x (nodeAt nodes edge.node2).y

/-- The candidates of a step of the trace: the edges of `currentNode`, in the order of
its edge list, whose far end is not `prevNode`. -/
def turnCandidates (nodes : NodeMap) (prevNode currentNode : Nat) : List Edge :=
  (nodeAt nodes currentNode).edges.filter
    (fun e => decide (farNode e currentNode ≠ prevNode))

/-- The variable `rightTurnAngle` of a candidate edge at `currentNode` when coming from
`prevNode`, as a pseudo angle. -/
def turnOf (nodes : NodeMap) (prevNode currentNode : Nat) (edge : Edge) : ℚ :=
  rightTurnAngle
    ((nodeAt nodes currentNode).x - (nodeAt nodes prevNode).x)
    ((nodeAt nodes currentNode).y - (nodeAt nodes prevNode).y)
    ((nodeAt nodes (farNode edge currentNode)).x - (nodeAt nodes currentNode).x)
    ((nodeAt nodes (farNode edge currentNode)).y - (nodeAt nodes currentNode).y)

/-- The comparison of two turns as the code computes them: for an incoming vector and two
outgoing vectors, the difference of the `Math.atan2` angle of the outgoing and of the
incoming vector, normalised into `(-π, π]`, is smaller for the first outgoing vector than
for the second.  The value `Math.atan2(y, x)` is `Complex.arg ⟨x, y⟩`. -/
def TurnLess (inX inY outX outY outX' outY' : ℚ) : Prop :=
  ((Complex.arg ⟨(outX : ℝ), (outY : ℝ)⟩ : Real.Angle)
      - (Complex.arg ⟨(inX : ℝ), (inY : ℝ)⟩ : Real.Angle)).toReal
    < ((Complex.arg ⟨(outX' : ℝ), (outY' : ℝ)⟩ : Real.Angle)
      - (Complex.arg ⟨(inX : ℝ), (inY : ℝ)⟩ : Real.Angle)).toReal

/-- The turn onto the edge `e` is smaller than the turn onto the edge `e'`, at
`currentNode` when coming from `prevNode`. -/
def EdgeTurnLess (nodes : NodeMap) (prevNode currentNode : Nat) (e e' : Edge) : Prop :=
  TurnLess
    ((nodeAt nodes currentNode).x - (nodeAt nodes prevNode).x)
    ((nodeAt nodes currentNode).y - (nodeAt nodes prevNode).y)
    ((nodeAt nodes (farNode e currentNode)).x - (nodeAt nodes currentNode).x)
    ((nodeAt nodes (farNode e currentNode)).y - (nodeAt nodes currentNode).y)
    ((nodeAt nodes (farNode e' currentNode)).x - (nodeAt nodes currentNode).x)
    ((nodeAt nodes (farNode e' currentNode)).y - (nodeAt nodes currentNode).y)

/-! ## Validation: what every returned room satisfies -/

theorem validateRoom_some {nodes : NodeMap} {startPoint : Point} {startNode : Nat}
    {traced : List Nat × Nat} {room : Room}
    (h : validateRoom nodes startPoint startNode traced = some room) :
    traced.2 = startNode ∧ 3 ≤ traced.1.length ∧ room.points = polygonPoints nodes traced.1 ∧
      isPointInPolygon startPoint room.points = true ∧ 0 ≤ shoelaceSum room.points := by
  unfold validateRoom at h
  split at h
  · exact absurd h (by simp)
  · rename_i hclosed
    split at h
    · exact absurd h (by simp)
    · rename_i hin
      split at h
      · exact absurd h (by simp)
      · rename_i hneg
        simp only [Option.some.injEq] at h
        subst h
        simp only [not_or, not_not, not_lt] at hclosed
        refine ⟨hclosed.1, hclosed.2, rfl, ?_, not_lt.mp hneg⟩
        simpa using hin

theorem traceRoom_some {nodes : NodeMap} {startPoint : Point} {startingEdge : Edge}
    {room : Room} (h : traceRoom nodes startPoint startingEdge = some room) :
    ∃ traced,
      traceLoop nodes (seedDirection nodes startPoint startingEdge).2 (nodes.length + 1)
          (seedDirection nodes startPoint startingEdge).1
          (seedDirection nodes startPoint startingEdge).2 [] = some traced ∧
      validateRoom nodes startPoint (seedDirection nodes startPoint startingEdge).2 traced
        = some room := by
  unfold traceRoom at h
  simp only [] at h
  split at h
  · exact absurd h (by simp)
  · rename_i traced ht
    exact ⟨traced, ht, h⟩

theorem findRoomFromPoint_some {startPoint : Point} {walls : List Wall}
    {existingRooms : List Room} {room : Room}
    (h : findRoomFromPoint startPoint walls existingRooms = some room) :
    ∃ startingEdge,
      findStartingEdge (buildGraph walls).1 (buildGraph walls).2 startPoint = some startingEdge ∧
      traceRoom (buildGraph walls).1 startPoint startingEdge = some room := by
  unfold findRoomFromPoint at h
  split at h
  · exact absurd h (by simp)
  · split at h
    · exact absurd h (by simp)
    · simp only [] at h
      split at h
      · exact absurd h (by simp)
      · rename_i e he
        exact ⟨e, he, h⟩

/-! ## The node map -/

theorem map_modify_of_comp {α β : Type} (g : α → β) (f : α → α) (hgf : ∀ a, g (f a) = g a) :
    ∀ (n : Nat) (l : List α), (l.modify f n).map g = l.map g
  | _, [] => by simp
  | 0, a :: l => by simp [hgf]
  | n + 1, a :: l => by simp [map_modify_of_comp g f hgf n l]

theorem nodeCoords_pushEdge (nodes : NodeMap) (i : Nat) (edge : Edge) :
    nodeCoords (pushEdge nodes i edge) = nodeCoords nodes := by
  unfold nodeCoords pushEdge
  apply map_modify_of_comp
  intro a
  rfl

theorem nodeKeys_pushEdge (nodes : NodeMap) (i : Nat) (edge : Edge) :
    nodeKeys (pushEdge nodes i edge) = nodeKeys nodes := by
  unfold nodeKeys pushEdge
  apply map_modify_of_comp
  intro a
  rfl

theorem length_pushEdge (nodes : NodeMap) (i : Nat) (edge : Edge) :
    (pushEdge nodes i edge).length = nodes.length := by
  unfold pushEdge
  exact List.length_modify _ _ _

theorem length_nodeCoords (nodes : NodeMap) : (nodeCoords nodes).length = nodes.length := by
  simp [nodeCoords]

theorem length_nodeKeys (nodes : NodeMap) : (nodeKeys nodes).length = nodes.length := by
  simp [nodeKeys]

theorem nodeAt_eq_getElem (nodes : NodeMap) (i : Nat) (h : i < nodes.length) :
    nodeAt nodes i = nodes[i].2 := by
  simp [nodeAt, List.getD_eq_getElem?_getD, List.getElem?_eq_getElem h]

theorem nodeAt_of_length_le (nodes : NodeMap) (i : Nat) (h : nodes.length ≤ i) :
    nodeAt nodes i = ⟨0, 0, []⟩ := by
  simp [nodeAt, List.getD_eq_getElem?_getD, List.getElem?_eq_none h]

theorem nodeCoords_getElem? (nodes : NodeMap) (i : Nat) (h : i < nodes.length) :
    (nodeCoords nodes)[i]? = some ⟨(nodeAt nodes i).x, (nodeAt nodes i).y⟩ := by
  simp [nodeCoords, nodeAt_eq_getElem nodes i h, List.getElem?_eq_getElem h]

theorem nodeKeys_getElem? (nodes : NodeMap) (i : Nat) (h : i < nodes.length) :
    (nodeKeys nodes)[i]? = some nodes[i].1 := by
  simp [nodeKeys, List.getElem?_eq_getElem h]

theorem nodeAt_pushEdge_xy (nodes : NodeMap) (i j : Nat) (edge : Edge) :
    (nodeAt (pushEdge nodes i edge) j).x = (nodeAt nodes j).x ∧
      (nodeAt (pushEdge nodes i edge) j).y = (nodeAt nodes j).y := by
  by_cases hj : j < nodes.length
  · have hj2 : j < (pushEdge nodes i edge).length := by rwa [length_pushEdge]
    have h1 := nodeCoords_getElem? (pushEdge nodes i edge) j hj2
    have h2 := nodeCoords_getElem? nodes j hj
    rw [nodeCoords_pushEdge, h2] at h1
    simp only [Option.some.injEq, Point.mk.injEq] at h1
    exact ⟨h1.1.symm, h1.2.symm⟩
  · have hj2 : (pushEdge nodes i edge).length ≤ j := by rw [length_pushEdge]; omega
    rw [nodeAt_of_length_le _ _ hj2, nodeAt_of_length_le _ _ (by omega)]
    exact ⟨rfl, rfl⟩

theorem nodeAt_pushEdge_edges (nodes : NodeMap) (i j : Nat) (edge : Edge) :
    (nodeAt (pushEdge nodes i edge) j).edges
      = if j = i ∧ j < nodes.length then (nodeAt nodes j).edges ++ [edge]
        else (nodeAt nodes j).edges := by
  by_cases hj : j < nodes.length
  · have hj2 : j < (pushEdge nodes i edge).length := by rwa [length_pushEdge]
    rw [nodeAt_eq_getElem _ _ hj2, nodeAt_eq_getElem _ _ hj]
    simp only [pushEdge, List.getElem_modify]
    by_cases hji : j = i
    · subst hji; simp [hj]
    · have : ¬ i = j := fun h => hji h.symm
      simp [hji, this]
  · have hj2 : (pushEdge nodes i edge).length ≤ j := by rw [length_pushEdge]; omega
    rw [nodeAt_of_length_le _ _ hj2, nodeAt_of_length_le _ _ (by omega)]
    simp [hj]

theorem findIdx_key_lt {nodes : NodeMap} {key : Key} (h : key ∈ nodeKeys nodes) :
    nodes.findIdx (fun kn => decide (kn.1 = key)) < nodes.length := by
  apply List.findIdx_lt_length_of_exists
  simp only [nodeKeys, List.mem_map] at h
  obtain ⟨kn, hkn, rfl⟩ := h
  exact ⟨kn, hkn, by simp⟩

theorem findIdx_key_eq_length {nodes : NodeMap} {key : Key} (h : key ∉ nodeKeys nodes) :
    nodes.findIdx (fun kn => decide (kn.1 = key)) = nodes.length := by
  apply List.findIdx_eq_length_of_false
  intro kn hkn
  simp only [decide_eq_false_iff_not]
  intro hk
  exact h (by simp only [nodeKeys, List.mem_map]; exact ⟨kn, hkn, hk⟩)

theorem findIdx_key_getElem {nodes : NodeMap} {key : Key}
    (h : nodes.findIdx (fun kn => decide (kn.1 = key)) < nodes.length) :
    (nodes[nodes.findIdx (fun kn => decide (kn.1 = key))]).1 = key := by
  have := List.findIdx_getElem (w := h)
  simpa using this

/-- A point whose key is in the map: nothing is created. -/
theorem getOrCreateNode_of_mem {nodes : NodeMap} {p : Point} (h : pointKey p ∈ nodeKeys nodes) :
    getOrCreateNode nodes p = (nodes, nodes.findIdx (fun kn => decide (kn.1 = pointKey p))) := by
  unfold getOrCreateNode
  simp only [findIdx_key_lt h, if_true]

/-- A point whose key is new: one node is appended. -/
theorem getOrCreateNode_of_not_mem {nodes : NodeMap} {p : Point}
    (h : pointKey p ∉ nodeKeys nodes) :
    getOrCreateNode nodes p = (nodes ++ [(pointKey p, ⟨p.x, p.y, []⟩)], nodes.length) := by
  unfold getOrCreateNode
  simp only [findIdx_key_eq_length h, lt_irrefl, if_false]

/-- The invariant of the node map during registration. -/
theorem getOrCreateNode_inv {nodes : NodeMap} (p : Point)
    (hkey : nodeKeys nodes = (nodeCoords nodes).map pointKey) (hnd : (nodeKeys nodes).Nodup)
    (hedges : ∀ kn ∈ nodes, kn.2.edges = []) :
    nodeKeys (getOrCreateNode nodes p).1 = (nodeCoords (getOrCreateNode nodes p).1).map pointKey ∧
      (nodeKeys (getOrCreateNode nodes p).1).Nodup ∧
      (∀ kn ∈ (getOrCreateNode nodes p).1, kn.2.edges = []) ∧
      pointKey p ∈ nodeKeys (getOrCreateNode nodes p).1 ∧
      (∀ q ∈ nodeCoords (getOrCreateNode nodes p).1, q ∈ nodeCoords nodes ∨ q = p) := by
  by_cases h : pointKey p ∈ nodeKeys nodes
  · rw [getOrCreateNode_of_mem h]
    exact ⟨hkey, hnd, hedges, h, fun q hq => Or.inl hq⟩
  · rw [getOrCreateNode_of_not_mem h]
    refine ⟨?_, ?_, ?_, ?_, ?_⟩
    · simp only [nodeKeys, nodeCoords, List.map_append, List.map_cons, List.map_nil] at hkey ⊢
      rw [hkey]
    · simp only [nodeKeys, List.map_append, List.map_cons, List.map_nil] at hnd h ⊢
      rw [List.nodup_append]
      refine ⟨hnd, List.nodup_singleton _, ?_⟩
      intro a ha hb
      simp only [List.mem_singleton] at hb
      subst hb
      exact h ha
    · intro kn hkn
      rw [List.mem_append] at hkn
      rcases hkn with hkn | hkn
      · exact hedges kn hkn
      · rw [List.mem_singleton.mp hkn]
    · unfold nodeKeys
      rw [List.map_append]
      exact List.mem_append_right _ (List.Mem.head _)
    · intro q hq
      simp only [nodeCoords, List.map_append, List.map_cons, List.map_nil, List.mem_append,
        List.mem_singleton] at hq ⊢
      rcases hq with hq | hq
      · exact Or.inl hq
      · exact Or.inr hq

/-- In a map whose keys are the keys of its coordinates and pairwise different, the
coordinates are pairwise different. -/
theorem nodeCoords_nodup {nodes : NodeMap}
    (hkey : nodeKeys nodes = (nodeCoords nodes).map pointKey) (hnd : (nodeKeys nodes).Nodup) :
    (nodeCoords nodes).Nodup := by
  rw [hkey] at hnd
  exact List.Nodup.of_map _ hnd

/-- Looking up the coordinates of a node of the map finds a node with these coordinates. -/
theorem getOrCreateNode_coords {nodes : NodeMap} {p : Point}
    (hkey : nodeKeys nodes = (nodeCoords nodes).map pointKey) (hnd : (nodeKeys nodes).Nodup)
    (hp : p ∈ nodeCoords nodes) :
    (getOrCreateNode nodes p).1 = nodes ∧ (getOrCreateNode nodes p).2 < nodes.length ∧
      (⟨(nodeAt nodes (getOrCreateNode nodes p).2).x,
        (nodeAt nodes (getOrCreateNode nodes p).2).y⟩ : Point) = p := by
  have hmem : pointKey p ∈ nodeKeys nodes := by
    rw [hkey]
    exact List.mem_map_of_mem _ hp
  rw [getOrCreateNode_of_mem hmem]
  have hlt := findIdx_key_lt hmem
  refine ⟨rfl, hlt, ?_⟩
  have hk := findIdx_key_getElem hlt
  generalize nodes.findIdx (fun kn => decide (kn.1 = pointKey p)) = i at hlt hk ⊢
  -- the key at position `i` is the key of `p`, and the key of the coordinates there
  have hki : (nodeKeys nodes)[i]? = some (pointKey p) := by
    rw [nodeKeys_getElem? nodes i hlt, hk]
  -- `p` sits at some position `j`, whose key is the key of `p` as well
  obtain ⟨j, hjp⟩ := List.getElem?_of_mem hp
  have hkj : (nodeKeys nodes)[j]? = some (pointKey p) := by
    rw [hkey, List.getElem?_map, hjp]
    rfl
  have hij : i = j :=
    List.getElem?_inj (by rw [length_nodeKeys]; exact hlt) hnd (hki.trans hkj.symm)
  have hci := nodeCoords_getElem? nodes i hlt
  rw [hij, hjp] at hci
  simp only [Option.some.injEq] at hci
  rw [hij]
  exact hci.symm

/-! ## The sort and the points of a wall -/

theorem insertByKey_perm (key : Point → ℚ) (a : Point) :
    ∀ l : List Point, (insertByKey key a l).Perm (a :: l)
  | [] => List.Perm.refl _
  | b :: rest => by
    unfold insertByKey
    split
    · exact ((insertByKey_perm key a rest).cons b).trans (List.Perm.swap a b rest)
    · exact List.Perm.refl _

theorem foldl_insertByKey_perm (key : Point → ℚ) :
    ∀ (l acc : List Point),
      (l.foldl (fun sorted a => insertByKey key a sorted) acc).Perm (acc ++ l)
  | [], acc => by simp
  | a :: l, acc => by
    rw [List.foldl_cons]
    refine (foldl_insertByKey_perm key l (insertByKey key a acc)).trans ?_
    refine ((insertByKey_perm key a acc).append_right l).trans ?_
    simpa using (@List.perm_middle _ a acc l).symm

theorem sortByKey_perm (key : Point → ℚ) (l : List Point) : (sortByKey key l).Perm l := by
  simpa [sortByKey] using foldl_insertByKey_perm key l []

theorem mem_pointsOnWall {nodes : NodeMap} {wall : Wall} {p : Point} :
    p ∈ pointsOnWall nodes wall ↔
      p ∈ nodeCoords nodes ∧
        pointToSegmentDistanceSq p.x p.y wall.x1 wall.y1 wall.x2 wall.y2 < EPSILON ^ 2 := by
  unfold pointsOnWall
  rw [(sortByKey_perm _ _).mem_iff]
  simp only [nodeCoords, List.mem_map, List.mem_filter, decide_eq_true_eq]
  constructor
  · rintro ⟨kn, ⟨hkn, hd⟩, rfl⟩
    exact ⟨⟨kn, hkn, rfl⟩, hd⟩
  · rintro ⟨⟨kn, hkn, rfl⟩, hd⟩
    exact ⟨kn, ⟨hkn, hd⟩, rfl⟩

theorem pointsOnWall_nodup {nodes : NodeMap} (wall : Wall) (h : (nodeCoords nodes).Nodup) :
    (pointsOnWall nodes wall).Nodup := by
  unfold pointsOnWall
  rw [(sortByKey_perm _ _).nodup_iff]
  exact h.sublist ((List.filter_sublist _).map _)

/-! ## Edge assembly keeps the graph well formed -/

/-- One edge is added between the nodes of two different points of the map. -/
theorem graphInv_addEdge {st : NodeMap × List Edge} {wall : Wall} {p1 p2 : Point}
    (h : GraphInv st) (hp1 : p1 ∈ nodeCoords st.1) (hp2 : p2 ∈ nodeCoords st.1) (hne : p1 ≠ p2)
    (hw1 : pointToSegmentDistanceSq p1.x p1.y wall.x1 wall.y1 wall.x2 wall.y2 < EPSILON ^ 2)
    (hw2 : pointToSegmentDistanceSq p2.x p2.y wall.x1 wall.y1 wall.x2 wall.y2 < EPSILON ^ 2) :
    GraphInv
        (pushEdge
          (pushEdge (getOrCreateNode (getOrCreateNode st.1 p1).1 p2).1
            (getOrCreateNode st.1 p1).2
            ⟨(getOrCreateNode st.1 p1).2, (getOrCreateNode (getOrCreateNode st.1 p1).1 p2).2, wall⟩)
          (getOrCreateNode (getOrCreateNode st.1 p1).1 p2).2
          ⟨(getOrCreateNode st.1 p1).2, (getOrCreateNode (getOrCreateNode st.1 p1).1 p2).2, wall⟩,
         st.2 ++
          [⟨(getOrCreateNode st.1 p1).2, (getOrCreateNode (getOrCreateNode st.1 p1).1 p2).2,
            wall⟩]) ∧
      nodeCoords
        (pushEdge
          (pushEdge (getOrCreateNode (getOrCreateNode st.1 p1).1 p2).1
            (getOrCreateNode st.1 p1).2
            ⟨(getOrCreateNode st.1 p1).2, (getOrCreateNode (getOrCreateNode st.1 p1).1 p2).2, wall⟩)
          (getOrCreateNode (getOrCreateNode st.1 p1).1 p2).2
          ⟨(getOrCreateNode st.1 p1).2, (getOrCreateNode (getOrCreateNode st.1 p1).1 p2).2, wall⟩)
        = nodeCoords st.1 := by
  obtain ⟨h1a, h1b, h1c⟩ := getOrCreateNode_coords h.key_eq h.nodup hp1
  rw [h1a]
  obtain ⟨h2a, h2b, h2c⟩ := getOrCreateNode_coords h.key_eq h.nodup hp2
  rw [h2a]
  generalize (getOrCreateNode st.1 p1).2 = i1 at h1b h1c ⊢
  generalize (getOrCreateNode st.1 p2).2 = i2 at h2b h2c ⊢
  have hi : i1 ≠ i2 := by
    intro hi
    subst hi
    exact hne (h1c.symm.trans h2c)
  have hx1 : (nodeAt st.1 i1).x = p1.x := congrArg Point.x h1c
  have hy1 : (nodeAt st.1 i1).y = p1.y := congrArg Point.y h1c
  have hx2 : (nodeAt st.1 i2).x = p2.x := congrArg Point.x h2c
  have hy2 : (nodeAt st.1 i2).y = p2.y := congrArg Point.y h2c
  refine ⟨⟨?_, ?_, ?_, ?_, ?_⟩, ?_⟩
  · simp only [nodeKeys_pushEdge, nodeCoords_pushEdge]
    exact h.key_eq
  · simp only [nodeKeys_pushEdge]
    exact h.nodup
  · intro e he
    simp only [length_pushEdge]
    rcases List.mem_append.mp he with he | he
    · exact h.edge_ok e he
    · rw [List.mem_singleton.mp he]
      exact ⟨hi, h1b, h2b⟩
  · intro i e he
    simp only [nodeAt_pushEdge_edges, length_pushEdge] at he
    have hold : e ∈ (nodeAt st.1 i).edges →
        e ∈ st.2 ++ [(⟨i1, i2, wall⟩ : Edge)] ∧ (e.node1 = i ∨ e.node2 = i) := fun hm =>
      ⟨List.mem_append_left _ (h.node_edges i e hm).1, (h.node_edges i e hm).2⟩
    by_cases c2 : i = i2 ∧ i < st.1.length
    · rw [if_pos c2] at he
      rcases List.mem_append.mp he with he | he
      · by_cases c1 : i = i1 ∧ i < st.1.length
        · rw [if_pos c1] at he
          rcases List.mem_append.mp he with he | he
          · exact hold he
          · rw [List.mem_singleton.mp he]
            exact ⟨List.mem_append_right _ (List.mem_singleton.mpr rfl), Or.inl c1.1.symm⟩
        · rw [if_neg c1] at he
          exact hold he
      · rw [List.mem_singleton.mp he]
        exact ⟨List.mem_append_right _ (List.mem_singleton.mpr rfl), Or.inr c2.1.symm⟩
    · rw [if_neg c2] at he
      by_cases c1 : i = i1 ∧ i < st.1.length
      · rw [if_pos c1] at he
        rcases List.mem_append.mp he with he | he
        · exact hold he
        · rw [List.mem_singleton.mp he]
          exact ⟨List.mem_append_right _ (List.mem_singleton.mpr rfl), Or.inl c1.1.symm⟩
      · rw [if_neg c1] at he
        exact hold he
  · intro e he
    simp only [(nodeAt_pushEdge_xy _ _ _ _).1, (nodeAt_pushEdge_xy _ _ _ _).2]
    rcases List.mem_append.mp he with he | he
    · exact h.on_wall e he
    · rw [List.mem_singleton.mp he]
      simp only [hx1, hy1, hx2, hy2]
      exact ⟨hw1, hw2⟩
  · simp only [nodeCoords_pushEdge]

/-- The loop over the consecutive pairs of one wall. -/
theorem graphInv_assembleWallEdges (wall : Wall) :
    ∀ (pts : List Point) (st : NodeMap × List Edge), GraphInv st →
      (∀ p ∈ pts, p ∈ nodeCoords st.1 ∧
        pointToSegmentDistanceSq p.x p.y wall.x1 wall.y1 wall.x2 wall.y2 < EPSILON ^ 2) →
      pts.Nodup →
      GraphInv (assembleWallEdges wall pts st) ∧
        nodeCoords (assembleWallEdges wall pts st).1 = nodeCoords st.1 ∧
        ∀ e ∈ (assembleWallEdges wall pts st).2, e ∈ st.2 ∨ e.wall = wall
  | [], st, h, _, _ => by
    unfold assembleWallEdges
    exact ⟨h, rfl, fun e he => Or.inl he⟩
  | [_], st, h, _, _ => by
    unfold assembleWallEdges
    exact ⟨h, rfl, fun e he => Or.inl he⟩
  | p1 :: p2 :: rest, st, h, hpts, hnd => by
    have hnd' : (p2 :: rest).Nodup := (List.nodup_cons.mp hnd).2
    have hne : p1 ≠ p2 := by
      intro hEq
      exact (List.nodup_cons.mp hnd).1 (hEq ▸ List.mem_cons_self _ _)
    have hpts' : ∀ p ∈ p2 :: rest, p ∈ nodeCoords st.1 ∧
        pointToSegmentDistanceSq p.x p.y wall.x1 wall.y1 wall.x2 wall.y2 < EPSILON ^ 2 :=
      fun p hp => hpts p (List.mem_cons_of_mem _ hp)
    unfold assembleWallEdges
    split
    · exact graphInv_assembleWallEdges wall (p2 :: rest) st h hpts' hnd'
    · have h1 := hpts p1 (List.mem_cons_self _ _)
      have h2 := hpts p2 (List.mem_cons_of_mem _ (List.mem_cons_self _ _))
      obtain ⟨hinv, hco⟩ := graphInv_addEdge h h1.1 h2.1 hne h1.2 h2.2
      have hpts'' : ∀ p ∈ p2 :: rest,
          p ∈ nodeCoords (pushEdge
            (pushEdge (getOrCreateNode (getOrCreateNode st.1 p1).1 p2).1
              (getOrCreateNode st.1 p1).2
              ⟨(getOrCreateNode st.1 p1).2, (getOrCreateNode (getOrCreateNode st.1 p1).1 p2).2,
                wall⟩)
            (getOrCreateNode (getOrCreateNode st.1 p1).1 p2).2
            ⟨(getOrCreateNode st.1 p1).2, (getOrCreateNode (getOrCreateNode st.1 p1).1 p2).2,
              wall⟩) ∧
          pointToSegmentDistanceSq p.x p.y wall.x1 wall.y1 wall.x2 wall.y2 < EPSILON ^ 2 := by
        intro p hp
        rw [hco]
        exact hpts' p hp
      obtain ⟨r1, r2, r3⟩ := graphInv_assembleWallEdges wall (p2 :: rest) _ hinv hpts'' hnd'
      refine ⟨r1, r2.trans hco, ?_⟩
      intro e he
      rcases r3 e he with he | he
      · rcases List.mem_append.mp he with he | he
        · exact Or.inl he
        · rw [List.mem_singleton.mp he]
          exact Or.inr rfl
      · exact Or.inr he

/-- The loop over the walls. -/
theorem graphInv_foldl_walls (walls : List Wall) :
    ∀ (ws : List Wall) (st : NodeMap × List Edge), GraphInv st →
      (∀ w ∈ ws, w ∈ walls) → (∀ e ∈ st.2, e.wall ∈ walls) →
      GraphInv (ws.foldl (fun st wall => assembleWallEdges wall (pointsOnWall st.1 wall) st) st) ∧
        nodeCoords
            (ws.foldl (fun st wall => assembleWallEdges wall (pointsOnWall st.1 wall) st) st).1
          = nodeCoords st.1 ∧
        ∀ e ∈ (ws.foldl (fun st wall => assembleWallEdges wall (pointsOnWall st.1 wall) st) st).2,
          e.wall ∈ walls
  | [], st, h, _, he => ⟨h, rfl, he⟩
  | w :: ws, st, h, hws, he => by
    rw [List.foldl_cons]
    obtain ⟨r1, r2, r3⟩ := graphInv_assembleWallEdges w (pointsOnWall st.1 w) st h
      (fun p hp => mem_pointsOnWall.mp hp)
      (pointsOnWall_nodup w (nodeCoords_nodup h.key_eq h.nodup))
    have he' : ∀ e ∈ (assembleWallEdges w (pointsOnWall st.1 w) st).2, e.wall ∈ walls := by
      intro e hm
      rcases r3 e hm with hm | hm
      · exact he e hm
      · rw [hm]
        exact hws w (List.mem_cons_self _ _)
    obtain ⟨q1, q2, q3⟩ := graphInv_foldl_walls walls ws _ r1
      (fun w' hw' => hws w' (List.mem_cons_of_mem _ hw')) he'
    exact ⟨q1, q2.trans r2, q3⟩

/-! ## Registration of the nodes -/

theorem RegInv.nil (S : Point → Prop) : RegInv S [] :=
  ⟨rfl, List.nodup_nil, fun _ h => absurd h (List.not_mem_nil _),
    fun _ h => absurd h (List.not_mem_nil _)⟩

theorem RegInv.getOrCreateNode {S : Point → Prop} {nodes : NodeMap} (h : RegInv S nodes)
    {p : Point} (hp : S p) : RegInv S (PhacThao.getOrCreateNode nodes p).1 := by
  obtain ⟨a, b, c, -, d⟩ := getOrCreateNode_inv p h.key_eq h.nodup h.no_edges
  refine ⟨a, b, c, ?_⟩
  intro q hq
  rcases d q hq with hq | hq
  · exact h.coords_in q hq
  · rw [hq]
    exact hp

theorem RegInv.registerEndpoints {S : Point → Prop} :
    ∀ (walls : List Wall) (nodes : NodeMap), RegInv S nodes →
      (∀ w ∈ walls, S ⟨w.x1, w.y1⟩ ∧ S ⟨w.x2, w.y2⟩) →
      RegInv S (PhacThao.registerEndpoints walls nodes)
  | [], nodes, h, _ => h
  | w :: walls, nodes, h, hS => by
    unfold PhacThao.registerEndpoints
    rw [List.foldl_cons]
    exact RegInv.registerEndpoints walls _
      ((h.getOrCreateNode (hS w (List.mem_cons_self _ _)).1).getOrCreateNode
        (hS w (List.mem_cons_self _ _)).2)
      (fun w' hw' => hS w' (List.mem_cons_of_mem _ hw'))

theorem RegInv.registerIntersectionsWith {S : Point → Prop} (w1 : Wall) :
    ∀ (rest : List Wall) (nodes : NodeMap), RegInv S nodes →
      (∀ w2 ∈ rest, ∀ q,
        findIntersection w1.x1 w1.y1 w1.x2 w1.y2 w2.x1 w2.y1 w2.x2 w2.y2 = some q → S q) →
      RegInv S (PhacThao.registerIntersectionsWith w1 rest nodes)
  | [], nodes, h, _ => h
  | w2 :: rest, nodes, h, hS => by
    unfold PhacThao.registerIntersectionsWith
    rw [List.foldl_cons]
    have hrest : ∀ w ∈ rest, ∀ q,
        findIntersection w1.x1 w1.y1 w1.x2 w1.y2 w.x1 w.y1 w.x2 w.y2 = some q → S q :=
      fun w hw => hS w (List.mem_cons_of_mem _ hw)
    cases hq : findIntersection w1.x1 w1.y1 w1.x2 w1.y2 w2.x1 w2.y1 w2.x2 w2.y2 with
    | none => exact RegInv.registerIntersectionsWith w1 rest nodes h hrest
    | some q =>
      exact RegInv.registerIntersectionsWith w1 rest _
        (h.getOrCreateNode (hS w2 (List.mem_cons_self _ _) q hq)) hrest

theorem RegInv.registerIntersections {S : Point → Prop} :
    ∀ (walls : List Wall) (nodes : NodeMap), RegInv S nodes →
      (∀ w1 ∈ walls, ∀ w2 ∈ walls, ∀ q,
        findIntersection w1.x1 w1.y1 w1.x2 w1.y2 w2.x1 w2.y1 w2.x2 w2.y2 = some q → S q) →
      RegInv S (PhacThao.registerIntersections walls nodes)
  | [], nodes, h, _ => h
  | w1 :: rest, nodes, h, hS => by
    unfold PhacThao.registerIntersections
    exact RegInv.registerIntersections rest _
      (h.registerIntersectionsWith w1 rest nodes
        (fun w2 hw2 => hS w1 (List.mem_cons_self _ _) w2 (List.mem_cons_of_mem _ hw2)))
      (fun a ha b hb => hS a (List.mem_cons_of_mem _ ha) b (List.mem_cons_of_mem _ hb))

/-- The registered nodes of a wall list satisfy the registration invariant for every set
of points that holds the wall endpoints and the pairwise intersections. -/
theorem regInv_registered {S : Point → Prop} (walls : List Wall)
    (hend : ∀ w ∈ walls, S ⟨w.x1, w.y1⟩ ∧ S ⟨w.x2, w.y2⟩)
    (hint : ∀ w1 ∈ walls, ∀ w2 ∈ walls, ∀ q,
      findIntersection w1.x1 w1.y1 w1.x2 w1.y2 w2.x1 w2.y1 w2.x2 w2.y2 = some q → S q) :
    RegInv S (registerIntersections walls (registerEndpoints walls [])) :=
  ((RegInv.nil S).registerEndpoints walls [] hend).registerIntersections walls _ hint

theorem RegInv.graphInv {S : Point → Prop} {nodes : NodeMap} (h : RegInv S nodes) :
    GraphInv (nodes, []) := by
  refine ⟨h.key_eq, h.nodup, fun e he => absurd he (List.not_mem_nil _), ?_,
    fun e he => absurd he (List.not_mem_nil _)⟩
  intro i e he
  exfalso
  by_cases hi : i < nodes.length
  · rw [nodeAt_eq_getElem nodes i hi, h.no_edges _ (List.getElem_mem _)] at he
    exact List.not_mem_nil _ he
  · rw [nodeAt_of_length_le nodes i (by omega)] at he
    exact List.not_mem_nil _ he

/-- The graph built for a wall list is well formed, the wall of every edge is a wall of
the list, and every node is at a point of any set that holds the wall endpoints and the
pairwise intersections. -/
theorem buildGraph_inv {S : Point → Prop} (walls : List Wall)
    (hend : ∀ w ∈ walls, S ⟨w.x1, w.y1⟩ ∧ S ⟨w.x2, w.y2⟩)
    (hint : ∀ w1 ∈ walls, ∀ w2 ∈ walls, ∀ q,
      findIntersection w1.x1 w1.y1 w1.x2 w1.y2 w2.x1 w2.y1 w2.x2 w2.y2 = some q → S q) :
    GraphInv (buildGraph walls) ∧ (∀ e ∈ (buildGraph walls).2, e.wall ∈ walls) ∧
      ∀ q ∈ nodeCoords (buildGraph walls).1, S q := by
  have hreg := regInv_registered walls hend hint
  obtain ⟨a, b, c⟩ := graphInv_foldl_walls walls walls
    (registerIntersections walls (registerEndpoints walls []), []) hreg.graphInv
    (fun w hw => hw) (fun e he => absurd he (List.not_mem_nil _))
  refine ⟨a, c, ?_⟩
  intro q hq
  have hb : nodeCoords (buildGraph walls).1
      = nodeCoords (registerIntersections walls (registerEndpoints walls [])) := b
  rw [hb] at hq
  exact hreg.coords_in q hq

theorem buildGraph_graphInv (walls : List Wall) : GraphInv (buildGraph walls) :=
  (buildGraph_inv (S := fun _ => True) walls (fun _ _ => ⟨trivial, trivial⟩)
    (fun _ _ _ _ _ _ => trivial)).1

/-! ## The choice of the next node -/

theorem turnStep_fst_none_iff (nodes : NodeMap) (prevNode currentNode : Nat)
    (st : Option Nat × Option ℚ) (edge : Edge) (hst : st.1 = none ↔ st.2 = none) :
    ((turnStep nodes prevNode currentNode st edge).1 = none ↔
        st.1 = none ∧ farNode edge currentNode = prevNode) ∧
      ((turnStep nodes prevNode currentNode st edge).1 = none ↔
        (turnStep nodes prevNode currentNode st edge).2 = none) := by
  unfold turnStep
  simp only []
  by_cases hf : farNode edge currentNode = prevNode
  · simp only [hf, if_true, and_true]
    exact ⟨trivial, hst⟩
  · simp only [hf, if_false, and_false]
    cases h2 : st.2 with
    | none => simp
    | some m =>
      have h1 : st.1 ≠ none := fun h => by
        have := hst.mp h
        rw [h2] at this
        exact absurd this (by simp)
      simp only []
      split
      · simp
      · simp only [h1, h2, false_iff]
        exact ⟨trivial, fun h => by simp at h⟩

theorem foldl_turnStep_none_iff (nodes : NodeMap) (prevNode currentNode : Nat) :
    ∀ (edges : List Edge) (st : Option Nat × Option ℚ), (st.1 = none ↔ st.2 = none) →
      ((edges.foldl (turnStep nodes prevNode currentNode) st).1 = none ↔
        st.1 = none ∧ ∀ e ∈ edges, farNode e currentNode = prevNode)
  | [], st, _ => by simp
  | e :: edges, st, hst => by
    rw [List.foldl_cons]
    obtain ⟨h1, h2⟩ := turnStep_fst_none_iff nodes prevNode currentNode st e hst
    rw [foldl_turnStep_none_iff nodes prevNode currentNode edges _ h2, h1]
    simp only [List.mem_cons, forall_eq_or_imp]
    tauto

theorem turnStep_fst_some (nodes : NodeMap) (prevNode currentNode : Nat)
    (st : Option Nat × Option ℚ) (edge : Edge) (b : Nat)
    (h : (turnStep nodes prevNode currentNode st edge).1 = some b) :
    st.1 = some b ∨ (farNode edge currentNode = b ∧ b ≠ prevNode) := by
  unfold turnStep at h
  simp only [] at h
  by_cases hf : farNode edge currentNode = prevNode
  · simp only [hf, if_true] at h
    exact Or.inl h
  · simp only [hf, if_false] at h
    cases h2 : st.2 with
    | none =>
      simp only [h2, Option.some.injEq] at h
      exact Or.inr ⟨h, h ▸ hf⟩
    | some m =>
      simp only [h2] at h
      split at h
      · simp only [Option.some.injEq] at h
        exact Or.inr ⟨h, h ▸ hf⟩
      · exact Or.inl h

theorem foldl_turnStep_some (nodes : NodeMap) (prevNode currentNode : Nat) (b : Nat) :
    ∀ (edges : List Edge) (st : Option Nat × Option ℚ),
      (edges.foldl (turnStep nodes prevNode currentNode) st).1 = some b →
      st.1 = some b ∨ ∃ e ∈ edges, farNode e currentNode = b ∧ b ≠ prevNode
  | [], st, h => Or.inl h
  | e :: edges, st, h => by
    rw [List.foldl_cons] at h
    rcases foldl_turnStep_some nodes prevNode currentNode b edges _ h with h | ⟨e', he', h'⟩
    · rcases turnStep_fst_some nodes prevNode currentNode st e b h with h | h
      · exact Or.inl h
      · exact Or.inr ⟨e, List.mem_cons_self _ _, h⟩
    · exact Or.inr ⟨e', List.mem_cons_of_mem _ he', h'⟩

/-- The chosen node is the far end of an edge of the current node, and is not the
previous node. -/
theorem bestNextNode_some {nodes : NodeMap} {prevNode currentNode b : Nat}
    (h : bestNextNode nodes prevNode currentNode = some b) :
    ∃ e ∈ (nodeAt nodes currentNode).edges, farNode e currentNode = b ∧ b ≠ prevNode := by
  rcases foldl_turnStep_some nodes prevNode currentNode b _ _ h with h | h
  · exact absurd h (by simp)
  · exact h

/-- No node is chosen exactly when every edge of the current node leads to the previous
node. -/
theorem bestNextNode_eq_none_iff {nodes : NodeMap} {prevNode currentNode : Nat} :
    bestNextNode nodes prevNode currentNode = none ↔
      ∀ e ∈ (nodeAt nodes currentNode).edges, farNode e currentNode = prevNode := by
  unfold bestNextNode
  rw [foldl_turnStep_none_iff nodes prevNode currentNode _ (none, none) (by simp)]
  simp

/-! ## The trace loop -/

/-- The loop pushes at most one node per iteration. -/
theorem traceLoop_length {nodes : NodeMap} {startNode : Nat} :
    ∀ (fuel prevNode currentNode : Nat) (polygon : List Nat) (traced : List Nat × Nat),
      traceLoop nodes startNode fuel prevNode currentNode polygon = some traced →
      traced.1.length ≤ polygon.length + fuel
  | 0, _, _, polygon, traced, h => by
    unfold traceLoop at h
    simp only [Option.some.injEq] at h
    subst h
    simp
  | fuel + 1, prevNode, currentNode, polygon, traced, h => by
    unfold traceLoop at h
    split at h
    · exact absurd h (by simp)
    · split at h
      · simp only [Option.some.injEq] at h
        subst h
        simp
      · have := traceLoop_length fuel _ _ _ traced h
        simp only [List.length_append, List.length_singleton] at this
        omega

/-- A loop that ends on the start node either did not run at all or is a closed trace. -/
theorem traceLoop_closed {nodes : NodeMap} {startNode : Nat} :
    ∀ (fuel prevNode currentNode : Nat) (polygon : List Nat) (traced : List Nat × Nat),
      traceLoop nodes startNode fuel prevNode currentNode polygon = some traced →
      traced.2 = startNode →
      (fuel = 0 ∧ currentNode = startNode ∧ traced.1 = polygon) ∨
        ∃ visited, traced.1 = polygon ++ visited ∧ visited.length ≤ fuel ∧
          ClosedTrace nodes startNode prevNode currentNode visited
  | 0, _, _, polygon, traced, h, hc => by
    unfold traceLoop at h
    simp only [Option.some.injEq] at h
    subst h
    exact Or.inl ⟨rfl, hc, rfl⟩
  | fuel + 1, prevNode, currentNode, polygon, traced, h, hc => by
    unfold traceLoop at h
    split at h
    · exact absurd h (by simp)
    · rename_i best hbest
      split at h
      · rename_i hbs
        simp only [Option.some.injEq] at h
        subst h
        exact Or.inr ⟨[currentNode], rfl, by simp, ClosedTrace.last (hbs ▸ hbest)⟩
      · rename_i hbs
        rcases traceLoop_closed fuel _ _ _ traced h hc with ⟨-, hb, -⟩ | ⟨v, hv, hlen, hct⟩
        · exact absurd hb hbs
        · refine Or.inr ⟨currentNode :: v, ?_, by simp; omega, ClosedTrace.step hbest hbs hct⟩
          rw [hv]
          simp

/-- A loop that ends on another node than the start node has used all its iterations. -/
theorem traceLoop_open {nodes : NodeMap} {startNode : Nat} :
    ∀ (fuel prevNode currentNode : Nat) (polygon : List Nat) (traced : List Nat × Nat),
      traceLoop nodes startNode fuel prevNode currentNode polygon = some traced →
      traced.2 ≠ startNode → traced.1.length = polygon.length + fuel
  | 0, _, _, polygon, traced, h, _ => by
    unfold traceLoop at h
    simp only [Option.some.injEq] at h
    subst h
    simp
  | fuel + 1, prevNode, currentNode, polygon, traced, h, hc => by
    unfold traceLoop at h
    split at h
    · exact absurd h (by simp)
    · split at h
      · rename_i hbs
        simp only [Option.some.injEq] at h
        subst h
        exact absurd hbs hc
      · have := traceLoop_open fuel _ _ _ traced h hc
        simp only [List.length_append, List.length_singleton] at this
        omega

/-- A dead end: when every edge of the current node leads back to the previous node,
the iteration returns `null`. -/
theorem traceLoop_dead_end {nodes : NodeMap} {startNode : Nat}
    (fuel prevNode currentNode : Nat) (polygon : List Nat)
    (h : ∀ e ∈ (nodeAt nodes currentNode).edges, farNode e currentNode = prevNode) :
    traceLoop nodes startNode (fuel + 1) prevNode currentNode polygon = none := by
  unfold traceLoop
  rw [bestNextNode_eq_none_iff.mpr h]

/-! ## The seed edge is an edge of the graph -/

theorem seedStep_fst (nodes : NodeMap) (startPoint : Point) (st : Option Edge × Option ℚ)
    (edge : Edge) :
    (seedStep nodes startPoint st edge).1 = st.1 ∨
      (seedStep nodes startPoint st edge).1 = some edge := by
  unfold seedStep
  split
  · exact Or.inl rfl
  · simp only []
    split
    · exact Or.inr rfl
    · split
      · exact Or.inr rfl
      · exact Or.inl rfl

theorem foldl_seedStep_mem (nodes : NodeMap) (startPoint : Point) (e : Edge) :
    ∀ (edges : List Edge) (st : Option Edge × Option ℚ),
      (edges.foldl (seedStep nodes startPoint) st).1 = some e → st.1 = some e ∨ e ∈ edges
  | [], _, h => Or.inl h
  | a :: edges, st, h => by
    rw [List.foldl_cons] at h
    rcases foldl_seedStep_mem nodes startPoint e edges _ h with h | h
    · rcases seedStep_fst nodes startPoint st a with h' | h'
      · exact Or.inl (h'.symm.trans h)
      · rw [h'] at h
        simp only [Option.some.injEq] at h
        exact Or.inr (h ▸ List.mem_cons_self _ _)
    · exact Or.inr (List.mem_cons_of_mem _ h)

theorem findStartingEdge_mem {nodes : NodeMap} {edges : List Edge} {startPoint : Point}
    {e : Edge} (h : findStartingEdge nodes edges startPoint = some e) : e ∈ edges := by
  rcases foldl_seedStep_mem nodes startPoint e edges _ h with h | h
  · exact absurd h (by simp)
  · exact h

theorem seedDirection_cases (nodes : NodeMap) (startPoint : Point) (e : Edge) :
    seedDirection nodes startPoint e = (e.node1, e.node2) ∨
      seedDirection nodes startPoint e = (e.node2, e.node1) := by
  unfold seedDirection
  simp only []
  split
  · exact Or.inl rfl
  · exact Or.inr rfl

/-! ## Steps of the trace on a well-formed graph -/

/-- The far end of an edge of a node: another node of the map, joined to it by that
edge. -/
theorem GraphInv.farNode {st : NodeMap × List Edge} (h : GraphInv st) {i : Nat} {e : Edge}
    (he : e ∈ (nodeAt st.1 i).edges) :
    e ∈ st.2 ∧ PhacThao.farNode e i ≠ i ∧ PhacThao.farNode e i < st.1.length ∧
      ((e.node1 = i ∧ e.node2 = PhacThao.farNode e i) ∨
        (e.node2 = i ∧ e.node1 = PhacThao.farNode e i)) := by
  obtain ⟨hmem, hinc⟩ := h.node_edges i e he
  obtain ⟨hne, h1, h2⟩ := h.edge_ok e hmem
  unfold PhacThao.farNode
  by_cases c : e.node1 = i
  · rw [if_pos c]
    exact ⟨hmem, fun h' => hne (c.trans h'.symm), h2, Or.inl ⟨c, rfl⟩⟩
  · rw [if_neg c]
    rcases hinc with hinc | hinc
    · exact absurd hinc c
    · exact ⟨hmem, c, h1, Or.inr ⟨hinc, rfl⟩⟩

/-- A step of the trace on a well-formed graph leads to another node of the map, which is
not the previous one, along an edge of the graph. -/
theorem GraphInv.bestNextNode {st : NodeMap × List Edge} (h : GraphInv st)
    {prevNode currentNode b : Nat}
    (hb : PhacThao.bestNextNode st.1 prevNode currentNode = some b) :
    b ≠ currentNode ∧ b ≠ prevNode ∧ b < st.1.length ∧
      ∃ e ∈ st.2, (e.node1 = currentNode ∧ e.node2 = b) ∨ (e.node2 = currentNode ∧ e.node1 = b) := by
  obtain ⟨e, he, hfar, hprev⟩ := bestNextNode_some hb
  obtain ⟨hmem, hne, hlt, hinc⟩ := h.farNode he
  rw [hfar] at hne hlt hinc
  exact ⟨hne, hprev, hlt, e, hmem, hinc⟩

/-- Two different nodes of a well-formed graph are at different points. -/
theorem GraphInv.coords_injective {st : NodeMap × List Edge} (h : GraphInv st) {i j : Nat}
    (hi : i < st.1.length) (hj : j < st.1.length)
    (hc : (⟨(nodeAt st.1 i).x, (nodeAt st.1 i).y⟩ : Point)
      = ⟨(nodeAt st.1 j).x, (nodeAt st.1 j).y⟩) : i = j := by
  have hnd := nodeCoords_nodup h.key_eq h.nodup
  have h1 := nodeCoords_getElem? st.1 i hi
  have h2 := nodeCoords_getElem? st.1 j hj
  rw [hc, ← h2] at h1
  exact List.getElem?_inj (by rw [length_nodeCoords]; exact hi) hnd h1

/-! ## Closed traces -/

theorem ClosedTrace.head {nodes : NodeMap} {startNode prevNode currentNode : Nat}
    {visited : List Nat} (h : ClosedTrace nodes startNode prevNode currentNode visited) :
    ∃ rest, visited = currentNode :: rest := by
  cases h with
  | last _ => exact ⟨[], rfl⟩
  | step _ _ _ => exact ⟨_, rfl⟩

/-- The nodes pushed after the first one are not the start node. -/
theorem ClosedTrace.tail_ne_start {nodes : NodeMap} {startNode prevNode currentNode : Nat}
    {visited : List Nat} (h : ClosedTrace nodes startNode prevNode currentNode visited) :
    ∀ n ∈ visited.tail, n ≠ startNode := by
  induction h with
  | last _ => intro n hn; exact absurd hn (List.not_mem_nil _)
  | step hb hne hrest ih =>
    intro n hn
    obtain ⟨rest', hr⟩ := hrest.head
    simp only [List.tail_cons] at hn
    rw [hr] at hn ih
    rcases List.mem_cons.mp hn with hn | hn
    · rw [hn]; exact hne
    · exact ih n (by simpa using hn)

/-- The trace is a function of its state. -/
theorem ClosedTrace.deterministic {nodes : NodeMap} {startNode prevNode currentNode : Nat}
    {v v' : List Nat} (h : ClosedTrace nodes startNode prevNode currentNode v)
    (h' : ClosedTrace nodes startNode prevNode currentNode v') : v = v' := by
  induction h generalizing v' with
  | last hb =>
    cases h' with
    | last _ => rfl
    | step hb' hne' _ =>
      rw [hb] at hb'
      simp only [Option.some.injEq] at hb'
      exact absurd hb'.symm hne'
  | step hb hne _ ih =>
    cases h' with
    | last hb' =>
      rw [hb] at hb'
      simp only [Option.some.injEq] at hb'
      exact absurd hb' hne
    | step hb' _ hrest' =>
      rw [hb] at hb'
      simp only [Option.some.injEq] at hb'
      subst hb'
      rw [ih hrest']

/-- The steps of a trace: every pushed node with the node the loop goes to next. -/
theorem ClosedTrace.steps_nodup {nodes : NodeMap} {startNode prevNode currentNode : Nat}
    {visited : List Nat} (h : ClosedTrace nodes startNode prevNode currentNode visited) :
    (visited.zip (visited.tail ++ [startNode])).Nodup ∧
      ∀ a b, (a, b) ∈ visited.zip (visited.tail ++ [startNode]) → b ≠ startNode →
        ∃ v', ClosedTrace nodes startNode a b v' ∧ v'.length < visited.length := by
  induction h with
  | last hb =>
    refine ⟨by simp, ?_⟩
    intro a b hab hne
    simp only [List.tail_cons, List.nil_append, List.zip_cons_cons, List.zip_nil_right,
      List.mem_singleton, Prod.mk.injEq] at hab
    exact absurd hab.2 hne
  | @step prevNode currentNode best rest hb hne hrest ih =>
    obtain ⟨rest', hr⟩ := hrest.head
    have hzip : (currentNode :: rest).zip ((currentNode :: rest).tail ++ [startNode])
        = (currentNode, best) :: rest.zip (rest.tail ++ [startNode]) := by
      rw [hr]
      simp
    rw [hzip]
    refine ⟨List.nodup_cons.mpr ⟨?_, ih.1⟩, ?_⟩
    · intro hmem
      obtain ⟨v', hv', hlen⟩ := ih.2 currentNode best hmem hne
      have := hv'.deterministic hrest
      rw [this] at hlen
      exact lt_irrefl _ hlen
    · intro a b hab hbne
      rcases List.mem_cons.mp hab with hab | hab
      · simp only [Prod.mk.injEq] at hab
        rw [hab.1, hab.2]
        exact ⟨rest, hrest, by simp⟩
      · obtain ⟨v', hv', hlen⟩ := ih.2 a b hab hbne
        exact ⟨v', hv', by simp only [List.length_cons]; omega⟩

/-- On a well-formed graph a trace that starts on a node of the map stays in the map, and
every step joins two different nodes. -/
theorem ClosedTrace.valid {st : NodeMap × List Edge} (hg : GraphInv st)
    {startNode prevNode currentNode : Nat} {visited : List Nat}
    (h : ClosedTrace st.1 startNode prevNode currentNode visited)
    (hc : currentNode < st.1.length) :
    (∀ n ∈ visited, n < st.1.length) ∧
      ∀ a b, (a, b) ∈ visited.zip (visited.tail ++ [startNode]) → a ≠ b := by
  induction h with
  | @last prevNode currentNode hb =>
    refine ⟨fun n hn => by rw [List.mem_singleton.mp hn]; exact hc, ?_⟩
    intro a b hab
    simp only [List.tail_cons, List.nil_append, List.zip_cons_cons, List.zip_nil_right,
      List.mem_singleton, Prod.mk.injEq] at hab
    rw [hab.1, hab.2]
    exact (hg.bestNextNode hb).1.symm
  | @step prevNode currentNode best rest hb hne hrest ih =>
    obtain ⟨rest', hr⟩ := hrest.head
    obtain ⟨hbc, -, hbl, -⟩ := hg.bestNextNode hb
    obtain ⟨ih1, ih2⟩ := ih hbl
    refine ⟨?_, ?_⟩
    · intro n hn
      rcases List.mem_cons.mp hn with hn | hn
      · rw [hn]; exact hc
      · exact ih1 n hn
    · intro a b hab
      have hzip : (currentNode :: rest).zip ((currentNode :: rest).tail ++ [startNode])
          = (currentNode, best) :: rest.zip (rest.tail ++ [startNode]) := by
        rw [hr]
        simp
      rw [hzip] at hab
      rcases List.mem_cons.mp hab with hab | hab
      · simp only [Prod.mk.injEq] at hab
        rw [hab.1, hab.2]
        exact hbc.symm
      · exact ih2 a b hab

/-! ## What a returned room is -/

/-- A returned room is the polygon of a closed trace of the graph of the walls that
starts on an end of the seed edge, coming from its other end. -/
theorem findRoomFromPoint_trace {startPoint : Point} {walls : List Wall}
    {existingRooms : List Room} {room : Room}
    (h : findRoomFromPoint startPoint walls existingRooms = some room) :
    ∃ e ∈ (buildGraph walls).2, ∃ prevNode startNode visited,
      ((prevNode = e.node1 ∧ startNode = e.node2) ∨ (prevNode = e.node2 ∧ startNode = e.node1)) ∧
      ClosedTrace (buildGraph walls).1 startNode prevNode startNode visited ∧
      3 ≤ visited.length ∧ visited.length ≤ (buildGraph walls).1.length + 1 ∧
      room.points = polygonPoints (buildGraph walls).1 visited := by
  obtain ⟨e, he, hroom⟩ := findRoomFromPoint_some h
  obtain ⟨traced, htr, hval⟩ := traceRoom_some hroom
  obtain ⟨hclosed, hlen, hpts, -, -⟩ := validateRoom_some hval
  refine ⟨e, findStartingEdge_mem he,
    (seedDirection (buildGraph walls).1 startPoint e).1,
    (seedDirection (buildGraph walls).1 startPoint e).2, traced.1, ?_, ?_, hlen, ?_, hpts⟩
  · rcases seedDirection_cases (buildGraph walls).1 startPoint e with hd | hd
    · rw [hd]; exact Or.inl ⟨rfl, rfl⟩
    · rw [hd]; exact Or.inr ⟨rfl, rfl⟩
  · rcases traceLoop_closed _ _ _ _ traced htr hclosed with ⟨h0, -, -⟩ | ⟨v, hv, -, hct⟩
    · exact absurd h0 (by omega)
    · rw [List.nil_append] at hv
      rw [hv]
      exact hct
  · have := traceLoop_length _ _ _ _ traced htr
    simpa using this

/-! ## Distance to a segment: lower bounds -/

theorem clampedParameter_mem (t : ℚ) : 0 ≤ max 0 (min 1 t) ∧ max 0 (min 1 t) ≤ 1 :=
  ⟨le_max_left _ _, max_le zero_le_one (min_le_left _ _)⟩

/-- A point that is at least `d` above or below both ends of a segment is at least `d`
away from it. -/
theorem sq_le_pointToSegmentDistanceSq_of_y {px py x1 y1 x2 y2 d : ℚ} (hd : 0 ≤ d)
    (h : (y1 + d ≤ py ∧ y2 + d ≤ py) ∨ (py + d ≤ y1 ∧ py + d ≤ y2)) :
    d ^ 2 ≤ pointToSegmentDistanceSq px py x1 y1 x2 y2 := by
  unfold pointToSegmentDistanceSq
  simp only []
  split
  · rename_i hl
    rcases h with ⟨h1, -⟩ | ⟨h1, -⟩
    · nlinarith [sq_nonneg (px - x1), mul_self_le_mul_self hd (by linarith : d ≤ py - y1)]
    · nlinarith [sq_nonneg (px - x1), mul_self_le_mul_self hd (by linarith : d ≤ y1 - py)]
  · obtain ⟨ht0, ht1⟩ := clampedParameter_mem
      (((px - x1) * (x2 - x1) + (py - y1) * (y2 - y1)) / ((x1 - x2) ^ 2 + (y1 - y2) ^ 2))
    generalize max 0 (min 1
      (((px - x1) * (x2 - x1) + (py - y1) * (y2 - y1)) / ((x1 - x2) ^ 2 + (y1 - y2) ^ 2))) = t
      at ht0 ht1 ⊢
    rcases h with ⟨h1, h2⟩ | ⟨h1, h2⟩
    · have hdy : d ≤ py - (y1 + t * (y2 - y1)) := by nlinarith
      nlinarith [sq_nonneg (x1 + t * (x2 - x1) - px), mul_self_le_mul_self hd hdy]
    · have hdy : d ≤ (y1 + t * (y2 - y1)) - py := by nlinarith
      nlinarith [sq_nonneg (x1 + t * (x2 - x1) - px), mul_self_le_mul_self hd hdy]

/-- A point that is at least `d` to the left or to the right of both ends of a segment is
at least `d` away from it. -/
theorem sq_le_pointToSegmentDistanceSq_of_x {px py x1 y1 x2 y2 d : ℚ} (hd : 0 ≤ d)
    (h : (x1 + d ≤ px ∧ x2 + d ≤ px) ∨ (px + d ≤ x1 ∧ px + d ≤ x2)) :
    d ^ 2 ≤ pointToSegmentDistanceSq px py x1 y1 x2 y2 := by
  unfold pointToSegmentDistanceSq
  simp only []
  split
  · rename_i hl
    rcases h with ⟨h1, -⟩ | ⟨h1, -⟩
    · nlinarith [sq_nonneg (py - y1), mul_self_le_mul_self hd (by linarith : d ≤ px - x1)]
    · nlinarith [sq_nonneg (py - y1), mul_self_le_mul_self hd (by linarith : d ≤ x1 - px)]
  · obtain ⟨ht0, ht1⟩ := clampedParameter_mem
      (((px - x1) * (x2 - x1) + (py - y1) * (y2 - y1)) / ((x1 - x2) ^ 2 + (y1 - y2) ^ 2))
    generalize max 0 (min 1
      (((px - x1) * (x2 - x1) + (py - y1) * (y2 - y1)) / ((x1 - x2) ^ 2 + (y1 - y2) ^ 2))) = t
      at ht0 ht1 ⊢
    rcases h with ⟨h1, h2⟩ | ⟨h1, h2⟩
    · have hdx : d ≤ px - (x1 + t * (x2 - x1)) := by nlinarith
      nlinarith [sq_nonneg (y1 + t * (y2 - y1) - py), mul_self_le_mul_self hd hdx]
    · have hdx : d ≤ (x1 + t * (x2 - x1)) - px := by nlinarith
      nlinarith [sq_nonneg (y1 + t * (y2 - y1) - py), mul_self_le_mul_self hd hdx]

/-- A point that is at least `EPSILON` off the bounding box of a segment in the `y`
direction is not on the wall. -/
theorem not_near_of_y {px py x1 y1 x2 y2 : ℚ}
    (h : (y1 + EPSILON ≤ py ∧ y2 + EPSILON ≤ py) ∨ (py + EPSILON ≤ y1 ∧ py + EPSILON ≤ y2)) :
    ¬ pointToSegmentDistanceSq px py x1 y1 x2 y2 < EPSILON ^ 2 :=
  not_lt.mpr (sq_le_pointToSegmentDistanceSq_of_y (by unfold EPSILON; norm_num) h)

theorem not_near_of_x {px py x1 y1 x2 y2 : ℚ}
    (h : (x1 + EPSILON ≤ px ∧ x2 + EPSILON ≤ px) ∨ (px + EPSILON ≤ x1 ∧ px + EPSILON ≤ x2)) :
    ¬ pointToSegmentDistanceSq px py x1 y1 x2 y2 < EPSILON ^ 2 :=
  not_lt.mpr (sq_le_pointToSegmentDistanceSq_of_x (by unfold EPSILON; norm_num) h)

/-! ## Distance to a segment: points of the segment -/

/-- A point of a horizontal segment is at distance zero from it. -/
theorem pointToSegmentDistanceSq_horizontal {px y x1 x2 : ℚ}
    (h : (x1 ≤ px ∧ px ≤ x2) ∨ (x2 ≤ px ∧ px ≤ x1)) :
    pointToSegmentDistanceSq px y x1 y x2 y = 0 := by
  unfold pointToSegmentDistanceSq
  simp only [sub_self, mul_zero, add_zero, ne_eq, OfNat.ofNat_ne_zero, not_false_eq_true,
    zero_pow]
  split
  · rename_i hl
    have h12 : x1 = x2 := by
      have := pow_eq_zero_iff (two_ne_zero) |>.mp hl
      linarith
    have : px = x1 := by rcases h with ⟨a, b⟩ | ⟨a, b⟩ <;> linarith
    rw [this]; simp
  · rename_i hl
    have hne : x2 - x1 ≠ 0 := by
      intro h0
      apply hl
      have : x1 - x2 = 0 := by linarith
      rw [this]; simp
    have ht : (px - x1) * (x2 - x1) / (x1 - x2) ^ 2 = (px - x1) / (x2 - x1) := by
      have : (x1 - x2) ^ 2 = (x2 - x1) * (x2 - x1) := by ring
      rw [this, mul_div_mul_right _ _ hne]
    rw [ht]
    have h01 : 0 ≤ (px - x1) / (x2 - x1) ∧ (px - x1) / (x2 - x1) ≤ 1 := by
      rcases h with ⟨a, b⟩ | ⟨a, b⟩
      · have hpos : 0 < x2 - x1 := lt_of_le_of_ne (by linarith) (Ne.symm hne)
        exact ⟨div_nonneg (by linarith) hpos.le, (div_le_one hpos).mpr (by linarith)⟩
      · have hneg : x2 - x1 < 0 := lt_of_le_of_ne (by linarith) hne
        exact ⟨div_nonneg_of_nonpos (by linarith) hneg.le,
          (div_le_one_of_neg hneg).mpr (by linarith)⟩
    rw [min_eq_right h01.2, max_eq_right h01.1, div_mul_cancel₀ _ hne]
    ring

/-- A point of a vertical segment is at distance zero from it. -/
theorem pointToSegmentDistanceSq_vertical {x py y1 y2 : ℚ}
    (h : (y1 ≤ py ∧ py ≤ y2) ∨ (y2 ≤ py ∧ py ≤ y1)) :
    pointToSegmentDistanceSq x py x y1 x y2 = 0 := by
  unfold pointToSegmentDistanceSq
  simp only [sub_self, mul_zero, zero_add, ne_eq, OfNat.ofNat_ne_zero, not_false_eq_true,
    zero_pow]
  split
  · rename_i hl
    have h12 : y1 = y2 := by
      have := pow_eq_zero_iff (two_ne_zero) |>.mp hl
      linarith
    have : py = y1 := by rcases h with ⟨a, b⟩ | ⟨a, b⟩ <;> linarith
    rw [this]; simp
  · rename_i hl
    have hne : y2 - y1 ≠ 0 := by
      intro h0
      apply hl
      have : y1 - y2 = 0 := by linarith
      rw [this]; simp
    have ht : (py - y1) * (y2 - y1) / (y1 - y2) ^ 2 = (py - y1) / (y2 - y1) := by
      have : (y1 - y2) ^ 2 = (y2 - y1) * (y2 - y1) := by ring
      rw [this, mul_div_mul_right _ _ hne]
    rw [ht]
    have h01 : 0 ≤ (py - y1) / (y2 - y1) ∧ (py - y1) / (y2 - y1) ≤ 1 := by
      rcases h with ⟨a, b⟩ | ⟨a, b⟩
      · have hpos : 0 < y2 - y1 := lt_of_le_of_ne (by linarith) (Ne.symm hne)
        exact ⟨div_nonneg (by linarith) hpos.le, (div_le_one hpos).mpr (by linarith)⟩
      · have hneg : y2 - y1 < 0 := lt_of_le_of_ne (by linarith) hne
        exact ⟨div_nonneg_of_nonpos (by linarith) hneg.le,
          (div_le_one_of_neg hneg).mpr (by linarith)⟩
    rw [min_eq_right h01.2, max_eq_right h01.1, div_mul_cancel₀ _ hne]
    ring

/-! ## Intersection of axis-parallel segments -/

/-- Two vertical segments do not intersect. -/
theorem findIntersection_vertical_vertical (xa ya1 ya2 xb yb1 yb2 : ℚ) :
    findIntersection xa ya1 xa ya2 xb yb1 xb yb2 = none := by
  unfold findIntersection
  simp [EPSILON]

/-- Two horizontal segments do not intersect. -/
theorem findIntersection_horizontal_horizontal (xa1 ya xa2 xb1 yb xb2 : ℚ) :
    findIntersection xa1 ya xa2 ya xb1 yb xb2 yb = none := by
  unfold findIntersection
  simp [EPSILON]

/-- A vertical and a horizontal segment intersect, if at all, in the point that has the
`x` of the first and the `y` of the second. -/
theorem findIntersection_vertical_horizontal {x ya yb xa xb y : ℚ} {q : Point}
    (h : findIntersection x ya x yb xa y xb y = some q) : q = ⟨x, y⟩ := by
  unfold findIntersection at h
  simp only [sub_self, zero_mul, zero_sub, mul_zero] at h
  split at h
  · exact absurd h (by simp)
  · rename_i hden
    split at h
    · simp only [Option.some.injEq] at h
      rw [← h]
      have hd : (ya - yb) * (xa - xb) ≠ 0 := by
        intro h0
        apply hden
        rw [h0]
        simp [EPSILON]
      have hyab : ya - yb ≠ 0 := left_ne_zero_of_mul hd
      have hxab : xa - xb ≠ 0 := right_ne_zero_of_mul hd
      have ey : ya + -((ya - y) * (xa - xb)) / -((ya - yb) * (xa - xb)) * (yb - ya) = y := by
        rw [neg_div_neg_eq, mul_div_mul_right _ _ hxab]
        field_simp
        ring
      rw [ey, add_zero]
    · exact absurd h (by simp)

/-- A horizontal and a vertical segment intersect, if at all, in the point that has the
`x` of the second and the `y` of the first. -/
theorem findIntersection_horizontal_vertical {xa xb y x ya yb : ℚ} {q : Point}
    (h : findIntersection xa y xb y x ya x yb = some q) : q = ⟨x, y⟩ := by
  unfold findIntersection at h
  simp only [sub_self, zero_mul, sub_zero, mul_zero] at h
  split at h
  · exact absurd h (by simp)
  · rename_i hden
    split at h
    · simp only [Option.some.injEq] at h
      rw [← h]
      have hd : (xa - xb) * (ya - yb) ≠ 0 := by
        intro h0
        apply hden
        rw [h0]
        simp [EPSILON]
      have hxab : xa - xb ≠ 0 := left_ne_zero_of_mul hd
      have hyab : ya - yb ≠ 0 := right_ne_zero_of_mul hd
      have ex : xa + (xa - x) * (ya - yb) / ((xa - xb) * (ya - yb)) * (xb - xa) = x := by
        rw [mul_div_mul_right _ _ hyab]
        field_simp
        ring
      rw [ex, add_zero]
    · exact absurd h (by simp)

/-! ## Traces on a graph without a cycle -/

/-- The first three nodes of a closed trace of length at least three are three different
nodes of the map. -/
theorem ClosedTrace.three_nodes {st : NodeMap × List Edge} (hg : GraphInv st)
    {startNode prevNode : Nat} {visited : List Nat}
    (h : ClosedTrace st.1 startNode prevNode startNode visited) (hlen : 3 ≤ visited.length) :
    ∃ c1 c2 rest, visited = startNode :: c1 :: c2 :: rest ∧ c1 ≠ startNode ∧ c2 ≠ c1 ∧
      c2 ≠ startNode ∧ c1 < st.1.length ∧ c2 < st.1.length := by
  cases h with
  | last _ => simp at hlen
  | @step _ _ c1 rest1 hb1 hne1 hrest1 =>
    cases hrest1 with
    | last _ => simp at hlen
    | @step _ _ c2 rest2 hb2 hne2 hrest2 =>
      obtain ⟨rest3, hr3⟩ := hrest2.head
      obtain ⟨h10, -, hl1, -⟩ := hg.bestNextNode hb1
      obtain ⟨h21, h20, hl2, -⟩ := hg.bestNextNode hb2
      exact ⟨c1, c2, rest3, by rw [hr3], h10, h21, h20, hl1, hl2⟩

/-- On a graph whose nodes have ranks such that every edge joins two nodes of
neighbouring ranks, a trace keeps going up or keeps going down: the start node is
`visited.length` ranks away from the node the trace is on. -/
theorem ClosedTrace.rank_start {st : NodeMap × List Edge} (hg : GraphInv st) (rank : Nat → ℤ)
    (hinj : ∀ i j, i < st.1.length → j < st.1.length → rank i = rank j → i = j)
    (hadj : ∀ e ∈ st.2, rank e.node2 - rank e.node1 = 1 ∨ rank e.node2 - rank e.node1 = -1)
    {startNode prevNode currentNode : Nat} {visited : List Nat}
    (h : ClosedTrace st.1 startNode prevNode currentNode visited)
    (hp : prevNode < st.1.length) (hc : currentNode < st.1.length)
    (hd : rank currentNode - rank prevNode = 1 ∨ rank currentNode - rank prevNode = -1) :
    rank startNode = rank currentNode + visited.length * (rank currentNode - rank prevNode) := by
  have hstep : ∀ {p c b : Nat}, p < st.1.length → c < st.1.length →
      (rank c - rank p = 1 ∨ rank c - rank p = -1) → bestNextNode st.1 p c = some b →
      b < st.1.length ∧ rank b - rank c = rank c - rank p := by
    intro p c b hp hc hd hb
    obtain ⟨-, hbp, hbl, e, he, hends⟩ := hg.bestNextNode hb
    refine ⟨hbl, ?_⟩
    have hne : rank b ≠ rank p := fun hr => hbp (hinj b p hbl hp hr)
    have hcb : rank b - rank c = 1 ∨ rank b - rank c = -1 := by
      rcases hends with ⟨h1, h2⟩ | ⟨h1, h2⟩
      · have := hadj e he
        rw [h1, h2] at this
        exact this
      · have := hadj e he
        rw [h1, h2] at this
        rcases this with h' | h'
        · exact Or.inr (by linarith)
        · exact Or.inl (by linarith)
    rcases hcb with h1 | h1 <;> rcases hd with h2 | h2
    · linarith
    · exact absurd (by linarith) hne
    · exact absurd (by linarith) hne
    · linarith
  induction h with
  | last hb =>
    obtain ⟨-, hr⟩ := hstep hp hc hd hb
    simp only [List.length_singleton, Nat.cast_one, one_mul]
    linarith
  | @step prevNode currentNode best rest hb hne hrest ih =>
    obtain ⟨hbl, hr⟩ := hstep hp hc hd hb
    have := ih hc hbl (by rw [hr]; exact hd)
    rw [this, hr]
    simp only [List.length_cons, Nat.cast_add, Nat.cast_one]
    have hbest : rank best = rank currentNode + (rank currentNode - rank prevNode) := by
      linarith
    rw [hbest]
    ring

/-- A graph whose nodes have ranks such that every edge joins two nodes of neighbouring
ranks has no closed trace. -/
theorem ClosedTrace.false_of_rank {st : NodeMap × List Edge} (hg : GraphInv st)
    (rank : Nat → ℤ)
    (hinj : ∀ i j, i < st.1.length → j < st.1.length → rank i = rank j → i = j)
    (hadj : ∀ e ∈ st.2, rank e.node2 - rank e.node1 = 1 ∨ rank e.node2 - rank e.node1 = -1)
    {e : Edge} (he : e ∈ st.2) {startNode prevNode : Nat} {visited : List Nat}
    (hdir : (prevNode = e.node1 ∧ startNode = e.node2) ∨
      (prevNode = e.node2 ∧ startNode = e.node1))
    (h : ClosedTrace st.1 startNode prevNode startNode visited) : False := by
  obtain ⟨-, h1, h2⟩ := hg.edge_ok e he
  have hps : prevNode < st.1.length ∧ startNode < st.1.length ∧
      (rank startNode - rank prevNode = 1 ∨ rank startNode - rank prevNode = -1) := by
    rcases hdir with ⟨hp, hs⟩ | ⟨hp, hs⟩
    · rw [hp, hs]
      exact ⟨h1, h2, hadj e he⟩
    · rw [hp, hs]
      refine ⟨h2, h1, ?_⟩
      rcases hadj e he with h' | h'
      · exact Or.inr (by linarith)
      · exact Or.inl (by linarith)
  have hr := h.rank_start hg rank hinj hadj hps.1 hps.2.1 hps.2.2
  obtain ⟨rest, hv⟩ := h.head
  have hlen : (1 : ℤ) ≤ (visited.length : ℤ) := by
    rw [hv]
    simp
  rcases hps.2.2 with hd | hd
  · rw [hd] at hr
    linarith
  · rw [hd] at hr
    linarith

/-! ## Walls along the sides of a rectangle -/

theorem rectCorner_injective {w h : ℚ} (hw : 0 < w) (hh : 0 < h) (i j : Fin 4)
    (hij : rectCorner w h i = rectCorner w h j) : i = j := by
  have hw' : w ≠ 0 := hw.ne'
  have hh' : h ≠ 0 := hh.ne'
  fin_cases i <;> fin_cases j <;> simp [rectCorner] at hij ⊢ <;> simp_all

theorem cornerOf_rectCorner {w h : ℚ} (hw : 0 < w) (hh : 0 < h) (j : Fin 4) :
    cornerOf w h (rectCorner w h j) = j := by
  have hw' : w ≠ 0 := hw.ne'
  have hh' : h ≠ 0 := hh.ne'
  have hw2 : ¬ (0 = w) := fun h0 => hw' h0.symm
  have hh2 : ¬ (0 = h) := fun h0 => hh' h0.symm
  fin_cases j <;> simp [cornerOf, rectCorner, hw', hh', hw2, hh2]

theorem cornerRank_succ : ∀ m k : Fin 4, k ≠ m → cornerRank m (k + 1) - cornerRank m k = 1 := by
  decide

theorem cornerRank_injective : ∀ m i j : Fin 4, cornerRank m i = cornerRank m j → i = j := by
  decide

/-- The ends of a wall along a side are the two corners of the side. -/
theorem IsRectSide.ends {w h : ℚ} {k : Fin 4} {wall : Wall} (hs : IsRectSide w h k wall) :
    ((⟨wall.x1, wall.y1⟩ : Point) = rectCorner w h k ∧
        (⟨wall.x2, wall.y2⟩ : Point) = rectCorner w h (k + 1)) ∨
      ((⟨wall.x1, wall.y1⟩ : Point) = rectCorner w h (k + 1) ∧
        (⟨wall.x2, wall.y2⟩ : Point) = rectCorner w h k) := by
  rcases hs with hs | hs
  · left
    subst hs
    fin_cases k <;> exact ⟨rfl, rfl⟩
  · right
    subst hs
    fin_cases k <;> exact ⟨rfl, rfl⟩

/-- A wall along a side is horizontal or vertical, on a grid line of the rectangle. -/
theorem IsRectSide.axis {w h : ℚ} {k : Fin 4} {wall : Wall} (hs : IsRectSide w h k wall) :
    (wall.y1 = wall.y2 ∧ (wall.y1 = 0 ∨ wall.y1 = h)) ∨
      (wall.x1 = wall.x2 ∧ (wall.x1 = 0 ∨ wall.x1 = w)) := by
  rcases hs with hs | hs <;> subst hs <;> fin_cases k <;> simp [rectSide, reverseWall]

theorem exists_rectCorner_of_grid {w h x y : ℚ} (hx : x = 0 ∨ x = w) (hy : y = 0 ∨ y = h) :
    ∃ j, (⟨x, y⟩ : Point) = rectCorner w h j := by
  rcases hx with rfl | rfl <;> rcases hy with rfl | rfl
  · exact ⟨0, rfl⟩
  · exact ⟨3, rfl⟩
  · exact ⟨1, rfl⟩
  · exact ⟨2, rfl⟩

/-- Two walls along sides of the rectangle intersect, if at all, in a corner. -/
theorem IsRectSide.intersection {w h : ℚ} {ka kb : Fin 4} {wa wb : Wall}
    (ha : IsRectSide w h ka wa) (hb : IsRectSide w h kb wb) {q : Point}
    (hq : findIntersection wa.x1 wa.y1 wa.x2 wa.y2 wb.x1 wb.y1 wb.x2 wb.y2 = some q) :
    ∃ j, q = rectCorner w h j := by
  obtain ⟨a1, b1, a2, b2⟩ := wa
  obtain ⟨c1, d1, c2, d2⟩ := wb
  simp only at hq
  rcases ha.axis with ⟨h1, h2⟩ | ⟨h1, h2⟩ <;> rcases hb.axis with ⟨h3, h4⟩ | ⟨h3, h4⟩ <;>
    simp only at h1 h2 h3 h4
  · subst h1 h3
    rw [findIntersection_horizontal_horizontal] at hq
    exact absurd hq (by simp)
  · subst h1 h3
    rw [findIntersection_horizontal_vertical hq]
    exact exists_rectCorner_of_grid h4 h2
  · subst h1 h3
    rw [findIntersection_vertical_horizontal hq]
    exact exists_rectCorner_of_grid h2 h4
  · subst h1 h3
    rw [findIntersection_vertical_vertical] at hq
    exact absurd hq (by simp)

/-- In a rectangle that is at least `1/20000` wide and high, the only corners on a wall
along a side are the two corners of the side. -/
theorem IsRectSide.near {w h : ℚ} (hw : 1 / 20000 ≤ w) (hh : 1 / 20000 ≤ h) {k : Fin 4}
    {wall : Wall} (hs : IsRectSide w h k wall) {j : Fin 4}
    (hn : pointToSegmentDistanceSq (rectCorner w h j).x (rectCorner w h j).y
      wall.x1 wall.y1 wall.x2 wall.y2 < EPSILON ^ 2) : j = k ∨ j = k + 1 := by
  have he : EPSILON = 1 / 1000000 := rfl
  rcases hs with hs | hs <;> subst hs <;> fin_cases k <;> fin_cases j <;>
    simp only [rectSide, reverseWall, rectCorner] at hn <;>
    first
    | decide
    | exact absurd hn (not_near_of_y (Or.inl ⟨by rw [he]; linarith, by rw [he]; linarith⟩))
    | exact absurd hn (not_near_of_y (Or.inr ⟨by rw [he]; linarith, by rw [he]; linarith⟩))
    | exact absurd hn (not_near_of_x (Or.inl ⟨by rw [he]; linarith, by rw [he]; linarith⟩))
    | exact absurd hn (not_near_of_x (Or.inr ⟨by rw [he]; linarith, by rw [he]; linarith⟩))

/-! ## Keys of nearby points -/

/-- A number below `0.00005` is printed as `0.0000`. -/
theorem toFixed4_of_small {v : ℚ} (h0 : 0 ≤ v) (h1 : v < 1 / 20000) :
    toFixed4 v = (false, 0) := by
  unfold toFixed4
  have hf : ⌊|v| * 10000 + 1 / 2⌋ = 0 := by
    rw [Int.floor_eq_zero_iff, abs_of_nonneg h0]
    constructor
    · positivity
    · linarith
  rw [hf]
  simp [not_lt.mpr h0]

/-- A number of at least `0.0001` is not printed as `0.0000`. -/
theorem toFixed4_ne_zero_of_large {v : ℚ} (h : 1 / 10000 ≤ v) : toFixed4 v ≠ (false, 0) := by
  unfold toFixed4
  intro hc
  have hf : ⌊|v| * 10000 + 1 / 2⌋ = 0 := (Prod.mk.inj hc).2
  rw [Int.floor_eq_zero_iff, abs_of_nonneg (by linarith)] at hf
  have := hf.2
  linarith

/-- Numbers that differ by at least `0.0001` are printed differently. -/
theorem toFixed4_ne_of_far {u v : ℚ} (h : 1 / 10000 ≤ |u - v|) : toFixed4 u ≠ toFixed4 v := by
  unfold toFixed4
  intro hc
  obtain ⟨hs, hf⟩ := Prod.mk.inj hc
  have habs : 1 ≤ |(|u| * 10000 + 1 / 2) - (|v| * 10000 + 1 / 2)| := by
    have huv : |u - v| = |(|u| - |v|)| := by
      by_cases hu : u < 0
      · have hv : v < 0 := by simpa [hu] using hs
        rw [abs_of_neg hu, abs_of_neg hv, ← abs_neg (u - v)]
        congr 1
        ring
      · have hv : ¬ v < 0 := by simpa [hu] using hs
        rw [abs_of_nonneg (not_lt.mp hu), abs_of_nonneg (not_lt.mp hv)]
    have : (|u| * 10000 + 1 / 2) - (|v| * 10000 + 1 / 2) = (|u| - |v|) * 10000 := by ring
    rw [this, abs_mul, ← huv]
    have h10 : |(10000 : ℚ)| = 10000 := abs_of_pos (by norm_num)
    rw [h10]
    linarith
  have hlt := Int.abs_sub_lt_one_of_floor_eq_floor hf
  linarith

/-! ## No room without a cycle: walls along three sides of a rectangle -/

/-- In a rectangle narrower or lower than `0.00005` the corners have at most two keys. -/
theorem rectCorner_keys {w h : ℚ} (hw : 0 < w) (hh : 0 < h)
    (hsmall : w < 1 / 20000 ∨ h < 1 / 20000) :
    ∃ ka kb, ∀ j, pointKey (rectCorner w h j) = ka ∨ pointKey (rectCorner w h j) = kb := by
  rcases hsmall with hs | hs
  · refine ⟨pointKey (rectCorner w h 0), pointKey (rectCorner w h 3), ?_⟩
    intro j
    fin_cases j
    · exact Or.inl rfl
    · left
      simp only [pointKey, rectCorner, Fin.mk_one, Fin.zero_eta]
      rw [toFixed4_of_small hw.le hs, toFixed4_of_small le_rfl (by norm_num)]
    · right
      show pointKey (rectCorner w h 2) = pointKey (rectCorner w h 3)
      simp only [pointKey, rectCorner]
      rw [toFixed4_of_small hw.le hs, toFixed4_of_small le_rfl (by norm_num)]
    · exact Or.inr rfl
  · refine ⟨pointKey (rectCorner w h 0), pointKey (rectCorner w h 1), ?_⟩
    intro j
    fin_cases j
    · exact Or.inl rfl
    · exact Or.inr rfl
    · right
      show pointKey (rectCorner w h 2) = pointKey (rectCorner w h 1)
      simp only [pointKey, rectCorner]
      rw [toFixed4_of_small hh.le hs, toFixed4_of_small le_rfl (by norm_num)]
    · left
      show pointKey (rectCorner w h 3) = pointKey (rectCorner w h 0)
      simp only [pointKey, rectCorner]
      rw [toFixed4_of_small hh.le hs, toFixed4_of_small le_rfl (by norm_num)]

/-- A node map with pairwise different keys, all of them among two values, has at most
two nodes. -/
theorem length_le_two_of_keys {nodes : NodeMap} (hnd : (nodeKeys nodes).Nodup) {ka kb : Key}
    (hk : ∀ k ∈ nodeKeys nodes, k = ka ∨ k = kb) : nodes.length ≤ 2 := by
  have hsub : nodeKeys nodes ⊆ [ka, kb] := by
    intro k hkm
    rcases hk k hkm with h | h
    · rw [h]; exact List.mem_cons_self _ _
    · rw [h]; exact List.mem_cons_of_mem _ (List.mem_cons_self _ _)
  have := (List.subperm_of_subset hnd hsub).length_le
  rw [length_nodeKeys] at this
  simpa using this

/-- The coordinates of a node of the map are in the list of node coordinates. -/
theorem nodeAt_mem_nodeCoords (nodes : NodeMap) {i : Nat} (h : i < nodes.length) :
    (⟨(nodeAt nodes i).x, (nodeAt nodes i).y⟩ : Point) ∈ nodeCoords nodes :=
  List.getElem?_mem (nodeCoords_getElem? nodes i h)

/-- Walls along sides of a rectangle, none of them along side `m`: no room is found,
wherever the query point is. -/
theorem findRoomFromPoint_missing_side {w h : ℚ} (hw : 0 < w) (hh : 0 < h) (m : Fin 4)
    {walls : List Wall} (hwalls : ∀ wall ∈ walls, ∃ k, k ≠ m ∧ IsRectSide w h k wall)
    (startPoint : Point) (existingRooms : List Room) :
    findRoomFromPoint startPoint walls existingRooms = none := by
  cases hres : findRoomFromPoint startPoint walls existingRooms with
  | none => rfl
  | some room =>
    exfalso
    obtain ⟨e, he, prevNode, startNode, visited, hdir, hct, hlen, -, -⟩ :=
      findRoomFromPoint_trace hres
    obtain ⟨hg, hewall, hS⟩ := buildGraph_inv (S := fun p => ∃ j, p = rectCorner w h j) walls
      (by
        intro wall hwall
        obtain ⟨k, -, hk⟩ := hwalls wall hwall
        rcases hk.ends with ⟨h1, h2⟩ | ⟨h1, h2⟩
        · exact ⟨⟨k, h1⟩, ⟨k + 1, h2⟩⟩
        · exact ⟨⟨k + 1, h1⟩, ⟨k, h2⟩⟩)
      (by
        intro wa hwa wb hwb q hq
        obtain ⟨ka, -, hka⟩ := hwalls wa hwa
        obtain ⟨kb, -, hkb⟩ := hwalls wb hwb
        exact hka.intersection hkb hq)
    have hcorner : ∀ i, i < (buildGraph walls).1.length →
        ∃ j, (⟨(nodeAt (buildGraph walls).1 i).x, (nodeAt (buildGraph walls).1 i).y⟩ : Point)
          = rectCorner w h j :=
      fun i hi => hS _ (nodeAt_mem_nodeCoords _ hi)
    by_cases hsmall : w < 1 / 20000 ∨ h < 1 / 20000
    · -- at most two nodes: no three different nodes
      obtain ⟨ka, kb, hkeys⟩ := rectCorner_keys hw hh hsmall
      have hle : (buildGraph walls).1.length ≤ 2 := by
        apply @length_le_two_of_keys (buildGraph walls).1 hg.nodup ka kb
        intro k hk
        rw [hg.key_eq] at hk
        obtain ⟨p, hp, rfl⟩ := List.mem_map.mp hk
        obtain ⟨j, rfl⟩ := hS p hp
        exact hkeys j
      have hs : startNode < (buildGraph walls).1.length := by
        obtain ⟨-, h1, h2⟩ := hg.edge_ok e he
        rcases hdir with ⟨-, hd⟩ | ⟨-, hd⟩
        · rw [hd]; exact h2
        · rw [hd]; exact h1
      obtain ⟨c1, c2, rest, -, h10, h21, h20, hl1, hl2⟩ := hct.three_nodes hg hlen
      omega
    · -- the graph is a path: no closed trace
      simp only [not_or, not_lt] at hsmall
      obtain ⟨hw2, hh2⟩ := hsmall
      have hrank_inj : ∀ i j, i < (buildGraph walls).1.length →
          j < (buildGraph walls).1.length →
          cornerRank m (cornerOf w h ⟨(nodeAt (buildGraph walls).1 i).x,
              (nodeAt (buildGraph walls).1 i).y⟩)
            = cornerRank m (cornerOf w h ⟨(nodeAt (buildGraph walls).1 j).x,
              (nodeAt (buildGraph walls).1 j).y⟩) → i = j := by
        intro i j hi hj hr
        obtain ⟨a, ha⟩ := hcorner i hi
        obtain ⟨b, hb⟩ := hcorner j hj
        rw [ha, hb, cornerOf_rectCorner hw hh, cornerOf_rectCorner hw hh] at hr
        have hab := cornerRank_injective m a b hr
        rw [hab] at ha
        exact hg.coords_injective hi hj (ha.trans hb.symm)
      refine ClosedTrace.false_of_rank hg
        (fun i => cornerRank m (cornerOf w h ⟨(nodeAt (buildGraph walls).1 i).x,
          (nodeAt (buildGraph walls).1 i).y⟩)) hrank_inj ?_ he hdir hct
      intro e' he'
      obtain ⟨hne, h1, h2⟩ := hg.edge_ok e' he'
      obtain ⟨k, hkm, hk⟩ := hwalls e'.wall (hewall e' he')
      obtain ⟨hn1, hn2⟩ := hg.on_wall e' he'
      obtain ⟨a, ha⟩ := hcorner e'.node1 h1
      obtain ⟨b, hb⟩ := hcorner e'.node2 h2
      have hax : (nodeAt (buildGraph walls).1 e'.node1).x = (rectCorner w h a).x :=
        congrArg Point.x ha
      have hay : (nodeAt (buildGraph walls).1 e'.node1).y = (rectCorner w h a).y :=
        congrArg Point.y ha
      have hbx : (nodeAt (buildGraph walls).1 e'.node2).x = (rectCorner w h b).x :=
        congrArg Point.x hb
      have hby : (nodeAt (buildGraph walls).1 e'.node2).y = (rectCorner w h b).y :=
        congrArg Point.y hb
      rw [hax, hay] at hn1
      rw [hbx, hby] at hn2
      have hab : a ≠ b := by
        intro hab
        rw [hab] at ha
        exact hne (hg.coords_injective h1 h2 (ha.trans hb.symm))
      simp only [ha, hb, cornerOf_rectCorner hw hh]
      have hs := cornerRank_succ m k hkm
      rcases hk.near hw2 hh2 hn1 with h1' | h1' <;> rcases hk.near hw2 hh2 hn2 with h2' | h2'
      · exact absurd (h1'.trans h2'.symm) hab
      · rw [h1', h2']
        exact Or.inl hs
      · rw [h1', h2']
        exact Or.inr (by linarith)
      · exact absurd (h1'.trans h2'.symm) hab

/-! ## Evaluation lemmas for explicit wall lists -/

/-- The intersection pass registers nothing when the key of every intersection point is
in the map already. -/
theorem registerIntersectionsWith_eq_self (w1 : Wall) :
    ∀ (rest : List Wall) (nodes : NodeMap),
      (∀ w2 ∈ rest, ∀ q,
        findIntersection w1.x1 w1.y1 w1.x2 w1.y2 w2.x1 w2.y1 w2.x2 w2.y2 = some q →
          pointKey q ∈ nodeKeys nodes) →
      registerIntersectionsWith w1 rest nodes = nodes
  | [], _, _ => rfl
  | w2 :: rest, nodes, h => by
    unfold registerIntersectionsWith
    rw [List.foldl_cons]
    have hrest := registerIntersectionsWith_eq_self w1 rest nodes
      (fun w hw => h w (List.mem_cons_of_mem _ hw))
    unfold registerIntersectionsWith at hrest
    cases hq : findIntersection w1.x1 w1.y1 w1.x2 w1.y2 w2.x1 w2.y1 w2.x2 w2.y2 with
    | none => exact hrest
    | some q =>
      simp only []
      rw [getOrCreateNode_of_mem (h w2 (List.mem_cons_self _ _) q hq)]
      exact hrest

theorem registerIntersections_eq_self :
    ∀ (walls : List Wall) (nodes : NodeMap),
      (∀ w1 ∈ walls, ∀ w2 ∈ walls, ∀ q,
        findIntersection w1.x1 w1.y1 w1.x2 w1.y2 w2.x1 w2.y1 w2.x2 w2.y2 = some q →
          pointKey q ∈ nodeKeys nodes) →
      registerIntersections walls nodes = nodes
  | [], _, _ => rfl
  | w1 :: rest, nodes, h => by
    unfold registerIntersections
    rw [registerIntersectionsWith_eq_self w1 rest nodes
      (fun w2 hw2 => h w1 (List.mem_cons_self _ _) w2 (List.mem_cons_of_mem _ hw2))]
    exact registerIntersections_eq_self rest nodes
      (fun a ha b hb => h a (List.mem_cons_of_mem _ ha) b (List.mem_cons_of_mem _ hb))

/-- For walls that are all horizontal or vertical, the intersection pass registers
nothing when the map holds the key of every point that has the `x` of a vertical wall and
the `y` of a horizontal wall. -/
theorem registerIntersections_axis {walls : List Wall} {nodes : NodeMap}
    (haxis : ∀ w ∈ walls, w.y1 = w.y2 ∨ w.x1 = w.x2)
    (hkey : ∀ v ∈ walls, ∀ u ∈ walls, v.x1 = v.x2 → u.y1 = u.y2 →
      pointKey ⟨v.x1, u.y1⟩ ∈ nodeKeys nodes) :
    registerIntersections walls nodes = nodes := by
  apply registerIntersections_eq_self
  intro w1 hw1 w2 hw2 q hq
  rcases haxis w1 hw1 with h1 | h1 <;> rcases haxis w2 hw2 with h2 | h2
  · rw [← h1, ← h2, findIntersection_horizontal_horizontal] at hq
    exact absurd hq (by simp)
  · rw [← h1, ← h2] at hq
    rw [findIntersection_horizontal_vertical hq]
    exact hkey w2 hw2 w1 hw1 h2 h1
  · rw [← h1, ← h2] at hq
    rw [findIntersection_vertical_horizontal hq]
    exact hkey w1 hw1 w2 hw2 h1 h2
  · rw [← h1, ← h2, findIntersection_vertical_vertical] at hq
    exact absurd hq (by simp)

/-- A list that is sorted by the key is left as it is by the sort. -/
theorem insertByKey_of_le (key : Point → ℚ) (a : Point) :
    ∀ l : List Point, (∀ b ∈ l, key b ≤ key a) → insertByKey key a l = l ++ [a]
  | [], _ => rfl
  | b :: rest, h => by
    unfold insertByKey
    rw [if_pos (h b (List.mem_cons_self _ _)),
      insertByKey_of_le key a rest (fun c hc => h c (List.mem_cons_of_mem _ hc))]
    rfl

/-! ### Tests on the distance to a wall, for `simp` with a discharger -/

theorem near_horizontal {px y x1 x2 : ℚ} (h1 : x1 ≤ px) (h2 : px ≤ x2) :
    (pointToSegmentDistanceSq px y x1 y x2 y < EPSILON ^ 2) = True := by
  rw [pointToSegmentDistanceSq_horizontal (Or.inl ⟨h1, h2⟩)]
  simp [EPSILON]

theorem near_horizontal_rev {px y x1 x2 : ℚ} (h1 : x2 ≤ px) (h2 : px ≤ x1) :
    (pointToSegmentDistanceSq px y x1 y x2 y < EPSILON ^ 2) = True := by
  rw [pointToSegmentDistanceSq_horizontal (Or.inr ⟨h1, h2⟩)]
  simp [EPSILON]

theorem near_vertical {x py y1 y2 : ℚ} (h1 : y1 ≤ py) (h2 : py ≤ y2) :
    (pointToSegmentDistanceSq x py x y1 x y2 < EPSILON ^ 2) = True := by
  rw [pointToSegmentDistanceSq_vertical (Or.inl ⟨h1, h2⟩)]
  simp [EPSILON]

theorem near_vertical_rev {x py y1 y2 : ℚ} (h1 : y2 ≤ py) (h2 : py ≤ y1) :
    (pointToSegmentDistanceSq x py x y1 x y2 < EPSILON ^ 2) = True := by
  rw [pointToSegmentDistanceSq_vertical (Or.inr ⟨h1, h2⟩)]
  simp [EPSILON]

theorem far_above {px py x1 y1 x2 y2 : ℚ} (h1 : y1 + 1 / 1000000 ≤ py)
    (h2 : y2 + 1 / 1000000 ≤ py) :
    (pointToSegmentDistanceSq px py x1 y1 x2 y2 < EPSILON ^ 2) = False :=
  eq_false (not_near_of_y (Or.inl ⟨h1, h2⟩))

theorem far_below {px py x1 y1 x2 y2 : ℚ} (h1 : py + 1 / 1000000 ≤ y1)
    (h2 : py + 1 / 1000000 ≤ y2) :
    (pointToSegmentDistanceSq px py x1 y1 x2 y2 < EPSILON ^ 2) = False :=
  eq_false (not_near_of_y (Or.inr ⟨h1, h2⟩))

theorem far_right {px py x1 y1 x2 y2 : ℚ} (h1 : x1 + 1 / 1000000 ≤ px)
    (h2 : x2 + 1 / 1000000 ≤ px) :
    (pointToSegmentDistanceSq px py x1 y1 x2 y2 < EPSILON ^ 2) = False :=
  eq_false (not_near_of_x (Or.inl ⟨h1, h2⟩))

theorem far_left {px py x1 y1 x2 y2 : ℚ} (h1 : px + 1 / 1000000 ≤ x1)
    (h2 : px + 1 / 1000000 ≤ x2) :
    (pointToSegmentDistanceSq px py x1 y1 x2 y2 < EPSILON ^ 2) = False :=
  eq_false (not_near_of_x (Or.inr ⟨h1, h2⟩))

/-! ## Evaluation of the node map on explicit lists -/

theorem getOrCreateNode_fst_of_mem {nodes : NodeMap} {p : Point}
    (h : pointKey p ∈ nodeKeys nodes) : (getOrCreateNode nodes p).1 = nodes := by
  rw [getOrCreateNode_of_mem h]

theorem getOrCreateNode_fst_of_not_mem {nodes : NodeMap} {p : Point}
    (h : pointKey p ∉ nodeKeys nodes) :
    (getOrCreateNode nodes p).1 = nodes ++ [(pointKey p, ⟨p.x, p.y, []⟩)] := by
  rw [getOrCreateNode_of_not_mem h]

theorem registerEndpoints_cons (w : Wall) (ws : List Wall) (nodes : NodeMap) :
    registerEndpoints (w :: ws) nodes =
      registerEndpoints ws
        (getOrCreateNode (getOrCreateNode nodes ⟨w.x1, w.y1⟩).1 ⟨w.x2, w.y2⟩).1 := rfl

/-- The position found for a point whose key is the key of the first node. -/
theorem findIdx_key_head {key : Key} {node : Node} {nodes : NodeMap} :
    ((key, node) :: nodes).findIdx (fun kn => decide (kn.1 = key)) = 0 := by
  simp [List.findIdx_cons]

/-- The position found for a point whose key is not the key of the first node. -/
theorem findIdx_key_tail {key key2 : Key} {node : Node} {nodes : NodeMap} (h : key2 ≠ key) :
    ((key2, node) :: nodes).findIdx (fun kn => decide (kn.1 = key))
      = nodes.findIdx (fun kn => decide (kn.1 = key)) + 1 := by
  simp [List.findIdx_cons, h]

/-- The points of a wall, computed from the node coordinates. -/
theorem pointsOnWall_eq (nodes : NodeMap) (wall : Wall) :
    pointsOnWall nodes wall =
      sortByKey (fun a => (a.x - wall.x1) ^ 2 + (a.y - wall.y1) ^ 2)
        ((nodeCoords nodes).filter (fun p =>
          decide (pointToSegmentDistanceSq p.x p.y wall.x1 wall.y1 wall.x2 wall.y2
            < EPSILON ^ 2))) := by
  unfold pointsOnWall nodeCoords
  rw [List.filter_map]
  rfl

theorem pointsOnWall_of_coords (nodes : NodeMap) (x1 y1 x2 y2 : ℚ) :
    pointsOnWall nodes ⟨x1, y1, x2, y2⟩ =
      sortByKey (fun a => (a.x - x1) ^ 2 + (a.y - y1) ^ 2)
        ((nodeCoords nodes).filter (fun p =>
          decide (pointToSegmentDistanceSq p.x p.y x1 y1 x2 y2 < EPSILON ^ 2))) :=
  pointsOnWall_eq nodes ⟨x1, y1, x2, y2⟩

/-- The loop over a wall with no or one point adds nothing. -/
theorem assembleWallEdges_nil (wall : Wall) (st : NodeMap × List Edge) :
    assembleWallEdges wall [] st = st := by
  unfold assembleWallEdges
  rfl

theorem assembleWallEdges_singleton (wall : Wall) (p : Point) (st : NodeMap × List Edge) :
    assembleWallEdges wall [p] st = st := by
  unfold assembleWallEdges
  rfl

/-- One consecutive pair of points of the map that are not within `EPSILON`: an edge
between their nodes is added. -/
theorem assembleWallEdges_cons_cons (wall : Wall) (p1 p2 : Point) (rest : List Point)
    (nodes : NodeMap) (edges : List Edge) {i1 i2 : Nat}
    (hfar : ¬ (p1.x - p2.x) ^ 2 + (p1.y - p2.y) ^ 2 < EPSILON ^ 2)
    (h1 : nodes.findIdx (fun kn => decide (kn.1 = pointKey p1)) = i1) (hi1 : i1 < nodes.length)
    (h2 : nodes.findIdx (fun kn => decide (kn.1 = pointKey p2)) = i2) (hi2 : i2 < nodes.length) :
    assembleWallEdges wall (p1 :: p2 :: rest) (nodes, edges) =
      assembleWallEdges wall (p2 :: rest)
        (pushEdge (pushEdge nodes i1 ⟨i1, i2, wall⟩) i2 ⟨i1, i2, wall⟩,
          edges ++ [⟨i1, i2, wall⟩]) := by
  have e1 : getOrCreateNode nodes p1 = (nodes, i1) := by
    unfold getOrCreateNode
    simp only [h1, hi1, if_true]
  have e2 : getOrCreateNode nodes p2 = (nodes, i2) := by
    unfold getOrCreateNode
    simp only [h2, hi2, if_true]
  rw [assembleWallEdges, if_neg hfar]
  simp only [e1, e2]

/-- Two points that differ by at least `EPSILON` in `x` are not within `EPSILON`. -/
theorem not_close_of_x {x1 y1 x2 y2 : ℚ}
    (h : x1 + 1 / 1000000 ≤ x2 ∨ x2 + 1 / 1000000 ≤ x1) :
    ¬ (x1 - x2) ^ 2 + (y1 - y2) ^ 2 < EPSILON ^ 2 := by
  unfold EPSILON
  rcases h with h | h <;> nlinarith [sq_nonneg (y1 - y2)]

theorem not_close_of_y {x1 y1 x2 y2 : ℚ}
    (h : y1 + 1 / 1000000 ≤ y2 ∨ y2 + 1 / 1000000 ≤ y1) :
    ¬ (x1 - x2) ^ 2 + (y1 - y2) ^ 2 < EPSILON ^ 2 := by
  unfold EPSILON
  rcases h with h | h <;> nlinarith [sq_nonneg (x1 - x2)]

/-- Points that differ by at least `0.0001` in `x` have different keys. -/
theorem pointKey_ne_of_x {x1 y1 x2 y2 : ℚ}
    (h : x1 + 1 / 10000 ≤ x2 ∨ x2 + 1 / 10000 ≤ x1) :
    pointKey ⟨x1, y1⟩ ≠ pointKey ⟨x2, y2⟩ := by
  intro hc
  have hx : toFixed4 x1 = toFixed4 x2 := (Prod.mk.inj hc).1
  refine toFixed4_ne_of_far ?_ hx
  rcases h with h | h
  · rw [abs_of_nonpos (by linarith)]
    linarith
  · rw [abs_of_nonneg (by linarith)]
    linarith

theorem pointKey_ne_of_y {x1 y1 x2 y2 : ℚ}
    (h : y1 + 1 / 10000 ≤ y2 ∨ y2 + 1 / 10000 ≤ y1) :
    pointKey ⟨x1, y1⟩ ≠ pointKey ⟨x2, y2⟩ := by
  intro hc
  have hy : toFixed4 y1 = toFixed4 y2 := (Prod.mk.inj hc).2
  refine toFixed4_ne_of_far ?_ hy
  rcases h with h | h
  · rw [abs_of_nonpos (by linarith)]
    linarith
  · rw [abs_of_nonneg (by linarith)]
    linarith

/-! ## The seed ray against axis-parallel edges -/

/-- The point where a segment that is not vertical meets a vertical edge, if it does. -/
theorem findIntersection_vertical_snd {x1 y1 x2 y2 X ya yb : ℚ} {p : Point}
    (h : findIntersection x1 y1 x2 y2 X ya X yb = some p) :
    p = ⟨X, y1 + (X - x1) / (x2 - x1) * (y2 - y1)⟩ := by
  unfold findIntersection at h
  simp only [sub_self, mul_zero, sub_zero] at h
  split at h
  · exact absurd h (by simp)
  · rename_i hden
    split at h
    · simp only [Option.some.injEq] at h
      rw [← h]
      have hd : (x1 - x2) * (ya - yb) ≠ 0 := by
        intro h0
        apply hden
        rw [h0]
        simp [EPSILON]
      have hx : x1 - x2 ≠ 0 := left_ne_zero_of_mul hd
      have hy : ya - yb ≠ 0 := right_ne_zero_of_mul hd
      have hx' : x2 - x1 ≠ 0 := fun h0 => hx (by linarith)
      have ht : (x1 - X) * (ya - yb) / ((x1 - x2) * (ya - yb)) = (X - x1) / (x2 - x1) := by
        rw [mul_div_mul_right _ _ hy]
        field_simp
        ring
      rw [ht]
      congr 1
      field_simp
    · exact absurd h (by simp)

/-- The point where a segment that is not horizontal meets a horizontal edge, if it
does. -/
theorem findIntersection_horizontal_snd {x1 y1 x2 y2 xa xb Y : ℚ} {p : Point}
    (h : findIntersection x1 y1 x2 y2 xa Y xb Y = some p) :
    p = ⟨x1 + (Y - y1) / (y2 - y1) * (x2 - x1), Y⟩ := by
  unfold findIntersection at h
  simp only [sub_self, mul_zero, zero_sub] at h
  split at h
  · exact absurd h (by simp)
  · rename_i hden
    split at h
    · simp only [Option.some.injEq] at h
      rw [← h]
      have hd : (y1 - y2) * (xa - xb) ≠ 0 := by
        intro h0
        apply hden
        rw [h0]
        simp [EPSILON]
      have hy : y1 - y2 ≠ 0 := left_ne_zero_of_mul hd
      have hx : xa - xb ≠ 0 := right_ne_zero_of_mul hd
      have hy' : y2 - y1 ≠ 0 := fun h0 => hy (by linarith)
      have ht : -((y1 - Y) * (xa - xb)) / -((y1 - y2) * (xa - xb)) = (Y - y1) / (y2 - y1) := by
        rw [neg_div_neg_eq, mul_div_mul_right _ _ hx]
        field_simp
        ring
      rw [ht]
      congr 1
      field_simp
    · exact absurd h (by simp)

/-- The seed ray of a query point does not meet a horizontal edge whose height is below
the query point or more than `1.000001e-4` above it. -/
theorem findIntersection_ray_horizontal_none {qx qy xa xb Y : ℚ}
    (h : Y < qy - 1 / 10000000000 ∨ qy + 1000001 / 10000000000 < Y) :
    findIntersection qx qy (qx + 1000000) (qy + 1 / 10000) xa Y xb Y = none := by
  cases hq : findIntersection qx qy (qx + 1000000) (qy + 1 / 10000) xa Y xb Y with
  | none => rfl
  | some p =>
    exfalso
    unfold findIntersection at hq
    simp only [sub_self, mul_zero, zero_sub] at hq
    split at hq
    · exact absurd hq (by simp)
    · rename_i hden
      split at hq
      · rename_i hc
        have hd : (qy - (qy + 1 / 10000)) * (xa - xb) ≠ 0 := by
          intro h0
          apply hden
          rw [h0]
          simp [EPSILON]
        have hx : xa - xb ≠ 0 := right_ne_zero_of_mul hd
        have ht : -((qy - Y) * (xa - xb)) / -((qy - (qy + 1 / 10000)) * (xa - xb))
            = (Y - qy) * 10000 := by
          rw [neg_div_neg_eq, mul_div_mul_right _ _ hx]
          field_simp
          ring
        rw [ht] at hc
        unfold EPSILON at hc
        rcases h with h | h
        · linarith [hc.1]
        · linarith [hc.2.1]
      · exact absurd hq (by simp)

/-- The seed ray of a query point meets a vertical edge `X × [ya, yb]` with `ya < yb`
when the edge is at most `1000001` to the right and the ray passes between its ends. -/
theorem findIntersection_ray_vertical_up {qx qy X ya yb : ℚ} (hy : ya + 1 / 1000000 ≤ yb)
    (h1 : qx - 1 ≤ X) (h2 : X ≤ qx + 1000001)
    (h3 : ya - (yb - ya) / 1000000 ≤ qy + (X - qx) / 10000000000)
    (h4 : qy + (X - qx) / 10000000000 ≤ yb + (yb - ya) / 1000000) :
    findIntersection qx qy (qx + 1000000) (qy + 1 / 10000) X ya X yb
      = some ⟨X, qy + (X - qx) / 10000000000⟩ := by
  have hyab : ya - yb ≠ 0 := by
    intro h0
    linarith
  have hden : ¬ |(qx - (qx + 1000000)) * (ya - yb)| < EPSILON := by
    have : (qx - (qx + 1000000)) * (ya - yb) = 1000000 * (yb - ya) := by ring
    rw [this, abs_of_nonneg (by nlinarith), EPSILON]
    linarith
  have ht : (qx - X) * (ya - yb) / ((qx - (qx + 1000000)) * (ya - yb)) = (X - qx) / 1000000 := by
    rw [mul_div_mul_right _ _ hyab]
    field_simp
    ring
  have hu : -((qx - (qx + 1000000)) * (qy - ya) - (qy - (qy + 1 / 10000)) * (qx - X)) /
      ((qx - (qx + 1000000)) * (ya - yb))
        = (qy + (X - qx) / 10000000000 - ya) / (yb - ya) := by
    have hba : yb - ya ≠ 0 := fun h0 => hyab (by linarith)
    field_simp
    ring
  have hpos : 0 < yb - ya := by linarith
  unfold findIntersection
  simp only [sub_self, mul_zero, sub_zero]
  rw [if_neg hden, ht, hu, if_pos]
  · congr 1
    congr 1
    · field_simp
    · field_simp
      ring
  · unfold EPSILON
    refine ⟨?_, ?_, ?_, ?_⟩
    · rw [ge_iff_le, le_div_iff₀ (by norm_num)]
      linarith
    · rw [div_le_iff₀ (by norm_num)]
      linarith
    · rw [ge_iff_le, le_div_iff₀ hpos]
      linarith
    · rw [div_le_iff₀ hpos]
      linarith

/-- The seed ray of a query point does not meet a vertical edge that is more than `1`
behind the query point or more than `1000001` ahead of it. -/
theorem findIntersection_ray_vertical_none {qx qy X ya yb : ℚ}
    (h : X < qx - 1 ∨ qx + 1000001 < X) :
    findIntersection qx qy (qx + 1000000) (qy + 1 / 10000) X ya X yb = none := by
  cases hq : findIntersection qx qy (qx + 1000000) (qy + 1 / 10000) X ya X yb with
  | none => rfl
  | some p =>
    exfalso
    unfold findIntersection at hq
    simp only [sub_self, mul_zero, sub_zero] at hq
    split at hq
    · exact absurd hq (by simp)
    · rename_i hden
      split at hq
      · rename_i hc
        have hd : (qx - (qx + 1000000)) * (ya - yb) ≠ 0 := by
          intro h0
          apply hden
          rw [h0]
          simp [EPSILON]
        have hy : ya - yb ≠ 0 := right_ne_zero_of_mul hd
        have ht : (qx - X) * (ya - yb) / ((qx - (qx + 1000000)) * (ya - yb))
            = (X - qx) / 1000000 := by
          rw [mul_div_mul_right _ _ hy]
          field_simp
          ring
        rw [ht] at hc
        unfold EPSILON at hc
        rcases h with h | h
        · have := hc.1
          rw [ge_iff_le, le_div_iff₀ (by norm_num)] at this
          linarith
        · have := hc.2.1
          rw [div_le_iff₀ (by norm_num)] at this
          linarith
      · exact absurd hq (by simp)

/-! ## The seed loop -/

theorem seedStep_of_none {nodes : NodeMap} {startPoint : Point} {st : Option Edge × Option ℚ}
    {edge : Edge}
    (h : findIntersection startPoint.x startPoint.y (startPoint.x + 1000000)
      (startPoint.y + 1 / 10000) (nodeAt nodes edge.node1).x (nodeAt nodes edge.node1).y
      (nodeAt nodes edge.node2).x (nodeAt nodes edge.node2).y = none) :
    seedStep nodes startPoint st edge = st := by
  unfold seedStep
  rw [h]

theorem seedStep_first {nodes : NodeMap} {startPoint : Point} {edge : Edge} {p : Point}
    (h : findIntersection startPoint.x startPoint.y (startPoint.x + 1000000)
      (startPoint.y + 1 / 10000) (nodeAt nodes edge.node1).x (nodeAt nodes edge.node1).y
      (nodeAt nodes edge.node2).x (nodeAt nodes edge.node2).y = some p) :
    seedStep nodes startPoint (none, none) edge
      = (some edge, some ((p.x - startPoint.x) ^ 2 + (p.y - startPoint.y) ^ 2)) := by
  unfold seedStep
  rw [h]

/-- An edge that the ray meets, if at all, no nearer than the current seed edge does not
replace it. -/
theorem seedStep_keep {nodes : NodeMap} {startPoint : Point} {seed : Option Edge} {m : ℚ}
    {edge : Edge}
    (h : ∀ p, findIntersection startPoint.x startPoint.y (startPoint.x + 1000000)
      (startPoint.y + 1 / 10000) (nodeAt nodes edge.node1).x (nodeAt nodes edge.node1).y
      (nodeAt nodes edge.node2).x (nodeAt nodes edge.node2).y = some p →
        m ≤ (p.x - startPoint.x) ^ 2 + (p.y - startPoint.y) ^ 2) :
    seedStep nodes startPoint (seed, some m) edge = (seed, some m) := by
  unfold seedStep
  cases hq : findIntersection startPoint.x startPoint.y (startPoint.x + 1000000)
      (startPoint.y + 1 / 10000) (nodeAt nodes edge.node1).x (nodeAt nodes edge.node1).y
      (nodeAt nodes edge.node2).x (nodeAt nodes edge.node2).y with
  | none => rfl
  | some p =>
    simp only []
    rw [if_neg (not_lt.mpr (h p hq))]

/-! ## The graph of the rectangle -/

/-- The corners of the rectangle have pairwise different keys. -/
theorem rect_keys_ne {w h : ℚ} (hw : 1 / 10000 ≤ w) (hh : 1 / 10000 ≤ h) :
    pointKey ⟨0, 0⟩ ≠ pointKey ⟨w, 0⟩ ∧
    pointKey ⟨0, 0⟩ ≠ pointKey ⟨w, h⟩ ∧
    pointKey ⟨0, 0⟩ ≠ pointKey ⟨0, h⟩ ∧
    pointKey ⟨w, 0⟩ ≠ pointKey ⟨w, h⟩ ∧
    pointKey ⟨w, 0⟩ ≠ pointKey ⟨0, h⟩ ∧
    pointKey ⟨w, h⟩ ≠ pointKey ⟨0, h⟩ :=
  ⟨pointKey_ne_of_x (Or.inl (by linarith)),
    pointKey_ne_of_x (Or.inl (by linarith)),
    pointKey_ne_of_y (Or.inl (by linarith)),
    pointKey_ne_of_y (Or.inl (by linarith)),
    pointKey_ne_of_x (Or.inr (by linarith)),
    pointKey_ne_of_x (Or.inr (by linarith))⟩

/-- The nodes registered for the rectangle: the endpoints of the walls. -/
theorem rect_registered {w h : ℚ} (hw : 1 / 10000 ≤ w) (hh : 1 / 10000 ≤ h) :
    registerEndpoints (rectWalls w h) [] =
      [(pointKey ⟨0, 0⟩, ⟨0, 0, []⟩), (pointKey ⟨w, 0⟩, ⟨w, 0, []⟩),
       (pointKey ⟨w, h⟩, ⟨w, h, []⟩), (pointKey ⟨0, h⟩, ⟨0, h, []⟩)] := by
  obtain ⟨k01, k02, k03, k12, k13, k23⟩ := rect_keys_ne hw hh
  simp only [rectWalls, rectSide]
  rw [registerEndpoints_cons]
  simp only [getOrCreateNode_fst_of_mem, getOrCreateNode_fst_of_not_mem, nodeKeys,
    List.map_cons, List.map_nil, List.mem_cons, List.not_mem_nil, List.nil_append,
    List.cons_append, k01, k02, k03, k12, k13, k23, k01.symm, k02.symm, k03.symm, k12.symm, k13.symm, k23.symm,
    or_false, or_true, true_or, false_or, not_false_eq_true, not_true_eq_false]
  rw [registerEndpoints_cons]
  simp only [getOrCreateNode_fst_of_mem, getOrCreateNode_fst_of_not_mem, nodeKeys,
    List.map_cons, List.map_nil, List.mem_cons, List.not_mem_nil, List.nil_append,
    List.cons_append, k01, k02, k03, k12, k13, k23, k01.symm, k02.symm, k03.symm, k12.symm, k13.symm, k23.symm,
    or_false, or_true, true_or, false_or, not_false_eq_true, not_true_eq_false]
  rw [registerEndpoints_cons]
  simp only [getOrCreateNode_fst_of_mem, getOrCreateNode_fst_of_not_mem, nodeKeys,
    List.map_cons, List.map_nil, List.mem_cons, List.not_mem_nil, List.nil_append,
    List.cons_append, k01, k02, k03, k12, k13, k23, k01.symm, k02.symm, k03.symm, k12.symm, k13.symm, k23.symm,
    or_false, or_true, true_or, false_or, not_false_eq_true, not_true_eq_false]
  rw [registerEndpoints_cons]
  simp only [getOrCreateNode_fst_of_mem, getOrCreateNode_fst_of_not_mem, nodeKeys,
    List.map_cons, List.map_nil, List.mem_cons, List.not_mem_nil, List.nil_append,
    List.cons_append, k01, k02, k03, k12, k13, k23, k01.symm, k02.symm, k03.symm, k12.symm, k13.symm, k23.symm,
    or_false, or_true, true_or, false_or, not_false_eq_true, not_true_eq_false]
  rfl

/-- The intersection pass adds no node for the rectangle: two walls meet in endpoints only. -/
theorem rect_intersections (w h : ℚ) :
    registerIntersections (rectWalls w h)
        [(pointKey ⟨0, 0⟩, ⟨0, 0, []⟩), (pointKey ⟨w, 0⟩, ⟨w, 0, []⟩),
         (pointKey ⟨w, h⟩, ⟨w, h, []⟩), (pointKey ⟨0, h⟩, ⟨0, h, []⟩)] =
      [(pointKey ⟨0, 0⟩, ⟨0, 0, []⟩), (pointKey ⟨w, 0⟩, ⟨w, 0, []⟩),
       (pointKey ⟨w, h⟩, ⟨w, h, []⟩), (pointKey ⟨0, h⟩, ⟨0, h, []⟩)] := by
  apply registerIntersections_axis
  · intro w hw
    simp only [rectWalls, rectSide, List.mem_cons, List.mem_singleton, List.not_mem_nil,
      or_false] at hw
    rcases hw with rfl | rfl | rfl | rfl <;> first | exact Or.inl rfl | exact Or.inr rfl
  · intro v hv u hu hvx huy
    simp only [rectWalls, rectSide, List.mem_cons, List.mem_singleton, List.not_mem_nil,
      or_false] at hv hu
    rcases hv with rfl | rfl | rfl | rfl <;> rcases hu with rfl | rfl | rfl | rfl <;>
      simp only [] at hvx huy ⊢ <;>
      simp only [nodeKeys, List.map_cons, List.map_nil, List.mem_cons, true_or, or_true]

/-- The nodes on wall 0 of the rectangle, sorted from its first end. -/
theorem rect_points_0 {w h : ℚ} (hw : 1 / 10000 ≤ w) (hh : 1 / 10000 ≤ h) :
    sortByKey (fun q => (q.x - 0) ^ 2 + (q.y - 0) ^ 2)
        (List.filter (fun q => decide (pointToSegmentDistanceSq q.x q.y 0 0 w 0
            < EPSILON ^ 2))
          [⟨0, 0⟩, ⟨w, 0⟩, ⟨w, h⟩, ⟨0, h⟩]) =
      [⟨0, 0⟩, ⟨w, 0⟩] := by
  have n0 := @near_horizontal 0 0 0 w (by linarith) (by linarith)
  have n1 := @near_horizontal w 0 0 w (by linarith) (by linarith)
  have n2 := @far_above w h 0 0 w 0 (by linarith) (by linarith)
  have n3 := @far_above 0 h 0 0 w 0 (by linarith) (by linarith)
  simp only [List.filter_cons, List.filter_nil, n0, n1, n2, n3,
    decide_True, decide_False, if_true, if_false, Bool.false_eq_true]
  have c0 : ((0 - 0) ^ 2 + (0 - 0) ^ 2 ≤ (w - 0) ^ 2 + (0 - 0) ^ 2) = True :=
    eq_true (by nlinarith)
  simp only [sortByKey, List.foldl_cons, List.foldl_nil, insertByKey, c0, if_true, if_false]

/-- The nodes on wall 1 of the rectangle, sorted from its first end. -/
theorem rect_points_1 {w h : ℚ} (hw : 1 / 10000 ≤ w) (hh : 1 / 10000 ≤ h) :
    sortByKey (fun q => (q.x - w) ^ 2 + (q.y - 0) ^ 2)
        (List.filter (fun q => decide (pointToSegmentDistanceSq q.x q.y w 0 w h
            < EPSILON ^ 2))
          [⟨0, 0⟩, ⟨w, 0⟩, ⟨w, h⟩, ⟨0, h⟩]) =
      [⟨w, 0⟩, ⟨w, h⟩] := by
  have n0 := @far_left 0 0 w 0 w h (by linarith) (by linarith)
  have n1 := @near_vertical w 0 0 h (by linarith) (by linarith)
  have n2 := @near_vertical w h 0 h (by linarith) (by linarith)
  have n3 := @far_left 0 h w 0 w h (by linarith) (by linarith)
  simp only [List.filter_cons, List.filter_nil, n0, n1, n2, n3,
    decide_True, decide_False, if_true, if_false, Bool.false_eq_true]
  have c0 : ((w - w) ^ 2 + (0 - 0) ^ 2 ≤ (w - w) ^ 2 + (h - 0) ^ 2) = True :=
    eq_true (by nlinarith)
  simp only [sortByKey, List.foldl_cons, List.foldl_nil, insertByKey, c0, if_true, if_false]

/-- The nodes on wall 2 of the rectangle, sorted from its first end. -/
theorem rect_points_2 {w h : ℚ} (hw : 1 / 10000 ≤ w) (hh : 1 / 10000 ≤ h) :
    sortByKey (fun q => (q.x - w) ^ 2 + (q.y - h) ^ 2)
        (List.filter (fun q => decide (pointToSegmentDistanceSq q.x q.y w h 0 h
            < EPSILON ^ 2))
          [⟨0, 0⟩, ⟨w, 0⟩, ⟨w, h⟩, ⟨0, h⟩]) =
      [⟨w, h⟩, ⟨0, h⟩] := by
  have n0 := @far_below 0 0 w h 0 h (by linarith) (by linarith)
  have n1 := @far_below w 0 w h 0 h (by linarith) (by linarith)
  have n2 := @near_horizontal_rev w h w 0 (by linarith) (by linarith)
  have n3 := @near_horizontal_rev 0 h w 0 (by linarith) (by linarith)
  simp only [List.filter_cons, List.filter_nil, n0, n1, n2, n3,
    decide_True, decide_False, if_true, if_false, Bool.false_eq_true]
  have c0 : ((w - w) ^ 2 + (h - h) ^ 2 ≤ (0 - w) ^ 2 + (h - h) ^ 2) = True :=
    eq_true (by nlinarith)
  simp only [sortByKey, List.foldl_cons, List.foldl_nil, insertByKey, c0, if_true, if_false]

/-- The nodes on wall 3 of the rectangle, sorted from its first end. -/
theorem rect_points_3 {w h : ℚ} (hw : 1 / 10000 ≤ w) (hh : 1 / 10000 ≤ h) :
    sortByKey (fun q => (q.x - 0) ^ 2 + (q.y - h) ^ 2)
        (List.filter (fun q => decide (pointToSegmentDistanceSq q.x q.y 0 h 0 0
            < EPSILON ^ 2))
          [⟨0, 0⟩, ⟨w, 0⟩, ⟨w, h⟩, ⟨0, h⟩]) =
      [⟨0, h⟩, ⟨0, 0⟩] := by
  have n0 := @near_vertical_rev 0 0 h 0 (by linarith) (by linarith)
  have n1 := @far_right w 0 0 h 0 0 (by linarith) (by linarith)
  have n2 := @far_right w h 0 h 0 0 (by linarith) (by linarith)
  have n3 := @near_vertical_rev 0 h h 0 (by linarith) (by linarith)
  simp only [List.filter_cons, List.filter_nil, n0, n1, n2, n3,
    decide_True, decide_False, if_true, if_false, Bool.false_eq_true]
  have c0 : ((0 - 0) ^ 2 + (0 - h) ^ 2 ≤ (0 - 0) ^ 2 + (h - h) ^ 2) = False :=
    eq_false (not_le.mpr (by nlinarith))
  simp only [sortByKey, List.foldl_cons, List.foldl_nil, insertByKey, c0, if_true, if_false]

/-- The graph built for the rectangle. -/
theorem rect_graph {w h : ℚ} (hw : 1 / 10000 ≤ w) (hh : 1 / 10000 ≤ h) :
    buildGraph (rectWalls w h) = (rectNodes w h, rectEdges w h) := by
  obtain ⟨k01, k02, k03, k12, k13, k23⟩ := rect_keys_ne hw hh
  have s0 : assembleWallEdges ⟨0, 0, w, 0⟩
      (pointsOnWall [(pointKey ⟨0, 0⟩, ⟨0, 0, []⟩), (pointKey ⟨w, 0⟩, ⟨w, 0, []⟩),
                       (pointKey ⟨w, h⟩, ⟨w, h, []⟩), (pointKey ⟨0, h⟩, ⟨0, h, []⟩)]
        ⟨0, 0, w, 0⟩)
      ([(pointKey ⟨0, 0⟩, ⟨0, 0, []⟩), (pointKey ⟨w, 0⟩, ⟨w, 0, []⟩),
        (pointKey ⟨w, h⟩, ⟨w, h, []⟩), (pointKey ⟨0, h⟩, ⟨0, h, []⟩)],
        []) =
      ([(pointKey ⟨0, 0⟩, ⟨0, 0, [⟨0, 1, ⟨0, 0, w, 0⟩⟩]⟩),
        (pointKey ⟨w, 0⟩, ⟨w, 0, [⟨0, 1, ⟨0, 0, w, 0⟩⟩]⟩), (pointKey ⟨w, h⟩, ⟨w, h, []⟩),
        (pointKey ⟨0, h⟩, ⟨0, h, []⟩)],
        [⟨0, 1, ⟨0, 0, w, 0⟩⟩]) := by
    rw [pointsOnWall_of_coords]
    simp only [nodeCoords, List.map_cons, List.map_nil]
    rw [rect_points_0 hw hh]
    rw [assembleWallEdges_cons_cons _ _ _ _ _ _ (not_close_of_x (Or.inl (by linarith)))
      findIdx_key_head (by simp only [List.length_cons, List.length_nil]; omega)
      (by rw [findIdx_key_tail k01, findIdx_key_head]) (by simp only [List.length_cons, List.length_nil]; omega)]
    simp only [pushEdge, List.modify_succ_cons, List.modify_zero_cons, List.nil_append,
      List.cons_append]
    rw [assembleWallEdges_singleton]
  have s1 : assembleWallEdges ⟨w, 0, w, h⟩
      (pointsOnWall [(pointKey ⟨0, 0⟩, ⟨0, 0, [⟨0, 1, ⟨0, 0, w, 0⟩⟩]⟩),
                       (pointKey ⟨w, 0⟩, ⟨w, 0, [⟨0, 1, ⟨0, 0, w, 0⟩⟩]⟩),
                       (pointKey ⟨w, h⟩, ⟨w, h, []⟩), (pointKey ⟨0, h⟩, ⟨0, h, []⟩)]
        ⟨w, 0, w, h⟩)
      ([(pointKey ⟨0, 0⟩, ⟨0, 0, [⟨0, 1, ⟨0, 0, w, 0⟩⟩]⟩),
        (pointKey ⟨w, 0⟩, ⟨w, 0, [⟨0, 1, ⟨0, 0, w, 0⟩⟩]⟩), (pointKey ⟨w, h⟩, ⟨w, h, []⟩),
        (pointKey ⟨0, h⟩, ⟨0, h, []⟩)],
        [⟨0, 1, ⟨0, 0, w, 0⟩⟩]) =
      ([(pointKey ⟨0, 0⟩, ⟨0, 0, [⟨0, 1, ⟨0, 0, w, 0⟩⟩]⟩),
        (pointKey ⟨w, 0⟩, ⟨w, 0, [⟨0, 1, ⟨0, 0, w, 0⟩⟩, ⟨1, 2, ⟨w, 0, w, h⟩⟩]⟩),
        (pointKey ⟨w, h⟩, ⟨w, h, [⟨1, 2, ⟨w, 0, w, h⟩⟩]⟩), (pointKey ⟨0, h⟩, ⟨0, h, []⟩)],
        [⟨0, 1, ⟨0, 0, w, 0⟩⟩, ⟨1, 2, ⟨w, 0, w, h⟩⟩]) := by
    rw [pointsOnWall_of_coords]
    simp only [nodeCoords, List.map_cons, List.map_nil]
    rw [rect_points_1 hw hh]
    rw [assembleWallEdges_cons_cons _ _ _ _ _ _ (not_close_of_y (Or.inl (by linarith)))
      (by rw [findIdx_key_tail k01, findIdx_key_head]) (by simp only [List.length_cons, List.length_nil]; omega)
      (by rw [findIdx_key_tail k02, findIdx_key_tail k12, findIdx_key_head]) (by simp only [List.length_cons, List.length_nil]; omega)]
    simp only [pushEdge, List.modify_succ_cons, List.modify_zero_cons, List.nil_append,
      List.cons_append]
    rw [assembleWallEdges_singleton]
  have s2 : assembleWallEdges ⟨w, h, 0, h⟩
      (pointsOnWall [(pointKey ⟨0, 0⟩, ⟨0, 0, [⟨0, 1, ⟨0, 0, w, 0⟩⟩]⟩),
                       (pointKey ⟨w, 0⟩, ⟨w, 0, [⟨0, 1, ⟨0, 0, w, 0⟩⟩, ⟨1, 2, ⟨w, 0, w, h⟩⟩]⟩),
                       (pointKey ⟨w, h⟩, ⟨w, h, [⟨1, 2, ⟨w, 0, w, h⟩⟩]⟩),
                       (pointKey ⟨0, h⟩, ⟨0, h, []⟩)]
        ⟨w, h, 0, h⟩)
      ([(pointKey ⟨0, 0⟩, ⟨0, 0, [⟨0, 1, ⟨0, 0, w, 0⟩⟩]⟩),
        (pointKey ⟨w, 0⟩, ⟨w, 0, [⟨0, 1, ⟨0, 0, w, 0⟩⟩, ⟨1, 2, ⟨w, 0, w, h⟩⟩]⟩),
        (pointKey ⟨w, h⟩, ⟨w, h, [⟨1, 2, ⟨w, 0, w, h⟩⟩]⟩), (pointKey ⟨0, h⟩, ⟨0, h, []⟩)],
        [⟨0, 1, ⟨0, 0, w, 0⟩⟩, ⟨1, 2, ⟨w, 0, w, h⟩⟩]) =
      ([(pointKey ⟨0, 0⟩, ⟨0, 0, [⟨0, 1, ⟨0, 0, w, 0⟩⟩]⟩),
        (pointKey ⟨w, 0⟩, ⟨w, 0, [⟨0, 1, ⟨0, 0, w, 0⟩⟩, ⟨1, 2, ⟨w, 0, w, h⟩⟩]⟩),
        (pointKey ⟨w, h⟩, ⟨w, h, [⟨1, 2, ⟨w, 0, w, h⟩⟩, ⟨2, 3, ⟨w, h, 0, h⟩⟩]⟩),
        (pointKey ⟨0, h⟩, ⟨0, h, [⟨2, 3, ⟨w, h, 0, h⟩⟩]⟩)],
        [⟨0, 1, ⟨0, 0, w, 0⟩⟩, ⟨1, 2, ⟨w, 0, w, h⟩⟩, ⟨2, 3, ⟨w, h, 0, h⟩⟩]) := by
    rw [pointsOnWall_of_coords]
    simp only [nodeCoords, List.map_cons, List.map_nil]
    rw [rect_points_2 hw hh]
    rw [assembleWallEdges_cons_cons _ _ _ _ _ _ (not_close_of_x (Or.inr (by linarith)))
      (by rw [findIdx_key_tail k02, findIdx_key_tail k12, findIdx_key_head]) (by simp only [List.length_cons, List.length_nil]; omega)
      (by rw [findIdx_key_tail k03, findIdx_key_tail k13, findIdx_key_tail k23, findIdx_key_head]) (by simp only [List.length_cons, List.length_nil]; omega)]
    simp only [pushEdge, List.modify_succ_cons, List.modify_zero_cons, List.nil_append,
      List.cons_append]
    rw [assembleWallEdges_singleton]
  have s3 : assembleWallEdges ⟨0, h, 0, 0⟩
      (pointsOnWall [(pointKey ⟨0, 0⟩, ⟨0, 0, [⟨0, 1, ⟨0, 0, w, 0⟩⟩]⟩),
                       (pointKey ⟨w, 0⟩, ⟨w, 0, [⟨0, 1, ⟨0, 0, w, 0⟩⟩, ⟨1, 2, ⟨w, 0, w, h⟩⟩]⟩),
                       (pointKey ⟨w, h⟩, ⟨w, h, [⟨1, 2, ⟨w, 0, w, h⟩⟩, ⟨2, 3, ⟨w, h, 0, h⟩⟩]⟩),
                       (pointKey ⟨0, h⟩, ⟨0, h, [⟨2, 3, ⟨w, h, 0, h⟩⟩]⟩)]
        ⟨0, h, 0, 0⟩)
      ([(pointKey ⟨0, 0⟩, ⟨0, 0, [⟨0, 1, ⟨0, 0, w, 0⟩⟩]⟩),
        (pointKey ⟨w, 0⟩, ⟨w, 0, [⟨0, 1, ⟨0, 0, w, 0⟩⟩, ⟨1, 2, ⟨w, 0, w, h⟩⟩]⟩),
        (pointKey ⟨w, h⟩, ⟨w, h, [⟨1, 2, ⟨w, 0, w, h⟩⟩, ⟨2, 3, ⟨w, h, 0, h⟩⟩]⟩),
        (pointKey ⟨0, h⟩, ⟨0, h, [⟨2, 3, ⟨w, h, 0, h⟩⟩]⟩)],
        [⟨0, 1, ⟨0, 0, w, 0⟩⟩, ⟨1, 2, ⟨w, 0, w, h⟩⟩, ⟨2, 3, ⟨w, h, 0, h⟩⟩]) =
      ([(pointKey ⟨0, 0⟩, ⟨0, 0, [⟨0, 1, ⟨0, 0, w, 0⟩⟩, ⟨3, 0, ⟨0, h, 0, 0⟩⟩]⟩),
        (pointKey ⟨w, 0⟩, ⟨w, 0, [⟨0, 1, ⟨0, 0, w, 0⟩⟩, ⟨1, 2, ⟨w, 0, w, h⟩⟩]⟩),
        (pointKey ⟨w, h⟩, ⟨w, h, [⟨1, 2, ⟨w, 0, w, h⟩⟩, ⟨2, 3, ⟨w, h, 0, h⟩⟩]⟩),
        (pointKey ⟨0, h⟩, ⟨0, h, [⟨2, 3, ⟨w, h, 0, h⟩⟩, ⟨3, 0, ⟨0, h, 0, 0⟩⟩]⟩)],
        [⟨0, 1, ⟨0, 0, w, 0⟩⟩, ⟨1, 2, ⟨w, 0, w, h⟩⟩, ⟨2, 3, ⟨w, h, 0, h⟩⟩, ⟨3, 0, ⟨0, h, 0, 0⟩⟩]) := by
    rw [pointsOnWall_of_coords]
    simp only [nodeCoords, List.map_cons, List.map_nil]
    rw [rect_points_3 hw hh]
    rw [assembleWallEdges_cons_cons _ _ _ _ _ _ (not_close_of_y (Or.inr (by linarith)))
      (by rw [findIdx_key_tail k03, findIdx_key_tail k13, findIdx_key_tail k23, findIdx_key_head]) (by simp only [List.length_cons, List.length_nil]; omega)
      findIdx_key_head (by simp only [List.length_cons, List.length_nil]; omega)]
    simp only [pushEdge, List.modify_succ_cons, List.modify_zero_cons, List.nil_append,
      List.cons_append]
    rw [assembleWallEdges_singleton]
  unfold buildGraph
  rw [rect_registered hw hh, rect_intersections w h]
  unfold assembleEdges
  simp only [rectWalls, rectSide, List.foldl_cons, List.foldl_nil]
  rw [s0, s1, s2, s3]
  rfl

/-! ## The graph of two adjacent cells -/

/-- The corners of the two adjacent cells have pairwise different keys. -/
theorem twoCell_keys_ne {a b h : ℚ} (ha : 1 ≤ a) (hb : 1 ≤ b) (hh : 1 ≤ h) :
    pointKey ⟨0, 0⟩ ≠ pointKey ⟨0, h⟩ ∧
    pointKey ⟨0, 0⟩ ≠ pointKey ⟨a, 0⟩ ∧
    pointKey ⟨0, 0⟩ ≠ pointKey ⟨a, h⟩ ∧
    pointKey ⟨0, 0⟩ ≠ pointKey ⟨a + b, 0⟩ ∧
    pointKey ⟨0, 0⟩ ≠ pointKey ⟨a + b, h⟩ ∧
    pointKey ⟨0, h⟩ ≠ pointKey ⟨a, 0⟩ ∧
    pointKey ⟨0, h⟩ ≠ pointKey ⟨a, h⟩ ∧
    pointKey ⟨0, h⟩ ≠ pointKey ⟨a + b, 0⟩ ∧
    pointKey ⟨0, h⟩ ≠ pointKey ⟨a + b, h⟩ ∧
    pointKey ⟨a, 0⟩ ≠ pointKey ⟨a, h⟩ ∧
    pointKey ⟨a, 0⟩ ≠ pointKey ⟨a + b, 0⟩ ∧
    pointKey ⟨a, 0⟩ ≠ pointKey ⟨a + b, h⟩ ∧
    pointKey ⟨a, h⟩ ≠ pointKey ⟨a + b, 0⟩ ∧
    pointKey ⟨a, h⟩ ≠ pointKey ⟨a + b, h⟩ ∧
    pointKey ⟨a + b, 0⟩ ≠ pointKey ⟨a + b, h⟩ :=
  ⟨pointKey_ne_of_y (Or.inl (by linarith)),
    pointKey_ne_of_x (Or.inl (by linarith)),
    pointKey_ne_of_x (Or.inl (by linarith)),
    pointKey_ne_of_x (Or.inl (by linarith)),
    pointKey_ne_of_x (Or.inl (by linarith)),
    pointKey_ne_of_x (Or.inl (by linarith)),
    pointKey_ne_of_x (Or.inl (by linarith)),
    pointKey_ne_of_x (Or.inl (by linarith)),
    pointKey_ne_of_x (Or.inl (by linarith)),
    pointKey_ne_of_y (Or.inl (by linarith)),
    pointKey_ne_of_x (Or.inl (by linarith)),
    pointKey_ne_of_x (Or.inl (by linarith)),
    pointKey_ne_of_x (Or.inl (by linarith)),
    pointKey_ne_of_x (Or.inl (by linarith)),
    pointKey_ne_of_y (Or.inl (by linarith))⟩

/-- The nodes registered for the two adjacent cells: the endpoints of the walls. -/
theorem twoCell_registered {a b h : ℚ} (ha : 1 ≤ a) (hb : 1 ≤ b) (hh : 1 ≤ h) :
    registerEndpoints (twoCellWalls a b h) [] =
      [(pointKey ⟨0, 0⟩, ⟨0, 0, []⟩), (pointKey ⟨0, h⟩, ⟨0, h, []⟩),
       (pointKey ⟨a, 0⟩, ⟨a, 0, []⟩), (pointKey ⟨a, h⟩, ⟨a, h, []⟩),
       (pointKey ⟨a + b, 0⟩, ⟨a + b, 0, []⟩), (pointKey ⟨a + b, h⟩, ⟨a + b, h, []⟩)] := by
  obtain ⟨k01, k02, k03, k04, k05, k12, k13, k14, k15, k23, k24, k25, k34, k35, k45⟩ := twoCell_keys_ne ha hb hh
  simp only [twoCellWalls]
  rw [registerEndpoints_cons]
  simp only [getOrCreateNode_fst_of_mem, getOrCreateNode_fst_of_not_mem, nodeKeys,
    List.map_cons, List.map_nil, List.mem_cons, List.not_mem_nil, List.nil_append,
    List.cons_append, k01, k02, k03, k04, k05, k12, k13, k14, k15, k23, k24, k25, k34, k35, k45, k01.symm,
    k02.symm, k03.symm, k04.symm, k05.symm, k12.symm, k13.symm, k14.symm, k15.symm, k23.symm,
    k24.symm, k25.symm, k34.symm, k35.symm, k45.symm,
    or_false, or_true, true_or, false_or, not_false_eq_true, not_true_eq_false]
  rw [registerEndpoints_cons]
  simp only [getOrCreateNode_fst_of_mem, getOrCreateNode_fst_of_not_mem, nodeKeys,
    List.map_cons, List.map_nil, List.mem_cons, List.not_mem_nil, List.nil_append,
    List.cons_append, k01, k02, k03, k04, k05, k12, k13, k14, k15, k23, k24, k25, k34, k35, k45, k01.symm,
    k02.symm, k03.symm, k04.symm, k05.symm, k12.symm, k13.symm, k14.symm, k15.symm, k23.symm,
    k24.symm, k25.symm, k34.symm, k35.symm, k45.symm,
    or_false, or_true, true_or, false_or, not_false_eq_true, not_true_eq_false]
  rw [registerEndpoints_cons]
  simp only [getOrCreateNode_fst_of_mem, getOrCreateNode_fst_of_not_mem, nodeKeys,
    List.map_cons, List.map_nil, List.mem_cons, List.not_mem_nil, List.nil_append,
    List.cons_append, k01, k02, k03, k04, k05, k12, k13, k14, k15, k23, k24, k25, k34, k35, k45, k01.symm,
    k02.symm, k03.symm, k04.symm, k05.symm, k12.symm, k13.symm, k14.symm, k15.symm, k23.symm,
    k24.symm, k25.symm, k34.symm, k35.symm, k45.symm,
    or_false, or_true, true_or, false_or, not_false_eq_true, not_true_eq_false]
  rw [registerEndpoints_cons]
  simp only [getOrCreateNode_fst_of_mem, getOrCreateNode_fst_of_not_mem, nodeKeys,
    List.map_cons, List.map_nil, List.mem_cons, List.not_mem_nil, List.nil_append,
    List.cons_append, k01, k02, k03, k04, k05, k12, k13, k14, k15, k23, k24, k25, k34, k35, k45, k01.symm,
    k02.symm, k03.symm, k04.symm, k05.symm, k12.symm, k13.symm, k14.symm, k15.symm, k23.symm,
    k24.symm, k25.symm, k34.symm, k35.symm, k45.symm,
    or_false, or_true, true_or, false_or, not_false_eq_true, not_true_eq_false]
  rw [registerEndpoints_cons]
  simp only [getOrCreateNode_fst_of_mem, getOrCreateNode_fst_of_not_mem, nodeKeys,
    List.map_cons, List.map_nil, List.mem_cons, List.not_mem_nil, List.nil_append,
    List.cons_append, k01, k02, k03, k04, k05, k12, k13, k14, k15, k23, k24, k25, k34, k35, k45, k01.symm,
    k02.symm, k03.symm, k04.symm, k05.symm, k12.symm, k13.symm, k14.symm, k15.symm, k23.symm,
    k24.symm, k25.symm, k34.symm, k35.symm, k45.symm,
    or_false, or_true, true_or, false_or, not_false_eq_true, not_true_eq_false]
  rw [registerEndpoints_cons]
  simp only [getOrCreateNode_fst_of_mem, getOrCreateNode_fst_of_not_mem, nodeKeys,
    List.map_cons, List.map_nil, List.mem_cons, List.not_mem_nil, List.nil_append,
    List.cons_append, k01, k02, k03, k04, k05, k12, k13, k14, k15, k23, k24, k25, k34, k35, k45, k01.symm,
    k02.symm, k03.symm, k04.symm, k05.symm, k12.symm, k13.symm, k14.symm, k15.symm, k23.symm,
    k24.symm, k25.symm, k34.symm, k35.symm, k45.symm,
    or_false, or_true, true_or, false_or, not_false_eq_true, not_true_eq_false]
  rfl

/-- The intersection pass adds no node for the two adjacent cells: two walls meet in endpoints only. -/
theorem twoCell_intersections (a b h : ℚ) :
    registerIntersections (twoCellWalls a b h)
        [(pointKey ⟨0, 0⟩, ⟨0, 0, []⟩), (pointKey ⟨0, h⟩, ⟨0, h, []⟩),
         (pointKey ⟨a, 0⟩, ⟨a, 0, []⟩), (pointKey ⟨a, h⟩, ⟨a, h, []⟩),
         (pointKey ⟨a + b, 0⟩, ⟨a + b, 0, []⟩), (pointKey ⟨a + b, h⟩, ⟨a + b, h, []⟩)] =
      [(pointKey ⟨0, 0⟩, ⟨0, 0, []⟩), (pointKey ⟨0, h⟩, ⟨0, h, []⟩),
       (pointKey ⟨a, 0⟩, ⟨a, 0, []⟩), (pointKey ⟨a, h⟩, ⟨a, h, []⟩),
       (pointKey ⟨a + b, 0⟩, ⟨a + b, 0, []⟩), (pointKey ⟨a + b, h⟩, ⟨a + b, h, []⟩)] := by
  apply registerIntersections_axis
  · intro w hw
    simp only [twoCellWalls, List.mem_cons, List.mem_singleton, List.not_mem_nil,
      or_false] at hw
    rcases hw with rfl | rfl | rfl | rfl | rfl | rfl <;> first | exact Or.inl rfl | exact Or.inr rfl
  · intro v hv u hu hvx huy
    simp only [twoCellWalls, List.mem_cons, List.mem_singleton, List.not_mem_nil,
      or_false] at hv hu
    rcases hv with rfl | rfl | rfl | rfl | rfl | rfl <;> rcases hu with rfl | rfl | rfl | rfl | rfl | rfl <;>
      simp only [] at hvx huy ⊢ <;>
      simp only [nodeKeys, List.map_cons, List.map_nil, List.mem_cons, true_or, or_true]

/-- The nodes on wall 0 of the two adjacent cells, sorted from its first end. -/
theorem twoCell_points_0 {a b h : ℚ} (ha : 1 ≤ a) (hb : 1 ≤ b) (hh : 1 ≤ h) :
    sortByKey (fun q => (q.x - 0) ^ 2 + (q.y - 0) ^ 2)
        (List.filter (fun q => decide (pointToSegmentDistanceSq q.x q.y 0 0 0 h
            < EPSILON ^ 2))
          [⟨0, 0⟩, ⟨0, h⟩, ⟨a, 0⟩, ⟨a, h⟩, ⟨a + b, 0⟩, ⟨a + b, h⟩]) =
      [⟨0, 0⟩, ⟨0, h⟩] := by
  have n0 := @near_vertical 0 0 0 h (by linarith) (by linarith)
  have n1 := @near_vertical 0 h 0 h (by linarith) (by linarith)
  have n2 := @far_right a 0 0 0 0 h (by linarith) (by linarith)
  have n3 := @far_right a h 0 0 0 h (by linarith) (by linarith)
  have n4 := @far_right (a + b) 0 0 0 0 h (by linarith) (by linarith)
  have n5 := @far_right (a + b) h 0 0 0 h (by linarith) (by linarith)
  simp only [List.filter_cons, List.filter_nil, n0, n1, n2, n3, n4, n5,
    decide_True, decide_False, if_true, if_false, Bool.false_eq_true]
  have c0 : ((0 - 0) ^ 2 + (0 - 0) ^ 2 ≤ (0 - 0) ^ 2 + (h - 0) ^ 2) = True :=
    eq_true (by nlinarith)
  simp only [sortByKey, List.foldl_cons, List.foldl_nil, insertByKey, c0, if_true, if_false]

/-- The nodes on wall 1 of the two adjacent cells, sorted from its first end. -/
theorem twoCell_points_1 {a b h : ℚ} (ha : 1 ≤ a) (hb : 1 ≤ b) (hh : 1 ≤ h) :
    sortByKey (fun q => (q.x - a) ^ 2 + (q.y - 0) ^ 2)
        (List.filter (fun q => decide (pointToSegmentDistanceSq q.x q.y a 0 a h
            < EPSILON ^ 2))
          [⟨0, 0⟩, ⟨0, h⟩, ⟨a, 0⟩, ⟨a, h⟩, ⟨a + b, 0⟩, ⟨a + b, h⟩]) =
      [⟨a, 0⟩, ⟨a, h⟩] := by
  have n0 := @far_left 0 0 a 0 a h (by linarith) (by linarith)
  have n1 := @far_left 0 h a 0 a h (by linarith) (by linarith)
  have n2 := @near_vertical a 0 0 h (by linarith) (by linarith)
  have n3 := @near_vertical a h 0 h (by linarith) (by linarith)
  have n4 := @far_right (a + b) 0 a 0 a h (by linarith) (by linarith)
  have n5 := @far_right (a + b) h a 0 a h (by linarith) (by linarith)
  simp only [List.filter_cons, List.filter_nil, n0, n1, n2, n3, n4, n5,
    decide_True, decide_False, if_true, if_false, Bool.false_eq_true]
  have c0 : ((a - a) ^ 2 + (0 - 0) ^ 2 ≤ (a - a) ^ 2 + (h - 0) ^ 2) = True :=
    eq_true (by nlinarith)
  simp only [sortByKey, List.foldl_cons, List.foldl_nil, insertByKey, c0, if_true, if_false]

/-- The nodes on wall 2 of the two adjacent cells, sorted from its first end. -/
theorem twoCell_points_2 {a b h : ℚ} (ha : 1 ≤ a) (hb : 1 ≤ b) (hh : 1 ≤ h) :
    sortByKey (fun q => (q.x - (a + b)) ^ 2 + (q.y - 0) ^ 2)
        (List.filter (fun q => decide (pointToSegmentDistanceSq q.x q.y (a + b) 0 (a + b) h
            < EPSILON ^ 2))
          [⟨0, 0⟩, ⟨0, h⟩, ⟨a, 0⟩, ⟨a, h⟩, ⟨a + b, 0⟩, ⟨a + b, h⟩]) =
      [⟨a + b, 0⟩, ⟨a + b, h⟩] := by
  have n0 := @far_left 0 0 (a + b) 0 (a + b) h (by linarith) (by linarith)
  have n1 := @far_left 0 h (a + b) 0 (a + b) h (by linarith) (by linarith)
  have n2 := @far_left a 0 (a + b) 0 (a + b) h (by linarith) (by linarith)
  have n3 := @far_left a h (a + b) 0 (a + b) h (by linarith) (by linarith)
  have n4 := @near_vertical (a + b) 0 0 h (by linarith) (by linarith)
  have n5 := @near_vertical (a + b) h 0 h (by linarith) (by linarith)
  simp only [List.filter_cons, List.filter_nil, n0, n1, n2, n3, n4, n5,
    decide_True, decide_False, if_true, if_false, Bool.false_eq_true]
  have c0 : (((a + b) - (a + b)) ^ 2 + (0 - 0) ^ 2 ≤ ((a + b) - (a + b)) ^ 2 + (h - 0) ^ 2) = True :=
    eq_true (by nlinarith)
  simp only [sortByKey, List.foldl_cons, List.foldl_nil, insertByKey, c0, if_true, if_false]

/-- The nodes on wall 3 of the two adjacent cells, sorted from its first end. -/
theorem twoCell_points_3 {a b h : ℚ} (ha : 1 ≤ a) (hb : 1 ≤ b) (hh : 1 ≤ h) :
    sortByKey (fun q => (q.x - 0) ^ 2 + (q.y - 0) ^ 2)
        (List.filter (fun q => decide (pointToSegmentDistanceSq q.x q.y 0 0 (a + b) 0
            < EPSILON ^ 2))
          [⟨0, 0⟩, ⟨0, h⟩, ⟨a, 0⟩, ⟨a, h⟩, ⟨a + b, 0⟩, ⟨a + b, h⟩]) =
      [⟨0, 0⟩, ⟨a, 0⟩, ⟨a + b, 0⟩] := by
  have n0 := @near_horizontal 0 0 0 (a + b) (by linarith) (by linarith)
  have n1 := @far_above 0 h 0 0 (a + b) 0 (by linarith) (by linarith)
  have n2 := @near_horizontal a 0 0 (a + b) (by linarith) (by linarith)
  have n3 := @far_above a h 0 0 (a + b) 0 (by linarith) (by linarith)
  have n4 := @near_horizontal (a + b) 0 0 (a + b) (by linarith) (by linarith)
  have n5 := @far_above (a + b) h 0 0 (a + b) 0 (by linarith) (by linarith)
  simp only [List.filter_cons, List.filter_nil, n0, n1, n2, n3, n4, n5,
    decide_True, decide_False, if_true, if_false, Bool.false_eq_true]
  have c0 : ((0 - 0) ^ 2 + (0 - 0) ^ 2 ≤ (a - 0) ^ 2 + (0 - 0) ^ 2) = True :=
    eq_true (by nlinarith)
  have c1 : ((0 - 0) ^ 2 + (0 - 0) ^ 2 ≤ ((a + b) - 0) ^ 2 + (0 - 0) ^ 2) = True :=
    eq_true (by nlinarith)
  have c2 : ((a - 0) ^ 2 + (0 - 0) ^ 2 ≤ ((a + b) - 0) ^ 2 + (0 - 0) ^ 2) = True :=
    eq_true (by nlinarith)
  simp only [sortByKey, List.foldl_cons, List.foldl_nil, insertByKey, c0, c1, c2, if_true, if_false]

/-- The nodes on wall 4 of the two adjacent cells, sorted from its first end. -/
theorem twoCell_points_4 {a b h : ℚ} (ha : 1 ≤ a) (hb : 1 ≤ b) (hh : 1 ≤ h) :
    sortByKey (fun q => (q.x - 0) ^ 2 + (q.y - h) ^ 2)
        (List.filter (fun q => decide (pointToSegmentDistanceSq q.x q.y 0 h a h
            < EPSILON ^ 2))
          [⟨0, 0⟩, ⟨0, h⟩, ⟨a, 0⟩, ⟨a, h⟩, ⟨a + b, 0⟩, ⟨a + b, h⟩]) =
      [⟨0, h⟩, ⟨a, h⟩] := by
  have n0 := @far_below 0 0 0 h a h (by linarith) (by linarith)
  have n1 := @near_horizontal 0 h 0 a (by linarith) (by linarith)
  have n2 := @far_below a 0 0 h a h (by linarith) (by linarith)
  have n3 := @near_horizontal a h 0 a (by linarith) (by linarith)
  have n4 := @far_below (a + b) 0 0 h a h (by linarith) (by linarith)
  have n5 := @far_right (a + b) h 0 h a h (by linarith) (by linarith)
  simp only [List.filter_cons, List.filter_nil, n0, n1, n2, n3, n4, n5,
    decide_True, decide_False, if_true, if_false, Bool.false_eq_true]
  have c0 : ((0 - 0) ^ 2 + (h - h) ^ 2 ≤ (a - 0) ^ 2 + (h - h) ^ 2) = True :=
    eq_true (by nlinarith)
  simp only [sortByKey, List.foldl_cons, List.foldl_nil, insertByKey, c0, if_true, if_false]

/-- The nodes on wall 5 of the two adjacent cells, sorted from its first end. -/
theorem twoCell_points_5 {a b h : ℚ} (ha : 1 ≤ a) (hb : 1 ≤ b) (hh : 1 ≤ h) :
    sortByKey (fun q => (q.x - a) ^ 2 + (q.y - h) ^ 2)
        (List.filter (fun q => decide (pointToSegmentDistanceSq q.x q.y a h (a + b) h
            < EPSILON ^ 2))
          [⟨0, 0⟩, ⟨0, h⟩, ⟨a, 0⟩, ⟨a, h⟩, ⟨a + b, 0⟩, ⟨a + b, h⟩]) =
      [⟨a, h⟩, ⟨a + b, h⟩] := by
  have n0 := @far_below 0 0 a h (a + b) h (by linarith) (by linarith)
  have n1 := @far_left 0 h a h (a + b) h (by linarith) (by linarith)
  have n2 := @far_below a 0 a h (a + b) h (by linarith) (by linarith)
  have n3 := @near_horizontal a h a (a + b) (by linarith) (by linarith)
  have n4 := @far_below (a + b) 0 a h (a + b) h (by linarith) (by linarith)
  have n5 := @near_horizontal (a + b) h a (a + b) (by linarith) (by linarith)
  simp only [List.filter_cons, List.filter_nil, n0, n1, n2, n3, n4, n5,
    decide_True, decide_False, if_true, if_false, Bool.false_eq_true]
  have c0 : ((a - a) ^ 2 + (h - h) ^ 2 ≤ ((a + b) - a) ^ 2 + (h - h) ^ 2) = True :=
    eq_true (by nlinarith)
  simp only [sortByKey, List.foldl_cons, List.foldl_nil, insertByKey, c0, if_true, if_false]

/-- The graph built for the two adjacent cells. -/
theorem twoCell_graph {a b h : ℚ} (ha : 1 ≤ a) (hb : 1 ≤ b) (hh : 1 ≤ h) :
    buildGraph (twoCellWalls a b h) = (twoCellNodes a b h, twoCellEdges a b h) := by
  obtain ⟨k01, k02, k03, k04, k05, k12, k13, k14, k15, k23, k24, k25, k34, k35, k45⟩ := twoCell_keys_ne ha hb hh
  have s0 : assembleWallEdges ⟨0, 0, 0, h⟩
      (pointsOnWall [(pointKey ⟨0, 0⟩, ⟨0, 0, []⟩), (pointKey ⟨0, h⟩, ⟨0, h, []⟩),
                       (pointKey ⟨a, 0⟩, ⟨a, 0, []⟩), (pointKey ⟨a, h⟩, ⟨a, h, []⟩),
                       (pointKey ⟨a + b, 0⟩, ⟨a + b, 0, []⟩),
                       (pointKey ⟨a + b, h⟩, ⟨a + b, h, []⟩)]
        ⟨0, 0, 0, h⟩)
      ([(pointKey ⟨0, 0⟩, ⟨0, 0, []⟩), (pointKey ⟨0, h⟩, ⟨0, h, []⟩),
        (pointKey ⟨a, 0⟩, ⟨a, 0, []⟩), (pointKey ⟨a, h⟩, ⟨a, h, []⟩),
        (pointKey ⟨a + b, 0⟩, ⟨a + b, 0, []⟩), (pointKey ⟨a + b, h⟩, ⟨a + b, h, []⟩)],
        []) =
      ([(pointKey ⟨0, 0⟩, ⟨0, 0, [⟨0, 1, ⟨0, 0, 0, h⟩⟩]⟩),
        (pointKey ⟨0, h⟩, ⟨0, h, [⟨0, 1, ⟨0, 0, 0, h⟩⟩]⟩), (pointKey ⟨a, 0⟩, ⟨a, 0, []⟩),
        (pointKey ⟨a, h⟩, ⟨a, h, []⟩), (pointKey ⟨a + b, 0⟩, ⟨a + b, 0, []⟩),
        (pointKey ⟨a + b, h⟩, ⟨a + b, h, []⟩)],
        [⟨0, 1, ⟨0, 0, 0, h⟩⟩]) := by
    rw [pointsOnWall_of_coords]
    simp only [nodeCoords, List.map_cons, List.map_nil]
    rw [twoCell_points_0 ha hb hh]
    rw [assembleWallEdges_cons_cons _ _ _ _ _ _ (not_close_of_y (Or.inl (by linarith)))
      findIdx_key_head (by simp only [List.length_cons, List.length_nil]; omega)
      (by rw [findIdx_key_tail k01, findIdx_key_head]) (by simp only [List.length_cons, List.length_nil]; omega)]
    simp only [pushEdge, List.modify_succ_cons, List.modify_zero_cons, List.nil_append,
      List.cons_append]
    rw [assembleWallEdges_singleton]
  have s1 : assembleWallEdges ⟨a, 0, a, h⟩
      (pointsOnWall [(pointKey ⟨0, 0⟩, ⟨0, 0, [⟨0, 1, ⟨0, 0, 0, h⟩⟩]⟩),
                       (pointKey ⟨0, h⟩, ⟨0, h, [⟨0, 1, ⟨0, 0, 0, h⟩⟩]⟩),
                       (pointKey ⟨a, 0⟩, ⟨a, 0, []⟩), (pointKey ⟨a, h⟩, ⟨a, h, []⟩),
                       (pointKey ⟨a + b, 0⟩, ⟨a + b, 0, []⟩),
                       (pointKey ⟨a + b, h⟩, ⟨a + b, h, []⟩)]
        ⟨a, 0, a, h⟩)
      ([(pointKey ⟨0, 0⟩, ⟨0, 0, [⟨0, 1, ⟨0, 0, 0, h⟩⟩]⟩),
        (pointKey ⟨0, h⟩, ⟨0, h, [⟨0, 1, ⟨0, 0, 0, h⟩⟩]⟩), (pointKey ⟨a, 0⟩, ⟨a, 0, []⟩),
        (pointKey ⟨a, h⟩, ⟨a, h, []⟩), (pointKey ⟨a + b, 0⟩, ⟨a + b, 0, []⟩),
        (pointKey ⟨a + b, h⟩, ⟨a + b, h, []⟩)],
        [⟨0, 1, ⟨0, 0, 0, h⟩⟩]) =
      ([(pointKey ⟨0, 0⟩, ⟨0, 0, [⟨0, 1, ⟨0, 0, 0, h⟩⟩]⟩),
        (pointKey ⟨0, h⟩, ⟨0, h, [⟨0, 1, ⟨0, 0, 0, h⟩⟩]⟩),
        (pointKey ⟨a, 0⟩, ⟨a, 0, [⟨2, 3, ⟨a, 0, a, h⟩⟩]⟩),
        (pointKey ⟨a, h⟩, ⟨a, h, [⟨2, 3, ⟨a, 0, a, h⟩⟩]⟩), (pointKey ⟨a + b, 0⟩, ⟨a + b, 0, []⟩),
        (pointKey ⟨a + b, h⟩, ⟨a + b, h, []⟩)],
        [⟨0, 1, ⟨0, 0, 0, h⟩⟩, ⟨2, 3, ⟨a, 0, a, h⟩⟩]) := by
    rw [pointsOnWall_of_coords]
    simp only [nodeCoords, List.map_cons, List.map_nil]
    rw [twoCell_points_1 ha hb hh]
    rw [assembleWallEdges_cons_cons _ _ _ _ _ _ (not_close_of_y (Or.inl (by linarith)))
      (by rw [findIdx_key_tail k02, findIdx_key_tail k12, findIdx_key_head]) (by simp only [List.length_cons, List.length_nil]; omega)
      (by rw [findIdx_key_tail k03, findIdx_key_tail k13, findIdx_key_tail k23, findIdx_key_head]) (by simp only [List.length_cons, List.length_nil]; omega)]
    simp only [pushEdge, List.modify_succ_cons, List.modify_zero_cons, List.nil_append,
      List.cons_append]
    rw [assembleWallEdges_singleton]
  have s2 : assembleWallEdges ⟨a + b, 0, a + b, h⟩
      (pointsOnWall [(pointKey ⟨0, 0⟩, ⟨0, 0, [⟨0, 1, ⟨0, 0, 0, h⟩⟩]⟩),
                       (pointKey ⟨0, h⟩, ⟨0, h, [⟨0, 1, ⟨0, 0, 0, h⟩⟩]⟩),
                       (pointKey ⟨a, 0⟩, ⟨a, 0, [⟨2, 3, ⟨a, 0, a, h⟩⟩]⟩),
                       (pointKey ⟨a, h⟩, ⟨a, h, [⟨2, 3, ⟨a, 0, a, h⟩⟩]⟩),
                       (pointKey ⟨a + b, 0⟩, ⟨a + b, 0, []⟩),
                       (pointKey ⟨a + b, h⟩, ⟨a + b, h, []⟩)]
        ⟨a + b, 0, a + b, h⟩)
      ([(pointKey ⟨0, 0⟩, ⟨0, 0, [⟨0, 1, ⟨0, 0, 0, h⟩⟩]⟩),
        (pointKey ⟨0, h⟩, ⟨0, h, [⟨0, 1, ⟨0, 0, 0, h⟩⟩]⟩),
        (pointKey ⟨a, 0⟩, ⟨a, 0, [⟨2, 3, ⟨a, 0, a, h⟩⟩]⟩),
        (pointKey ⟨a, h⟩, ⟨a, h, [⟨2, 3, ⟨a, 0, a, h⟩⟩]⟩), (pointKey ⟨a + b, 0⟩, ⟨a + b, 0, []⟩),
        (pointKey ⟨a + b, h⟩, ⟨a + b, h, []⟩)],
        [⟨0, 1, ⟨0, 0, 0, h⟩⟩, ⟨2, 3, ⟨a, 0, a, h⟩⟩]) =
      ([(pointKey ⟨0, 0⟩, ⟨0, 0, [⟨0, 1, ⟨0, 0, 0, h⟩⟩]⟩),
        (pointKey ⟨0, h⟩, ⟨0, h, [⟨0, 1, ⟨0, 0, 0, h⟩⟩]⟩),
        (pointKey ⟨a, 0⟩, ⟨a, 0, [⟨2, 3, ⟨a, 0, a, h⟩⟩]⟩),
        (pointKey ⟨a, h⟩, ⟨a, h, [⟨2, 3, ⟨a, 0, a, h⟩⟩]⟩),
        (pointKey ⟨a + b, 0⟩, ⟨a + b, 0, [⟨4, 5, ⟨a + b, 0, a + b, h⟩⟩]⟩),
        (pointKey ⟨a + b, h⟩, ⟨a + b, h, [⟨4, 5, ⟨a + b, 0, a + b, h⟩⟩]⟩)],
        [⟨0, 1, ⟨0, 0, 0, h⟩⟩, ⟨2, 3, ⟨a, 0, a, h⟩⟩, ⟨4, 5, ⟨a + b, 0, a + b, h⟩⟩]) := by
    rw [pointsOnWall_of_coords]
    simp only [nodeCoords, List.map_cons, List.map_nil]
    rw [twoCell_points_2 ha hb hh]
    rw [assembleWallEdges_cons_cons _ _ _ _ _ _ (not_close_of_y (Or.inl (by linarith)))
      (by rw [findIdx_key_tail k04, findIdx_key_tail k14, findIdx_key_tail k24, findIdx_key_tail k34, findIdx_key_head]) (by simp only [List.length_cons, List.length_nil]; omega)
      (by rw [findIdx_key_tail k05, findIdx_key_tail k15, findIdx_key_tail k25, findIdx_key_tail k35, findIdx_key_tail k45, findIdx_key_head]) (by simp only [List.length_cons, List.length_nil]; omega)]
    simp only [pushEdge, List.modify_succ_cons, List.modify_zero_cons, List.nil_append,
      List.cons_append]
    rw [assembleWallEdges_singleton]
  have s3 : assembleWallEdges ⟨0, 0, a + b, 0⟩
      (pointsOnWall [(pointKey ⟨0, 0⟩, ⟨0, 0, [⟨0, 1, ⟨0, 0, 0, h⟩⟩]⟩),
                       (pointKey ⟨0, h⟩, ⟨0, h, [⟨0, 1, ⟨0, 0, 0, h⟩⟩]⟩),
                       (pointKey ⟨a, 0⟩, ⟨a, 0, [⟨2, 3, ⟨a, 0, a, h⟩⟩]⟩),
                       (pointKey ⟨a, h⟩, ⟨a, h, [⟨2, 3, ⟨a, 0, a, h⟩⟩]⟩),
                       (pointKey ⟨a + b, 0⟩, ⟨a + b, 0, [⟨4, 5, ⟨a + b, 0, a + b, h⟩⟩]⟩),
                       (pointKey ⟨a + b, h⟩, ⟨a + b, h, [⟨4, 5, ⟨a + b, 0, a + b, h⟩⟩]⟩)]
        ⟨0, 0, a + b, 0⟩)
      ([(pointKey ⟨0, 0⟩, ⟨0, 0, [⟨0, 1, ⟨0, 0, 0, h⟩⟩]⟩),
        (pointKey ⟨0, h⟩, ⟨0, h, [⟨0, 1, ⟨0, 0, 0, h⟩⟩]⟩),
        (pointKey ⟨a, 0⟩, ⟨a, 0, [⟨2, 3, ⟨a, 0, a, h⟩⟩]⟩),
        (pointKey ⟨a, h⟩, ⟨a, h, [⟨2, 3, ⟨a, 0, a, h⟩⟩]⟩),
        (pointKey ⟨a + b, 0⟩, ⟨a + b, 0, [⟨4, 5, ⟨a + b, 0, a + b, h⟩⟩]⟩),
        (pointKey ⟨a + b, h⟩, ⟨a + b, h, [⟨4, 5, ⟨a + b, 0, a + b, h⟩⟩]⟩)],
        [⟨0, 1, ⟨0, 0, 0, h⟩⟩, ⟨2, 3, ⟨a, 0, a, h⟩⟩, ⟨4, 5, ⟨a + b, 0, a + b, h⟩⟩]) =
      ([(pointKey ⟨0, 0⟩, ⟨0, 0, [⟨0, 1, ⟨0, 0, 0, h⟩⟩, ⟨0, 2, ⟨0, 0, a + b, 0⟩⟩]⟩),
        (pointKey ⟨0, h⟩, ⟨0, h, [⟨0, 1, ⟨0, 0, 0, h⟩⟩]⟩),
        (pointKey ⟨a, 0⟩, ⟨a, 0, [⟨2, 3, ⟨a, 0, a, h⟩⟩, ⟨0, 2, ⟨0, 0, a + b, 0⟩⟩, ⟨2, 4, ⟨0, 0, a + b, 0⟩⟩]⟩),
        (pointKey ⟨a, h⟩, ⟨a, h, [⟨2, 3, ⟨a, 0, a, h⟩⟩]⟩),
        (pointKey ⟨a + b, 0⟩, ⟨a + b, 0, [⟨4, 5, ⟨a + b, 0, a + b, h⟩⟩, ⟨2, 4, ⟨0, 0, a + b, 0⟩⟩]⟩),
        (pointKey ⟨a + b, h⟩, ⟨a + b, h, [⟨4, 5, ⟨a + b, 0, a + b, h⟩⟩]⟩)],
        [⟨0, 1, ⟨0, 0, 0, h⟩⟩, ⟨2, 3, ⟨a, 0, a, h⟩⟩, ⟨4, 5, ⟨a + b, 0, a + b, h⟩⟩,
         ⟨0, 2, ⟨0, 0, a + b, 0⟩⟩, ⟨2, 4, ⟨0, 0, a + b, 0⟩⟩]) := by
    rw [pointsOnWall_of_coords]
    simp only [nodeCoords, List.map_cons, List.map_nil]
    rw [twoCell_points_3 ha hb hh]
    rw [assembleWallEdges_cons_cons _ _ _ _ _ _ (not_close_of_x (Or.inl (by linarith)))
      findIdx_key_head (by simp only [List.length_cons, List.length_nil]; omega)
      (by rw [findIdx_key_tail k02, findIdx_key_tail k12, findIdx_key_head]) (by simp only [List.length_cons, List.length_nil]; omega)]
    simp only [pushEdge, List.modify_succ_cons, List.modify_zero_cons, List.nil_append,
      List.cons_append]
    rw [assembleWallEdges_cons_cons _ _ _ _ _ _ (not_close_of_x (Or.inl (by linarith)))
      (by rw [findIdx_key_tail k02, findIdx_key_tail k12, findIdx_key_head]) (by simp only [List.length_cons, List.length_nil]; omega)
      (by rw [findIdx_key_tail k04, findIdx_key_tail k14, findIdx_key_tail k24, findIdx_key_tail k34, findIdx_key_head]) (by simp only [List.length_cons, List.length_nil]; omega)]
    simp only [pushEdge, List.modify_succ_cons, List.modify_zero_cons, List.nil_append,
      List.cons_append]
    rw [assembleWallEdges_singleton]
  have s4 : assembleWallEdges ⟨0, h, a, h⟩
      (pointsOnWall [(pointKey ⟨0, 0⟩, ⟨0, 0, [⟨0, 1, ⟨0, 0, 0, h⟩⟩, ⟨0, 2, ⟨0, 0, a + b, 0⟩⟩]⟩),
                       (pointKey ⟨0, h⟩, ⟨0, h, [⟨0, 1, ⟨0, 0, 0, h⟩⟩]⟩),
                       (pointKey ⟨a, 0⟩, ⟨a, 0, [⟨2, 3, ⟨a, 0, a, h⟩⟩, ⟨0, 2, ⟨0, 0, a + b, 0⟩⟩, ⟨2, 4, ⟨0, 0, a + b, 0⟩⟩]⟩),
                       (pointKey ⟨a, h⟩, ⟨a, h, [⟨2, 3, ⟨a, 0, a, h⟩⟩]⟩),
                       (pointKey ⟨a + b, 0⟩, ⟨a + b, 0, [⟨4, 5, ⟨a + b, 0, a + b, h⟩⟩, ⟨2, 4, ⟨0, 0, a + b, 0⟩⟩]⟩),
                       (pointKey ⟨a + b, h⟩, ⟨a + b, h, [⟨4, 5, ⟨a + b, 0, a + b, h⟩⟩]⟩)]
        ⟨0, h, a, h⟩)
      ([(pointKey ⟨0, 0⟩, ⟨0, 0, [⟨0, 1, ⟨0, 0, 0, h⟩⟩, ⟨0, 2, ⟨0, 0, a + b, 0⟩⟩]⟩),
        (pointKey ⟨0, h⟩, ⟨0, h, [⟨0, 1, ⟨0, 0, 0, h⟩⟩]⟩),
        (pointKey ⟨a, 0⟩, ⟨a, 0, [⟨2, 3, ⟨a, 0, a, h⟩⟩, ⟨0, 2, ⟨0, 0, a + b, 0⟩⟩, ⟨2, 4, ⟨0, 0, a + b, 0⟩⟩]⟩),
        (pointKey ⟨a, h⟩, ⟨a, h, [⟨2, 3, ⟨a, 0, a, h⟩⟩]⟩),
        (pointKey ⟨a + b, 0⟩, ⟨a + b, 0, [⟨4, 5, ⟨a + b, 0, a + b, h⟩⟩, ⟨2, 4, ⟨0, 0, a + b, 0⟩⟩]⟩),
        (pointKey ⟨a + b, h⟩, ⟨a + b, h, [⟨4, 5, ⟨a + b, 0, a + b, h⟩⟩]⟩)],
        [⟨0, 1, ⟨0, 0, 0, h⟩⟩, ⟨2, 3, ⟨a, 0, a, h⟩⟩, ⟨4, 5, ⟨a + b, 0, a + b, h⟩⟩,
         ⟨0, 2, ⟨0, 0, a + b, 0⟩⟩, ⟨2, 4, ⟨0, 0, a + b, 0⟩⟩]) =
      ([(pointKey ⟨0, 0⟩, ⟨0, 0, [⟨0, 1, ⟨0, 0, 0, h⟩⟩, ⟨0, 2, ⟨0, 0, a + b, 0⟩⟩]⟩),
        (pointKey ⟨0, h⟩, ⟨0, h, [⟨0, 1, ⟨0, 0, 0, h⟩⟩, ⟨1, 3, ⟨0, h, a, h⟩⟩]⟩),
        (pointKey ⟨a, 0⟩, ⟨a, 0, [⟨2, 3, ⟨a, 0, a, h⟩⟩, ⟨0, 2, ⟨0, 0, a + b, 0⟩⟩, ⟨2, 4, ⟨0, 0, a + b, 0⟩⟩]⟩),
        (pointKey ⟨a, h⟩, ⟨a, h, [⟨2, 3, ⟨a, 0, a, h⟩⟩, ⟨1, 3, ⟨0, h, a, h⟩⟩]⟩),
        (pointKey ⟨a + b, 0⟩, ⟨a + b, 0, [⟨4, 5, ⟨a + b, 0, a + b, h⟩⟩, ⟨2, 4, ⟨0, 0, a + b, 0⟩⟩]⟩),
        (pointKey ⟨a + b, h⟩, ⟨a + b, h, [⟨4, 5, ⟨a + b, 0, a + b, h⟩⟩]⟩)],
        [⟨0, 1, ⟨0, 0, 0, h⟩⟩, ⟨2, 3, ⟨a, 0, a, h⟩⟩, ⟨4, 5, ⟨a + b, 0, a + b, h⟩⟩,
         ⟨0, 2, ⟨0, 0, a + b, 0⟩⟩, ⟨2, 4, ⟨0, 0, a + b, 0⟩⟩, ⟨1, 3, ⟨0, h, a, h⟩⟩]) := by
    rw [pointsOnWall_of_coords]
    simp only [nodeCoords, List.map_cons, List.map_nil]
    rw [twoCell_points_4 ha hb hh]
    rw [assembleWallEdges_cons_cons _ _ _ _ _ _ (not_close_of_x (Or.inl (by linarith)))
      (by rw [findIdx_key_tail k01, findIdx_key_head]) (by simp only [List.length_cons, List.length_nil]; omega)
      (by rw [findIdx_key_tail k03, findIdx_key_tail k13, findIdx_key_tail k23, findIdx_key_head]) (by simp only [List.length_cons, List.length_nil]; omega)]
    simp only [pushEdge, List.modify_succ_cons, List.modify_zero_cons, List.nil_append,
      List.cons_append]
    rw [assembleWallEdges_singleton]
  have s5 : assembleWallEdges ⟨a, h, a + b, h⟩
      (pointsOnWall [(pointKey ⟨0, 0⟩, ⟨0, 0, [⟨0, 1, ⟨0, 0, 0, h⟩⟩, ⟨0, 2, ⟨0, 0, a + b, 0⟩⟩]⟩),
                       (pointKey ⟨0, h⟩, ⟨0, h, [⟨0, 1, ⟨0, 0, 0, h⟩⟩, ⟨1, 3, ⟨0, h, a, h⟩⟩]⟩),
                       (pointKey ⟨a, 0⟩, ⟨a, 0, [⟨2, 3, ⟨a, 0, a, h⟩⟩, ⟨0, 2, ⟨0, 0, a + b, 0⟩⟩, ⟨2, 4, ⟨0, 0, a + b, 0⟩⟩]⟩),
                       (pointKey ⟨a, h⟩, ⟨a, h, [⟨2, 3, ⟨a, 0, a, h⟩⟩, ⟨1, 3, ⟨0, h, a, h⟩⟩]⟩),
                       (pointKey ⟨a + b, 0⟩, ⟨a + b, 0, [⟨4, 5, ⟨a + b, 0, a + b, h⟩⟩, ⟨2, 4, ⟨0, 0, a + b, 0⟩⟩]⟩),
                       (pointKey ⟨a + b, h⟩, ⟨a + b, h, [⟨4, 5, ⟨a + b, 0, a + b, h⟩⟩]⟩)]
        ⟨a, h, a + b, h⟩)
      ([(pointKey ⟨0, 0⟩, ⟨0, 0, [⟨0, 1, ⟨0, 0, 0, h⟩⟩, ⟨0, 2, ⟨0, 0, a + b, 0⟩⟩]⟩),
        (pointKey ⟨0, h⟩, ⟨0, h, [⟨0, 1, ⟨0, 0, 0, h⟩⟩, ⟨1, 3, ⟨0, h, a, h⟩⟩]⟩),
        (pointKey ⟨a, 0⟩, ⟨a, 0, [⟨2, 3, ⟨a, 0, a, h⟩⟩, ⟨0, 2, ⟨0, 0, a + b, 0⟩⟩, ⟨2, 4, ⟨0, 0, a + b, 0⟩⟩]⟩),
        (pointKey ⟨a, h⟩, ⟨a, h, [⟨2, 3, ⟨a, 0, a, h⟩⟩, ⟨1, 3, ⟨0, h, a, h⟩⟩]⟩),
        (pointKey ⟨a + b, 0⟩, ⟨a + b, 0, [⟨4, 5, ⟨a + b, 0, a + b, h⟩⟩, ⟨2, 4, ⟨0, 0, a + b, 0⟩⟩]⟩),
        (pointKey ⟨a + b, h⟩, ⟨a + b, h, [⟨4, 5, ⟨a + b, 0, a + b, h⟩⟩]⟩)],
        [⟨0, 1, ⟨0, 0, 0, h⟩⟩, ⟨2, 3, ⟨a, 0, a, h⟩⟩, ⟨4, 5, ⟨a + b, 0, a + b, h⟩⟩,
         ⟨0, 2, ⟨0, 0, a + b, 0⟩⟩, ⟨2, 4, ⟨0, 0, a + b, 0⟩⟩, ⟨1, 3, ⟨0, h, a, h⟩⟩]) =
      ([(pointKey ⟨0, 0⟩, ⟨0, 0, [⟨0, 1, ⟨0, 0, 0, h⟩⟩, ⟨0, 2, ⟨0, 0, a + b, 0⟩⟩]⟩),
        (pointKey ⟨0, h⟩, ⟨0, h, [⟨0, 1, ⟨0, 0, 0, h⟩⟩, ⟨1, 3, ⟨0, h, a, h⟩⟩]⟩),
        (pointKey ⟨a, 0⟩, ⟨a, 0, [⟨2, 3, ⟨a, 0, a, h⟩⟩, ⟨0, 2, ⟨0, 0, a + b, 0⟩⟩, ⟨2, 4, ⟨0, 0, a + b, 0⟩⟩]⟩),
        (pointKey ⟨a, h⟩, ⟨a, h, [⟨2, 3, ⟨a, 0, a, h⟩⟩, ⟨1, 3, ⟨0, h, a, h⟩⟩, ⟨3, 5, ⟨a, h, a + b, h⟩⟩]⟩),
        (pointKey ⟨a + b, 0⟩, ⟨a + b, 0, [⟨4, 5, ⟨a + b, 0, a + b, h⟩⟩, ⟨2, 4, ⟨0, 0, a + b, 0⟩⟩]⟩),
        (pointKey ⟨a + b, h⟩, ⟨a + b, h, [⟨4, 5, ⟨a + b, 0, a + b, h⟩⟩, ⟨3, 5, ⟨a, h, a + b, h⟩⟩]⟩)],
        [⟨0, 1, ⟨0, 0, 0, h⟩⟩, ⟨2, 3, ⟨a, 0, a, h⟩⟩, ⟨4, 5, ⟨a + b, 0, a + b, h⟩⟩,
         ⟨0, 2, ⟨0, 0, a + b, 0⟩⟩, ⟨2, 4, ⟨0, 0, a + b, 0⟩⟩, ⟨1, 3, ⟨0, h, a, h⟩⟩,
         ⟨3, 5, ⟨a, h, a + b, h⟩⟩]) := by
    rw [pointsOnWall_of_coords]
    simp only [nodeCoords, List.map_cons, List.map_nil]
    rw [twoCell_points_5 ha hb hh]
    rw [assembleWallEdges_cons_cons _ _ _ _ _ _ (not_close_of_x (Or.inl (by linarith)))
      (by rw [findIdx_key_tail k03, findIdx_key_tail k13, findIdx_key_tail k23, findIdx_key_head]) (by simp only [List.length_cons, List.length_nil]; omega)
      (by rw [findIdx_key_tail k05, findIdx_key_tail k15, findIdx_key_tail k25, findIdx_key_tail k35, findIdx_key_tail k45, findIdx_key_head]) (by simp only [List.length_cons, List.length_nil]; omega)]
    simp only [pushEdge, List.modify_succ_cons, List.modify_zero_cons, List.nil_append,
      List.cons_append]
    rw [assembleWallEdges_singleton]
  unfold buildGraph
  rw [twoCell_registered ha hb hh, twoCell_intersections a b h]
  unfold assembleEdges
  simp only [twoCellWalls, List.foldl_cons, List.foldl_nil]
  rw [s0, s1, s2, s3, s4, s5]
  rfl

/-! ## Evaluation of the trace -/

theorem traceLoop_step {nodes : NodeMap} {startNode fuel prevNode currentNode best : Nat}
    {polygon : List Nat} (hb : bestNextNode nodes prevNode currentNode = some best)
    (hne : best ≠ startNode) :
    traceLoop nodes startNode (fuel + 1) prevNode currentNode polygon
      = traceLoop nodes startNode fuel currentNode best (polygon ++ [currentNode]) := by
  rw [traceLoop, hb]
  simp only [if_neg hne]

theorem traceLoop_close {nodes : NodeMap} {startNode fuel prevNode currentNode : Nat}
    {polygon : List Nat} (hb : bestNextNode nodes prevNode currentNode = some startNode) :
    traceLoop nodes startNode (fuel + 1) prevNode currentNode polygon
      = some (polygon ++ [currentNode], startNode) := by
  rw [traceLoop, hb]
  simp only [if_true]

/-- A candidate edge when no candidate has been seen yet. -/
theorem turnStep_first {nodes : NodeMap} {prevNode currentNode : Nat} {edge : Edge}
    (h : farNode edge currentNode ≠ prevNode) :
    turnStep nodes prevNode currentNode (none, none) edge
      = (some (farNode edge currentNode),
          some (rightTurnAngle
            ((nodeAt nodes currentNode).x - (nodeAt nodes prevNode).x)
            ((nodeAt nodes currentNode).y - (nodeAt nodes prevNode).y)
            ((nodeAt nodes (farNode edge currentNode)).x - (nodeAt nodes currentNode).x)
            ((nodeAt nodes (farNode edge currentNode)).y - (nodeAt nodes currentNode).y))) := by
  unfold turnStep
  simp only [if_neg h]

/-- The edge back to the previous node is skipped. -/
theorem turnStep_skip {nodes : NodeMap} {prevNode currentNode : Nat}
    {st : Option Nat × Option ℚ} {edge : Edge} (h : farNode edge currentNode = prevNode) :
    turnStep nodes prevNode currentNode st edge = st := by
  unfold turnStep
  simp only [if_pos h]

/-- A candidate edge whose turn is not larger than the largest turn seen does not replace
the candidate. -/
theorem turnStep_keep {nodes : NodeMap} {prevNode currentNode : Nat} {best : Option Nat}
    {m : ℚ} {edge : Edge}
    (h : rightTurnAngle
        ((nodeAt nodes currentNode).x - (nodeAt nodes prevNode).x)
        ((nodeAt nodes currentNode).y - (nodeAt nodes prevNode).y)
        ((nodeAt nodes (farNode edge currentNode)).x - (nodeAt nodes currentNode).x)
        ((nodeAt nodes (farNode edge currentNode)).y - (nodeAt nodes currentNode).y) ≤ m) :
    turnStep nodes prevNode currentNode (best, some m) edge = (best, some m) := by
  unfold turnStep
  by_cases hf : farNode edge currentNode = prevNode
  · simp only [if_pos hf]
  · simp only [if_neg hf]
    rw [if_neg (not_lt.mpr h)]

/-- A candidate edge whose turn is larger than the largest turn seen replaces the
candidate. -/
theorem turnStep_take {nodes : NodeMap} {prevNode currentNode : Nat} {best : Option Nat}
    {m : ℚ} {edge : Edge} (hf : farNode edge currentNode ≠ prevNode)
    (h : m < rightTurnAngle
        ((nodeAt nodes currentNode).x - (nodeAt nodes prevNode).x)
        ((nodeAt nodes currentNode).y - (nodeAt nodes prevNode).y)
        ((nodeAt nodes (farNode edge currentNode)).x - (nodeAt nodes currentNode).x)
        ((nodeAt nodes (farNode edge currentNode)).y - (nodeAt nodes currentNode).y)) :
    turnStep nodes prevNode currentNode (best, some m) edge
      = (some (farNode edge currentNode),
          some (rightTurnAngle
            ((nodeAt nodes currentNode).x - (nodeAt nodes prevNode).x)
            ((nodeAt nodes currentNode).y - (nodeAt nodes prevNode).y)
            ((nodeAt nodes (farNode edge currentNode)).x - (nodeAt nodes currentNode).x)
            ((nodeAt nodes (farNode edge currentNode)).y - (nodeAt nodes currentNode).y))) := by
  unfold turnStep
  simp only [if_neg hf]
  rw [if_pos h]

/-! ## Turns between axis-parallel directions -/

/-- A quarter turn with positive cross product has pseudo-angle `1`. -/
theorem rightTurnAngle_quarter_pos {inX inY outX outY : ℚ}
    (hdot : inX * outX + inY * outY = 0) (hcross : 0 < inX * outY - inY * outX) :
    rightTurnAngle inX inY outX outY = 1 := by
  have hin : ¬ (inX = 0 ∧ inY = 0) := by
    rintro ⟨h1, h2⟩
    rw [h1, h2] at hcross
    simp at hcross
  have hout : ¬ (outX = 0 ∧ outY = 0) := by
    rintro ⟨h1, h2⟩
    rw [h1, h2] at hcross
    simp at hcross
  unfold rightTurnAngle direction diamondAngle
  simp only [if_neg hin, if_neg hout, hdot]
  rw [if_pos hcross.le, if_neg (lt_irrefl 0)]
  simp

/-- A quarter turn with negative cross product has pseudo-angle `-1`. -/
theorem rightTurnAngle_quarter_neg {inX inY outX outY : ℚ}
    (hdot : inX * outX + inY * outY = 0) (hcross : inX * outY - inY * outX < 0) :
    rightTurnAngle inX inY outX outY = -1 := by
  have hin : ¬ (inX = 0 ∧ inY = 0) := by
    rintro ⟨h1, h2⟩
    rw [h1, h2] at hcross
    simp at hcross
  have hout : ¬ (outX = 0 ∧ outY = 0) := by
    rintro ⟨h1, h2⟩
    rw [h1, h2] at hcross
    simp at hcross
  unfold rightTurnAngle direction diamondAngle
  simp only [if_neg hin, if_neg hout, hdot]
  rw [if_neg (not_le.mpr hcross), if_pos le_rfl]
  rw [zero_sub, div_neg, div_self hcross.ne]

/-- Going straight on has pseudo-angle `0`. -/
theorem rightTurnAngle_straight {inX inY outX outY : ℚ}
    (hdot : 0 < inX * outX + inY * outY) (hcross : inX * outY - inY * outX = 0) :
    rightTurnAngle inX inY outX outY = 0 := by
  have hin : ¬ (inX = 0 ∧ inY = 0) := by
    rintro ⟨h1, h2⟩
    rw [h1, h2] at hdot
    simp at hdot
  have hout : ¬ (outX = 0 ∧ outY = 0) := by
    rintro ⟨h1, h2⟩
    rw [h1, h2] at hdot
    simp at hdot
  unfold rightTurnAngle direction diamondAngle
  simp only [if_neg hin, if_neg hout, hcross]
  rw [if_pos le_rfl, if_pos hdot]
  simp

/-! ## The rectangle: seed edge, trace and validation -/

/-- The seed edge of the centre of the rectangle is the edge of the right side. -/
theorem rect_seed {w h : ℚ} (hw : 1 / 10000 ≤ w) (hh : 1 / 10000 ≤ h) (hw2 : w ≤ 1000000) :
    findStartingEdge (rectNodes w h) (rectEdges w h) ⟨w / 2, h / 2⟩
      = some ⟨1, 2, ⟨w, 0, w, h⟩⟩ := by
  have h0 : findIntersection (w / 2) (h / 2) (w / 2 + 1000000) (h / 2 + 1 / 10000) 0 0 w 0
      = none := findIntersection_ray_horizontal_none (Or.inl (by linarith))
  have h1 : findIntersection (w / 2) (h / 2) (w / 2 + 1000000) (h / 2 + 1 / 10000) w 0 w h
      = some ⟨w, h / 2 + (w - w / 2) / 10000000000⟩ :=
    findIntersection_ray_vertical_up (by linarith) (by linarith) (by linarith) (by linarith)
      (by linarith)
  have t0 : seedStep (rectNodes w h) ⟨w / 2, h / 2⟩ (none, none) ⟨0, 1, ⟨0, 0, w, 0⟩⟩
      = (none, none) :=
    seedStep_of_none (by simpa [rectNodes, nodeAt] using h0)
  have t1 : seedStep (rectNodes w h) ⟨w / 2, h / 2⟩ (none, none) ⟨1, 2, ⟨w, 0, w, h⟩⟩
      = (some ⟨1, 2, ⟨w, 0, w, h⟩⟩,
          some ((w - w / 2) ^ 2 + (h / 2 + (w - w / 2) / 10000000000 - h / 2) ^ 2)) :=
    seedStep_first (by simpa [rectNodes, nodeAt] using h1)
  have t2 : seedStep (rectNodes w h) ⟨w / 2, h / 2⟩
      (some ⟨1, 2, ⟨w, 0, w, h⟩⟩,
        some ((w - w / 2) ^ 2 + (h / 2 + (w - w / 2) / 10000000000 - h / 2) ^ 2))
      ⟨2, 3, ⟨w, h, 0, h⟩⟩
      = (some ⟨1, 2, ⟨w, 0, w, h⟩⟩,
          some ((w - w / 2) ^ 2 + (h / 2 + (w - w / 2) / 10000000000 - h / 2) ^ 2)) := by
    apply seedStep_keep
    intro p hp
    simp only [rectNodes, nodeAt, List.getD_cons_succ, List.getD_cons_zero] at hp
    rw [findIntersection_horizontal_snd hp]
    simp only []
    have e1 : w / 2 + (h - h / 2) / (h / 2 + 1 / 10000 - h / 2) * (w / 2 + 1000000 - w / 2) - w / 2
        = 5000000000 * h := by
      field_simp
      ring
    rw [e1]
    have hA : (w - w / 2) ^ 2 ≤ (5000000000 * h) ^ 2 :=
      pow_le_pow_left₀ (by linarith) (by linarith) 2
    have hB : (h / 2 + (w - w / 2) / 10000000000 - h / 2) ^ 2 ≤ (h - h / 2) ^ 2 :=
      pow_le_pow_left₀ (by linarith) (by linarith) 2
    linarith
  have t3 : seedStep (rectNodes w h) ⟨w / 2, h / 2⟩
      (some ⟨1, 2, ⟨w, 0, w, h⟩⟩,
        some ((w - w / 2) ^ 2 + (h / 2 + (w - w / 2) / 10000000000 - h / 2) ^ 2))
      ⟨3, 0, ⟨0, h, 0, 0⟩⟩
      = (some ⟨1, 2, ⟨w, 0, w, h⟩⟩,
          some ((w - w / 2) ^ 2 + (h / 2 + (w - w / 2) / 10000000000 - h / 2) ^ 2)) := by
    apply seedStep_keep
    intro p hp
    simp only [rectNodes, nodeAt, List.getD_cons_succ, List.getD_cons_zero] at hp
    rw [findIntersection_vertical_snd hp]
    simp only []
    apply le_of_eq
    field_simp
    ring
  simp only [findStartingEdge, rectEdges, List.foldl_cons, List.foldl_nil, t0, t1, t2, t3]

/-- The trace starts on the upper end of the right side, coming from its lower end. -/
theorem rect_direction {w h : ℚ} (hw : 0 < w) (hh : 0 < h) :
    seedDirection (rectNodes w h) ⟨w / 2, h / 2⟩ ⟨1, 2, ⟨w, 0, w, h⟩⟩ = (1, 2) := by
  unfold seedDirection
  simp only [rectNodes, nodeAt, List.getD_cons_succ, List.getD_cons_zero]
  rw [if_pos (by nlinarith)]

theorem rect_next_1_2 (w h : ℚ) : bestNextNode (rectNodes w h) 1 2 = some 3 := by
  unfold bestNextNode
  simp only [rectNodes, nodeAt, List.getD_cons_succ, List.getD_cons_zero, List.foldl_cons,
    List.foldl_nil]
  simp (disch := (first | rfl | simp [farNode])) only [turnStep_skip, turnStep_first]
  rfl

theorem rect_next_2_3 (w h : ℚ) : bestNextNode (rectNodes w h) 2 3 = some 0 := by
  unfold bestNextNode
  simp only [rectNodes, nodeAt, List.getD_cons_succ, List.getD_cons_zero, List.foldl_cons,
    List.foldl_nil]
  simp (disch := (first | rfl | simp [farNode])) only [turnStep_skip, turnStep_first]
  rfl

theorem rect_next_3_0 (w h : ℚ) : bestNextNode (rectNodes w h) 3 0 = some 1 := by
  unfold bestNextNode
  simp only [rectNodes, nodeAt, List.getD_cons_succ, List.getD_cons_zero, List.foldl_cons,
    List.foldl_nil]
  simp (disch := (first | rfl | simp [farNode])) only [turnStep_skip, turnStep_first]
  rfl

theorem rect_next_0_1 (w h : ℚ) : bestNextNode (rectNodes w h) 0 1 = some 2 := by
  unfold bestNextNode
  simp only [rectNodes, nodeAt, List.getD_cons_succ, List.getD_cons_zero, List.foldl_cons,
    List.foldl_nil]
  simp (disch := (first | rfl | simp [farNode])) only [turnStep_skip, turnStep_first]
  rfl

/-- The trace walks once around the rectangle. -/
theorem rect_traceLoop (w h : ℚ) :
    traceLoop (rectNodes w h) 2 ((rectNodes w h).length + 1) 1 2 [] = some ([2, 3, 0, 1], 2) := by
  have hl : (rectNodes w h).length = 3 + 1 := rfl
  rw [traceLoop_step (rect_next_1_2 w h) (by decide), hl,
    traceLoop_step (rect_next_2_3 w h) (by decide),
    traceLoop_step (rect_next_3_0 w h) (by decide), traceLoop_close (rect_next_0_1 w h)]
  rfl

/-- The centre is inside the traced rectangle. -/
theorem rect_inside {w h : ℚ} (hw : 0 < w) (hh : 0 < h) :
    isPointInPolygon ⟨w / 2, h / 2⟩ [⟨w, h⟩, ⟨0, h⟩, ⟨0, 0⟩, ⟨w, 0⟩] = true := by
  have r4 : List.range 4 = [0, 1, 2, 3] := rfl
  have f1 : (h / 2 < h) = True := eq_true (by linarith)
  have f2 : (h / 2 < 0) = False := eq_false (by linarith)
  have f3 : (w / 2 < w) = True := eq_true (by linarith)
  have f4 : (w / 2 < 0) = False := eq_false (by linarith)
  unfold isPointInPolygon
  simp only [List.length_cons, List.length_nil, r4, List.foldl_cons, List.foldl_nil,
    isPointInPolygonStep, pointAt, List.getD_cons_succ, List.getD_cons_zero]
  simp [f1, f2, f3, f4]

/-- The shoelace sum of the traced rectangle is twice its area. -/
theorem rect_shoelaceSum (w h : ℚ) :
    shoelaceSum [⟨w, h⟩, ⟨0, h⟩, ⟨0, 0⟩, ⟨w, 0⟩] = 2 * (w * h) := by
  have r4 : List.range 4 = [0, 1, 2, 3] := rfl
  unfold shoelaceSum
  simp only [List.length_cons, List.length_nil, r4, List.foldl_cons, List.foldl_nil]
  simp [pointAt]
  ring

/-- The room found from the centre of the rectangle. -/
theorem rect_room {w h : ℚ} (hw : 1 / 10000 ≤ w) (hh : 1 / 10000 ≤ h) (hw2 : w ≤ 1000000) :
    findRoomFromPoint ⟨w / 2, h / 2⟩ (rectWalls w h) []
      = some ⟨[⟨w, h⟩, ⟨0, h⟩, ⟨0, 0⟩, ⟨w, 0⟩]⟩ := by
  have hw0 : 0 < w := by linarith
  have hh0 : 0 < h := by linarith
  have hroom : traceRoom (rectNodes w h) ⟨w / 2, h / 2⟩ ⟨1, 2, ⟨w, 0, w, h⟩⟩
      = some ⟨[⟨w, h⟩, ⟨0, h⟩, ⟨0, 0⟩, ⟨w, 0⟩]⟩ := by
    have hpts : polygonPoints (rectNodes w h) [2, 3, 0, 1]
        = [⟨w, h⟩, ⟨0, h⟩, ⟨0, 0⟩, ⟨w, 0⟩] := rfl
    unfold traceRoom
    simp only [rect_direction hw0 hh0, rect_traceLoop w h]
    unfold validateRoom
    simp only [hpts, rect_inside hw0 hh0]
    rw [if_neg (by simp), if_neg (by simp),
      if_neg (by rw [rect_shoelaceSum]; nlinarith)]
  unfold findRoomFromPoint
  rw [if_neg (by simp [rectWalls]), if_neg (by simp)]
  simp only [rect_graph hw hh, rect_seed hw hh hw2, hroom]

/-! ## The two adjacent cells: trace and validation -/

theorem twoCell_next_1_0 (a b h : ℚ) : bestNextNode (twoCellNodes a b h) 1 0 = some 2 := by
  unfold bestNextNode
  simp only [twoCellNodes, nodeAt, List.getD_cons_succ, List.getD_cons_zero, List.foldl_cons,
    List.foldl_nil]
  simp (disch := (first | rfl | simp [farNode])) only [turnStep_skip, turnStep_first]
  rfl

theorem twoCell_next_3_1 (a b h : ℚ) : bestNextNode (twoCellNodes a b h) 3 1 = some 0 := by
  unfold bestNextNode
  simp only [twoCellNodes, nodeAt, List.getD_cons_succ, List.getD_cons_zero, List.foldl_cons,
    List.foldl_nil]
  simp (disch := (first | rfl | simp [farNode])) only [turnStep_skip, turnStep_first]
  rfl

/-- At the foot of the shared wall the trace turns into the shared wall: going straight on
along the top wall is the smaller turn. -/
theorem twoCell_next_0_2 {a b h : ℚ} (ha : 0 < a) (hb : 0 < b) (hh : 0 < h) :
    bestNextNode (twoCellNodes a b h) 0 2 = some 3 := by
  unfold bestNextNode
  simp only [twoCellNodes, nodeAt, List.getD_cons_succ, List.getD_cons_zero, List.foldl_cons,
    List.foldl_nil]
  simp (disch := (first | rfl | simp [farNode])) only [turnStep_skip, turnStep_first]
  rw [turnStep_keep]
  · rfl
  · simp only [farNode, nodeAt, if_true, List.getD_cons_succ, List.getD_cons_zero]
    refine le_of_eq_of_le (rightTurnAngle_straight ?_ ?_)
      (le_of_le_of_eq ?_ (rightTurnAngle_quarter_pos ?_ ?_).symm)
    · nlinarith
    · ring
    · norm_num
    · ring
    · nlinarith

/-- At the head of the shared wall the trace turns along the bottom wall of the left cell:
the bottom wall of the right cell is a turn the other way. -/
theorem twoCell_next_2_3 {a b h : ℚ} (ha : 0 < a) (hb : 0 < b) (hh : 0 < h) :
    bestNextNode (twoCellNodes a b h) 2 3 = some 1 := by
  unfold bestNextNode
  simp only [twoCellNodes, nodeAt, List.getD_cons_succ, List.getD_cons_zero, List.foldl_cons,
    List.foldl_nil]
  simp (disch := (first | rfl | simp [farNode])) only [turnStep_skip, turnStep_first]
  rw [turnStep_keep]
  · rfl
  · have e13 : ((1 : ℕ) = 3) = False := by decide
    simp only [farNode, nodeAt, e13, if_true, if_false, List.getD_cons_succ,
      List.getD_cons_zero]
    refine le_of_eq_of_le (rightTurnAngle_quarter_neg ?_ ?_)
      (le_of_le_of_eq ?_ (rightTurnAngle_quarter_pos ?_ ?_).symm)
    · ring
    · nlinarith
    · norm_num
    · ring
    · nlinarith

/-- The trace from the left wall walks once around the left cell. -/
theorem twoCell_traceLoop_left {a b h : ℚ} (ha : 0 < a) (hb : 0 < b) (hh : 0 < h) :
    traceLoop (twoCellNodes a b h) 0 ((twoCellNodes a b h).length + 1) 1 0 []
      = some ([0, 2, 3, 1], 0) := by
  have hl : (twoCellNodes a b h).length = 5 + 1 := rfl
  rw [traceLoop_step (twoCell_next_1_0 a b h) (by decide), hl,
    traceLoop_step (twoCell_next_0_2 ha hb hh) (by decide),
    traceLoop_step (twoCell_next_2_3 ha hb hh) (by decide),
    traceLoop_close (twoCell_next_3_1 a b h)]
  rfl

/-- The trace from the shared wall walks once around the left cell. -/
theorem twoCell_traceLoop_shared {a b h : ℚ} (ha : 0 < a) (hb : 0 < b) (hh : 0 < h) :
    traceLoop (twoCellNodes a b h) 3 ((twoCellNodes a b h).length + 1) 2 3 []
      = some ([3, 1, 0, 2], 3) := by
  have hl : (twoCellNodes a b h).length = 5 + 1 := rfl
  rw [traceLoop_step (twoCell_next_2_3 ha hb hh) (by decide), hl,
    traceLoop_step (twoCell_next_3_1 a b h) (by decide),
    traceLoop_step (twoCell_next_1_0 a b h) (by decide),
    traceLoop_close (twoCell_next_0_2 ha hb hh)]
  rfl

/-- The trace from the left wall starts on its upper end, coming from its lower end. -/
theorem twoCell_direction_left {a b h : ℚ} (ha : 0 < a) (hh : 0 < h) :
    seedDirection (twoCellNodes a b h) ⟨a / 2, h / 2⟩ ⟨0, 1, ⟨0, 0, 0, h⟩⟩ = (1, 0) := by
  unfold seedDirection
  simp only [twoCellNodes, nodeAt, List.getD_cons_succ, List.getD_cons_zero]
  rw [if_neg (by nlinarith)]

/-- The trace from the shared wall starts on its lower end, coming from its upper end. -/
theorem twoCell_direction_shared {a b h : ℚ} (ha : 0 < a) (hh : 0 < h) :
    seedDirection (twoCellNodes a b h) ⟨a / 2, h / 2⟩ ⟨2, 3, ⟨a, 0, a, h⟩⟩ = (2, 3) := by
  unfold seedDirection
  simp only [twoCellNodes, nodeAt, List.getD_cons_succ, List.getD_cons_zero]
  rw [if_pos (by nlinarith)]

/-- The centre of the left cell is inside the polygon traced from the left wall. -/
theorem twoCell_inside {a h : ℚ} (ha : 0 < a) (hh : 0 < h) :
    isPointInPolygon ⟨a / 2, h / 2⟩ [⟨0, 0⟩, ⟨a, 0⟩, ⟨a, h⟩, ⟨0, h⟩] = true := by
  have r4 : List.range 4 = [0, 1, 2, 3] := rfl
  have f1 : (h / 2 < h) = True := eq_true (by linarith)
  have f2 : (h / 2 < 0) = False := eq_false (by linarith)
  have f3 : (a / 2 < a) = True := eq_true (by linarith)
  have f4 : (a / 2 < 0) = False := eq_false (by linarith)
  unfold isPointInPolygon
  simp only [List.length_cons, List.length_nil, r4, List.foldl_cons, List.foldl_nil,
    isPointInPolygonStep, pointAt, List.getD_cons_succ, List.getD_cons_zero]
  simp [f1, f2, f3, f4]

/-- The shoelace sum of the polygon traced from the left wall is twice the cell area. -/
theorem twoCell_shoelaceSum (a h : ℚ) :
    shoelaceSum [⟨0, 0⟩, ⟨a, 0⟩, ⟨a, h⟩, ⟨0, h⟩] = 2 * (a * h) := by
  have r4 : List.range 4 = [0, 1, 2, 3] := rfl
  unfold shoelaceSum
  simp only [List.length_cons, List.length_nil, r4, List.foldl_cons, List.foldl_nil]
  simp [pointAt]
  ring

/-! ## The two adjacent cells: seed edge -/

/-- The edges after the first two do not replace a seed edge that the ray meets no farther
away than it meets the shared wall. -/
theorem twoCell_seed_tail {a b h : ℚ} (ha : 1 ≤ a) (hb : 1 ≤ b) (hh : 1 ≤ h) (seed : Option Edge)
    {m : ℚ} (hm : m ≤ (a / 2) ^ 2 + (a / 2 / 10000000000) ^ 2) :
    List.foldl (seedStep (twoCellNodes a b h) ⟨a / 2, h / 2⟩) (seed, some m)
      [⟨4, 5, ⟨a + b, 0, a + b, h⟩⟩, ⟨0, 2, ⟨0, 0, a + b, 0⟩⟩, ⟨2, 4, ⟨0, 0, a + b, 0⟩⟩,
        ⟨1, 3, ⟨0, h, a, h⟩⟩, ⟨3, 5, ⟨a, h, a + b, h⟩⟩] = (seed, some m) := by
  have t2 : seedStep (twoCellNodes a b h) ⟨a / 2, h / 2⟩ (seed, some m)
      ⟨4, 5, ⟨a + b, 0, a + b, h⟩⟩ = (seed, some m) := by
    apply seedStep_keep
    intro p hp
    simp only [twoCellNodes, nodeAt, List.getD_cons_succ, List.getD_cons_zero] at hp
    rw [findIntersection_vertical_snd hp]
    simp only []
    have e1 : h / 2 + (a + b - a / 2) / (a / 2 + 1000000 - a / 2) * (h / 2 + 1 / 10000 - h / 2)
        - h / 2 = (a / 2 + b) / 10000000000 := by
      field_simp
      ring
    rw [e1]
    have hA : (a / 2) ^ 2 ≤ (a + b - a / 2) ^ 2 :=
      pow_le_pow_left₀ (by linarith) (by linarith) 2
    have hB : (a / 2 / 10000000000) ^ 2 ≤ ((a / 2 + b) / 10000000000) ^ 2 :=
      pow_le_pow_left₀ (by linarith) (by linarith) 2
    linarith
  have t3 : seedStep (twoCellNodes a b h) ⟨a / 2, h / 2⟩ (seed, some m)
      ⟨0, 2, ⟨0, 0, a + b, 0⟩⟩ = (seed, some m) :=
    seedStep_of_none (by
      simpa [twoCellNodes, nodeAt] using
        @findIntersection_ray_horizontal_none (a / 2) (h / 2) 0 a 0 (Or.inl (by linarith)))
  have t4 : seedStep (twoCellNodes a b h) ⟨a / 2, h / 2⟩ (seed, some m)
      ⟨2, 4, ⟨0, 0, a + b, 0⟩⟩ = (seed, some m) :=
    seedStep_of_none (by
      simpa [twoCellNodes, nodeAt] using
        @findIntersection_ray_horizontal_none (a / 2) (h / 2) a (a + b) 0
          (Or.inl (by linarith)))
  have t5 : seedStep (twoCellNodes a b h) ⟨a / 2, h / 2⟩ (seed, some m)
      ⟨1, 3, ⟨0, h, a, h⟩⟩ = (seed, some m) :=
    seedStep_of_none (by
      simpa [twoCellNodes, nodeAt] using
        @findIntersection_ray_horizontal_none (a / 2) (h / 2) 0 a h (Or.inr (by linarith)))
  have t6 : seedStep (twoCellNodes a b h) ⟨a / 2, h / 2⟩ (seed, some m)
      ⟨3, 5, ⟨a, h, a + b, h⟩⟩ = (seed, some m) :=
    seedStep_of_none (by
      simpa [twoCellNodes, nodeAt] using
        @findIntersection_ray_horizontal_none (a / 2) (h / 2) a (a + b) h
          (Or.inr (by linarith)))
  simp only [List.foldl_cons, List.foldl_nil, t2, t3, t4, t5, t6]

/-- In a left cell of width at most `2` the ray, which is accepted up to `1` behind its
origin, meets the left wall first in edge order and no farther away than the shared wall:
the seed edge is the left wall. -/
theorem twoCell_seed_left {a b h : ℚ} (ha : 1 ≤ a) (hb : 1 ≤ b) (hh : 1 ≤ h) (ha2 : a ≤ 2) :
    findStartingEdge (twoCellNodes a b h) (twoCellEdges a b h) ⟨a / 2, h / 2⟩
      = some ⟨0, 1, ⟨0, 0, 0, h⟩⟩ := by
  have h0 : findIntersection (a / 2) (h / 2) (a / 2 + 1000000) (h / 2 + 1 / 10000) 0 0 0 h
      = some ⟨0, h / 2 + (0 - a / 2) / 10000000000⟩ :=
    findIntersection_ray_vertical_up (by linarith) (by linarith) (by linarith) (by linarith)
      (by linarith)
  have t0 : seedStep (twoCellNodes a b h) ⟨a / 2, h / 2⟩ (none, none) ⟨0, 1, ⟨0, 0, 0, h⟩⟩
      = (some ⟨0, 1, ⟨0, 0, 0, h⟩⟩,
          some ((0 - a / 2) ^ 2 + (h / 2 + (0 - a / 2) / 10000000000 - h / 2) ^ 2)) :=
    seedStep_first (by
      simp only [twoCellNodes, nodeAt, List.getD_cons_succ, List.getD_cons_zero]
      exact h0)
  have t1 : seedStep (twoCellNodes a b h) ⟨a / 2, h / 2⟩
      (some ⟨0, 1, ⟨0, 0, 0, h⟩⟩,
        some ((0 - a / 2) ^ 2 + (h / 2 + (0 - a / 2) / 10000000000 - h / 2) ^ 2))
      ⟨2, 3, ⟨a, 0, a, h⟩⟩
      = (some ⟨0, 1, ⟨0, 0, 0, h⟩⟩,
          some ((0 - a / 2) ^ 2 + (h / 2 + (0 - a / 2) / 10000000000 - h / 2) ^ 2)) := by
    apply seedStep_keep
    intro p hp
    simp only [twoCellNodes, nodeAt, List.getD_cons_succ, List.getD_cons_zero] at hp
    rw [findIntersection_vertical_snd hp]
    simp only []
    apply le_of_eq
    field_simp
    ring
  have hm : (0 - a / 2) ^ 2 + (h / 2 + (0 - a / 2) / 10000000000 - h / 2) ^ 2
      ≤ (a / 2) ^ 2 + (a / 2 / 10000000000) ^ 2 := by
    apply le_of_eq
    ring
  unfold findStartingEdge twoCellEdges
  rw [List.foldl_cons, t0, List.foldl_cons, t1, twoCell_seed_tail ha hb hh _ hm]

/-- In a left cell wider than `2` the ray does not meet the left wall: the seed edge is the
shared wall. -/
theorem twoCell_seed_shared {a b h : ℚ} (ha : 2 < a) (hb : 1 ≤ b) (hh : 1 ≤ h)
    (ha2 : a ≤ 100000) :
    findStartingEdge (twoCellNodes a b h) (twoCellEdges a b h) ⟨a / 2, h / 2⟩
      = some ⟨2, 3, ⟨a, 0, a, h⟩⟩ := by
  have h0 : findIntersection (a / 2) (h / 2) (a / 2 + 1000000) (h / 2 + 1 / 10000) 0 0 0 h
      = none := findIntersection_ray_vertical_none (Or.inl (by linarith))
  have h1 : findIntersection (a / 2) (h / 2) (a / 2 + 1000000) (h / 2 + 1 / 10000) a 0 a h
      = some ⟨a, h / 2 + (a - a / 2) / 10000000000⟩ :=
    findIntersection_ray_vertical_up (by linarith) (by linarith) (by linarith) (by linarith)
      (by linarith)
  have t0 : seedStep (twoCellNodes a b h) ⟨a / 2, h / 2⟩ (none, none) ⟨0, 1, ⟨0, 0, 0, h⟩⟩
      = (none, none) :=
    seedStep_of_none (by simpa [twoCellNodes, nodeAt] using h0)
  have t1 : seedStep (twoCellNodes a b h) ⟨a / 2, h / 2⟩ (none, none) ⟨2, 3, ⟨a, 0, a, h⟩⟩
      = (some ⟨2, 3, ⟨a, 0, a, h⟩⟩,
          some ((a - a / 2) ^ 2 + (h / 2 + (a - a / 2) / 10000000000 - h / 2) ^ 2)) :=
    seedStep_first (by
      simp only [twoCellNodes, nodeAt, List.getD_cons_succ, List.getD_cons_zero]
      exact h1)
  have hm : (a - a / 2) ^ 2 + (h / 2 + (a - a / 2) / 10000000000 - h / 2) ^ 2
      ≤ (a / 2) ^ 2 + (a / 2 / 10000000000) ^ 2 := by
    apply le_of_eq
    ring
  unfold findStartingEdge twoCellEdges
  rw [List.foldl_cons, t0, List.foldl_cons, t1, twoCell_seed_tail (by linarith) hb hh _ hm]

/-- The room found from the centre of the left cell: the left cell, listed from the corner
`(0, 0)` when the cell is at most `2` wide and from the corner `(a, h)` otherwise. -/
theorem twoCell_room {a b h : ℚ} (ha : 1 ≤ a) (hb : 1 ≤ b) (hh : 1 ≤ h) (ha2 : a ≤ 100000) :
    findRoomFromPoint ⟨a / 2, h / 2⟩ (twoCellWalls a b h) []
      = some ⟨if a ≤ 2 then [⟨0, 0⟩, ⟨a, 0⟩, ⟨a, h⟩, ⟨0, h⟩]
          else [⟨a, h⟩, ⟨0, h⟩, ⟨0, 0⟩, ⟨a, 0⟩]⟩ := by
  have ha0 : 0 < a := by linarith
  have hb0 : 0 < b := by linarith
  have hh0 : 0 < h := by linarith
  unfold findRoomFromPoint
  rw [if_neg (by simp [twoCellWalls]), if_neg (by simp)]
  by_cases hc : a ≤ 2
  · have hroom : traceRoom (twoCellNodes a b h) ⟨a / 2, h / 2⟩ ⟨0, 1, ⟨0, 0, 0, h⟩⟩
        = some ⟨[⟨0, 0⟩, ⟨a, 0⟩, ⟨a, h⟩, ⟨0, h⟩]⟩ := by
      have hpts : polygonPoints (twoCellNodes a b h) [0, 2, 3, 1]
          = [⟨0, 0⟩, ⟨a, 0⟩, ⟨a, h⟩, ⟨0, h⟩] := rfl
      unfold traceRoom
      simp only [twoCell_direction_left ha0 hh0, twoCell_traceLoop_left ha0 hb0 hh0]
      unfold validateRoom
      simp only [hpts, twoCell_inside ha0 hh0]
      rw [if_neg (by simp), if_neg (by simp),
        if_neg (by rw [twoCell_shoelaceSum]; nlinarith)]
    simp only [twoCell_graph ha hb hh, twoCell_seed_left ha hb hh hc, hroom, if_pos hc]
  · have hroom : traceRoom (twoCellNodes a b h) ⟨a / 2, h / 2⟩ ⟨2, 3, ⟨a, 0, a, h⟩⟩
        = some ⟨[⟨a, h⟩, ⟨0, h⟩, ⟨0, 0⟩, ⟨a, 0⟩]⟩ := by
      have hpts : polygonPoints (twoCellNodes a b h) [3, 1, 0, 2]
          = [⟨a, h⟩, ⟨0, h⟩, ⟨0, 0⟩, ⟨a, 0⟩] := rfl
      unfold traceRoom
      simp only [twoCell_direction_shared ha0 hh0, twoCell_traceLoop_shared ha0 hb0 hh0]
      unfold validateRoom
      simp only [hpts, rect_inside ha0 hh0]
      rw [if_neg (by simp), if_neg (by simp),
        if_neg (by rw [rect_shoelaceSum]; nlinarith)]
    simp only [twoCell_graph ha hb hh,
      twoCell_seed_shared (not_le.mp hc) hb hh ha2, hroom, if_neg hc]

/-! ## The geometry primitives -/

/-- A segment has squared length zero exactly when its two ends are the same point. -/
theorem segment_l2_eq_zero_iff {x1 y1 x2 y2 : ℚ} :
    (x1 - x2) ^ 2 + (y1 - y2) ^ 2 = 0 ↔ x1 = x2 ∧ y1 = y2 := by
  constructor
  · intro h
    have hx : (x1 - x2) ^ 2 = 0 := by nlinarith [sq_nonneg (x1 - x2), sq_nonneg (y1 - y2)]
    have hy : (y1 - y2) ^ 2 = 0 := by nlinarith [sq_nonneg (x1 - x2), sq_nonneg (y1 - y2)]
    exact ⟨sub_eq_zero.mp (pow_eq_zero_iff (by norm_num) |>.mp hx),
      sub_eq_zero.mp (pow_eq_zero_iff (by norm_num) |>.mp hy)⟩
  · rintro ⟨rfl, rfl⟩
    simp

/-- The clamped projection parameter minimises the squared distance, a quadratic in the
parameter with leading coefficient `l2` and vertex at `D / l2`, over `[0, 1]`. -/
theorem clampedParameter_min {l2 D s : ℚ} (hl : 0 < l2) (hs0 : 0 ≤ s) (hs1 : s ≤ 1) :
    0 ≤ (s - max 0 (min 1 (D / l2))) * (l2 * (s + max 0 (min 1 (D / l2))) - 2 * D) := by
  rcases le_total (D / l2) 0 with h0 | h0
  · have hD : D ≤ 0 := by
      have := mul_le_mul_of_nonneg_right h0 hl.le
      rwa [div_mul_cancel₀ _ hl.ne', zero_mul] at this
    rw [min_eq_right (h0.trans zero_le_one), max_eq_left h0]
    have : 0 ≤ s * (l2 * s - 2 * D) := mul_nonneg hs0 (by nlinarith)
    simpa using this
  · have hD : 0 ≤ D := by
      have := mul_le_mul_of_nonneg_right h0 hl.le
      rwa [div_mul_cancel₀ _ hl.ne', zero_mul] at this
    rcases le_total (D / l2) 1 with h1 | h1
    · rw [min_eq_right h1, max_eq_right h0]
      have hD2 : D = D / l2 * l2 := (div_mul_cancel₀ _ hl.ne').symm
      have : (s - D / l2) * (l2 * (s + D / l2) - 2 * D) = l2 * (s - D / l2) ^ 2 := by
        field_simp
        ring
      rw [this]
      exact mul_nonneg hl.le (sq_nonneg _)
    · have hD1 : l2 ≤ D := by
        have := mul_le_mul_of_nonneg_right h1 hl.le
        rwa [div_mul_cancel₀ _ hl.ne', one_mul] at this
      rw [min_eq_left h1, max_eq_right zero_le_one]
      have h2 : l2 * (s + 1) - 2 * D ≤ 0 := by nlinarith
      nlinarith [mul_nonneg (sub_nonneg.mpr hs1) (neg_nonneg.mpr h2)]

/-- The two distance helpers compute the same squared distance. -/
theorem findClosestPointOnSegment_distSq (px py x1 y1 x2 y2 : ℚ) :
    (findClosestPointOnSegment px py x1 y1 x2 y2).distSq
      = pointToSegmentDistanceSq px py x1 y1 x2 y2 := by
  unfold findClosestPointOnSegment pointToSegmentDistanceSq
  simp only []
  split
  · rfl
  · simp only []
    ring

/-- The squared distance returned by `pointToSegmentDistance` is at most the squared
distance to any point of the segment. -/
theorem pointToSegmentDistanceSq_le (px py x1 y1 x2 y2 : ℚ) {s : ℚ} (hs0 : 0 ≤ s)
    (hs1 : s ≤ 1) :
    pointToSegmentDistanceSq px py x1 y1 x2 y2
      ≤ (px - (x1 + s * (x2 - x1))) ^ 2 + (py - (y1 + s * (y2 - y1))) ^ 2 := by
  unfold pointToSegmentDistanceSq
  simp only []
  split
  · rename_i hl
    obtain ⟨rfl, rfl⟩ := segment_l2_eq_zero_iff.mp hl
    apply le_of_eq
    ring
  · rename_i hl
    have hpos : 0 < (x1 - x2) ^ 2 + (y1 - y2) ^ 2 :=
      lt_of_le_of_ne (add_nonneg (sq_nonneg _) (sq_nonneg _)) (Ne.symm hl)
    have key := @clampedParameter_min ((x1 - x2) ^ 2 + (y1 - y2) ^ 2)
      ((px - x1) * (x2 - x1) + (py - y1) * (y2 - y1)) s hpos hs0 hs1
    generalize max 0 (min 1
      (((px - x1) * (x2 - x1) + (py - y1) * (y2 - y1)) / ((x1 - x2) ^ 2 + (y1 - y2) ^ 2))) = t
      at key ⊢
    nlinarith [key]

/-- Without clamping, the squared distance from the foot of the perpendicular is the
squared cross product over the squared length (Lagrange's identity). -/
theorem pointToSegmentDistanceSq_of_mem {px py x1 y1 x2 y2 : ℚ}
    (hab : x1 ≠ x2 ∨ y1 ≠ y2)
    (h0 : 0 ≤ ((px - x1) * (x2 - x1) + (py - y1) * (y2 - y1))
      / ((x2 - x1) ^ 2 + (y2 - y1) ^ 2))
    (h1 : ((px - x1) * (x2 - x1) + (py - y1) * (y2 - y1))
      / ((x2 - x1) ^ 2 + (y2 - y1) ^ 2) ≤ 1) :
    pointToSegmentDistanceSq px py x1 y1 x2 y2
      = ((x2 - x1) * (py - y1) - (y2 - y1) * (px - x1)) ^ 2
        / ((x2 - x1) ^ 2 + (y2 - y1) ^ 2) := by
  have hl : (x1 - x2) ^ 2 + (y1 - y2) ^ 2 ≠ 0 := by
    intro h
    obtain ⟨hx, hy⟩ := segment_l2_eq_zero_iff.mp h
    rcases hab with hab | hab
    · exact hab hx
    · exact hab hy
  have hl2 : (x2 - x1) ^ 2 + (y2 - y1) ^ 2 = (x1 - x2) ^ 2 + (y1 - y2) ^ 2 := by ring
  rw [hl2] at h0 h1 ⊢
  unfold pointToSegmentDistanceSq
  simp only [if_neg hl]
  rw [min_eq_right h1, max_eq_right h0]
  field_simp
  ring

/-! ## Segment intersection -/

/-- The two guards of `findIntersection`, with `den`, `t` and `u` as in the source. -/
theorem findIntersection_cases (x1 y1 x2 y2 x3 y3 x4 y4 : ℚ) :
    let den := (x1 - x2) * (y3 - y4) - (y1 - y2) * (x3 - x4)
    let t := ((x1 - x3) * (y3 - y4) - (y1 - y3) * (x3 - x4)) / den
    let u := -((x1 - x2) * (y1 - y3) - (y1 - y2) * (x1 - x3)) / den
    (findIntersection x1 y1 x2 y2 x3 y3 x4 y4 = none ↔
        |den| < 1 / 1000000 ∨ t < -(1 / 1000000) ∨ 1 + 1 / 1000000 < t ∨
          u < -(1 / 1000000) ∨ 1 + 1 / 1000000 < u) ∧
      findIntersection x1 y1 x2 y2 x3 y3 x4 y4
        = if |den| < 1 / 1000000 ∨ t < -(1 / 1000000) ∨ 1 + 1 / 1000000 < t ∨
            u < -(1 / 1000000) ∨ 1 + 1 / 1000000 < u then none
          else some ⟨x1 + t * (x2 - x1), y1 + t * (y2 - y1)⟩ := by
  intro den t u
  have key : findIntersection x1 y1 x2 y2 x3 y3 x4 y4
      = if |den| < 1 / 1000000 ∨ t < -(1 / 1000000) ∨ 1 + 1 / 1000000 < t ∨
          u < -(1 / 1000000) ∨ 1 + 1 / 1000000 < u then none
        else some ⟨x1 + t * (x2 - x1), y1 + t * (y2 - y1)⟩ := by
    unfold findIntersection EPSILON
    simp only []
    by_cases hden : |den| < 1 / 1000000
    · rw [if_pos hden, if_pos (Or.inl hden)]
    · rw [if_neg hden]
      by_cases hin : t ≥ -(1 / 1000000) ∧ t ≤ 1 + 1 / 1000000 ∧ u ≥ -(1 / 1000000) ∧
          u ≤ 1 + 1 / 1000000
      · rw [if_pos hin, if_neg]
        rintro (h | h | h | h | h)
        · exact hden h
        · exact absurd hin.1 (not_le.mpr h)
        · exact absurd hin.2.1 (not_le.mpr h)
        · exact absurd hin.2.2.1 (not_le.mpr h)
        · exact absurd hin.2.2.2 (not_le.mpr h)
      · rw [if_neg hin, if_pos]
        right
        by_contra hc
        push_neg at hc
        exact hin ⟨hc.1, hc.2.1, hc.2.2.1, hc.2.2.2⟩
  refine ⟨?_, key⟩
  rw [key]
  split <;> simp_all

/-! ## Point in rectangle -/

/-- The test on a rectangle listed from its corner `(x0, y0)`: the left and lower sides
belong to the rectangle, the right and upper sides do not. -/
theorem isPointInPolygon_rectangle_iff {x0 y0 x1 y1 : ℚ} (hx : x0 < x1) (hy : y0 < y1)
    (p : Point) :
    isPointInPolygon p [⟨x0, y0⟩, ⟨x1, y0⟩, ⟨x1, y1⟩, ⟨x0, y1⟩] = true
      ↔ x0 ≤ p.x ∧ p.x < x1 ∧ y0 ≤ p.y ∧ p.y < y1 := by
  have r4 : List.range 4 = [0, 1, 2, 3] := rfl
  unfold isPointInPolygon
  simp only [List.length_cons, List.length_nil, r4, List.foldl_cons, List.foldl_nil,
    isPointInPolygonStep, pointAt, List.getD_cons_succ, List.getD_cons_zero]
  simp only [Nat.reduceAdd, Nat.reduceSub, List.getD_cons_succ, List.getD_cons_zero, sub_self,
    zero_mul, zero_div, zero_add, bne_self_eq_false, Bool.false_and, Bool.false_eq_true,
    if_false]
  by_cases a1 : y0 > p.y <;> by_cases a2 : y1 > p.y <;> by_cases a3 : p.x < x0 <;>
    by_cases a4 : p.x < x1 <;>
    simp [a1, a2, a3, a4] <;>
    first | linarith | exact ⟨by linarith, by linarith⟩

/-- The same test on the rectangle listed from its corner `(x1, y0)`. -/
theorem isPointInPolygon_rectangle_rotate1 {x0 y0 x1 y1 : ℚ} (hx : x0 < x1) (hy : y0 < y1)
    (p : Point) :
    isPointInPolygon p [⟨x1, y0⟩, ⟨x1, y1⟩, ⟨x0, y1⟩, ⟨x0, y0⟩] = true
      ↔ x0 ≤ p.x ∧ p.x < x1 ∧ y0 ≤ p.y ∧ p.y < y1 := by
  have r4 : List.range 4 = [0, 1, 2, 3] := rfl
  unfold isPointInPolygon
  simp only [List.length_cons, List.length_nil, r4, List.foldl_cons, List.foldl_nil,
    isPointInPolygonStep, pointAt, List.getD_cons_succ, List.getD_cons_zero]
  simp only [Nat.reduceAdd, Nat.reduceSub, List.getD_cons_succ, List.getD_cons_zero, sub_self,
    zero_mul, zero_div, zero_add, bne_self_eq_false, Bool.false_and, Bool.false_eq_true,
    if_false]
  by_cases a1 : y0 > p.y <;> by_cases a2 : y1 > p.y <;> by_cases a3 : p.x < x0 <;>
    by_cases a4 : p.x < x1 <;>
    simp [a1, a2, a3, a4] <;>
    first | linarith | exact ⟨by linarith, by linarith⟩

/-- The same test on the rectangle listed from its corner `(x1, y1)`. -/
theorem isPointInPolygon_rectangle_rotate2 {x0 y0 x1 y1 : ℚ} (hx : x0 < x1) (hy : y0 < y1)
    (p : Point) :
    isPointInPolygon p [⟨x1, y1⟩, ⟨x0, y1⟩, ⟨x0, y0⟩, ⟨x1, y0⟩] = true
      ↔ x0 ≤ p.x ∧ p.x < x1 ∧ y0 ≤ p.y ∧ p.y < y1 := by
  have r4 : List.range 4 = [0, 1, 2, 3] := rfl
  unfold isPointInPolygon
  simp only [List.length_cons, List.length_nil, r4, List.foldl_cons, List.foldl_nil,
    isPointInPolygonStep, pointAt, List.getD_cons_succ, List.getD_cons_zero]
  simp only [Nat.reduceAdd, Nat.reduceSub, List.getD_cons_succ, List.getD_cons_zero, sub_self,
    zero_mul, zero_div, zero_add, bne_self_eq_false, Bool.false_and, Bool.false_eq_true,
    if_false]
  by_cases a1 : y0 > p.y <;> by_cases a2 : y1 > p.y <;> by_cases a3 : p.x < x0 <;>
    by_cases a4 : p.x < x1 <;>
    simp [a1, a2, a3, a4] <;>
    first | linarith | exact ⟨by linarith, by linarith⟩

/-- The same test on the rectangle listed from its corner `(x0, y1)`. -/
theorem isPointInPolygon_rectangle_rotate3 {x0 y0 x1 y1 : ℚ} (hx : x0 < x1) (hy : y0 < y1)
    (p : Point) :
    isPointInPolygon p [⟨x0, y1⟩, ⟨x0, y0⟩, ⟨x1, y0⟩, ⟨x1, y1⟩] = true
      ↔ x0 ≤ p.x ∧ p.x < x1 ∧ y0 ≤ p.y ∧ p.y < y1 := by
  have r4 : List.range 4 = [0, 1, 2, 3] := rfl
  unfold isPointInPolygon
  simp only [List.length_cons, List.length_nil, r4, List.foldl_cons, List.foldl_nil,
    isPointInPolygonStep, pointAt, List.getD_cons_succ, List.getD_cons_zero]
  simp only [Nat.reduceAdd, Nat.reduceSub, List.getD_cons_succ, List.getD_cons_zero, sub_self,
    zero_mul, zero_div, zero_add, bne_self_eq_false, Bool.false_and, Bool.false_eq_true,
    if_false]
  by_cases a1 : y0 > p.y <;> by_cases a2 : y1 > p.y <;> by_cases a3 : p.x < x0 <;>
    by_cases a4 : p.x < x1 <;>
    simp [a1, a2, a3, a4] <;>
    first | linarith | exact ⟨by linarith, by linarith⟩

/-! ## The loops of the area and centroid helpers as sums -/

theorem foldl_range_add (f : Nat → ℚ) (n : Nat) (a : ℚ) :
    (List.range n).foldl (fun acc i => acc + f i) a = a + ∑ i in Finset.range n, f i := by
  induction n with
  | zero => simp
  | succ m ih =>
    rw [List.range_succ, List.foldl_append, ih, Finset.sum_range_succ]
    simp only [List.foldl_cons, List.foldl_nil]
    ring

/-- The shoelace loop adds up the terms `a_i`. -/
theorem shoelaceSum_eq_sum (points : List Point) :
    shoelaceSum points = ∑ i in Finset.range points.length, shoelaceTerm points i := by
  unfold shoelaceSum
  have hstep : (fun (area : ℚ) (i : Nat) =>
        let j := (i + 1) % points.length
        area + (pointAt points i).x * (pointAt points j).y
          - (pointAt points j).x * (pointAt points i).y)
      = fun acc i => acc + shoelaceTerm points i := by
    funext area i
    simp only [shoelaceTerm]
    ring
  rw [hstep, foldl_range_add, zero_add]

/-- The signed shoelace area is half the shoelace sum. -/
theorem signedArea_eq (points : List Point) : signedArea points = shoelaceSum points / 2 := by
  rw [signedArea, shoelaceSum_eq_sum]

/-- The first loop of `calculatePolygonCentroid` adds up three sums. -/
theorem foldl_centroidStep (points : List Point) (n : Nat) (st : ℚ × ℚ × ℚ) :
    (List.range n).foldl (centroidStep points) st
      = (st.1 + ∑ i in Finset.range n,
            ((pointAt points i).x + (pointAt points ((i + 1) % points.length)).x)
              * shoelaceTerm points i,
          st.2.1 + ∑ i in Finset.range n,
            ((pointAt points i).y + (pointAt points ((i + 1) % points.length)).y)
              * shoelaceTerm points i,
          st.2.2 + ∑ i in Finset.range n, shoelaceTerm points i) := by
  induction n with
  | zero => simp
  | succ m ih =>
    rw [List.range_succ, List.foldl_append, ih]
    simp only [List.foldl_cons, List.foldl_nil, centroidStep, Finset.sum_range_succ,
      shoelaceTerm]
    refine Prod.ext ?_ (Prod.ext ?_ ?_) <;> simp only [] <;> ring

/-- The averaging loop of `calculatePolygonCentroid` adds up the coordinates. -/
theorem foldl_coordinates (points : List Point) (acc : ℚ × ℚ) :
    points.foldl (fun (acc : ℚ × ℚ) p => (acc.1 + p.x, acc.2 + p.y)) acc
      = (acc.1 + (points.map (fun p => p.x)).sum, acc.2 + (points.map (fun p => p.y)).sum) := by
  induction points generalizing acc with
  | nil => simp
  | cons p rest ih =>
    rw [List.foldl_cons, ih]
    simp only [List.map_cons, List.sum_cons]
    refine Prod.ext ?_ ?_ <;> simp only [] <;> ring

/-- The function `calculatePolygonCentroid` on a non-empty list: the vertex mean when the
shoelace sum, twice the signed area, is below `1/1000000` in magnitude, the area-weighted
centroid otherwise. -/
theorem calculatePolygonCentroid_eq {points : List Point} (hne : points ≠ []) :
    calculatePolygonCentroid points
      = if |2 * signedArea points| < 1 / 1000000 then vertexMean points
        else weightedCentroid points := by
  have hn : points.length ≠ 0 := fun h => hne (List.length_eq_zero.mp h)
  have h2 : 2 * signedArea points = ∑ i in Finset.range points.length, shoelaceTerm points i := by
    unfold signedArea
    ring
  unfold calculatePolygonCentroid
  simp only [if_neg hn, foldl_centroidStep, foldl_coordinates, zero_add, h2]
  split
  · rfl
  · unfold weightedCentroid signedArea
    congr 2 <;> ring

/-! ## Reversal of the vertex list -/

theorem pointAt_reverse (points : List Point) {i : Nat} (h : i < points.length) :
    pointAt points.reverse i = pointAt points (points.length - 1 - i) := by
  unfold pointAt
  rw [List.getD_eq_getElem?_getD, List.getD_eq_getElem?_getD, List.getElem?_reverse h]

/-- Reversing the vertex list changes the sign of the shoelace sum. -/
theorem shoelaceSum_reverse (points : List Point) :
    shoelaceSum points.reverse = -shoelaceSum points := by
  rw [shoelaceSum_eq_sum, shoelaceSum_eq_sum, List.length_reverse]
  cases hn : points.length with
  | zero => simp
  | succ m =>
    have hlast : shoelaceTerm points.reverse m = -shoelaceTerm points m := by
      unfold shoelaceTerm
      rw [List.length_reverse, hn, Nat.mod_self, pointAt_reverse points (by omega),
        pointAt_reverse points (by omega), hn]
      simp only [Nat.add_sub_cancel, Nat.sub_self, Nat.sub_zero]
      ring
    have hterm : ∀ i ∈ Finset.range m,
        shoelaceTerm points.reverse i = -shoelaceTerm points (m - 1 - i) := by
      intro i hi
      have him : i < m := Finset.mem_range.mp hi
      unfold shoelaceTerm
      rw [List.length_reverse, hn, Nat.mod_eq_of_lt (by omega),
        pointAt_reverse points (by omega), pointAt_reverse points (by omega), hn,
        Nat.mod_eq_of_lt (by omega)]
      have e1 : m + 1 - 1 - i = m - 1 - i + 1 := by omega
      have e2 : m + 1 - 1 - (i + 1) = m - 1 - i := by omega
      rw [e1, e2]
      ring
    rw [Finset.sum_range_succ, Finset.sum_range_succ, hlast, Finset.sum_congr rfl hterm,
      Finset.sum_neg_distrib, Finset.sum_range_reflect (fun j => shoelaceTerm points j) m]
    ring

/-! ## The seed loop finds an edge whenever the ray meets one -/

/-- Once the seed loop holds an edge and a distance it keeps holding some edge. -/
theorem seedStep_fst_ne_none (nodes : NodeMap) (startPoint : Point)
    {st : Option Edge × Option ℚ} (edge : Edge) (h : st.1 ≠ none) :
    (seedStep nodes startPoint st edge).1 ≠ none := by
  rcases seedStep_fst nodes startPoint st edge with h1 | h1
  · rw [h1]
    exact h
  · rw [h1]
    simp

/-- The seed loop sets the distance only together with the edge. -/
theorem seedStep_snd (nodes : NodeMap) (startPoint : Point)
    {st : Option Edge × Option ℚ} (edge : Edge) (h : st.2 ≠ none → st.1 ≠ none) :
    (seedStep nodes startPoint st edge).2 ≠ none → (seedStep nodes startPoint st edge).1 ≠ none := by
  unfold seedStep
  split
  · exact h
  · simp only []
    split
    · simp
    · split
      · simp
      · exact h

/-- An edge that the ray meets leaves the seed loop holding some edge. -/
theorem seedStep_of_some (nodes : NodeMap) (startPoint : Point)
    {st : Option Edge × Option ℚ} {edge : Edge} {p : Point}
    (h : st.2 ≠ none → st.1 ≠ none)
    (hp : findIntersection startPoint.x startPoint.y (startPoint.x + 1000000)
      (startPoint.y + 1 / 10000) (nodeAt nodes edge.node1).x (nodeAt nodes edge.node1).y
      (nodeAt nodes edge.node2).x (nodeAt nodes edge.node2).y = some p) :
    (seedStep nodes startPoint st edge).1 ≠ none := by
  unfold seedStep
  rw [hp]
  simp only []
  split
  · simp
  · rename_i m hm
    split
    · simp
    · exact h (by rw [hm]; simp)

theorem foldl_seedStep_ne_none (nodes : NodeMap) (startPoint : Point) :
    ∀ (edges : List Edge) (st : Option Edge × Option ℚ), (st.2 ≠ none → st.1 ≠ none) →
      (st.1 ≠ none ∨ ∃ e ∈ edges, ∃ p,
        findIntersection startPoint.x startPoint.y (startPoint.x + 1000000)
          (startPoint.y + 1 / 10000) (nodeAt nodes e.node1).x (nodeAt nodes e.node1).y
          (nodeAt nodes e.node2).x (nodeAt nodes e.node2).y = some p) →
      (edges.foldl (seedStep nodes startPoint) st).1 ≠ none
  | [], st, _, h => by
    rcases h with h | ⟨e, he, -⟩
    · exact h
    · exact absurd he (List.not_mem_nil e)
  | a :: edges, st, hK, h => by
    rw [List.foldl_cons]
    apply foldl_seedStep_ne_none nodes startPoint edges _ (seedStep_snd nodes startPoint a hK)
    rcases h with h | ⟨e, he, p, hp⟩
    · exact Or.inl (seedStep_fst_ne_none nodes startPoint a h)
    · rcases List.mem_cons.mp he with rfl | he
      · exact Or.inl (seedStep_of_some nodes startPoint hK hp)
      · exact Or.inr ⟨e, he, p, hp⟩

/-- When the ray meets an edge of the graph, the seed loop returns an edge of the graph. -/
theorem findStartingEdge_of_hit {nodes : NodeMap} {edges : List Edge} {startPoint : Point}
    {e : Edge} {p : Point} (he : e ∈ edges)
    (hp : findIntersection startPoint.x startPoint.y (startPoint.x + 1000000)
      (startPoint.y + 1 / 10000) (nodeAt nodes e.node1).x (nodeAt nodes e.node1).y
      (nodeAt nodes e.node2).x (nodeAt nodes e.node2).y = some p) :
    ∃ seed ∈ edges, findStartingEdge nodes edges startPoint = some seed := by
  have hne : findStartingEdge nodes edges startPoint ≠ none :=
    foldl_seedStep_ne_none nodes startPoint edges (none, none) (fun h => absurd rfl h)
      (Or.inr ⟨e, he, p, hp⟩)
  obtain ⟨seed, hseed⟩ := Option.ne_none_iff_exists'.mp hne
  exact ⟨seed, findStartingEdge_mem hseed, hseed⟩

/-! ## The rectangle from any interior query point -/

/-- For a query point strictly inside the rectangle the trace runs along every side from
its first end to its second end. -/
theorem rect_direction_inside {w h : ℚ} {q : Point} (hx0 : 0 < q.x) (hx1 : q.x < w)
    (hy0 : 0 < q.y) (hy1 : q.y < h) :
    seedDirection (rectNodes w h) q ⟨0, 1, ⟨0, 0, w, 0⟩⟩ = (0, 1) ∧
      seedDirection (rectNodes w h) q ⟨1, 2, ⟨w, 0, w, h⟩⟩ = (1, 2) ∧
      seedDirection (rectNodes w h) q ⟨2, 3, ⟨w, h, 0, h⟩⟩ = (2, 3) ∧
      seedDirection (rectNodes w h) q ⟨3, 0, ⟨0, h, 0, 0⟩⟩ = (3, 0) := by
  have hw : 0 < w := by linarith
  have hh : 0 < h := by linarith
  unfold seedDirection
  simp only [rectNodes, nodeAt, List.getD_cons_succ, List.getD_cons_zero]
  refine ⟨?_, ?_, ?_, ?_⟩
  · rw [if_pos (by nlinarith)]
  · rw [if_pos (by nlinarith)]
  · rw [if_pos (by nlinarith)]
  · rw [if_pos (by nlinarith)]

/-- The trace walks once around the rectangle from whichever corner it starts. -/
theorem rect_traceLoop_all (w h : ℚ) :
    traceLoop (rectNodes w h) 1 ((rectNodes w h).length + 1) 0 1 [] = some ([1, 2, 3, 0], 1) ∧
      traceLoop (rectNodes w h) 2 ((rectNodes w h).length + 1) 1 2 []
        = some ([2, 3, 0, 1], 2) ∧
      traceLoop (rectNodes w h) 3 ((rectNodes w h).length + 1) 2 3 []
        = some ([3, 0, 1, 2], 3) ∧
      traceLoop (rectNodes w h) 0 ((rectNodes w h).length + 1) 3 0 []
        = some ([0, 1, 2, 3], 0) := by
  have hl : (rectNodes w h).length = 3 + 1 := rfl
  refine ⟨?_, rect_traceLoop w h, ?_, ?_⟩
  · rw [traceLoop_step (rect_next_0_1 w h) (by decide), hl,
      traceLoop_step (rect_next_1_2 w h) (by decide),
      traceLoop_step (rect_next_2_3 w h) (by decide), traceLoop_close (rect_next_3_0 w h)]
    rfl
  · rw [traceLoop_step (rect_next_2_3 w h) (by decide), hl,
      traceLoop_step (rect_next_3_0 w h) (by decide),
      traceLoop_step (rect_next_0_1 w h) (by decide), traceLoop_close (rect_next_1_2 w h)]
    rfl
  · rw [traceLoop_step (rect_next_3_0 w h) (by decide), hl,
      traceLoop_step (rect_next_0_1 w h) (by decide),
      traceLoop_step (rect_next_1_2 w h) (by decide), traceLoop_close (rect_next_2_3 w h)]
    rfl

/-- The shoelace sum of the rectangle corners, listed from any corner in the order of the
walls, is twice the area. -/
theorem rect_shoelaceSum_all (w h : ℚ) :
    shoelaceSum [⟨0, 0⟩, ⟨w, 0⟩, ⟨w, h⟩, ⟨0, h⟩] = 2 * (w * h) ∧
      shoelaceSum [⟨w, 0⟩, ⟨w, h⟩, ⟨0, h⟩, ⟨0, 0⟩] = 2 * (w * h) ∧
      shoelaceSum [⟨0, h⟩, ⟨0, 0⟩, ⟨w, 0⟩, ⟨w, h⟩] = 2 * (w * h) := by
  have r4 : List.range 4 = [0, 1, 2, 3] := rfl
  unfold shoelaceSum
  simp only [List.length_cons, List.length_nil, r4, List.foldl_cons, List.foldl_nil]
  refine ⟨?_, ?_, ?_⟩ <;> simp [pointAt] <;> ring

/-- From a query point strictly inside the rectangle, whichever edge of the graph is the
seed edge, the trace returns the rectangle, listed in the order of the walls from one of
its corners. -/
theorem rect_traceRoom_inside {w h : ℚ} {q : Point} (hx0 : 0 < q.x) (hx1 : q.x < w)
    (hy0 : 0 < q.y) (hy1 : q.y < h) {e : Edge} (he : e ∈ rectEdges w h) :
    ∃ room, traceRoom (rectNodes w h) q e = some room ∧
      List.IsRotated room.points [⟨0, 0⟩, ⟨w, 0⟩, ⟨w, h⟩, ⟨0, h⟩] := by
  have hw : 0 < w := by linarith
  have hh : 0 < h := by linarith
  obtain ⟨d0, d1, d2, d3⟩ := @rect_direction_inside w h q hx0 hx1 hy0 hy1
  obtain ⟨t0, t1, t2, t3⟩ := rect_traceLoop_all w h
  obtain ⟨s0, s1, s3⟩ := rect_shoelaceSum_all w h
  have i0 := (isPointInPolygon_rectangle_iff hw hh q).mpr ⟨hx0.le, hx1, hy0.le, hy1⟩
  have i1 := (isPointInPolygon_rectangle_rotate1 hw hh q).mpr ⟨hx0.le, hx1, hy0.le, hy1⟩
  have i2 := (isPointInPolygon_rectangle_rotate2 hw hh q).mpr ⟨hx0.le, hx1, hy0.le, hy1⟩
  have i3 := (isPointInPolygon_rectangle_rotate3 hw hh q).mpr ⟨hx0.le, hx1, hy0.le, hy1⟩
  have p0 : polygonPoints (rectNodes w h) [0, 1, 2, 3] = [⟨0, 0⟩, ⟨w, 0⟩, ⟨w, h⟩, ⟨0, h⟩] := rfl
  have p1 : polygonPoints (rectNodes w h) [1, 2, 3, 0] = [⟨w, 0⟩, ⟨w, h⟩, ⟨0, h⟩, ⟨0, 0⟩] := rfl
  have p2 : polygonPoints (rectNodes w h) [2, 3, 0, 1] = [⟨w, h⟩, ⟨0, h⟩, ⟨0, 0⟩, ⟨w, 0⟩] := rfl
  have p3 : polygonPoints (rectNodes w h) [3, 0, 1, 2] = [⟨0, h⟩, ⟨0, 0⟩, ⟨w, 0⟩, ⟨w, h⟩] := rfl
  have hpos : ¬ 2 * (w * h) < 0 := by nlinarith
  simp only [rectEdges, List.mem_cons, List.mem_singleton, List.not_mem_nil, or_false] at he
  rcases he with rfl | rfl | rfl | rfl
  · refine ⟨⟨[⟨w, 0⟩, ⟨w, h⟩, ⟨0, h⟩, ⟨0, 0⟩]⟩, ?_, ⟨3, rfl⟩⟩
    unfold traceRoom
    simp only [d0, t0]
    unfold validateRoom
    simp only [p1, i1, s1]
    rw [if_neg (by simp), if_neg (by simp), if_neg hpos]
  · refine ⟨⟨[⟨w, h⟩, ⟨0, h⟩, ⟨0, 0⟩, ⟨w, 0⟩]⟩, ?_, ⟨2, rfl⟩⟩
    unfold traceRoom
    simp only [d1, t1]
    unfold validateRoom
    simp only [p2, i2, rect_shoelaceSum]
    rw [if_neg (by simp), if_neg (by simp), if_neg hpos]
  · refine ⟨⟨[⟨0, h⟩, ⟨0, 0⟩, ⟨w, 0⟩, ⟨w, h⟩]⟩, ?_, ⟨1, rfl⟩⟩
    unfold traceRoom
    simp only [d2, t2]
    unfold validateRoom
    simp only [p3, i3, s3]
    rw [if_neg (by simp), if_neg (by simp), if_neg hpos]
  · refine ⟨⟨[⟨0, 0⟩, ⟨w, 0⟩, ⟨w, h⟩, ⟨0, h⟩]⟩, ?_, ⟨0, rfl⟩⟩
    unfold traceRoom
    simp only [d3, t3]
    unfold validateRoom
    simp only [p0, i0, s0]
    rw [if_neg (by simp), if_neg (by simp), if_neg hpos]

/-- From every query point strictly inside a rectangle that is not more than `10000` times
wider than high, the function returns the rectangle, listed in the order of the walls from
one of its corners. -/
theorem rect_room_inside {w h : ℚ} (hw : 1 / 10000 ≤ w) (hh : 1 / 10000 ≤ h)
    (hw2 : w ≤ 1000000) (hwh : w ≤ 10000 * h) {q : Point} (hx0 : 0 < q.x) (hx1 : q.x < w)
    (hy0 : 0 < q.y) (hy1 : q.y < h) :
    ∃ room, findRoomFromPoint q (rectWalls w h) [] = some room ∧
      List.IsRotated room.points [⟨0, 0⟩, ⟨w, 0⟩, ⟨w, h⟩, ⟨0, h⟩] := by
  have hhit : findIntersection q.x q.y (q.x + 1000000) (q.y + 1 / 10000) w 0 w h
      = some ⟨w, q.y + (w - q.x) / 10000000000⟩ :=
    findIntersection_ray_vertical_up (by linarith) (by linarith) (by linarith) (by linarith)
      (by linarith)
  obtain ⟨seed, hmem, hseed⟩ := @findStartingEdge_of_hit (rectNodes w h) (rectEdges w h) q
    ⟨1, 2, ⟨w, 0, w, h⟩⟩ _ (by simp [rectEdges]) (by
      simp only [rectNodes, nodeAt, List.getD_cons_succ, List.getD_cons_zero]
      exact hhit)
  obtain ⟨room, hroom, hrot⟩ := rect_traceRoom_inside hx0 hx1 hy0 hy1 hmem
  refine ⟨room, ?_, hrot⟩
  unfold findRoomFromPoint
  rw [if_neg (by simp [rectWalls]), if_neg (by simp)]
  simp only [rect_graph hw hh, hseed, hroom]

/-! ## Orientation -/

theorem orientation_left (a b : Point) : orientation a b a = 0 := by
  unfold orientation
  ring

theorem orientation_right (a b : Point) : orientation a b b = 0 := by
  unfold orientation
  ring

theorem orientation_cyclic (a b c : Point) : orientation a b c = orientation b c a := by
  unfold orientation
  ring

/-- The orientation is an affine function of its third point. -/
theorem orientation_combine (a b p q : Point) (r : ℚ) :
    orientation a b ⟨(1 - r) * p.x + r * q.x, (1 - r) * p.y + r * q.y⟩
      = (1 - r) * orientation a b p + r * orientation a b q := by
  unfold orientation
  ring

/-! ## Periodic vertex sequences -/

theorem periodic_add_mul {α : Type} {n : Nat} {f : Nat → α} (hper : ∀ k, f (k + n) = f k)
    (k m : Nat) : f (k + m * n) = f k := by
  induction m with
  | zero => simp
  | succ m ih =>
    rw [Nat.succ_mul, ← Nat.add_assoc, hper, ih]

theorem periodic_mod {α : Type} {n : Nat} {f : Nat → α} (hper : ∀ k, f (k + n) = f k)
    (k : Nat) : f (k % n) = f k := by
  conv_rhs => rw [← Nat.mod_add_div k n, Nat.mul_comm]
  exact (periodic_add_mul hper (k % n) (k / n)).symm

theorem ConvexCycle.mod {n : Nat} {s : ℚ} {P : Nat → Point} (hc : ConvexCycle n s P)
    (k : Nat) : P (k % n) = P k :=
  periodic_mod hc.periodic k

theorem ConvexCycle.congr {n : Nat} {s : ℚ} {P : Nat → Point} (hc : ConvexCycle n s P)
    {k j : Nat} (h : k % n = j % n) : P k = P j := by
  rw [← hc.mod k, ← hc.mod j, h]

theorem ConvexCycle.sq_sign {n : Nat} {s : ℚ} {P : Nat → Point} (hc : ConvexCycle n s P) :
    s * s = 1 := by
  rcases hc.sign with h | h <;> rw [h] <;> norm_num

theorem ConvexCycle.pos {n : Nat} {s : ℚ} {P : Nat → Point} (hc : ConvexCycle n s P) :
    0 < n := by
  have := hc.three
  omega

theorem ConvexCycle.closed {n : Nat} {s : ℚ} {P : Nat → Point} (hc : ConvexCycle n s P) :
    P n = P 0 := by
  have := hc.periodic 0
  rwa [Nat.zero_add] at this

/-- The two ends of a side are different points. -/
theorem ConvexCycle.ne_succ {n : Nat} {s : ℚ} {P : Nat → Point} (hc : ConvexCycle n s P)
    (i : Nat) : P i ≠ P (i + 1) := by
  intro h
  have h1 := hc.injective i (i + 1) h
  have h3 := hc.three
  have h2 : (i + 0) % n = (i + 1) % n := by simpa using h1
  have h4 : 0 % n = 1 % n := Nat.ModEq.add_left_cancel' i h2
  rw [Nat.zero_mod, Nat.mod_eq_of_lt (by omega)] at h4
  omega

/-- Three points on the line through two different points are collinear. -/
theorem orientation_eq_zero_of_collinear {a b p q r : Point} (hab : a ≠ b)
    (hp : orientation a b p = 0) (hq : orientation a b q = 0) (hr : orientation a b r = 0) :
    orientation p q r = 0 := by
  have hd : (b.x - a.x) ^ 2 + (b.y - a.y) ^ 2 ≠ 0 := by
    intro h
    have hx : (b.x - a.x) ^ 2 = 0 := by nlinarith [sq_nonneg (b.x - a.x), sq_nonneg (b.y - a.y)]
    have hy : (b.y - a.y) ^ 2 = 0 := by nlinarith [sq_nonneg (b.x - a.x), sq_nonneg (b.y - a.y)]
    apply hab
    have ex : a.x = b.x := (sub_eq_zero.mp (pow_eq_zero_iff (by norm_num) |>.mp hx)).symm
    have ey : a.y = b.y := (sub_eq_zero.mp (pow_eq_zero_iff (by norm_num) |>.mp hy)).symm
    cases a
    cases b
    simp only [Point.mk.injEq]
    exact ⟨ex, ey⟩
  have key : ((b.x - a.x) ^ 2 + (b.y - a.y) ^ 2) * orientation p q r = 0 := by
    unfold orientation at hp hq hr ⊢
    linear_combination
      ((b.x - a.x) * (r.x - q.x) + (b.y - a.y) * (r.y - q.y)) * hp
      + ((b.x - a.x) * (p.x - r.x) + (b.y - a.y) * (p.y - r.y)) * hq
      + ((b.x - a.x) * (q.x - p.x) + (b.y - a.y) * (q.y - p.y)) * hr
  exact (mul_eq_zero.mp key).resolve_left hd

/-- Some vertex lies strictly on the inner side of every side. -/
theorem ConvexCycle.exists_inner {n : Nat} {s : ℚ} {P : Nat → Point} (hc : ConvexCycle n s P)
    (i : Nat) : ∃ k, k < n ∧ 0 < s * orientation (P i) (P (i + 1)) (P k) := by
  by_contra hno
  push_neg at hno
  have hzero : ∀ k, orientation (P i) (P (i + 1)) (P k) = 0 := by
    intro k
    have h1 := hno (k % n) (Nat.mod_lt _ hc.pos)
    rw [hc.mod k] at h1
    have h2 := hc.nonneg i k
    have h3 : s * orientation (P i) (P (i + 1)) (P k) = 0 := le_antisymm h1 h2
    rcases mul_eq_zero.mp h3 with h | h
    · rcases hc.sign with hs | hs <;> rw [hs] at h <;> norm_num at h
    · exact h
  obtain ⟨j, k, hjk⟩ := hc.proper
  exact hjk (orientation_eq_zero_of_collinear (hc.ne_succ i) (hzero j) (hzero (j + 1)) (hzero k))

/-! ## The centroid of a convex polygon lies strictly inside it -/

/-- The sum of the orientations of the vertices is `n` times the orientation of their
mean. -/
theorem orientation_cycleMean (n : Nat) (hn : 0 < n) (P : Nat → Point) (a b : Point) :
    (n : ℚ) * orientation a b (cycleMean n P)
      = ∑ k in Finset.range n, orientation a b (P k) := by
  have hn0 : (n : ℚ) ≠ 0 := Nat.cast_ne_zero.mpr hn.ne'
  have hsum : ∑ k in Finset.range n, orientation a b (P k)
      = (b.x - a.x) * (∑ k in Finset.range n, (P k).y - n * a.y)
        - (b.y - a.y) * (∑ k in Finset.range n, (P k).x - n * a.x) := by
    have hc : ∀ c : ℚ, (n : ℚ) * c = ∑ _k in Finset.range n, c := by
      intro c
      rw [Finset.sum_const, Finset.card_range, nsmul_eq_mul]
    rw [hc a.y, hc a.x, ← Finset.sum_sub_distrib, ← Finset.sum_sub_distrib, Finset.mul_sum,
      Finset.mul_sum, ← Finset.sum_sub_distrib]
    rfl
  rw [hsum]
  unfold orientation cycleMean
  field_simp

/-- The mean of the vertices lies strictly on the inner side of every side. -/
theorem ConvexCycle.cycleMean_inside {n : Nat} {s : ℚ} {P : Nat → Point}
    (hc : ConvexCycle n s P) (i : Nat) :
    0 < s * orientation (P i) (P (i + 1)) (cycleMean n P) := by
  have hn : 0 < n := hc.pos
  have hnq : (0 : ℚ) < n := Nat.cast_pos.mpr hn
  have hpos : 0 < ∑ k in Finset.range n, s * orientation (P i) (P (i + 1)) (P k) := by
    apply Finset.sum_pos'
    · intro k _
      exact hc.nonneg i k
    · obtain ⟨k, hk, hpos⟩ := hc.exists_inner i
      exact ⟨k, Finset.mem_range.mpr hk, hpos⟩
  rw [← Finset.mul_sum, ← orientation_cycleMean n hn] at hpos
  have : 0 < (n : ℚ) * (s * orientation (P i) (P (i + 1)) (cycleMean n P)) := by
    rw [mul_left_comm]
    exact hpos
  exact (mul_pos_iff_of_pos_left hnq).mp this

/-- The shoelace sum does not depend on the origin: it is the sum of the orientations of
the sides seen from any point `a`. -/
theorem sum_cycleTerm_eq {n : Nat} {P : Nat → Point} (hper : P n = P 0) (a : Point) :
    ∑ k in Finset.range n, cycleTerm P k
      = ∑ k in Finset.range n, orientation a (P k) (P (k + 1)) := by
  have hterm : ∀ k, cycleTerm P k - orientation a (P k) (P (k + 1))
      = (a.x * (P (k + 1)).y - a.y * (P (k + 1)).x) - (a.x * (P k).y - a.y * (P k).x) := by
    intro k
    unfold cycleTerm orientation
    ring
  have hzero : ∑ k in Finset.range n, (cycleTerm P k - orientation a (P k) (P (k + 1))) = 0 := by
    rw [Finset.sum_congr rfl (fun k _ => hterm k),
      Finset.sum_range_sub (fun k => a.x * (P k).y - a.y * (P k).x), hper]
    ring
  rw [Finset.sum_sub_distrib] at hzero
  linarith

/-- The weighted sum that defines the centroid, measured by the orientation with respect
to a side from `a` to `b`, does not depend on the origin either: the origin can be moved to
any point `q`. -/
theorem sum_weighted_eq {n : Nat} {P : Nat → Point} (hper : P n = P 0) (a b q : Point) :
    ∑ k in Finset.range n, cycleTerm P k
        * (orientation a b (P k) + orientation a b (P (k + 1)) + orientation a b ⟨0, 0⟩)
      = ∑ k in Finset.range n, orientation q (P k) (P (k + 1))
        * (orientation a b (P k) + orientation a b (P (k + 1)) + orientation a b q) := by
  have hterm : ∀ k, cycleTerm P k
        * (orientation a b (P k) + orientation a b (P (k + 1)) + orientation a b ⟨0, 0⟩)
      - orientation q (P k) (P (k + 1))
        * (orientation a b (P k) + orientation a b (P (k + 1)) + orientation a b q)
      = (q.x * (P (k + 1)).y - q.y * (P (k + 1)).x)
          * (orientation a b q + orientation a b ⟨0, 0⟩ + orientation a b (P (k + 1)))
        - (q.x * (P k).y - q.y * (P k).x)
          * (orientation a b q + orientation a b ⟨0, 0⟩ + orientation a b (P k)) := by
    intro k
    unfold cycleTerm orientation
    ring
  have hzero : ∑ k in Finset.range n, (cycleTerm P k
        * (orientation a b (P k) + orientation a b (P (k + 1)) + orientation a b ⟨0, 0⟩)
      - orientation q (P k) (P (k + 1))
        * (orientation a b (P k) + orientation a b (P (k + 1)) + orientation a b q)) = 0 := by
    rw [Finset.sum_congr rfl (fun k _ => hterm k),
      Finset.sum_range_sub (fun k => (q.x * (P k).y - q.y * (P k).x)
        * (orientation a b q + orientation a b ⟨0, 0⟩ + orientation a b (P k))), hper]
    ring
  rw [Finset.sum_sub_distrib] at hzero
  linarith

/-- The orientation of the area-weighted centroid, scaled by three times the shoelace
sum. -/
theorem orientation_cycleCentroid (n : Nat) (P : Nat → Point) (a b : Point)
    (hS : ∑ k in Finset.range n, cycleTerm P k ≠ 0) :
    3 * (∑ k in Finset.range n, cycleTerm P k) * orientation a b (cycleCentroid n P)
      = ∑ k in Finset.range n, cycleTerm P k
        * (orientation a b (P k) + orientation a b (P (k + 1)) + orientation a b ⟨0, 0⟩) := by
  have hsum : ∑ k in Finset.range n, cycleTerm P k
        * (orientation a b (P k) + orientation a b (P (k + 1)) + orientation a b ⟨0, 0⟩)
      = (b.x - a.x) * (∑ k in Finset.range n, ((P k).y + (P (k + 1)).y) * cycleTerm P k
            - 3 * a.y * ∑ k in Finset.range n, cycleTerm P k)
        - (b.y - a.y) * (∑ k in Finset.range n, ((P k).x + (P (k + 1)).x) * cycleTerm P k
            - 3 * a.x * ∑ k in Finset.range n, cycleTerm P k) := by
    rw [Finset.mul_sum, Finset.mul_sum, ← Finset.sum_sub_distrib, ← Finset.sum_sub_distrib,
      Finset.mul_sum, Finset.mul_sum, ← Finset.sum_sub_distrib]
    apply Finset.sum_congr rfl
    intro k _
    unfold orientation
    ring
  rw [hsum]
  unfold orientation cycleCentroid
  field_simp
  ring

/-- The shoelace sum of the polygon has the sign of its orientation. -/
theorem ConvexCycle.shoelace_pos {n : Nat} {s : ℚ} {P : Nat → Point}
    (hc : ConvexCycle n s P) : 0 < s * ∑ k in Finset.range n, cycleTerm P k := by
  rw [sum_cycleTerm_eq hc.closed (cycleMean n P), Finset.mul_sum]
  apply Finset.sum_pos
  · intro k _
    rw [orientation_cyclic]
    exact hc.cycleMean_inside k
  · exact ⟨0, Finset.mem_range.mpr hc.pos⟩

/-- The area-weighted centroid lies strictly on the inner side of every side. -/
theorem ConvexCycle.cycleCentroid_inside {n : Nat} {s : ℚ} {P : Nat → Point}
    (hc : ConvexCycle n s P) (i : Nat) :
    0 < s * orientation (P i) (P (i + 1)) (cycleCentroid n P) := by
  have hS := hc.shoelace_pos
  have hS0 : ∑ k in Finset.range n, cycleTerm P k ≠ 0 := by
    intro h0
    rw [h0, mul_zero] at hS
    exact lt_irrefl 0 hS
  have hss := hc.sq_sign
  have hX : 0 < ∑ k in Finset.range n, orientation (cycleMean n P) (P k) (P (k + 1))
      * (orientation (P i) (P (i + 1)) (P k) + orientation (P i) (P (i + 1)) (P (k + 1))
        + orientation (P i) (P (i + 1)) (cycleMean n P)) := by
    have hterm : ∀ k, orientation (cycleMean n P) (P k) (P (k + 1))
          * (orientation (P i) (P (i + 1)) (P k) + orientation (P i) (P (i + 1)) (P (k + 1))
            + orientation (P i) (P (i + 1)) (cycleMean n P))
        = (s * orientation (P k) (P (k + 1)) (cycleMean n P))
          * (s * orientation (P i) (P (i + 1)) (P k)
            + s * orientation (P i) (P (i + 1)) (P (k + 1))
            + s * orientation (P i) (P (i + 1)) (cycleMean n P)) := by
      intro k
      rw [← orientation_cyclic (cycleMean n P) (P k) (P (k + 1))]
      have : ∀ u v w z : ℚ, s * u * (s * v + s * w + s * z) = s * s * (u * (v + w + z)) := by
        intro u v w z
        ring
      rw [this, hss, one_mul]
    apply Finset.sum_pos
    · intro k _
      rw [hterm]
      exact mul_pos (hc.cycleMean_inside k)
        (add_pos_of_nonneg_of_pos (add_nonneg (hc.nonneg i k) (hc.nonneg i (k + 1)))
          (hc.cycleMean_inside i))
    · exact ⟨0, Finset.mem_range.mpr hc.pos⟩
  rw [← sum_weighted_eq hc.closed, ← orientation_cycleCentroid n P _ _ hS0] at hX
  have h3 : 0 < 3 * (s * ∑ k in Finset.range n, cycleTerm P k) := by linarith
  have hprod : 0 < 3 * (s * ∑ k in Finset.range n, cycleTerm P k)
      * (s * orientation (P i) (P (i + 1)) (cycleCentroid n P)) := by
    have : 3 * (s * ∑ k in Finset.range n, cycleTerm P k)
        * (s * orientation (P i) (P (i + 1)) (cycleCentroid n P))
        = s * s * (3 * (∑ k in Finset.range n, cycleTerm P k)
          * orientation (P i) (P (i + 1)) (cycleCentroid n P)) := by ring
    rw [this, hss, one_mul]
    exact hX
  exact (mul_pos_iff_of_pos_left h3).mp hprod

/-! ## The crossing test on a convex polygon -/

theorem orientation_swap (a b c : Point) : orientation b a c = -orientation a b c := by
  unfold orientation
  ring

/-- Two segments that both cross the height `cy` upwards, each with both ends of the other
weakly on its left: the lower end of the second lies on the line of the first. -/
theorem orientation_eq_zero_of_straddle {lo hi lo2 hi2 : Point} {cy : ℚ}
    (h1 : lo.y ≤ cy) (h2 : cy < hi.y) (h3 : lo2.y ≤ cy) (h4 : cy < hi2.y)
    (hA : 0 ≤ orientation lo hi lo2) (hB : 0 ≤ orientation lo hi hi2)
    (hC : 0 ≤ orientation lo2 hi2 lo) (hD : 0 ≤ orientation lo2 hi2 hi) :
    orientation lo hi lo2 = 0 := by
  have hU : 0 ≤ (hi2.y - cy) * orientation lo hi lo2 + (cy - lo2.y) * orientation lo hi hi2 :=
    add_nonneg (mul_nonneg (by linarith) hA) (mul_nonneg (by linarith) hB)
  have hV : 0 ≤ (hi.y - cy) * orientation lo2 hi2 lo + (cy - lo.y) * orientation lo2 hi2 hi :=
    add_nonneg (mul_nonneg (by linarith) hC) (mul_nonneg (by linarith) hD)
  have hsum : ((hi2.y - cy) * orientation lo hi lo2 + (cy - lo2.y) * orientation lo hi hi2)
      + ((hi.y - cy) * orientation lo2 hi2 lo + (cy - lo.y) * orientation lo2 hi2 hi) = 0 := by
    unfold orientation
    ring
  have hU0 : (hi2.y - cy) * orientation lo hi lo2 + (cy - lo2.y) * orientation lo hi hi2 = 0 := by
    linarith
  have hprod : (hi2.y - cy) * orientation lo hi lo2 ≤ 0 := by
    have := mul_nonneg (by linarith : 0 ≤ cy - lo2.y) hB
    linarith
  have hpos : 0 < hi2.y - cy := by linarith
  have hle : orientation lo hi lo2 ≤ 0 := by
    by_contra hc
    push_neg at hc
    have := mul_pos hpos hc
    linarith
  exact le_antisymm hle hA

/-- Below a horizontal side that has a vertex strictly on its inner side and no vertex
above it, every point strictly on its inner side is strictly below it. -/
theorem lt_of_flat_top {p q v c : Point} {s : ℚ} (hpq : p.y = q.y)
    (hv : 0 < s * orientation p q v) (hvy : v.y ≤ p.y) (hc : 0 < s * orientation p q c) :
    c.y < p.y := by
  have ev : s * orientation p q v = s * (q.x - p.x) * (v.y - p.y) := by
    unfold orientation
    rw [← hpq]
    ring
  have ec : s * orientation p q c = s * (q.x - p.x) * (c.y - p.y) := by
    unfold orientation
    rw [← hpq]
    ring
  rw [ev] at hv
  rw [ec] at hc
  by_contra hle
  push_neg at hle
  have h1 : 0 ≤ s * (q.x - p.x) := by
    by_contra hneg
    push_neg at hneg
    have := mul_nonpos_of_nonpos_of_nonneg hneg.le (by linarith : 0 ≤ c.y - p.y)
    linarith
  have := mul_nonpos_of_nonneg_of_nonpos h1 (by linarith : v.y - p.y ≤ 0)
  linarith

/-- Above a horizontal side that has a vertex strictly on its inner side and no vertex
below it, every point strictly on its inner side is strictly above it. -/
theorem lt_of_flat_bottom {p q v c : Point} {s : ℚ} (hpq : p.y = q.y)
    (hv : 0 < s * orientation p q v) (hvy : p.y ≤ v.y) (hc : 0 < s * orientation p q c) :
    p.y < c.y := by
  have ev : s * orientation p q v = s * (q.x - p.x) * (v.y - p.y) := by
    unfold orientation
    rw [← hpq]
    ring
  have ec : s * orientation p q c = s * (q.x - p.x) * (c.y - p.y) := by
    unfold orientation
    rw [← hpq]
    ring
  rw [ev] at hv
  rw [ec] at hc
  by_contra hle
  push_neg at hle
  have h1 : s * (q.x - p.x) ≤ 0 := by
    by_contra hpos
    push_neg at hpos
    have := mul_nonpos_of_nonneg_of_nonpos hpos.le (by linarith : c.y - p.y ≤ 0)
    linarith
  have := mul_nonpos_of_nonpos_of_nonneg h1 (by linarith : 0 ≤ v.y - p.y)
  linarith

/-- At a vertex that is strictly higher than both its neighbours, a point strictly on the
inner side of both sides at the vertex is strictly below the vertex. -/
theorem lt_of_corner_top {a b d c : Point} {s : ℚ} (h1 : 0 < s * orientation a b c)
    (h2 : 0 < s * orientation b d c) (h3 : 0 ≤ s * orientation a b d) (ha : a.y < b.y)
    (hd : d.y < b.y) : c.y < b.y := by
  by_contra hc
  push_neg at hc
  have hid : s * orientation a b d * (c.y - b.y)
      = s * orientation a b c * (d.y - b.y) + s * orientation b d c * (a.y - b.y) := by
    unfold orientation
    ring
  have hL : 0 ≤ s * orientation a b d * (c.y - b.y) := mul_nonneg h3 (by linarith)
  have hR1 : s * orientation a b c * (d.y - b.y) < 0 :=
    mul_neg_of_pos_of_neg h1 (by linarith)
  have hR2 : s * orientation b d c * (a.y - b.y) < 0 :=
    mul_neg_of_pos_of_neg h2 (by linarith)
  linarith

/-- At a vertex that is strictly lower than both its neighbours, a point strictly on the
inner side of both sides at the vertex is strictly above the vertex. -/
theorem lt_of_corner_bottom {a b d c : Point} {s : ℚ} (h1 : 0 < s * orientation a b c)
    (h2 : 0 < s * orientation b d c) (h3 : 0 ≤ s * orientation a b d) (ha : b.y < a.y)
    (hd : b.y < d.y) : b.y < c.y := by
  by_contra hc
  push_neg at hc
  have hid : s * orientation a b d * (c.y - b.y)
      = s * orientation a b c * (d.y - b.y) + s * orientation b d c * (a.y - b.y) := by
    unfold orientation
    ring
  have hL : s * orientation a b d * (c.y - b.y) ≤ 0 :=
    mul_nonpos_of_nonneg_of_nonpos h3 (by linarith)
  have hR1 : 0 < s * orientation a b c * (d.y - b.y) := mul_pos h1 (by linarith)
  have hR2 : 0 < s * orientation b d c * (a.y - b.y) := mul_pos h2 (by linarith)
  linarith

/-- Some vertex is strictly above a point that lies strictly on the inner side of every
side. -/
theorem ConvexCycle.exists_above {n : Nat} {s : ℚ} {P : Nat → Point} (hc : ConvexCycle n s P)
    {c : Point} (hin : ∀ i, 0 < s * orientation (P i) (P (i + 1)) c) :
    ∃ k, c.y < (P k).y := by
  obtain ⟨m, -, hmax⟩ := Finset.exists_max_image (Finset.range n) (fun k => (P k).y)
    ⟨0, Finset.mem_range.mpr hc.pos⟩
  have hall : ∀ k, (P k).y ≤ (P m).y := by
    intro k
    rw [← hc.mod k]
    exact hmax (k % n) (Finset.mem_range.mpr (Nat.mod_lt _ hc.pos))
  have hb : P (m + n - 1 + 1) = P m := by
    apply hc.congr
    have : m + n - 1 + 1 = m + n := by have := hc.pos; omega
    rw [this, Nat.add_mod_right]
  have hall2 : ∀ k, (P k).y ≤ (P (m + n - 1 + 1)).y := by
    rw [hb]
    exact hall
  refine ⟨m + n - 1 + 1, ?_⟩
  rcases eq_or_lt_of_le (hall2 (m + n - 1 + 1 + 1)) with hd | hd
  · obtain ⟨v, -, hv⟩ := hc.exists_inner (m + n - 1 + 1)
    exact lt_of_flat_top hd.symm hv (hall2 v) (hin (m + n - 1 + 1))
  · rcases eq_or_lt_of_le (hall2 (m + n - 1)) with ha | ha
    · obtain ⟨v, -, hv⟩ := hc.exists_inner (m + n - 1)
      have := lt_of_flat_top ha hv (by rw [ha]; exact hall2 v) (hin (m + n - 1))
      rw [ha] at this
      exact this
    · exact lt_of_corner_top (hin (m + n - 1)) (hin (m + n - 1 + 1))
        (hc.nonneg (m + n - 1) (m + n - 1 + 1 + 1)) ha hd

/-- Some vertex is strictly below a point that lies strictly on the inner side of every
side. -/
theorem ConvexCycle.exists_below {n : Nat} {s : ℚ} {P : Nat → Point} (hc : ConvexCycle n s P)
    {c : Point} (hin : ∀ i, 0 < s * orientation (P i) (P (i + 1)) c) :
    ∃ k, (P k).y < c.y := by
  obtain ⟨m, -, hmin⟩ := Finset.exists_min_image (Finset.range n) (fun k => (P k).y)
    ⟨0, Finset.mem_range.mpr hc.pos⟩
  have hall : ∀ k, (P m).y ≤ (P k).y := by
    intro k
    rw [← hc.mod k]
    exact hmin (k % n) (Finset.mem_range.mpr (Nat.mod_lt _ hc.pos))
  have hb : P (m + n - 1 + 1) = P m := by
    apply hc.congr
    have : m + n - 1 + 1 = m + n := by have := hc.pos; omega
    rw [this, Nat.add_mod_right]
  have hall2 : ∀ k, (P (m + n - 1 + 1)).y ≤ (P k).y := by
    rw [hb]
    exact hall
  refine ⟨m + n - 1 + 1, ?_⟩
  rcases eq_or_lt_of_le (hall2 (m + n - 1 + 1 + 1)) with hd | hd
  · obtain ⟨v, -, hv⟩ := hc.exists_inner (m + n - 1 + 1)
    exact lt_of_flat_bottom hd hv (hall2 v) (hin (m + n - 1 + 1))
  · rcases eq_or_lt_of_le (hall2 (m + n - 1)) with ha | ha
    · obtain ⟨v, -, hv⟩ := hc.exists_inner (m + n - 1)
      have := lt_of_flat_bottom ha.symm hv (by rw [← ha]; exact hall2 v) (hin (m + n - 1))
      rw [← ha] at this
      exact this
    · exact lt_of_corner_bottom (hin (m + n - 1)) (hin (m + n - 1 + 1))
        (hc.nonneg (m + n - 1) (m + n - 1 + 1 + 1)) ha hd

/-- A periodic sequence of truth values that takes both values steps from `false` to
`true` somewhere. -/
theorem exists_step_of_periodic {n : Nat} (f : Nat → Bool) (hper : ∀ k, f (k + n) = f k)
    (hn : 0 < n) {a b : Nat} (ha : f a = true) (hb : f b = false) :
    ∃ m, f m = false ∧ f (m + 1) = true := by
  have hmul : ∀ j k, f (k + j * n) = f k := by
    intro j
    induction j with
    | zero => simp
    | succ j ih =>
      intro k
      rw [Nat.succ_mul, ← Nat.add_assoc, hper, ih]
  have hex : ∃ t, f (b + t) = true := by
    refine ⟨a + b * n - b, ?_⟩
    have hle : b ≤ a + b * n := by nlinarith
    rw [Nat.add_sub_cancel' hle, hmul]
    exact ha
  have hspec := Nat.find_spec hex
  have hmin := fun t => @Nat.find_min _ _ hex t
  cases hfind : Nat.find hex with
  | zero =>
    rw [hfind, Nat.add_zero, hb] at hspec
    exact absurd hspec (by simp)
  | succ t =>
    refine ⟨b + t, ?_, ?_⟩
    · have := hmin t (by rw [hfind]; exact Nat.lt_succ_self t)
      simpa using this
    · rw [hfind] at hspec
      exact hspec

/-- For a point strictly on the inner side of a side, the crossing test of
`isPointInPolygon` succeeds exactly when the side crosses the height of the point in the
direction that the orientation of the polygon selects. -/
theorem sideCrossing_iff {a b c : Point} {s : ℚ} (hs : s * s = 1)
    (ho : 0 < s * orientation a b c) :
    sideCrossing c a b = true
      ↔ decide (b.y > c.y) ≠ decide (a.y > c.y) ∧ 0 < s * (b.y - a.y) := by
  unfold sideCrossing
  simp only [Bool.and_eq_true, bne_iff_ne, ne_eq, decide_eq_true_eq]
  have hprod : ∀ dy : ℚ, orientation a b c * dy = s * orientation a b c * (s * dy) := by
    intro dy
    have : s * orientation a b c * (s * dy) = s * s * (orientation a b c * dy) := by ring
    rw [this, hs, one_mul]
  have hkey : a.y ≠ b.y →
      (c.x < (a.x - b.x) * (c.y - b.y) / (a.y - b.y) + b.x ↔ 0 < s * (b.y - a.y)) := by
    intro hne
    have hd : b.y - a.y ≠ 0 := sub_ne_zero.mpr (Ne.symm hne)
    have hd2 : a.y - b.y ≠ 0 := sub_ne_zero.mpr hne
    have hx : (a.x - b.x) * (c.y - b.y) / (a.y - b.y) + b.x - c.x
        = orientation a b c / (b.y - a.y) := by
      unfold orientation
      field_simp
      ring
    rw [← sub_pos, hx, div_pos_iff, ← mul_pos_iff, hprod, mul_pos_iff_of_pos_left ho]
  constructor
  · rintro ⟨hstr, hlt⟩
    have hne : a.y ≠ b.y := by
      intro h
      apply hstr
      rw [h]
    exact ⟨hstr, (hkey hne).mp hlt⟩
  · rintro ⟨hstr, hdy⟩
    have hne : a.y ≠ b.y := by
      intro h
      apply hstr
      rw [h]
    exact ⟨hstr, (hkey hne).mpr hdy⟩

/-! ## Sides that cross the same height -/

theorem SideFamily.modT {n : Nat} {c : Point} {T H : Nat → Point} {prev : Nat → Nat}
    (hf : SideFamily n c T H prev) (k : Nat) : T (k % n) = T k :=
  periodic_mod hf.periodicT k

/-- Two sides that both cross the height `h` upwards, the tail of the second higher than
the tail of the first: the side before the second also goes upwards. -/
theorem SideFamily.prev_lt {n : Nat} {c : Point} {T H : Nat → Point} {prev : Nat → Nat}
    (hf : SideFamily n c T H prev) {m k : Nat} {h : ℚ}
    (hm : (T m).y ≤ h ∧ h < (H m).y) (hk : (T k).y ≤ h ∧ h < (H k).y)
    (hz : orientation (T m) (H m) (T k) = 0) (hlt : (T m).y < (T k).y) :
    (T (prev k)).y < (T k).y := by
  have hA := (hf.left (prev k) m).1
  have hB := (hf.left (prev k) m).2
  have hcU := hf.inside (prev k)
  have hcA := hf.inside m
  have hne := hf.ne (prev k)
  rw [hf.link k] at hA hB hcU hne
  have hsum : ((H m).y - (T k).y) * orientation (T (prev k)) (T k) (T m)
      + ((T k).y - (T m).y) * orientation (T (prev k)) (T k) (H m) = 0 := by
    unfold orientation at hz ⊢
    linear_combination (-((T k).y - (T (prev k)).y)) * hz
  have h1 : 0 ≤ ((H m).y - (T k).y) * orientation (T (prev k)) (T k) (T m) :=
    mul_nonneg (by linarith) hA
  have h2 : 0 ≤ ((T k).y - (T m).y) * orientation (T (prev k)) (T k) (H m) :=
    mul_nonneg (by linarith) hB
  have zA : orientation (T (prev k)) (T k) (T m) = 0 := by
    have : ((H m).y - (T k).y) * orientation (T (prev k)) (T k) (T m) = 0 := by linarith
    exact (mul_eq_zero.mp this).resolve_left (by linarith)
  have zB : orientation (T (prev k)) (T k) (H m) = 0 := by
    have : ((T k).y - (T m).y) * orientation (T (prev k)) (T k) (H m) = 0 := by linarith
    exact (mul_eq_zero.mp this).resolve_left (by linarith)
  have hD : 0 < (H m).y - (T m).y := by linarith
  have hpar : ((T k).x - (T (prev k)).x) * ((H m).y - (T m).y)
      = ((T k).y - (T (prev k)).y) * ((H m).x - (T m).x) := by
    unfold orientation at zA zB
    linear_combination zB - zA
  by_contra hle
  push_neg at hle
  rcases eq_or_lt_of_le hle with heq | hlt2
  · have hx : ((T k).x - (T (prev k)).x) * ((H m).y - (T m).y) = 0 := by
      rw [hpar, heq]
      ring
    have hx2 : (T k).x - (T (prev k)).x = 0 := (mul_eq_zero.mp hx).resolve_right hD.ne'
    apply hne
    have ex : (T (prev k)).x = (T k).x := by linarith
    have ey : (T (prev k)).y = (T k).y := heq.symm
    cases hp : T (prev k)
    cases hq : T k
    rw [hp, hq] at ex ey
    simp only [Point.mk.injEq]
    exact ⟨ex, ey⟩
  · have hd : (T k).y - (T (prev k)).y ≠ 0 := by linarith
    have hUz : orientation (T m) (H m) (T (prev k)) = 0 := by
      have : ((T k).y - (T (prev k)).y) * orientation (T m) (H m) (T (prev k)) = 0 := by
        unfold orientation at zA ⊢
        linear_combination (-((H m).y - (T m).y)) * zA + ((T m).y - (T (prev k)).y) * hpar
      exact (mul_eq_zero.mp this).resolve_left hd
    have hid : ((H m).y - (T m).y) * orientation (T (prev k)) (T k) c
        = ((T k).y - (T (prev k)).y) * orientation (T m) (H m) c := by
      unfold orientation at hUz ⊢
      linear_combination (c.y - (T (prev k)).y) * hpar
        - ((T k).y - (T (prev k)).y) * hUz
    have hpos : 0 < ((H m).y - (T m).y) * orientation (T (prev k)) (T k) c := mul_pos hD hcU
    rw [hid] at hpos
    have hneg : ((T k).y - (T (prev k)).y) * orientation (T m) (H m) c < 0 :=
      mul_neg_of_neg_of_pos (by linarith) hcA
    linarith

/-- A point on a line that is not horizontal is determined by its height. -/
theorem eq_of_orientation_eq_zero {a b v : Point} (hz : orientation a b v = 0)
    (hab : a.y < b.y) (hy : a.y = v.y) : a = v := by
  have hx : (b.y - a.y) * (v.x - a.x) = 0 := by
    unfold orientation at hz
    linear_combination (-(b.x - a.x)) * hy - hz
  have hx2 : v.x - a.x = 0 := (mul_eq_zero.mp hx).resolve_left (by linarith)
  have ex : a.x = v.x := by linarith
  cases a
  cases v
  simp only [Point.mk.injEq]
  exact ⟨ex, hy⟩

/-- The tails below a height, among the sides of one period. -/
theorem SideFamily.card_lt {n : Nat} {c : Point} {T H : Nat → Point} {prev : Nat → Nat}
    (hf : SideFamily n c T H prev) {j : Nat} {y : ℚ} (hj : (T j).y < y) :
    ((Finset.range n).filter (fun i => (T i).y < (T j).y)).card
      < ((Finset.range n).filter (fun i => (T i).y < y)).card := by
  apply Finset.card_lt_card
  rw [Finset.ssubset_iff_of_subset]
  · refine ⟨j % n, ?_, ?_⟩
    · rw [Finset.mem_filter, hf.modT]
      exact ⟨Finset.mem_range.mpr (Nat.mod_lt _ hf.pos), hj⟩
    · rw [Finset.mem_filter, hf.modT]
      exact fun h => lt_irrefl _ h.2
  · intro i hi
    rw [Finset.mem_filter] at hi ⊢
    exact ⟨hi.1, lt_trans hi.2 hj⟩

theorem SideFamily.unique_aux {n : Nat} {c : Point} {T H : Nat → Point} {prev : Nat → Nat}
    (hf : SideFamily n c T H prev) :
    ∀ N m k (h : ℚ), (T m).y ≤ h ∧ h < (H m).y → (T k).y ≤ h ∧ h < (H k).y →
      (T m).y ≤ (T k).y →
      ((Finset.range n).filter (fun i => (T i).y < (T k).y)).card = N → m % n = k % n := by
  intro N
  induction N using Nat.strong_induction_on with
  | _ N ih =>
    intro m k h hm hk hle hN
    have hz : orientation (T m) (H m) (T k) = 0 :=
      orientation_eq_zero_of_straddle hm.1 hm.2 hk.1 hk.2 (hf.left m k).1 (hf.left m k).2
        (hf.left k m).1 (hf.left k m).2
    rcases eq_or_lt_of_le hle with heq | hlt
    · exact hf.injective m k (eq_of_orientation_eq_zero hz (by linarith) heq)
    · exfalso
      have hprev := hf.prev_lt hm hk hz hlt
      have hlink := hf.link k
      have hm2 : (T m).y ≤ max (T (prev k)).y (T m).y ∧ max (T (prev k)).y (T m).y < (H m).y :=
        ⟨le_max_right _ _, max_lt (by linarith) (by linarith)⟩
      have hp2 : (T (prev k)).y ≤ max (T (prev k)).y (T m).y ∧
          max (T (prev k)).y (T m).y < (H (prev k)).y := by
        rw [hlink]
        exact ⟨le_max_left _ _, max_lt hprev hlt⟩
      have hcontra : m % n = prev k % n → False := by
        intro hmod
        have := hf.congrH m (prev k) hmod
        rw [hlink] at this
        rw [this] at hm
        linarith [hk.1, hm.2]
      rcases le_total (T m).y (T (prev k)).y with hcase | hcase
      · exact hcontra (ih _ (by rw [← hN]; exact hf.card_lt hprev) m (prev k) _ hm2 hp2 hcase
          rfl)
      · exact hcontra (ih _ (by rw [← hN]; exact hf.card_lt hlt) (prev k) m _ hp2 hm2 hcase
          rfl).symm

/-- All sides that cross a height upwards have the same index modulo `n`. -/
theorem SideFamily.unique {n : Nat} {c : Point} {T H : Nat → Point} {prev : Nat → Nat}
    (hf : SideFamily n c T H prev) {m k : Nat} {h : ℚ}
    (hm : (T m).y ≤ h ∧ h < (H m).y) (hk : (T k).y ≤ h ∧ h < (H k).y) : m % n = k % n := by
  rcases le_total (T m).y (T k).y with hle | hle
  · exact hf.unique_aux _ m k h hm hk hle rfl
  · exact (hf.unique_aux _ k m h hk hm hle rfl).symm

/-- The sides of a counter-clockwise convex polygon, tail first. -/
theorem ConvexCycle.sideFamily_pos {n : Nat} {P : Nat → Point} (hc : ConvexCycle n 1 P)
    {c : Point} (hin : ∀ i, 0 < 1 * orientation (P i) (P (i + 1)) c) :
    SideFamily n c P (fun m => P (m + 1)) (fun m => m + n - 1) := by
  refine ⟨hc.pos, hc.periodic, ?_, ?_, ?_, ?_, hc.ne_succ, hc.injective⟩
  · intro m k h
    exact hc.congr (Nat.ModEq.add_right 1 h)
  · intro m k
    have h1 := hc.nonneg m k
    have h2 := hc.nonneg m (k + 1)
    rw [one_mul] at h1 h2
    exact ⟨h1, h2⟩
  · intro m
    have := hin m
    rwa [one_mul] at this
  · intro m
    apply hc.congr
    have : m + n - 1 + 1 = m + n := by have := hc.pos; omega
    rw [this, Nat.add_mod_right]

/-- The sides of a clockwise convex polygon, tail first: each side is taken against the
order of the vertices. -/
theorem ConvexCycle.sideFamily_neg {n : Nat} {P : Nat → Point} (hc : ConvexCycle n (-1) P)
    {c : Point} (hin : ∀ i, 0 < -1 * orientation (P i) (P (i + 1)) c) :
    SideFamily n c (fun m => P (m + 1)) P (fun m => m + 1) := by
  refine ⟨hc.pos, ?_, ?_, ?_, ?_, ?_, ?_, ?_⟩
  · intro k
    exact hc.congr (by rw [Nat.add_right_comm, Nat.add_mod_right])
  · intro m k h
    exact hc.congr h
  · intro m k
    have h1 := hc.nonneg m (k + 1)
    have h2 := hc.nonneg m k
    constructor
    · rw [orientation_swap]
      linarith
    · rw [orientation_swap]
      linarith
  · intro m
    have := hin m
    show 0 < orientation (P (m + 1)) (P m) c
    rw [orientation_swap]
    linarith
  · intro m
    rfl
  · intro m
    exact (hc.ne_succ m).symm
  · intro m k h
    exact Nat.ModEq.add_right_cancel' 1 (hc.injective (m + 1) (k + 1) h)

/-- The sides that cross the height of an inner point in the selected direction all have
the same index modulo `n`. -/
theorem ConvexCycle.crossing_unique {n : Nat} {s : ℚ} {P : Nat → Point}
    (hc : ConvexCycle n s P) {c : Point}
    (hin : ∀ i, 0 < s * orientation (P i) (P (i + 1)) c) {m k : Nat}
    (hm : decide ((P (m + 1)).y > c.y) ≠ decide ((P m).y > c.y) ∧
      0 < s * ((P (m + 1)).y - (P m).y))
    (hk : decide ((P (k + 1)).y > c.y) ≠ decide ((P k).y > c.y) ∧
      0 < s * ((P (k + 1)).y - (P k).y)) :
    m % n = k % n := by
  obtain ⟨hm1, hm2⟩ := hm
  obtain ⟨hk1, hk2⟩ := hk
  rcases hc.sign with hs | hs
  · subst hs
    rw [one_mul] at hm2 hk2
    have hm3 : (P m).y ≤ c.y ∧ c.y < (P (m + 1)).y := by
      by_cases h1 : (P (m + 1)).y > c.y
      · by_cases h2 : (P m).y > c.y
        · exact absurd (by simp [h1, h2]) hm1
        · exact ⟨not_lt.mp h2, h1⟩
      · by_cases h2 : (P m).y > c.y
        · exact absurd (by linarith) h1
        · exact absurd (by simp [h1, h2]) hm1
    have hk3 : (P k).y ≤ c.y ∧ c.y < (P (k + 1)).y := by
      by_cases h1 : (P (k + 1)).y > c.y
      · by_cases h2 : (P k).y > c.y
        · exact absurd (by simp [h1, h2]) hk1
        · exact ⟨not_lt.mp h2, h1⟩
      · by_cases h2 : (P k).y > c.y
        · exact absurd (by linarith) h1
        · exact absurd (by simp [h1, h2]) hk1
    exact (hc.sideFamily_pos hin).unique hm3 hk3
  · subst hs
    have hm3 : (P (m + 1)).y ≤ c.y ∧ c.y < (P m).y := by
      by_cases h1 : (P (m + 1)).y > c.y
      · by_cases h2 : (P m).y > c.y
        · exact absurd (by simp [h1, h2]) hm1
        · exact absurd (by linarith) h2
      · by_cases h2 : (P m).y > c.y
        · exact ⟨not_lt.mp h1, h2⟩
        · exact absurd (by simp [h1, h2]) hm1
    have hk3 : (P (k + 1)).y ≤ c.y ∧ c.y < (P k).y := by
      by_cases h1 : (P (k + 1)).y > c.y
      · by_cases h2 : (P k).y > c.y
        · exact absurd (by simp [h1, h2]) hk1
        · exact absurd (by linarith) h2
      · by_cases h2 : (P k).y > c.y
        · exact ⟨not_lt.mp h1, h2⟩
        · exact absurd (by simp [h1, h2]) hk1
    exact (hc.sideFamily_neg hin).unique hm3 hk3

/-- Some side crosses the height of an inner point in the selected direction. -/
theorem ConvexCycle.crossing_exists {n : Nat} {s : ℚ} {P : Nat → Point}
    (hc : ConvexCycle n s P) {c : Point}
    (hin : ∀ i, 0 < s * orientation (P i) (P (i + 1)) c) :
    ∃ m, decide ((P (m + 1)).y > c.y) ≠ decide ((P m).y > c.y) ∧
      0 < s * ((P (m + 1)).y - (P m).y) := by
  obtain ⟨ka, hka⟩ := hc.exists_above hin
  obtain ⟨kb, hkb⟩ := hc.exists_below hin
  rcases hc.sign with hs | hs
  · obtain ⟨m, h1, h2⟩ := exists_step_of_periodic (fun k => decide ((P k).y > c.y))
      (fun k => by simp only [hc.periodic]) hc.pos (a := ka) (b := kb)
      (by simpa using hka) (by simpa using hkb.le)
    simp only [decide_eq_false_iff_not, decide_eq_true_eq, not_lt] at h1 h2
    refine ⟨m, ?_, ?_⟩
    · simp [h2, not_lt.mpr h1]
    · rw [hs, one_mul]
      linarith
  · obtain ⟨m, h1, h2⟩ := exists_step_of_periodic (fun k => !decide ((P k).y > c.y))
      (fun k => by simp only [hc.periodic]) hc.pos (a := kb) (b := ka)
      (by simpa using hkb.le) (by simpa using hka)
    simp only [Bool.not_eq_false', Bool.not_eq_true', decide_eq_false_iff_not,
      decide_eq_true_eq, not_lt] at h1 h2
    refine ⟨m, ?_, ?_⟩
    · simp [h1, not_lt.mpr h2]
    · rw [hs]
      linarith

/-- Exactly one side of a convex polygon, up to the period, passes the crossing test of
`isPointInPolygon` for a point strictly on the inner side of every side. -/
theorem ConvexCycle.sideCrossing_unique {n : Nat} {s : ℚ} {P : Nat → Point}
    (hc : ConvexCycle n s P) {c : Point}
    (hin : ∀ i, 0 < s * orientation (P i) (P (i + 1)) c) :
    ∃ m, sideCrossing c (P m) (P (m + 1)) = true ∧
      ∀ k, sideCrossing c (P k) (P (k + 1)) = true → k % n = m % n := by
  obtain ⟨m, hm⟩ := hc.crossing_exists hin
  refine ⟨m, (sideCrossing_iff hc.sq_sign (hin m)).mpr hm, ?_⟩
  intro k hk
  exact hc.crossing_unique hin ((sideCrossing_iff hc.sq_sign (hin k)).mp hk) hm

/-! ## The centroid of a convex vertex list passes the point-in-polygon test -/

theorem cyclicPoint_of_lt (points : List Point) {k : Nat} (h : k < points.length) :
    cyclicPoint points k = pointAt points k := by
  unfold cyclicPoint
  rw [Nat.mod_eq_of_lt h]

/-- Different positions of a list without repetition hold different points. -/
theorem pointAt_injective {points : List Point} (hnd : points.Nodup) {i k : Nat}
    (hi : i < points.length) (hk : k < points.length)
    (h : pointAt points i = pointAt points k) : i = k := by
  unfold pointAt at h
  rw [List.getD_eq_getElem?_getD, List.getD_eq_getElem?_getD] at h
  apply List.getElem?_inj hi hnd
  rw [List.getElem?_eq_getElem hi, List.getElem?_eq_getElem hk] at h ⊢
  simp only [Option.getD_some] at h
  rw [h]

/-- The vertex list of a convex polygon is a convex cycle. -/
theorem convexCycle_of_isConvexWith {points : List Point} {s : ℚ} (h3 : 3 ≤ points.length)
    (hnd : points.Nodup)
    (hp : ∃ i < points.length, ∃ k < points.length,
      orientation (pointAt points i) (pointAt points ((i + 1) % points.length))
        (pointAt points k) ≠ 0)
    (hs : s = 1 ∨ s = -1) (h : IsConvexWith s points) :
    ConvexCycle points.length s (cyclicPoint points) := by
  have hn : 0 < points.length := by omega
  refine ⟨h3, hs, ?_, ?_, ?_, ?_⟩
  · intro k
    unfold cyclicPoint
    rw [Nat.add_mod_right]
  · intro i k
    have := h (i % points.length) (Nat.mod_lt _ hn) (k % points.length) (Nat.mod_lt _ hn)
    rw [Nat.mod_add_mod] at this
    exact this
  · intro i k hik
    exact pointAt_injective hnd (Nat.mod_lt _ hn) (Nat.mod_lt _ hn) hik
  · obtain ⟨i, hi, k, hk, hne⟩ := hp
    refine ⟨i, k, ?_⟩
    unfold cyclicPoint
    rw [Nat.mod_eq_of_lt hi, Nat.mod_eq_of_lt hk]
    exact hne

/-- The loop of `isPointInPolygon`, side by side: the side that ends at vertex `i` starts
at the vertex before it, cyclically. -/
theorem foldl_isPointInPolygonStep (point : Point) (polygon : List Point)
    (hn : 0 < polygon.length) :
    ∀ m, m ≤ polygon.length →
      (List.range m).foldl (isPointInPolygonStep point polygon) (false, polygon.length - 1)
        = ((List.range m).foldl
            (fun b i => if sideCrossing point (cyclicPoint polygon (i + polygon.length - 1))
              (cyclicPoint polygon (i + polygon.length - 1 + 1)) then !b else b) false,
          (m + polygon.length - 1) % polygon.length) := by
  intro m
  induction m with
  | zero =>
    intro _
    simp only [List.range_zero, List.foldl_nil, Nat.zero_add]
    rw [Nat.mod_eq_of_lt (by omega)]
  | succ m ih =>
    intro hm
    rw [List.range_succ, List.foldl_append, List.foldl_append, ih (by omega)]
    simp only [List.foldl_cons, List.foldl_nil]
    have e1 : (m + 1 + polygon.length - 1) % polygon.length = m := by
      have : m + 1 + polygon.length - 1 = m + polygon.length := by omega
      rw [this, Nat.add_mod_right, Nat.mod_eq_of_lt (by omega)]
    have e2 : cyclicPoint polygon (m + polygon.length - 1 + 1) = pointAt polygon m := by
      unfold cyclicPoint
      have : m + polygon.length - 1 + 1 = m + polygon.length := by omega
      rw [this, Nat.add_mod_right, Nat.mod_eq_of_lt (by omega)]
    rw [e1, e2]
    unfold isPointInPolygonStep sideCrossing cyclicPoint
    rfl

/-- Sides that fail the crossing test leave the flag `inside` as it is. -/
theorem foldl_toggle_of_false (C : Nat → Bool) (b : Bool) :
    ∀ m, (∀ i, i < m → C i = false) →
      (List.range m).foldl (fun b i => if C i then !b else b) b = b := by
  intro m
  induction m with
  | zero => intro _; rfl
  | succ m ih =>
    intro h
    rw [List.range_succ, List.foldl_append, ih (fun i hi => h i (by omega))]
    simp [h m (by omega)]

/-- If exactly one side passes the crossing test, the flag `inside` ends up set. -/
theorem foldl_toggle_of_unique (C : Nat → Bool) (i0 : Nat) :
    ∀ m, i0 < m → (∀ i, i < m → (C i = true ↔ i = i0)) →
      (List.range m).foldl (fun b i => if C i then !b else b) false = true := by
  intro m
  induction m with
  | zero => intro h; omega
  | succ m ih =>
    intro hlt h
    rw [List.range_succ, List.foldl_append]
    by_cases hm : i0 = m
    · subst hm
      rw [foldl_toggle_of_false C false i0 (fun i hi => by
        have := (h i (by omega)).not
        simpa using this.mpr (by omega))]
      simp [(h i0 (by omega)).mpr rfl]
    · rw [ih (by omega) (fun i hi => h i (by omega))]
      have hf : C m = false := by
        have := (h m (by omega)).not
        simpa using this.mpr (fun h => hm h.symm)
      simp [hf]

/-- A point strictly on the inner side of every side of a convex polygon passes
`isPointInPolygon`. -/
theorem isPointInPolygon_of_inside {points : List Point} {s : ℚ} {c : Point}
    (hc : ConvexCycle points.length s (cyclicPoint points))
    (hin : ∀ i, 0 < s * orientation (cyclicPoint points i) (cyclicPoint points (i + 1)) c) :
    isPointInPolygon c points = true := by
  have hn := hc.pos
  obtain ⟨m0, hm0, huniq⟩ := hc.sideCrossing_unique hin
  unfold isPointInPolygon
  rw [foldl_isPointInPolygonStep c points hn points.length le_rfl]
  simp only []
  apply foldl_toggle_of_unique _ ((m0 + 1) % points.length) points.length (Nat.mod_lt _ hn)
  intro i hi
  constructor
  · intro h
    have h1 := huniq _ h
    have h2 : (i + points.length - 1 + 1) % points.length = (m0 + 1) % points.length :=
      Nat.ModEq.add_right 1 h1
    have h3 : i + points.length - 1 + 1 = i + points.length := by omega
    rw [h3, Nat.add_mod_right, Nat.mod_eq_of_lt hi] at h2
    exact h2
  · intro h
    have h3 : i + points.length - 1 + 1 = i + points.length := by omega
    have h2 : (i + points.length - 1 + 1) % points.length = (m0 + 1) % points.length := by
      rw [h3, Nat.add_mod_right, Nat.mod_eq_of_lt hi]
      exact h
    have h1 : (i + points.length - 1) % points.length = m0 % points.length :=
      Nat.ModEq.add_right_cancel' 1 h2
    rw [hc.congr h1, hc.congr h2]
    exact hm0

/-- The sum over a point list, by position. -/
theorem sum_map_eq_sum_range (f : Point → ℚ) (points : List Point) :
    (points.map f).sum = ∑ k in Finset.range points.length, f (pointAt points k) := by
  induction points with
  | nil => simp
  | cons p rest ih =>
    rw [List.map_cons, List.sum_cons, List.length_cons, Finset.sum_range_succ', ih]
    simp only [pointAt, List.getD_cons_succ, List.getD_cons_zero]
    ring

theorem vertexMean_eq_cycleMean (points : List Point) :
    vertexMean points = cycleMean points.length (cyclicPoint points) := by
  unfold vertexMean cycleMean
  rw [sum_map_eq_sum_range, sum_map_eq_sum_range]
  congr 2 <;> apply Finset.sum_congr rfl <;> intro k hk <;>
    rw [cyclicPoint_of_lt points (Finset.mem_range.mp hk)]

theorem shoelaceTerm_eq_cycleTerm (points : List Point) {k : Nat} (hk : k < points.length) :
    shoelaceTerm points k = cycleTerm (cyclicPoint points) k := by
  unfold shoelaceTerm cycleTerm
  rw [cyclicPoint_of_lt points hk]
  rfl

theorem weightedCentroid_eq_cycleCentroid (points : List Point) :
    weightedCentroid points = cycleCentroid points.length (cyclicPoint points) := by
  have hS : ∑ i in Finset.range points.length, shoelaceTerm points i
      = ∑ k in Finset.range points.length, cycleTerm (cyclicPoint points) k :=
    Finset.sum_congr rfl (fun k hk => shoelaceTerm_eq_cycleTerm points (Finset.mem_range.mp hk))
  have h6 : 6 * signedArea points
      = 3 * ∑ k in Finset.range points.length, cycleTerm (cyclicPoint points) k := by
    unfold signedArea
    rw [hS]
    ring
  unfold weightedCentroid cycleCentroid
  rw [h6]
  congr 2 <;> apply Finset.sum_congr rfl <;> intro k hk <;>
    rw [shoelaceTerm_eq_cycleTerm points (Finset.mem_range.mp hk),
      cyclicPoint_of_lt points (Finset.mem_range.mp hk)] <;> rfl

/-- The centroid of a convex polygon passes `isPointInPolygon`. -/
theorem isPointInPolygon_centroid {points : List Point} (h : IsConvexPolygon points) :
    isPointInPolygon (calculatePolygonCentroid points) points = true := by
  obtain ⟨h3, hnd, hp, hconv⟩ := h
  have hne : points ≠ [] := by
    intro h0
    rw [h0] at h3
    simp at h3
  have key : ∀ s : ℚ, ConvexCycle points.length s (cyclicPoint points) →
      isPointInPolygon (calculatePolygonCentroid points) points = true := by
    intro s hc
    rw [calculatePolygonCentroid_eq hne]
    split
    · rw [vertexMean_eq_cycleMean]
      exact isPointInPolygon_of_inside hc hc.cycleMean_inside
    · rw [weightedCentroid_eq_cycleCentroid]
      exact isPointInPolygon_of_inside hc hc.cycleCentroid_inside
  rcases hconv with hconv | hconv
  · exact key 1 (convexCycle_of_isConvexWith h3 hnd hp (Or.inl rfl) hconv)
  · exact key (-1) (convexCycle_of_isConvexWith h3 hnd hp (Or.inr rfl) hconv)

/-! ## Symmetry of `findIntersection` -/

/-- With the two segments exchanged the denominator changes its sign and the two
parameters change places. -/
theorem findIntersection_swap_parameters (x1 y1 x2 y2 x3 y3 x4 y4 : ℚ)
    (hden : (x1 - x2) * (y3 - y4) - (y1 - y2) * (x3 - x4) ≠ 0) :
    ((x3 - x1) * (y1 - y2) - (y3 - y1) * (x1 - x2))
          / ((x3 - x4) * (y1 - y2) - (y3 - y4) * (x1 - x2))
        = -((x1 - x2) * (y1 - y3) - (y1 - y2) * (x1 - x3))
          / ((x1 - x2) * (y3 - y4) - (y1 - y2) * (x3 - x4)) ∧
      -((x3 - x4) * (y3 - y1) - (y3 - y4) * (x3 - x1))
          / ((x3 - x4) * (y1 - y2) - (y3 - y4) * (x1 - x2))
        = ((x1 - x3) * (y3 - y4) - (y1 - y3) * (x3 - x4))
          / ((x1 - x2) * (y3 - y4) - (y1 - y2) * (x3 - x4)) := by
  have hden' : (x3 - x4) * (y1 - y2) - (y3 - y4) * (x1 - x2) ≠ 0 := by
    intro h
    apply hden
    linear_combination -h
  constructor
  · rw [div_eq_div_iff hden' hden]
    ring
  · rw [div_eq_div_iff hden' hden]
    ring

/-- The point of the first segment at parameter `t` is the point of the second segment at
parameter `u`. -/
theorem findIntersection_point_eq (x1 y1 x2 y2 x3 y3 x4 y4 : ℚ)
    (hden : (x1 - x2) * (y3 - y4) - (y1 - y2) * (x3 - x4) ≠ 0) :
    x3 + -((x1 - x2) * (y1 - y3) - (y1 - y2) * (x1 - x3))
          / ((x1 - x2) * (y3 - y4) - (y1 - y2) * (x3 - x4)) * (x4 - x3)
        = x1 + ((x1 - x3) * (y3 - y4) - (y1 - y3) * (x3 - x4))
          / ((x1 - x2) * (y3 - y4) - (y1 - y2) * (x3 - x4)) * (x2 - x1) ∧
      y3 + -((x1 - x2) * (y1 - y3) - (y1 - y2) * (x1 - x3))
          / ((x1 - x2) * (y3 - y4) - (y1 - y2) * (x3 - x4)) * (y4 - y3)
        = y1 + ((x1 - x3) * (y3 - y4) - (y1 - y3) * (x3 - x4))
          / ((x1 - x2) * (y3 - y4) - (y1 - y2) * (x3 - x4)) * (y2 - y1) := by
  constructor
  · field_simp
    ring
  · field_simp
    ring

/-- A denominator that passes the guard is not zero. -/
theorem ne_zero_of_not_abs_lt {den : ℚ} (h : ¬ |den| < EPSILON) : den ≠ 0 := by
  intro h0
  apply h
  rw [h0, abs_zero]
  unfold EPSILON
  norm_num

theorem findIntersection_swap (x1 y1 x2 y2 x3 y3 x4 y4 : ℚ) :
    findIntersection x3 y3 x4 y4 x1 y1 x2 y2 = findIntersection x1 y1 x2 y2 x3 y3 x4 y4 := by
  have habs : |(x3 - x4) * (y1 - y2) - (y3 - y4) * (x1 - x2)|
      = |(x1 - x2) * (y3 - y4) - (y1 - y2) * (x3 - x4)| := by
    rw [← abs_neg]
    congr 1
    ring
  unfold findIntersection
  simp only []
  rw [habs]
  by_cases hg : |(x1 - x2) * (y3 - y4) - (y1 - y2) * (x3 - x4)| < EPSILON
  · rw [if_pos hg, if_pos hg]
  · rw [if_neg hg, if_neg hg]
    have hden := ne_zero_of_not_abs_lt hg
    obtain ⟨ht, hu⟩ := findIntersection_swap_parameters x1 y1 x2 y2 x3 y3 x4 y4 hden
    obtain ⟨hx, hy⟩ := findIntersection_point_eq x1 y1 x2 y2 x3 y3 x4 y4 hden
    rw [ht, hu, hx, hy]
    by_cases hin :
        ((x1 - x3) * (y3 - y4) - (y1 - y3) * (x3 - x4))
            / ((x1 - x2) * (y3 - y4) - (y1 - y2) * (x3 - x4)) ≥ -EPSILON ∧
          ((x1 - x3) * (y3 - y4) - (y1 - y3) * (x3 - x4))
            / ((x1 - x2) * (y3 - y4) - (y1 - y2) * (x3 - x4)) ≤ 1 + EPSILON ∧
          -((x1 - x2) * (y1 - y3) - (y1 - y2) * (x1 - x3))
            / ((x1 - x2) * (y3 - y4) - (y1 - y2) * (x3 - x4)) ≥ -EPSILON ∧
          -((x1 - x2) * (y1 - y3) - (y1 - y2) * (x1 - x3))
            / ((x1 - x2) * (y3 - y4) - (y1 - y2) * (x3 - x4)) ≤ 1 + EPSILON
    · rw [if_pos hin, if_pos ⟨hin.2.2.1, hin.2.2.2, hin.1, hin.2.1⟩]
    · rw [if_neg hin, if_neg (fun h => hin ⟨h.2.2.1, h.2.2.2, h.1, h.2.1⟩)]

/-- A returned point lies on the supporting lines of both segments. -/
theorem findIntersection_on_lines {x1 y1 x2 y2 x3 y3 x4 y4 : ℚ} {p : Point}
    (h : findIntersection x1 y1 x2 y2 x3 y3 x4 y4 = some p) :
    (x2 - x1) * (p.y - y1) - (y2 - y1) * (p.x - x1) = 0 ∧
      (x4 - x3) * (p.y - y3) - (y4 - y3) * (p.x - x3) = 0 := by
  unfold findIntersection at h
  simp only [] at h
  split at h
  · exact absurd h (by simp)
  · rename_i hg
    have hden := ne_zero_of_not_abs_lt hg
    obtain ⟨hx, hy⟩ := findIntersection_point_eq x1 y1 x2 y2 x3 y3 x4 y4 hden
    split at h
    · simp only [Option.some.injEq] at h
      subst h
      refine ⟨by simp only []; ring, ?_⟩
      simp only []
      rw [← hx, ← hy]
      ring
    · exact absurd h (by simp)

/-! ## The sorted order of the points of a wall -/

theorem insertByKey_sorted (key : Point → ℚ) (a : Point) :
    ∀ l : List Point, l.Pairwise (fun p q => key p ≤ key q) →
      (insertByKey key a l).Pairwise (fun p q => key p ≤ key q)
  | [], _ => by
    unfold insertByKey
    exact List.pairwise_singleton _ _
  | b :: rest, h => by
    unfold insertByKey
    split
    · rename_i hba
      rw [List.pairwise_cons] at h ⊢
      refine ⟨?_, insertByKey_sorted key a rest h.2⟩
      intro q hq
      rcases List.mem_cons.mp ((insertByKey_perm key a rest).mem_iff.mp hq) with hq | hq
      · rw [hq]
        exact hba
      · exact h.1 q hq
    · rename_i hba
      have hab : key a ≤ key b := le_of_lt (not_le.mp hba)
      rw [List.pairwise_cons]
      refine ⟨?_, h⟩
      intro q hq
      rcases List.mem_cons.mp hq with hq | hq
      · rw [hq]
        exact hab
      · exact hab.trans ((List.pairwise_cons.mp h).1 q hq)

theorem foldl_insertByKey_sorted (key : Point → ℚ) :
    ∀ (l acc : List Point), acc.Pairwise (fun p q => key p ≤ key q) →
      (l.foldl (fun sorted a => insertByKey key a sorted) acc).Pairwise
        (fun p q => key p ≤ key q)
  | [], _, h => h
  | a :: l, acc, h => by
    rw [List.foldl_cons]
    exact foldl_insertByKey_sorted key l _ (insertByKey_sorted key a acc h)

/-- The sort puts the points in the order of their keys. -/
theorem sortByKey_sorted (key : Point → ℚ) (l : List Point) :
    (sortByKey key l).Pairwise (fun p q => key p ≤ key q) :=
  foldl_insertByKey_sorted key l [] List.Pairwise.nil

/-- The array `pointsOnWall` is sorted by the squared distance from the first endpoint. -/
theorem pointsOnWall_sorted (nodes : NodeMap) (wall : Wall) :
    (pointsOnWall nodes wall).Pairwise
      (fun p q => wallOrderKey wall p ≤ wallOrderKey wall q) := by
  unfold pointsOnWall
  exact sortByKey_sorted _ _

/-- The array `pointsOnWall` holds the points of the nodes on the wall, each once per
node. -/
theorem pointsOnWall_perm (nodes : NodeMap) (wall : Wall) :
    (pointsOnWall nodes wall).Perm (nodesOnWall nodes wall) := by
  rw [pointsOnWall_eq]
  exact sortByKey_perm _ _

theorem pointsOnWall_congr {a b : NodeMap} (h : nodeCoords a = nodeCoords b) (wall : Wall) :
    pointsOnWall a wall = pointsOnWall b wall := by
  rw [pointsOnWall_eq, pointsOnWall_eq, h]

theorem length_eq_of_nodeCoords {a b : NodeMap} (h : nodeCoords a = nodeCoords b) :
    a.length = b.length := by
  rw [← length_nodeCoords a, ← length_nodeCoords b, h]

theorem nodePoint_congr {a b : NodeMap} (h : nodeCoords a = nodeCoords b) (i : Nat) :
    nodePoint a i = nodePoint b i := by
  have hl := length_eq_of_nodeCoords h
  unfold nodePoint
  by_cases hi : i < a.length
  · have h1 := nodeCoords_getElem? a i hi
    have h2 := nodeCoords_getElem? b i (hl ▸ hi)
    rw [h, h2] at h1
    exact (Option.some.inj h1).symm
  · rw [nodeAt_of_length_le a i (by omega), nodeAt_of_length_le b i (by omega)]

theorem nodePoint_mem {nodes : NodeMap} {i : Nat} (hi : i < nodes.length) :
    nodePoint nodes i ∈ nodeCoords nodes :=
  List.getElem?_mem (nodeCoords_getElem? nodes i hi)

theorem mem_nodeCoords_iff {nodes : NodeMap} {p : Point} :
    p ∈ nodeCoords nodes ↔ ∃ i, i < nodes.length ∧ nodePoint nodes i = p := by
  constructor
  · intro hp
    obtain ⟨i, hi⟩ := List.getElem?_of_mem hp
    have hlt : i < nodes.length := by
      have := (List.getElem?_eq_some_iff.mp hi).1
      rwa [length_nodeCoords] at this
    refine ⟨i, hlt, ?_⟩
    have h1 := nodeCoords_getElem? nodes i hlt
    rw [hi] at h1
    exact (Option.some.inj h1).symm
  · rintro ⟨i, hi, rfl⟩
    exact nodePoint_mem hi

/-! ## Adding an edge -/

theorem nodeCoords_addEdge (st : NodeMap × List Edge) (i1 i2 : Nat) (wall : Wall) :
    nodeCoords (addEdge st i1 i2 wall).1 = nodeCoords st.1 := by
  unfold addEdge
  simp only [nodeCoords_pushEdge]

theorem nodeKeys_addEdge (st : NodeMap × List Edge) (i1 i2 : Nat) (wall : Wall) :
    nodeKeys (addEdge st i1 i2 wall).1 = nodeKeys st.1 := by
  unfold addEdge
  simp only [nodeKeys_pushEdge]

/-- One pair of consecutive points of the map: nothing when they are within `EPSILON`, and
otherwise an edge between their nodes. -/
theorem assembleWallEdges_pair {st : NodeMap × List Edge} (h : GraphInv st) (wall : Wall)
    {p1 p2 : Point} (rest : List Point) (hp1 : p1 ∈ nodeCoords st.1)
    (hp2 : p2 ∈ nodeCoords st.1) (hne : p1 ≠ p2)
    (hw1 : pointToSegmentDistanceSq p1.x p1.y wall.x1 wall.y1 wall.x2 wall.y2 < EPSILON ^ 2)
    (hw2 : pointToSegmentDistanceSq p2.x p2.y wall.x1 wall.y1 wall.x2 wall.y2 < EPSILON ^ 2) :
    ∃ i1 i2, i1 < st.1.length ∧ i2 < st.1.length ∧ i1 ≠ i2 ∧ nodePoint st.1 i1 = p1 ∧
      nodePoint st.1 i2 = p2 ∧ GraphInv (addEdge st i1 i2 wall) ∧
      assembleWallEdges wall (p1 :: p2 :: rest) st
        = if distanceSq p1 p2 < EPSILON ^ 2 then assembleWallEdges wall (p2 :: rest) st
          else assembleWallEdges wall (p2 :: rest) (addEdge st i1 i2 wall) := by
  obtain ⟨hinv, -⟩ := graphInv_addEdge h hp1 hp2 hne hw1 hw2
  obtain ⟨h1a, h1b, h1c⟩ := getOrCreateNode_coords h.key_eq h.nodup hp1
  obtain ⟨h2a, h2b, h2c⟩ := getOrCreateNode_coords h.key_eq h.nodup hp2
  have hi : (getOrCreateNode st.1 p1).2 ≠ (getOrCreateNode st.1 p2).2 := by
    intro hi
    rw [hi] at h1c
    exact hne (h1c.symm.trans h2c)
  refine ⟨(getOrCreateNode st.1 p1).2, (getOrCreateNode st.1 p2).2, h1b, h2b, hi, h1c, h2c,
    ?_, ?_⟩
  · rw [h1a, h2a] at hinv
    exact hinv
  · rw [assembleWallEdges]
    unfold addEdge distanceSq
    simp only [h1a, h2a]

/-! ## Induction over the edge assembly -/

/-- A property of the graph under construction that holds before the edges of a wall are
assembled and is kept by every added edge holds afterwards.  An added edge joins the nodes
of two consecutive points of the sorted array that are not within `EPSILON`. -/
theorem assembleWallEdges_induction (P : NodeMap × List Edge → Prop) (wall : Wall)
    (pts0 : List Point)
    (hstep : ∀ (st : NodeMap × List Edge) (i1 i2 : Nat), GraphInv st → P st →
      i1 < st.1.length → i2 < st.1.length → i1 ≠ i2 →
      (∃ l1 l2, pts0 = l1 ++ nodePoint st.1 i1 :: nodePoint st.1 i2 :: l2) →
      ¬ distanceSq (nodePoint st.1 i1) (nodePoint st.1 i2) < EPSILON ^ 2 →
      P (addEdge st i1 i2 wall)) :
    ∀ (pts : List Point) (st : NodeMap × List Edge), (∃ pre, pts0 = pre ++ pts) →
      GraphInv st → P st →
      (∀ p ∈ pts, p ∈ nodeCoords st.1 ∧
        pointToSegmentDistanceSq p.x p.y wall.x1 wall.y1 wall.x2 wall.y2 < EPSILON ^ 2) →
      pts.Nodup →
      GraphInv (assembleWallEdges wall pts st) ∧ P (assembleWallEdges wall pts st) ∧
        nodeCoords (assembleWallEdges wall pts st).1 = nodeCoords st.1
  | [], st, _, h, hP, _, _ => by
    rw [assembleWallEdges_nil]
    exact ⟨h, hP, rfl⟩
  | [_], st, _, h, hP, _, _ => by
    rw [assembleWallEdges_singleton]
    exact ⟨h, hP, rfl⟩
  | p1 :: p2 :: rest, st, hsuf, h, hP, hpts, hnd => by
    have hnd' : (p2 :: rest).Nodup := (List.nodup_cons.mp hnd).2
    have hne : p1 ≠ p2 := by
      intro hEq
      exact (List.nodup_cons.mp hnd).1 (hEq ▸ List.mem_cons_self _ _)
    have hpts' : ∀ p ∈ p2 :: rest, p ∈ nodeCoords st.1 ∧
        pointToSegmentDistanceSq p.x p.y wall.x1 wall.y1 wall.x2 wall.y2 < EPSILON ^ 2 :=
      fun p hp => hpts p (List.mem_cons_of_mem _ hp)
    have hsuf' : ∃ pre, pts0 = pre ++ p2 :: rest := by
      obtain ⟨pre, hpre⟩ := hsuf
      exact ⟨pre ++ [p1], by rw [hpre]; simp⟩
    have h1 := hpts p1 (List.mem_cons_self _ _)
    have h2 := hpts p2 (List.mem_cons_of_mem _ (List.mem_cons_self _ _))
    obtain ⟨i1, i2, hi1, hi2, hi, hc1, hc2, hinv, heq⟩ :=
      assembleWallEdges_pair h wall rest h1.1 h2.1 hne h1.2 h2.2
    rw [heq]
    by_cases hd : distanceSq p1 p2 < EPSILON ^ 2
    · rw [if_pos hd]
      exact assembleWallEdges_induction P wall pts0 hstep (p2 :: rest) st hsuf' h hP hpts' hnd'
    · rw [if_neg hd]
      have hco := nodeCoords_addEdge st i1 i2 wall
      have hP' : P (addEdge st i1 i2 wall) := by
        apply hstep st i1 i2 h hP hi1 hi2 hi
        · obtain ⟨pre, hpre⟩ := hsuf
          exact ⟨pre, rest, by rw [hpre, hc1, hc2]⟩
        · rw [hc1, hc2]
          exact hd
      have hpts'' : ∀ p ∈ p2 :: rest, p ∈ nodeCoords (addEdge st i1 i2 wall).1 ∧
          pointToSegmentDistanceSq p.x p.y wall.x1 wall.y1 wall.x2 wall.y2 < EPSILON ^ 2 := by
        intro p hp
        rw [hco]
        exact hpts' p hp
      obtain ⟨r1, r2, r3⟩ := assembleWallEdges_induction P wall pts0 hstep (p2 :: rest)
        (addEdge st i1 i2 wall) hsuf' hinv hP' hpts'' hnd'
      exact ⟨r1, r2, r3.trans hco⟩

/-- A property of the graph under construction that holds for the registered nodes without
edges and is kept by every added edge holds for the graph.  An added edge of a wall joins
the nodes of two consecutive points of the sorted array of that wall that are not within
`EPSILON`. -/
theorem assembleEdges_induction (P : NodeMap × List Edge → Prop) (walls : List Wall)
    (hstep : ∀ (st : NodeMap × List Edge) (wall : Wall) (i1 i2 : Nat), GraphInv st → P st →
      wall ∈ walls → i1 < st.1.length → i2 < st.1.length → i1 ≠ i2 →
      (∃ l1 l2, pointsOnWall st.1 wall = l1 ++ nodePoint st.1 i1 :: nodePoint st.1 i2 :: l2) →
      ¬ distanceSq (nodePoint st.1 i1) (nodePoint st.1 i2) < EPSILON ^ 2 →
      P (addEdge st i1 i2 wall)) :
    ∀ (ws : List Wall) (st : NodeMap × List Edge), (∀ w ∈ ws, w ∈ walls) → GraphInv st →
      P st →
      P (ws.foldl (fun st wall => assembleWallEdges wall (pointsOnWall st.1 wall) st) st)
  | [], _, _, _, hP => hP
  | w :: ws, st, hws, h, hP => by
    rw [List.foldl_cons]
    have hw : w ∈ walls := hws w (List.mem_cons_self _ _)
    -- inside the wall the sorted array is the one of the state before the wall
    have hwall := assembleWallEdges_induction
      (fun s => P s ∧ nodeCoords s.1 = nodeCoords st.1) w (pointsOnWall st.1 w)
      (by
        intro s i1 i2 hs hPs hi1 hi2 hi hin hd
        refine ⟨?_, (nodeCoords_addEdge s i1 i2 w).trans hPs.2⟩
        apply hstep s w i1 i2 hs hPs.1 hw hi1 hi2 hi _ hd
        rw [pointsOnWall_congr hPs.2 w]
        exact hin)
      (pointsOnWall st.1 w) st ⟨[], rfl⟩ h ⟨hP, rfl⟩ (fun p hp => mem_pointsOnWall.mp hp)
      (pointsOnWall_nodup w (nodeCoords_nodup h.key_eq h.nodup))
    exact assembleEdges_induction P walls hstep ws _
      (fun w' hw' => hws w' (List.mem_cons_of_mem _ hw')) hwall.1 hwall.2.1.1

/-- The registered nodes of a wall list, without edges, are a well-formed graph. -/
theorem registeredNodes_graphInv (walls : List Wall) : GraphInv (registeredNodes walls, []) :=
  (regInv_registered (S := fun _ => True) walls (fun _ _ => ⟨trivial, trivial⟩)
    (fun _ _ _ _ _ _ => trivial)).graphInv

theorem registeredNodes_no_edges (walls : List Wall) (i : Nat) :
    (nodeAt (registeredNodes walls) i).edges = [] := by
  have hreg := regInv_registered (S := fun _ => True) walls (fun _ _ => ⟨trivial, trivial⟩)
    (fun _ _ _ _ _ _ => trivial)
  by_cases hi : i < (registeredNodes walls).length
  · rw [nodeAt_eq_getElem _ i hi]
    exact hreg.no_edges _ (List.getElem_mem _)
  · rw [nodeAt_of_length_le _ i (by omega)]

/-- A property that holds for the registered nodes without edges and is kept by every
added edge holds for the graph of the wall list. -/
theorem buildGraph_induction (P : NodeMap × List Edge → Prop) (walls : List Wall)
    (hstart : P (registeredNodes walls, []))
    (hstep : ∀ (st : NodeMap × List Edge) (wall : Wall) (i1 i2 : Nat), GraphInv st → P st →
      wall ∈ walls → i1 < st.1.length → i2 < st.1.length → i1 ≠ i2 →
      (∃ l1 l2, pointsOnWall st.1 wall = l1 ++ nodePoint st.1 i1 :: nodePoint st.1 i2 :: l2) →
      ¬ distanceSq (nodePoint st.1 i1) (nodePoint st.1 i2) < EPSILON ^ 2 →
      P (addEdge st i1 i2 wall)) :
    P (buildGraph walls) :=
  assembleEdges_induction P walls hstep walls (registeredNodes walls, []) (fun _ hw => hw)
    (registeredNodes_graphInv walls) hstart

/-- The edge assembly keeps the registered nodes: no node is added, and no coordinates or
keys change. -/
theorem buildGraph_nodes (walls : List Wall) :
    nodeCoords (buildGraph walls).1 = nodeCoords (registeredNodes walls) ∧
      nodeKeys (buildGraph walls).1 = nodeKeys (registeredNodes walls) ∧
      (buildGraph walls).1.length = (registeredNodes walls).length := by
  have hc : nodeCoords (buildGraph walls).1 = nodeCoords (registeredNodes walls) :=
    buildGraph_induction (fun s => nodeCoords s.1 = nodeCoords (registeredNodes walls)) walls
      rfl (fun s w i1 i2 _ hP _ _ _ _ _ _ => (nodeCoords_addEdge s i1 i2 w).trans hP)
  refine ⟨hc, ?_, length_eq_of_nodeCoords hc⟩
  rw [(buildGraph_graphInv walls).key_eq, (registeredNodes_graphInv walls).key_eq, hc]

/-! ## Where the edges of the graph come from -/

/-- Every edge of the graph joins the nodes of two consecutive points of the sorted array
of its wall, and these two points are not within `EPSILON` of each other. -/
theorem buildGraph_edge_origin (walls : List Wall) :
    ∀ e ∈ (buildGraph walls).2,
      (∃ l1 l2, pointsOnWall (buildGraph walls).1 e.wall
        = l1 ++ nodePoint (buildGraph walls).1 e.node1
            :: nodePoint (buildGraph walls).1 e.node2 :: l2) ∧
      ¬ distanceSq (nodePoint (buildGraph walls).1 e.node1)
          (nodePoint (buildGraph walls).1 e.node2) < EPSILON ^ 2 := by
  apply buildGraph_induction
    (fun s => ∀ e ∈ s.2,
      (∃ l1 l2, pointsOnWall s.1 e.wall
        = l1 ++ nodePoint s.1 e.node1 :: nodePoint s.1 e.node2 :: l2) ∧
      ¬ distanceSq (nodePoint s.1 e.node1) (nodePoint s.1 e.node2) < EPSILON ^ 2) walls
  · intro e he
    exact absurd he (List.not_mem_nil _)
  · intro s w i1 i2 _ hP _ _ _ _ hin hd e he
    have hco := nodeCoords_addEdge s i1 i2 w
    rw [pointsOnWall_congr hco, nodePoint_congr hco, nodePoint_congr hco]
    have he' : e ∈ s.2 ++ [(⟨i1, i2, w⟩ : Edge)] := he
    rcases List.mem_append.mp he' with he' | he'
    · exact hP e he'
    · rw [List.mem_singleton.mp he']
      exact ⟨hin, hd⟩

/-- Every node has in its edge list exactly the edges of the graph of which it is an end,
in the order in which they were made. -/
theorem buildGraph_edge_lists (walls : List Wall) (i : Nat) :
    (nodeAt (buildGraph walls).1 i).edges = incidentEdges (buildGraph walls).2 i := by
  revert i
  apply buildGraph_induction
    (fun s => ∀ i, (nodeAt s.1 i).edges = incidentEdges s.2 i) walls
  · intro i
    rw [registeredNodes_no_edges]
    rfl
  · intro s w i1 i2 _ hP _ hi1 hi2 hi _ _ i
    have hinc : incidentEdges (addEdge s i1 i2 w).2 i
        = incidentEdges s.2 i ++ if i1 = i ∨ i2 = i then [(⟨i1, i2, w⟩ : Edge)] else [] := by
      unfold incidentEdges addEdge
      rw [List.filter_append]
      by_cases c : i1 = i ∨ i2 = i
      · simp [c]
      · simp [c]
    rw [hinc, ← hP i]
    unfold addEdge
    simp only [nodeAt_pushEdge_edges, length_pushEdge]
    by_cases c1 : i = i1
    · have c2 : ¬ i = i2 := fun h => hi (c1.symm.trans h)
      have c3 : i < s.1.length := c1 ▸ hi1
      rw [if_neg (fun h => c2 h.1), if_pos ⟨c1, c3⟩, if_pos (Or.inl c1.symm)]
    · by_cases c2 : i = i2
      · have c3 : i < s.1.length := c2 ▸ hi2
        rw [if_pos ⟨c2, c3⟩, if_neg (fun h => c1 h.1), if_pos (Or.inr c2.symm)]
      · rw [if_neg (fun h => c2 h.1), if_neg (fun h => c1 h.1), if_neg, List.append_nil]
        rintro (h | h)
        · exact c1 h.symm
        · exact c2 h.symm

/-! ## The number of edges of a wall -/

/-- The loop over the pairs of one wall appends fewer edges than the array has points, all
of that wall. -/
theorem assembleWallEdges_new (wall : Wall) :
    ∀ (pts : List Point) (st : NodeMap × List Edge),
      ∃ new, (assembleWallEdges wall pts st).2 = st.2 ++ new ∧
        new.length ≤ pts.length - 1 ∧ ∀ e ∈ new, e.wall = wall
  | [], st => ⟨[], by rw [assembleWallEdges_nil]; simp, by simp, by simp⟩
  | [_], st => ⟨[], by rw [assembleWallEdges_singleton]; simp, by simp, by simp⟩
  | p1 :: p2 :: rest, st => by
    rw [assembleWallEdges]
    split
    · obtain ⟨new, h1, h2, h3⟩ := assembleWallEdges_new wall (p2 :: rest) st
      refine ⟨new, h1, ?_, h3⟩
      simp only [List.length_cons] at h2 ⊢
      omega
    · obtain ⟨new, h1, h2, h3⟩ := assembleWallEdges_new wall (p2 :: rest)
        (pushEdge
          (pushEdge (getOrCreateNode (getOrCreateNode st.1 p1).1 p2).1
            (getOrCreateNode st.1 p1).2
            ⟨(getOrCreateNode st.1 p1).2, (getOrCreateNode (getOrCreateNode st.1 p1).1 p2).2,
              wall⟩)
          (getOrCreateNode (getOrCreateNode st.1 p1).1 p2).2
          ⟨(getOrCreateNode st.1 p1).2, (getOrCreateNode (getOrCreateNode st.1 p1).1 p2).2,
            wall⟩,
         st.2 ++
          [⟨(getOrCreateNode st.1 p1).2, (getOrCreateNode (getOrCreateNode st.1 p1).1 p2).2,
            wall⟩])
      refine ⟨(⟨(getOrCreateNode st.1 p1).2,
        (getOrCreateNode (getOrCreateNode st.1 p1).1 p2).2, wall⟩ : Edge) :: new, ?_, ?_, ?_⟩
      · simp only []
        rw [h1]
        simp
      · simp only [List.length_cons] at h2 ⊢
        omega
      · intro e he
        rcases List.mem_cons.mp he with he | he
        · rw [he]
        · exact h3 e he

theorem length_edgesOfWall_append (a b : List Edge) (wall : Wall) :
    (edgesOfWall (a ++ b) wall).length
      = (edgesOfWall a wall).length + (edgesOfWall b wall).length := by
  unfold edgesOfWall
  rw [List.filter_append, List.length_append]

theorem length_pointsOnWall (nodes : NodeMap) (wall : Wall) :
    (pointsOnWall nodes wall).length = (nodesOnWall nodes wall).length :=
  (pointsOnWall_perm nodes wall).length_eq

theorem nodesOnWall_congr {a b : NodeMap} (h : nodeCoords a = nodeCoords b) (wall : Wall) :
    nodesOnWall a wall = nodesOnWall b wall := by
  unfold nodesOnWall
  rw [h]

/-- The loop over the walls makes for a wall, each time the wall occurs in the list, fewer
edges than there are nodes on it. -/
theorem foldl_edgesOfWall (W : Wall) :
    ∀ (ws : List Wall) (st : NodeMap × List Edge), GraphInv st →
      (edgesOfWall
          (ws.foldl (fun st wall => assembleWallEdges wall (pointsOnWall st.1 wall) st) st).2
          W).length
        ≤ (edgesOfWall st.2 W).length + ws.count W * ((nodesOnWall st.1 W).length - 1)
  | [], st, _ => by simp
  | w :: ws, st, h => by
    rw [List.foldl_cons]
    obtain ⟨r1, r2, -⟩ := graphInv_assembleWallEdges w (pointsOnWall st.1 w) st h
      (fun p hp => mem_pointsOnWall.mp hp)
      (pointsOnWall_nodup w (nodeCoords_nodup h.key_eq h.nodup))
    obtain ⟨new, h1, h2, h3⟩ := assembleWallEdges_new w (pointsOnWall st.1 w) st
    have ih := foldl_edgesOfWall W ws _ r1
    rw [nodesOnWall_congr r2 W, h1, length_edgesOfWall_append] at ih
    refine ih.trans ?_
    by_cases hw : w = W
    · subst hw
      rw [List.count_cons_self, Nat.add_mul, one_mul]
      have hn : (edgesOfWall new w).length ≤ (nodesOnWall st.1 w).length - 1 := by
        rw [← length_pointsOnWall]
        exact (List.length_filter_le _ _).trans h2
      omega
    · have hn : edgesOfWall new W = [] := by
        unfold edgesOfWall
        rw [List.filter_eq_nil_iff]
        intro e he
        rw [h3 e he]
        simpa using hw
      rw [hn, List.count_cons_of_ne (Ne.symm hw)]
      simp

/-- The graph has for a wall, each time the wall occurs in the list, fewer edges than
there are nodes on it. -/
theorem buildGraph_edgesOfWall (walls : List Wall) (W : Wall) :
    (edgesOfWall (buildGraph walls).2 W).length
      ≤ walls.count W * ((nodesOnWall (buildGraph walls).1 W).length - 1) := by
  have h := foldl_edgesOfWall W walls (registeredNodes walls, []) (registeredNodes_graphInv walls)
  rw [nodesOnWall_congr (buildGraph_nodes walls).1 W]
  simpa [edgesOfWall] using h

/-! ## Every registered point has its key in the node map -/

theorem getOrCreateNode_keys (nodes : NodeMap) (p : Point) :
    (∀ k ∈ nodeKeys nodes, k ∈ nodeKeys (getOrCreateNode nodes p).1) ∧
      pointKey p ∈ nodeKeys (getOrCreateNode nodes p).1 := by
  by_cases h : pointKey p ∈ nodeKeys nodes
  · rw [getOrCreateNode_of_mem h]
    exact ⟨fun k hk => hk, h⟩
  · rw [getOrCreateNode_of_not_mem h]
    simp only [nodeKeys, List.map_append, List.map_cons, List.map_nil, List.mem_append,
      List.mem_singleton]
    exact ⟨fun k hk => Or.inl hk, Or.inr trivial⟩

theorem registerEndpoints_keys :
    ∀ (walls : List Wall) (nodes : NodeMap),
      (∀ k ∈ nodeKeys nodes, k ∈ nodeKeys (registerEndpoints walls nodes)) ∧
        ∀ w ∈ walls, pointKey ⟨w.x1, w.y1⟩ ∈ nodeKeys (registerEndpoints walls nodes) ∧
          pointKey ⟨w.x2, w.y2⟩ ∈ nodeKeys (registerEndpoints walls nodes)
  | [], nodes => ⟨fun k hk => hk, fun w hw => absurd hw (List.not_mem_nil _)⟩
  | w :: walls, nodes => by
    rw [registerEndpoints_cons]
    obtain ⟨ih1, ih2⟩ := registerEndpoints_keys walls
      (getOrCreateNode (getOrCreateNode nodes ⟨w.x1, w.y1⟩).1 ⟨w.x2, w.y2⟩).1
    obtain ⟨a1, a2⟩ := getOrCreateNode_keys nodes ⟨w.x1, w.y1⟩
    obtain ⟨b1, b2⟩ := getOrCreateNode_keys (getOrCreateNode nodes ⟨w.x1, w.y1⟩).1 ⟨w.x2, w.y2⟩
    refine ⟨fun k hk => ih1 k (b1 k (a1 k hk)), ?_⟩
    intro w' hw'
    rcases List.mem_cons.mp hw' with hw' | hw'
    · rw [hw']
      exact ⟨ih1 _ (b1 _ a2), ih1 _ b2⟩
    · exact ih2 w' hw'

theorem registerIntersectionsWith_keys (w1 : Wall) :
    ∀ (rest : List Wall) (nodes : NodeMap),
      (∀ k ∈ nodeKeys nodes, k ∈ nodeKeys (registerIntersectionsWith w1 rest nodes)) ∧
        ∀ w2 ∈ rest, ∀ q,
          findIntersection w1.x1 w1.y1 w1.x2 w1.y2 w2.x1 w2.y1 w2.x2 w2.y2 = some q →
          pointKey q ∈ nodeKeys (registerIntersectionsWith w1 rest nodes)
  | [], nodes => ⟨fun k hk => hk, fun w hw => absurd hw (List.not_mem_nil _)⟩
  | w2 :: rest, nodes => by
    unfold registerIntersectionsWith
    rw [List.foldl_cons]
    cases hq : findIntersection w1.x1 w1.y1 w1.x2 w1.y2 w2.x1 w2.y1 w2.x2 w2.y2 with
    | none =>
      obtain ⟨ih1, ih2⟩ := registerIntersectionsWith_keys w1 rest nodes
      refine ⟨ih1, ?_⟩
      intro w hw q hwq
      rcases List.mem_cons.mp hw with hw | hw
      · rw [hw, hq] at hwq
        exact absurd hwq (by simp)
      · exact ih2 w hw q hwq
    | some p =>
      obtain ⟨ih1, ih2⟩ := registerIntersectionsWith_keys w1 rest (getOrCreateNode nodes p).1
      obtain ⟨a1, a2⟩ := getOrCreateNode_keys nodes p
      refine ⟨fun k hk => ih1 k (a1 k hk), ?_⟩
      intro w hw q hwq
      rcases List.mem_cons.mp hw with hw | hw
      · rw [hw, hq] at hwq
        rw [← Option.some.inj hwq]
        exact ih1 _ a2
      · exact ih2 w hw q hwq

theorem registerIntersections_keys :
    ∀ (walls : List Wall) (nodes : NodeMap),
      (∀ k ∈ nodeKeys nodes, k ∈ nodeKeys (registerIntersections walls nodes)) ∧
        ∀ (i j : Nat) (w1 w2 : Wall) (q : Point), i < j → walls[i]? = some w1 →
          walls[j]? = some w2 →
          findIntersection w1.x1 w1.y1 w1.x2 w1.y2 w2.x1 w2.y1 w2.x2 w2.y2 = some q →
          pointKey q ∈ nodeKeys (registerIntersections walls nodes)
  | [], nodes => by
    unfold registerIntersections
    exact ⟨fun k hk => hk, fun i j w1 w2 q _ h1 => absurd h1 (by simp)⟩
  | w :: rest, nodes => by
    unfold registerIntersections
    obtain ⟨ih1, ih2⟩ := registerIntersections_keys rest (registerIntersectionsWith w rest nodes)
    obtain ⟨a1, a2⟩ := registerIntersectionsWith_keys w rest nodes
    refine ⟨fun k hk => ih1 k (a1 k hk), ?_⟩
    intro i j w1 w2 q hij h1 h2 hq
    cases j with
    | zero => exact absurd hij (Nat.not_lt_zero _)
    | succ j =>
      rw [List.getElem?_cons_succ] at h2
      cases i with
      | zero =>
        rw [List.getElem?_cons_zero] at h1
        rw [← Option.some.inj h1] at hq
        exact ih1 _ (a2 w2 (List.getElem?_mem h2) q hq)
      | succ i =>
        rw [List.getElem?_cons_succ] at h1
        exact ih2 i j w1 w2 q (Nat.lt_of_succ_lt_succ hij) h1 h2 hq

/-- Every endpoint of a wall and every intersection point of two walls, the first earlier
in the list than the second, has its key in the node map of the graph. -/
theorem buildGraph_keys (walls : List Wall) :
    (∀ w ∈ walls, pointKey ⟨w.x1, w.y1⟩ ∈ nodeKeys (buildGraph walls).1 ∧
      pointKey ⟨w.x2, w.y2⟩ ∈ nodeKeys (buildGraph walls).1) ∧
      ∀ (i j : Nat) (w1 w2 : Wall) (q : Point), i < j → walls[i]? = some w1 →
        walls[j]? = some w2 →
        findIntersection w1.x1 w1.y1 w1.x2 w1.y2 w2.x1 w2.y1 w2.x2 w2.y2 = some q →
        pointKey q ∈ nodeKeys (buildGraph walls).1 := by
  rw [(buildGraph_nodes walls).2.1]
  unfold registeredNodes
  obtain ⟨a1, a2⟩ := registerIntersections_keys walls (registerEndpoints walls [])
  obtain ⟨-, b2⟩ := registerEndpoints_keys walls []
  exact ⟨fun w hw => ⟨a1 _ (b2 w hw).1, a1 _ (b2 w hw).2⟩, a2⟩

theorem length_filter_eq_one {α β : Type} [DecidableEq β] (f : α → β) (k : β) :
    ∀ l : List α, (l.map f).Nodup → k ∈ l.map f →
      (l.filter (fun c => decide (f c = k))).length = 1
  | [], _, h => absurd h (List.not_mem_nil _)
  | a :: l, hnd, hk => by
    rw [List.map_cons, List.nodup_cons] at hnd
    rw [List.map_cons] at hk
    by_cases ha : f a = k
    · rw [List.filter_cons_of_pos (by simpa using ha)]
      have hnil : l.filter (fun c => decide (f c = k)) = [] := by
        rw [List.filter_eq_nil_iff]
        intro c hc
        simp only [decide_eq_true_eq]
        intro hck
        apply hnd.1
        rw [ha, ← hck]
        exact List.mem_map_of_mem _ hc
      rw [hnil]
      rfl
    · rw [List.filter_cons_of_neg (by simpa using ha)]
      apply length_filter_eq_one f k l hnd.2
      rcases List.mem_cons.mp hk with h | h
      · exact absurd h.symm ha
      · exact h

/-- In a well-formed node map a key of the map is the key of the coordinates of exactly
one node. -/
theorem length_nodesWithKey {st : NodeMap × List Edge} (h : GraphInv st) {p : Point}
    (hp : pointKey p ∈ nodeKeys st.1) : (nodesWithKey st.1 p).length = 1 := by
  have hnd := h.nodup
  rw [h.key_eq] at hnd hp
  exact length_filter_eq_one pointKey (pointKey p) (nodeCoords st.1) hnd hp

/-- Two points with the same key differ by less than `0.0001` in each coordinate. -/
theorem abs_sub_lt_of_pointKey_eq {c p : Point} (h : pointKey c = pointKey p) :
    |c.x - p.x| < 1 / 10000 ∧ |c.y - p.y| < 1 / 10000 := by
  constructor
  · by_contra hx
    rw [not_lt, le_abs] at hx
    apply @pointKey_ne_of_x c.x c.y p.x p.y _ h
    rcases hx with hx | hx
    · right; linarith
    · left; linarith
  · by_contra hy
    rw [not_lt, le_abs] at hy
    apply @pointKey_ne_of_y c.x c.y p.x p.y _ h
    rcases hy with hy | hy
    · right; linarith
    · left; linarith

/-! ## The seed loop keeps the first nearest hit -/

theorem seedStep_of_miss {nodes : NodeMap} {startPoint : Point} {edge : Edge}
    (h : rayHit nodes startPoint edge = none) (st : Option Edge × Option ℚ) :
    seedStep nodes startPoint st edge = st := by
  unfold rayHit at h
  unfold seedStep
  rw [h]

theorem seedStep_of_hit {nodes : NodeMap} {startPoint : Point} {edge : Edge} {p : Point}
    (h : rayHit nodes startPoint edge = some p) (st : Option Edge × Option ℚ) :
    seedStep nodes startPoint st edge
      = match st.2 with
        | none => (some edge, some (distanceSq p startPoint))
        | some minDistance =>
          if distanceSq p startPoint < minDistance then
            (some edge, some (distanceSq p startPoint))
          else st := by
  unfold rayHit at h
  unfold seedStep
  rw [h]
  rfl

/-- The state of the seed loop after the edges `done`: nothing when the ray met none of
them, and otherwise the first of the edges whose hit is nearest, with its squared
distance. -/
theorem foldl_seedStep_nearest (nodes : NodeMap) (startPoint : Point) :
    ∀ (edges done : List Edge) (st : Option Edge × Option ℚ),
      ((st = (none, none) ∧ ∀ e ∈ done, rayHit nodes startPoint e = none) ∨
        ∃ pre seed post p, done = pre ++ seed :: post ∧
          st = (some seed, some (distanceSq p startPoint)) ∧
          rayHit nodes startPoint seed = some p ∧
          (∀ e ∈ pre, ∀ q, rayHit nodes startPoint e = some q →
            distanceSq p startPoint < distanceSq q startPoint) ∧
          ∀ e ∈ post, ∀ q, rayHit nodes startPoint e = some q →
            distanceSq p startPoint ≤ distanceSq q startPoint) →
      ((edges.foldl (seedStep nodes startPoint) st = (none, none) ∧
          ∀ e ∈ done ++ edges, rayHit nodes startPoint e = none) ∨
        ∃ pre seed post p, done ++ edges = pre ++ seed :: post ∧
          edges.foldl (seedStep nodes startPoint) st
            = (some seed, some (distanceSq p startPoint)) ∧
          rayHit nodes startPoint seed = some p ∧
          (∀ e ∈ pre, ∀ q, rayHit nodes startPoint e = some q →
            distanceSq p startPoint < distanceSq q startPoint) ∧
          ∀ e ∈ post, ∀ q, rayHit nodes startPoint e = some q →
            distanceSq p startPoint ≤ distanceSq q startPoint)
  | [], done, st, h => by
    rw [List.append_nil, List.foldl_nil]
    exact h
  | a :: edges, done, st, h => by
    rw [List.foldl_cons]
    have hda : done ++ a :: edges = (done ++ [a]) ++ edges := by simp
    rw [hda]
    apply foldl_seedStep_nearest nodes startPoint edges (done ++ [a])
    cases ha : rayHit nodes startPoint a with
    | none =>
      rw [seedStep_of_miss ha]
      rcases h with ⟨hst, hmiss⟩ | ⟨pre, seed, post, p, hd, hst, hp, hpre, hpost⟩
      · left
        refine ⟨hst, ?_⟩
        intro e he
        rcases List.mem_append.mp he with he | he
        · exact hmiss e he
        · rw [List.mem_singleton.mp he]
          exact ha
      · right
        refine ⟨pre, seed, post ++ [a], p, by rw [hd]; simp, hst, hp, hpre, ?_⟩
        intro e he q hq
        rcases List.mem_append.mp he with he | he
        · exact hpost e he q hq
        · rw [List.mem_singleton.mp he, ha] at hq
          exact absurd hq (by simp)
    | some pa =>
      rw [seedStep_of_hit ha]
      right
      rcases h with ⟨hst, hmiss⟩ | ⟨pre, seed, post, p, hd, hst, hp, hpre, hpost⟩
      · refine ⟨done, a, [], pa, rfl, by rw [hst], ha, ?_, ?_⟩
        · intro e he q hq
          rw [hmiss e he] at hq
          exact absurd hq (by simp)
        · intro e he
          exact absurd he (List.not_mem_nil _)
      · rw [hst]
        simp only []
        by_cases hlt : distanceSq pa startPoint < distanceSq p startPoint
        · rw [if_pos hlt]
          refine ⟨done, a, [], pa, rfl, rfl, ha, ?_, ?_⟩
          · intro e he q hq
            rw [hd] at he
            rcases List.mem_append.mp he with he | he
            · exact hlt.trans (hpre e he q hq)
            · rcases List.mem_cons.mp he with he | he
              · rw [he, hp] at hq
                rw [← Option.some.inj hq]
                exact hlt
              · exact lt_of_lt_of_le hlt (hpost e he q hq)
          · intro e he
            exact absurd he (List.not_mem_nil _)
        · rw [if_neg hlt]
          refine ⟨pre, seed, post ++ [a], p, by rw [hd]; simp, rfl, hp, hpre, ?_⟩
          intro e he q hq
          rcases List.mem_append.mp he with he | he
          · exact hpost e he q hq
          · rw [List.mem_singleton.mp he, ha] at hq
            rw [← Option.some.inj hq]
            exact not_lt.mp hlt

/-- The seed edge: none when the ray meets no edge, and otherwise the first of the edges
whose hit is nearest to the query point. -/
theorem findStartingEdge_cases (nodes : NodeMap) (edges : List Edge) (startPoint : Point) :
    (findStartingEdge nodes edges startPoint = none ∧
        ∀ e ∈ edges, rayHit nodes startPoint e = none) ∨
      ∃ pre seed post p, edges = pre ++ seed :: post ∧
        findStartingEdge nodes edges startPoint = some seed ∧
        rayHit nodes startPoint seed = some p ∧
        (∀ e ∈ pre, ∀ q, rayHit nodes startPoint e = some q →
          distanceSq p startPoint < distanceSq q startPoint) ∧
        ∀ e ∈ post, ∀ q, rayHit nodes startPoint e = some q →
          distanceSq p startPoint ≤ distanceSq q startPoint := by
  have h := foldl_seedStep_nearest nodes startPoint edges [] (none, none)
    (Or.inl ⟨rfl, fun e he => absurd he (List.not_mem_nil _)⟩)
  rw [List.nil_append] at h
  unfold findStartingEdge
  rcases h with ⟨h1, h2⟩ | ⟨pre, seed, post, p, h1, h2, h3, h4, h5⟩
  · left
    rw [h1]
    exact ⟨rfl, h2⟩
  · right
    refine ⟨pre, seed, post, p, h1, ?_, h3, h4, h5⟩
    rw [h2]

/-- The seed edge is met by the ray. -/
theorem findStartingEdge_hit {nodes : NodeMap} {edges : List Edge} {startPoint : Point}
    {seed : Edge} (h : findStartingEdge nodes edges startPoint = some seed) :
    ∃ p, rayHit nodes startPoint seed = some p := by
  rcases findStartingEdge_cases nodes edges startPoint with ⟨h1, -⟩ | ⟨_, s, _, p, -, h2, h3, -, -⟩
  · rw [h1] at h
    exact absurd h (by simp)
  · rw [h2] at h
    rw [← Option.some.inj h]
    exact ⟨p, h3⟩

/-- A point where the ray meets an edge is at most 1 behind the query point in `x`, and at
most 1 beyond the end of the ray. -/
theorem rayHit_x {nodes : NodeMap} {startPoint : Point} {edge : Edge} {p : Point}
    (h : rayHit nodes startPoint edge = some p) :
    startPoint.x - 1 ≤ p.x ∧ p.x ≤ startPoint.x + 1000001 := by
  unfold rayHit findIntersection at h
  simp only [] at h
  split at h
  · exact absurd h (by simp)
  · split at h
    · rename_i hin
      rw [← Option.some.inj h]
      simp only []
      unfold EPSILON at hin
      constructor
      · nlinarith [hin.1]
      · nlinarith [hin.2.1]
    · exact absurd h (by simp)

/-! ## The trace runs along edges -/

/-- Every step of a closed trace on a well-formed graph joins the two ends of an edge. -/
theorem ClosedTrace.along_edges {st : NodeMap × List Edge} (hg : GraphInv st)
    {startNode prevNode currentNode : Nat} {visited : List Nat}
    (h : ClosedTrace st.1 startNode prevNode currentNode visited) :
    ∀ a b, (a, b) ∈ visited.zip (visited.tail ++ [startNode]) →
      ∃ e ∈ st.2, (e.node1 = a ∧ e.node2 = b) ∨ (e.node2 = a ∧ e.node1 = b) := by
  induction h with
  | @last prevNode currentNode hb =>
    intro a b hab
    simp only [List.tail_cons, List.nil_append, List.zip_cons_cons, List.zip_nil_right,
      List.mem_singleton, Prod.mk.injEq] at hab
    rw [hab.1, hab.2]
    exact (hg.bestNextNode hb).2.2.2
  | @step prevNode currentNode best rest hb hne hrest ih =>
    obtain ⟨rest', hr⟩ := hrest.head
    intro a b hab
    have hzip : (currentNode :: rest).zip ((currentNode :: rest).tail ++ [startNode])
        = (currentNode, best) :: rest.zip (rest.tail ++ [startNode]) := by
      rw [hr]
      simp
    rw [hzip] at hab
    rcases List.mem_cons.mp hab with hab | hab
    · simp only [Prod.mk.injEq] at hab
      rw [hab.1, hab.2]
      exact (hg.bestNextNode hb).2.2.2
    · exact ih a b hab

/-- The sides of a returned room are the steps of its closed trace, including the step
from the last node back to the start node. -/
theorem findRoomFromPoint_sides {startPoint : Point} {walls : List Wall}
    {existingRooms : List Room} {room : Room}
    (h : findRoomFromPoint startPoint walls existingRooms = some room) :
    ∃ prevNode startNode visited,
      ClosedTrace (buildGraph walls).1 startNode prevNode startNode visited ∧
      directedSides room.points
        = (visited.zip (visited.tail ++ [startNode])).map
          (Prod.map (nodePoint (buildGraph walls).1) (nodePoint (buildGraph walls).1)) := by
  obtain ⟨e, -, prevNode, startNode, visited, -, hct, -, -, hpts⟩ := findRoomFromPoint_trace h
  refine ⟨prevNode, startNode, visited, hct, ?_⟩
  obtain ⟨tl, hv⟩ := hct.head
  have hrot : visited.rotate 1 = visited.tail ++ [startNode] := by
    rw [hv]
    simp [List.rotate_cons_succ]
  rw [hpts, ← hrot]
  unfold directedSides polygonPoints
  rw [← List.map_rotate, List.zip_map]
  rfl

/-! ## The turn selection keeps the first largest turn -/

theorem turnStep_of_back {nodes : NodeMap} {prevNode currentNode : Nat} {edge : Edge}
    (h : farNode edge currentNode = prevNode) (st : Option Nat × Option ℚ) :
    turnStep nodes prevNode currentNode st edge = st := by
  unfold turnStep
  simp only [h, if_true]

theorem turnStep_of_candidate {nodes : NodeMap} {prevNode currentNode : Nat} {edge : Edge}
    (h : farNode edge currentNode ≠ prevNode) (st : Option Nat × Option ℚ) :
    turnStep nodes prevNode currentNode st edge
      = match st.2 with
        | none => (some (farNode edge currentNode), some (turnOf nodes prevNode currentNode edge))
        | some maxAngleDiff =>
          if turnOf nodes prevNode currentNode edge > maxAngleDiff then
            (some (farNode edge currentNode), some (turnOf nodes prevNode currentNode edge))
          else st := by
  unfold turnStep
  simp only [h, if_false]
  rfl

/-- The loop over the edges of a node only looks at the candidates. -/
theorem foldl_turnStep_filter (nodes : NodeMap) (prevNode currentNode : Nat) :
    ∀ (edges : List Edge) (st : Option Nat × Option ℚ),
      edges.foldl (turnStep nodes prevNode currentNode) st
        = (edges.filter (fun e => decide (farNode e currentNode ≠ prevNode))).foldl
            (turnStep nodes prevNode currentNode) st
  | [], _ => rfl
  | e :: edges, st => by
    rw [List.foldl_cons]
    by_cases h : farNode e currentNode = prevNode
    · rw [turnStep_of_back h, List.filter_cons_of_neg (by simpa using h)]
      exact foldl_turnStep_filter nodes prevNode currentNode edges st
    · rw [List.filter_cons_of_pos (by simpa using h), List.foldl_cons]
      exact foldl_turnStep_filter nodes prevNode currentNode edges _

/-- The state of the turn loop after the candidates `done`: nothing when there was none,
and otherwise the far end of the first of the candidates whose turn is largest, with its
turn. -/
theorem foldl_turnStep_largest (nodes : NodeMap) (prevNode currentNode : Nat) :
    ∀ (edges done : List Edge) (st : Option Nat × Option ℚ),
      (∀ e ∈ edges, farNode e currentNode ≠ prevNode) →
      ((st = (none, none) ∧ done = []) ∨
        ∃ pre c post, done = pre ++ c :: post ∧
          st = (some (farNode c currentNode), some (turnOf nodes prevNode currentNode c)) ∧
          (∀ e ∈ pre, turnOf nodes prevNode currentNode e
            < turnOf nodes prevNode currentNode c) ∧
          ∀ e ∈ post, turnOf nodes prevNode currentNode e
            ≤ turnOf nodes prevNode currentNode c) →
      ((edges.foldl (turnStep nodes prevNode currentNode) st = (none, none) ∧
          done ++ edges = []) ∨
        ∃ pre c post, done ++ edges = pre ++ c :: post ∧
          edges.foldl (turnStep nodes prevNode currentNode) st
            = (some (farNode c currentNode), some (turnOf nodes prevNode currentNode c)) ∧
          (∀ e ∈ pre, turnOf nodes prevNode currentNode e
            < turnOf nodes prevNode currentNode c) ∧
          ∀ e ∈ post, turnOf nodes prevNode currentNode e
            ≤ turnOf nodes prevNode currentNode c)
  | [], done, st, _, h => by
    rw [List.append_nil, List.foldl_nil]
    exact h
  | a :: edges, done, st, hc, h => by
    rw [List.foldl_cons]
    have hda : done ++ a :: edges = (done ++ [a]) ++ edges := by simp
    rw [hda]
    apply foldl_turnStep_largest nodes prevNode currentNode edges (done ++ [a]) _
      (fun e he => hc e (List.mem_cons_of_mem _ he))
    rw [turnStep_of_candidate (hc a (List.mem_cons_self _ _))]
    right
    rcases h with ⟨hst, hd⟩ | ⟨pre, c, post, hd, hst, hpre, hpost⟩
    · refine ⟨[], a, [], by rw [hd], by rw [hst], ?_, ?_⟩
      · intro e he
        exact absurd he (List.not_mem_nil _)
      · intro e he
        exact absurd he (List.not_mem_nil _)
    · rw [hst]
      simp only []
      by_cases hgt : turnOf nodes prevNode currentNode a > turnOf nodes prevNode currentNode c
      · rw [if_pos hgt]
        refine ⟨done, a, [], rfl, rfl, ?_, ?_⟩
        · intro e he
          rw [hd] at he
          rcases List.mem_append.mp he with he | he
          · exact (hpre e he).trans hgt
          · rcases List.mem_cons.mp he with he | he
            · rw [he]
              exact hgt
            · exact lt_of_le_of_lt (hpost e he) hgt
        · intro e he
          exact absurd he (List.not_mem_nil _)
      · rw [if_neg hgt]
        refine ⟨pre, c, post ++ [a], by rw [hd]; simp, rfl, hpre, ?_⟩
        intro e he
        rcases List.mem_append.mp he with he | he
        · exact hpost e he
        · rw [List.mem_singleton.mp he]
          exact not_lt.mp hgt

/-- The chosen node: none when there is no candidate, and otherwise the far end of the
first of the candidates whose turn is largest. -/
theorem bestNextNode_cases (nodes : NodeMap) (prevNode currentNode : Nat) :
    (bestNextNode nodes prevNode currentNode = none ∧
        turnCandidates nodes prevNode currentNode = []) ∨
      ∃ pre c post, turnCandidates nodes prevNode currentNode = pre ++ c :: post ∧
        bestNextNode nodes prevNode currentNode = some (farNode c currentNode) ∧
        (∀ e ∈ pre, turnOf nodes prevNode currentNode e
          < turnOf nodes prevNode currentNode c) ∧
        ∀ e ∈ post, turnOf nodes prevNode currentNode e
          ≤ turnOf nodes prevNode currentNode c := by
  have h := foldl_turnStep_largest nodes prevNode currentNode
    (turnCandidates nodes prevNode currentNode) [] (none, none)
    (fun e he => by
      unfold turnCandidates at he
      simpa using (List.mem_filter.mp he).2)
    (Or.inl ⟨rfl, rfl⟩)
  rw [List.nil_append] at h
  unfold bestNextNode
  rw [foldl_turnStep_filter]
  rcases h with ⟨h1, h2⟩ | ⟨pre, c, post, h1, h2, h3, h4⟩
  · left
    unfold turnCandidates at h1 h2
    rw [h1]
    exact ⟨rfl, h2⟩
  · right
    refine ⟨pre, c, post, h1, ?_, h3, h4⟩
    unfold turnCandidates at h2
    rw [h2]

/-! ## The range of the pseudo angle -/

theorem diamondAngle_mem (d c : ℚ) : -2 < diamondAngle d c ∧ diamondAngle d c ≤ 2 := by
  unfold diamondAngle
  by_cases hc : 0 ≤ c
  · rw [if_pos hc]
    by_cases hd : 0 < d
    · rw [if_pos hd]
      have hpos : 0 < d + c := by linarith
      constructor
      · have : 0 ≤ c / (d + c) := div_nonneg hc hpos.le
        linarith
      · rw [div_le_iff₀ hpos]
        linarith
    · rw [if_neg hd]
      have hd' : 0 ≤ -d := by linarith
      have hnn : 0 ≤ c - d := by linarith
      have h0 : 0 ≤ -d / (c - d) := div_nonneg hd' hnn
      have h1 : -d / (c - d) ≤ 1 := div_le_one_of_le₀ (by linarith) hnn
      constructor <;> linarith
  · rw [if_neg hc]
    have hc' : c < 0 := not_le.mp hc
    by_cases hd : 0 ≤ d
    · rw [if_pos hd]
      have hpos : 0 < d - c := by linarith
      constructor
      · have : -1 ≤ c / (d - c) := by
          rw [le_div_iff₀ hpos]
          linarith
        linarith
      · have : c / (d - c) ≤ 0 := div_nonpos_of_nonpos_of_nonneg hc'.le hpos.le
        linarith
    · rw [if_neg hd]
      have hd' : d < 0 := not_le.mp hd
      have hneg : d + c < 0 := by linarith
      have h0 : 0 < d / (d + c) := div_pos_of_neg_of_neg hd' hneg
      have h1 : d / (d + c) < 1 := by
        rw [div_lt_one_of_neg hneg]
        linarith
      constructor <;> linarith

theorem rightTurnAngle_mem (inX inY outX outY : ℚ) :
    -2 < rightTurnAngle inX inY outX outY ∧ rightTurnAngle inX inY outX outY ≤ 2 := by
  unfold rightTurnAngle
  exact diamondAngle_mem _ _

/-! ## The pseudo angle and the angle of `Math.atan2`

The value `Math.atan2(y, x)` is the argument `Complex.arg ⟨x, y⟩` of the complex number
`x + y i`, a real number in `(-π, π]`, and `0` for the zero vector.  The lemmas of this
section compare the pseudo angle with it. -/

/-- The sine of the difference of two arguments has the sign of the cross product. -/
theorem sin_arg_sub_arg {z w : ℂ} (hz : z ≠ 0) (hw : w ≠ 0) :
    Real.sin (Complex.arg w - Complex.arg z) * (Complex.abs z * Complex.abs w)
      = z.re * w.im - z.im * w.re := by
  have h1 : Complex.abs z ≠ 0 := (map_ne_zero Complex.abs).mpr hz
  have h2 : Complex.abs w ≠ 0 := (map_ne_zero Complex.abs).mpr hw
  rw [Real.sin_sub, Complex.sin_arg, Complex.sin_arg, Complex.cos_arg hz, Complex.cos_arg hw]
  field_simp
  ring

theorem abs_mul_abs_pos {z w : ℂ} (hz : z ≠ 0) (hw : w ≠ 0) :
    0 < Complex.abs z * Complex.abs w :=
  mul_pos (Complex.abs.pos hz) (Complex.abs.pos hw)

/-- For two arguments less than `π` apart, the order is the sign of the cross product. -/
theorem arg_lt_arg_iff_of_sub_lt {z w : ℂ} (hz : z ≠ 0) (hw : w ≠ 0)
    (h1 : Complex.arg w - Complex.arg z < Real.pi)
    (h2 : -Real.pi ≤ Complex.arg w - Complex.arg z) :
    Complex.arg z < Complex.arg w ↔ 0 < z.re * w.im - z.im * w.re := by
  have hs := sin_arg_sub_arg hz hw
  have hp := abs_mul_abs_pos hz hw
  constructor
  · intro h
    rw [← hs]
    exact mul_pos (Real.sin_pos_of_pos_of_lt_pi (by linarith) h1) hp
  · intro h
    by_contra hle
    have hsin : Real.sin (Complex.arg w - Complex.arg z) ≤ 0 :=
      Real.sin_nonpos_of_nonnpos_of_neg_pi_le (by linarith) h2
    have : Real.sin (Complex.arg w - Complex.arg z) * (Complex.abs z * Complex.abs w) ≤ 0 :=
      mul_nonpos_of_nonpos_of_nonneg hsin hp.le
    linarith

/-- Two arguments in the open lower half plane. -/
theorem arg_lt_arg_iff_of_im_neg {z w : ℂ} (hz : z.im < 0) (hw : w.im < 0) :
    Complex.arg z < Complex.arg w ↔ 0 < z.re * w.im - z.im * w.re := by
  have hz0 : z ≠ 0 := fun h => by rw [h] at hz; simp at hz
  have hw0 : w ≠ 0 := fun h => by rw [h] at hw; simp at hw
  have a1 := Complex.arg_neg_iff.mpr hz
  have a2 := Complex.arg_neg_iff.mpr hw
  have b1 := Complex.neg_pi_lt_arg z
  have b2 := Complex.neg_pi_lt_arg w
  exact arg_lt_arg_iff_of_sub_lt hz0 hw0 (by linarith) (by linarith)

/-- Two arguments in the closed upper half plane. -/
theorem arg_lt_arg_iff_of_im_nonneg {z w : ℂ} (hz0 : z ≠ 0) (hw0 : w ≠ 0) (hz : 0 ≤ z.im)
    (hw : 0 ≤ w.im) :
    Complex.arg z < Complex.arg w ↔
      0 < z.re * w.im - z.im * w.re ∨ (z.im = 0 ∧ w.im = 0 ∧ 0 < z.re ∧ w.re < 0) := by
  have a1 := Complex.arg_nonneg_iff.mpr hz
  have a2 := Complex.arg_nonneg_iff.mpr hw
  have b1 := Complex.arg_le_pi z
  have b2 := Complex.arg_le_pi w
  by_cases hpi : Complex.arg w - Complex.arg z < Real.pi
  · rw [arg_lt_arg_iff_of_sub_lt hz0 hw0 hpi (by linarith)]
    constructor
    · exact Or.inl
    · rintro (h | ⟨h1, h2, h3, h4⟩)
      · exact h
      · exfalso
        have e1 : Complex.arg z = 0 := Complex.arg_eq_zero_iff.mpr ⟨h3.le, h1⟩
        have e2 : Complex.arg w = Real.pi := Complex.arg_eq_pi_iff.mpr ⟨h4, h2⟩
        rw [e1, e2] at hpi
        linarith
  · have e1 : Complex.arg z = 0 := by linarith
    have e2 : Complex.arg w = Real.pi := by linarith
    obtain ⟨c1, c2⟩ := Complex.arg_eq_zero_iff.mp e1
    obtain ⟨c3, c4⟩ := Complex.arg_eq_pi_iff.mp e2
    have c5 : 0 < z.re := by
      rcases c1.lt_or_eq with h | h
      · exact h
      · exact absurd (Complex.ext h.symm c2) hz0
    rw [e1, e2]
    exact ⟨fun _ => Or.inr ⟨c2, c4, c5, c3⟩, fun _ => Real.pi_pos⟩

/-! The order of the pseudo angles, by the signs of the coordinates and the cross
product. -/

theorem diamondAngle_nonneg_iff (d c : ℚ) : 0 ≤ diamondAngle d c ↔ 0 ≤ c := by
  unfold diamondAngle
  by_cases hc : 0 ≤ c
  · rw [if_pos hc]
    simp only [hc, iff_true]
    by_cases hd : 0 < d
    · rw [if_pos hd]
      exact div_nonneg hc (by linarith)
    · rw [if_neg hd]
      have : 0 ≤ -d / (c - d) := div_nonneg (by linarith) (by linarith)
      linarith
  · rw [if_neg hc]
    simp only [hc, iff_false, not_le]
    have hc' : c < 0 := not_le.mp hc
    by_cases hd : 0 ≤ d
    · rw [if_pos hd]
      exact div_neg_of_neg_of_pos hc' (by linarith)
    · rw [if_neg hd]
      have : 0 < d / (d + c) := div_pos_of_neg_of_neg (not_le.mp hd) (by linarith)
      linarith

/-- Two pseudo angles of vectors in the closed upper half plane that are not zero. -/
theorem diamondAngle_lt_iff_of_nonneg {d c e f : ℚ} (hz : ¬ (d = 0 ∧ c = 0))
    (hw : ¬ (e = 0 ∧ f = 0)) (hc : 0 ≤ c) (hf : 0 ≤ f) :
    diamondAngle d c < diamondAngle e f ↔
      0 < d * f - c * e ∨ (c = 0 ∧ f = 0 ∧ 0 < d ∧ e < 0) := by
  unfold diamondAngle
  rw [if_pos hc, if_pos hf]
  by_cases hd : 0 < d
  · rw [if_pos hd]
    have p1 : 0 < d + c := by linarith
    by_cases he : 0 < e
    · rw [if_pos he]
      have p2 : 0 < e + f := by linarith
      rw [div_lt_div_iff₀ p1 p2]
      constructor
      · intro h
        left
        nlinarith
      · rintro (h | ⟨-, -, -, h⟩)
        · nlinarith
        · exact absurd he (not_lt.mpr h.le)
    · rw [if_neg he]
      have he' : e ≤ 0 := not_lt.mp he
      have q1 : c / (d + c) < 1 := by
        rw [div_lt_one p1]
        linarith
      have q2 : 0 ≤ -e / (f - e) := div_nonneg (by linarith) (by linarith)
      constructor
      · intro _
        by_cases hf0 : f = 0
        · have he0 : e < 0 := by
            rcases he'.lt_or_eq with h | h
            · exact h
            · exact absurd ⟨h, hf0⟩ hw
          by_cases hc0 : c = 0
          · exact Or.inr ⟨hc0, hf0, hd, he0⟩
          · left
            have hcpos : 0 < c := lt_of_le_of_ne hc (Ne.symm hc0)
            rw [hf0]
            nlinarith
        · left
          have hfpos : 0 < f := lt_of_le_of_ne hf (Ne.symm hf0)
          nlinarith [mul_pos hd hfpos, mul_nonneg hc (neg_nonneg.mpr he')]
      · intro _
        linarith
  · rw [if_neg hd]
    have hd' : d ≤ 0 := not_lt.mp hd
    have p1 : 0 < c - d := by
      rcases hd'.lt_or_eq with h | h
      · linarith
      · have : c ≠ 0 := fun hc0 => hz ⟨h, hc0⟩
        have : 0 < c := lt_of_le_of_ne hc (Ne.symm this)
        linarith
    by_cases he : 0 < e
    · rw [if_pos he]
      have p2 : 0 < e + f := by linarith
      have q1 : f / (e + f) < 1 := by
        rw [div_lt_one p2]
        linarith
      have q2 : 0 ≤ -d / (c - d) := div_nonneg (by linarith) p1.le
      constructor
      · intro h
        linarith
      · rintro (h | ⟨-, -, h, -⟩)
        · nlinarith [mul_nonneg hc he.le, mul_nonneg (neg_nonneg.mpr hd') hf]
        · exact absurd h hd
    · rw [if_neg he]
      have he' : e ≤ 0 := not_lt.mp he
      have p2 : 0 < f - e := by
        rcases he'.lt_or_eq with h | h
        · linarith
        · have : f ≠ 0 := fun hf0 => hw ⟨h, hf0⟩
          have : 0 < f := lt_of_le_of_ne hf (Ne.symm this)
          linarith
      rw [add_lt_add_iff_left, div_lt_div_iff₀ p1 p2]
      constructor
      · intro h
        left
        nlinarith
      · rintro (h | ⟨-, -, h, -⟩)
        · nlinarith
        · exact absurd h hd

/-- Two pseudo angles of vectors in the open lower half plane. -/
theorem diamondAngle_lt_iff_of_neg {d c e f : ℚ} (hc : c < 0) (hf : f < 0) :
    diamondAngle d c < diamondAngle e f ↔ 0 < d * f - c * e := by
  unfold diamondAngle
  rw [if_neg (not_le.mpr hc), if_neg (not_le.mpr hf)]
  by_cases hd : 0 ≤ d
  · rw [if_pos hd]
    have p1 : 0 < d - c := by linarith
    by_cases he : 0 ≤ e
    · rw [if_pos he]
      have p2 : 0 < e - f := by linarith
      rw [div_lt_div_iff₀ p1 p2]
      constructor <;> intro h <;> nlinarith
    · rw [if_neg he]
      have he' : e < 0 := not_le.mp he
      have q1 : -1 ≤ c / (d - c) := by
        rw [le_div_iff₀ p1]
        linarith
      have q2 : 0 < e / (e + f) := div_pos_of_neg_of_neg he' (by linarith)
      constructor
      · intro h
        linarith
      · intro h
        nlinarith [mul_nonneg hd (neg_nonneg.mpr hf.le), mul_pos_of_neg_of_neg hc he']
  · rw [if_neg hd]
    have hd' : d < 0 := not_le.mp hd
    have p1 : d + c < 0 := by linarith
    by_cases he : 0 ≤ e
    · rw [if_pos he]
      have p2 : 0 < e - f := by linarith
      have q1 : -1 ≤ f / (e - f) := by
        rw [le_div_iff₀ p2]
        linarith
      have q2 : 0 < d / (d + c) := div_pos_of_neg_of_neg hd' p1
      constructor
      · intro _
        nlinarith [mul_pos_of_neg_of_neg hd' hf, mul_nonneg (neg_nonneg.mpr hc.le) he]
      · intro _
        linarith
    · rw [if_neg he]
      have he' : e < 0 := not_le.mp he
      have p2 : e + f < 0 := by linarith
      have key : e / (e + f) < d / (d + c) ↔ 0 < d * f - c * e := by
        rw [← neg_div_neg_eq e (e + f), ← neg_div_neg_eq d (d + c),
          div_lt_div_iff₀ (neg_pos.mpr p2) (neg_pos.mpr p1)]
        constructor <;> intro h <;> nlinarith
      rw [← key]
      constructor <;> intro h <;> linarith

/-! The pseudo angle is ordered as the angle. -/

theorem mk_ne_zero_of_rat {d c : ℚ} (h : ¬ (d = 0 ∧ c = 0)) :
    (⟨(d : ℝ), (c : ℝ)⟩ : ℂ) ≠ 0 := by
  intro h0
  apply h
  have h1 := congrArg Complex.re h0
  have h2 := congrArg Complex.im h0
  simp only [Complex.zero_re, Complex.zero_im] at h1 h2
  exact ⟨by exact_mod_cast h1, by exact_mod_cast h2⟩

/-- The pseudo angles of two vectors that are not zero are in the order of their
angles. -/
theorem diamondAngle_lt_iff_arg {d c e f : ℚ} (hz : ¬ (d = 0 ∧ c = 0))
    (hw : ¬ (e = 0 ∧ f = 0)) :
    diamondAngle d c < diamondAngle e f ↔
      Complex.arg ⟨(d : ℝ), (c : ℝ)⟩ < Complex.arg ⟨(e : ℝ), (f : ℝ)⟩ := by
  have hz0 := mk_ne_zero_of_rat hz
  have hw0 := mk_ne_zero_of_rat hw
  by_cases hc : 0 ≤ c
  · have hc' : (0 : ℝ) ≤ (⟨(d : ℝ), (c : ℝ)⟩ : ℂ).im := by
      simp only []
      exact_mod_cast hc
    by_cases hf : 0 ≤ f
    · have hf' : (0 : ℝ) ≤ (⟨(e : ℝ), (f : ℝ)⟩ : ℂ).im := by
        simp only []
        exact_mod_cast hf
      rw [diamondAngle_lt_iff_of_nonneg hz hw hc hf,
        arg_lt_arg_iff_of_im_nonneg hz0 hw0 hc' hf']
      simp only []
      constructor
      · rintro (h | ⟨h1, h2, h3, h4⟩)
        · left
          exact_mod_cast h
        · right
          exact ⟨by exact_mod_cast h1, by exact_mod_cast h2, by exact_mod_cast h3,
            by exact_mod_cast h4⟩
      · rintro (h | ⟨h1, h2, h3, h4⟩)
        · left
          exact_mod_cast h
        · right
          exact ⟨by exact_mod_cast h1, by exact_mod_cast h2, by exact_mod_cast h3,
            by exact_mod_cast h4⟩
    · have hf' : (⟨(e : ℝ), (f : ℝ)⟩ : ℂ).im < 0 := by
        simp only []
        exact_mod_cast not_le.mp hf
      have a1 := (diamondAngle_nonneg_iff d c).mpr hc
      have a2 : diamondAngle e f < 0 := not_le.mp (fun h => hf ((diamondAngle_nonneg_iff e f).mp h))
      have b1 := Complex.arg_nonneg_iff.mpr hc'
      have b2 := Complex.arg_neg_iff.mpr hf'
      exact ⟨fun h => by linarith, fun h => by linarith⟩
  · have hc' : (⟨(d : ℝ), (c : ℝ)⟩ : ℂ).im < 0 := by
      simp only []
      exact_mod_cast not_le.mp hc
    have a1 : diamondAngle d c < 0 := not_le.mp (fun h => hc ((diamondAngle_nonneg_iff d c).mp h))
    have b1 := Complex.arg_neg_iff.mpr hc'
    by_cases hf : 0 ≤ f
    · have hf' : (0 : ℝ) ≤ (⟨(e : ℝ), (f : ℝ)⟩ : ℂ).im := by
        simp only []
        exact_mod_cast hf
      have a2 := (diamondAngle_nonneg_iff e f).mpr hf
      have b2 := Complex.arg_nonneg_iff.mpr hf'
      exact ⟨fun _ => by linarith, fun _ => by linarith⟩
    · have hf' : (⟨(e : ℝ), (f : ℝ)⟩ : ℂ).im < 0 := by
        simp only []
        exact_mod_cast not_le.mp hf
      rw [diamondAngle_lt_iff_of_neg (not_le.mp hc) (not_le.mp hf),
        arg_lt_arg_iff_of_im_neg hc' hf']
      simp only []
      constructor <;> intro h <;> exact_mod_cast h

/-- The difference of two angles, normalised into `(-π, π]`, is the angle of the product
with the conjugate. -/
theorem toReal_arg_sub_arg {o i : ℂ} (ho : o ≠ 0) (hi : i ≠ 0) :
    ((Complex.arg o : Real.Angle) - (Complex.arg i : Real.Angle)).toReal
      = Complex.arg (o * (starRingEnd ℂ) i) := by
  have hc : (starRingEnd ℂ) i ≠ 0 := (map_ne_zero (starRingEnd ℂ)).mpr hi
  rw [← Complex.arg_coe_angle_toReal_eq_arg (o * (starRingEnd ℂ) i),
    Complex.arg_mul_coe_angle ho hc, Complex.arg_conj_coe_angle, sub_eq_add_neg]

/-- The direction of a vector has the angle that `Math.atan2` gives for the vector, and
is not zero. -/
theorem arg_direction (vx vy : ℚ) :
    Complex.arg ⟨((direction vx vy).1 : ℝ), ((direction vx vy).2 : ℝ)⟩
        = Complex.arg ⟨(vx : ℝ), (vy : ℝ)⟩ ∧
      ¬ ((direction vx vy).1 = 0 ∧ (direction vx vy).2 = 0) := by
  unfold direction
  by_cases h : vx = 0 ∧ vy = 0
  · rw [if_pos h, h.1, h.2]
    simp only [Rat.cast_one, Rat.cast_zero]
    have e1 : (⟨(1 : ℝ), (0 : ℝ)⟩ : ℂ) = 1 := rfl
    have e0 : (⟨(0 : ℝ), (0 : ℝ)⟩ : ℂ) = 0 := rfl
    rw [e1, e0, Complex.arg_one, Complex.arg_zero]
    exact ⟨rfl, fun h' => one_ne_zero h'.1⟩
  · rw [if_neg h]
    exact ⟨rfl, h⟩

/-- The turn from an incoming to an outgoing vector, normalised into `(-π, π]`, is the
angle of the vector `(dot, cross)` of their directions, which is not zero. -/
theorem toReal_turn (ix iy ox oy : ℚ) :
    ((Complex.arg ⟨(ox : ℝ), (oy : ℝ)⟩ : Real.Angle)
          - (Complex.arg ⟨(ix : ℝ), (iy : ℝ)⟩ : Real.Angle)).toReal
        = Complex.arg
          ⟨(((direction ix iy).1 * (direction ox oy).1
              + (direction ix iy).2 * (direction ox oy).2 : ℚ) : ℝ),
            (((direction ix iy).1 * (direction ox oy).2
              - (direction ix iy).2 * (direction ox oy).1 : ℚ) : ℝ)⟩ ∧
      ¬ ((direction ix iy).1 * (direction ox oy).1
            + (direction ix iy).2 * (direction ox oy).2 = 0 ∧
          (direction ix iy).1 * (direction ox oy).2
            - (direction ix iy).2 * (direction ox oy).1 = 0) := by
  obtain ⟨ai, ni⟩ := arg_direction ix iy
  obtain ⟨ao, no⟩ := arg_direction ox oy
  have hi := mk_ne_zero_of_rat ni
  have ho := mk_ne_zero_of_rat no
  have hprod : (⟨((direction ox oy).1 : ℝ), ((direction ox oy).2 : ℝ)⟩ : ℂ)
        * (starRingEnd ℂ) ⟨((direction ix iy).1 : ℝ), ((direction ix iy).2 : ℝ)⟩
      = ⟨(((direction ix iy).1 * (direction ox oy).1
              + (direction ix iy).2 * (direction ox oy).2 : ℚ) : ℝ),
            (((direction ix iy).1 * (direction ox oy).2
              - (direction ix iy).2 * (direction ox oy).1 : ℚ) : ℝ)⟩ := by
    apply Complex.ext
    · simp only [Complex.mul_re, Complex.conj_re, Complex.conj_im]
      push_cast
      ring
    · simp only [Complex.mul_im, Complex.conj_re, Complex.conj_im]
      push_cast
      ring
  constructor
  · rw [← ai, ← ao, toReal_arg_sub_arg ho hi, hprod]
  · intro h0
    have hne := mul_ne_zero ho ((map_ne_zero (starRingEnd ℂ)).mpr hi)
    rw [hprod, h0.1, h0.2] at hne
    exact hne (by simp only [Rat.cast_zero]; rfl)

/-- The pseudo angles of two outgoing vectors, for one incoming vector, are in the order
of the turns computed with `Math.atan2`: the difference of the outgoing and the incoming
angle, normalised into `(-π, π]`. -/
theorem rightTurnAngle_lt_iff_turn (ix iy ox oy px py : ℚ) :
    rightTurnAngle ix iy ox oy < rightTurnAngle ix iy px py ↔
      ((Complex.arg ⟨(ox : ℝ), (oy : ℝ)⟩ : Real.Angle)
          - (Complex.arg ⟨(ix : ℝ), (iy : ℝ)⟩ : Real.Angle)).toReal
        < ((Complex.arg ⟨(px : ℝ), (py : ℝ)⟩ : Real.Angle)
          - (Complex.arg ⟨(ix : ℝ), (iy : ℝ)⟩ : Real.Angle)).toReal := by
  obtain ⟨h1, n1⟩ := toReal_turn ix iy ox oy
  obtain ⟨h2, n2⟩ := toReal_turn ix iy px py
  rw [h1, h2]
  unfold rightTurnAngle
  exact diamondAngle_lt_iff_arg n1 n2

theorem rightTurnAngle_lt_iff_turnLess (ix iy ox oy px py : ℚ) :
    rightTurnAngle ix iy ox oy < rightTurnAngle ix iy px py ↔ TurnLess ix iy ox oy px py :=
  rightTurnAngle_lt_iff_turn ix iy ox oy px py

/-- The pseudo angles of two edges at a node are in the order of their turns. -/
theorem turnOf_lt_iff (nodes : NodeMap) (prevNode currentNode : Nat) (e e' : Edge) :
    turnOf nodes prevNode currentNode e < turnOf nodes prevNode currentNode e' ↔
      EdgeTurnLess nodes prevNode currentNode e e' := by
  unfold turnOf EdgeTurnLess
  exact rightTurnAngle_lt_iff_turnLess _ _ _ _ _ _

/-- The normalised difference of two angles lies in `(-π, π]` and differs from the
difference by a multiple of `2π`. -/
theorem toReal_sub_spec (a b : ℝ) :
    -Real.pi < ((a : Real.Angle) - (b : Real.Angle)).toReal ∧
      ((a : Real.Angle) - (b : Real.Angle)).toReal ≤ Real.pi ∧
      ∃ k : ℤ, ((a : Real.Angle) - (b : Real.Angle)).toReal = a - b + k * (2 * Real.pi) := by
  refine ⟨Real.Angle.neg_pi_lt_toReal _, Real.Angle.toReal_le_pi _, ?_⟩
  have h : ((((a : Real.Angle) - (b : Real.Angle)).toReal : ℝ) : Real.Angle)
      = ((a - b : ℝ) : Real.Angle) := by
    rw [Real.Angle.coe_toReal, Real.Angle.coe_sub]
  obtain ⟨k, hk⟩ := Real.Angle.angle_eq_iff_two_pi_dvd_sub.mp h
  exact ⟨k, by linarith⟩

/-- C5: `findRoomFromPoint` returns `null` whenever the wall list is empty or the query
point is inside the polygon of one of the existing rooms. -/
theorem findRoomFromPoint_none_of_empty_or_inside (startPoint : Point) (walls : List Wall)
    (existingRooms : List Room)
    (h : walls = [] ∨ ∃ room ∈ existingRooms, isPointInPolygon startPoint room.points = true) :
    findRoomFromPoint startPoint walls existingRooms = none := by
  unfold findRoomFromPoint
  rcases h with h | ⟨room, hmem, hin⟩
  · simp [h]
  · have hany : existingRooms.any (fun room => isPointInPolygon startPoint room.points) = true :=
      List.any_eq_true.mpr ⟨room, hmem, hin⟩
    simp [hany]

theorem findRoomFromPoint_none_of_empty_or_inside_witness :
    (squareWalls = [] ∨ ∃ room ∈ [(⟨[⟨0, 0⟩, ⟨100, 0⟩, ⟨100, 100⟩, ⟨0, 100⟩]⟩ : Room)],
        isPointInPolygon ⟨50, 50⟩ room.points = true) ∧
      findRoomFromPoint ⟨50, 50⟩ squareWalls [] ≠ none ∧
      findRoomFromPoint ⟨50, 50⟩ squareWalls [⟨[⟨0, 0⟩, ⟨100, 0⟩, ⟨100, 100⟩, ⟨0, 100⟩]⟩] = none :=
  ⟨Or.inr ⟨_, List.mem_singleton.mpr rfl, by decide!⟩, by decide!,
    findRoomFromPoint_none_of_empty_or_inside ⟨50, 50⟩ squareWalls _
      (Or.inr ⟨_, List.mem_singleton.mpr rfl, by decide!⟩)⟩

/-- C6: the polygon of every returned room contains the query point, as tested by
`isPointInPolygon`. -/
theorem findRoomFromPoint_contains_query (startPoint : Point) (walls : List Wall)
    (existingRooms : List Room) (room : Room)
    (h : findRoomFromPoint startPoint walls existingRooms = some room) :
    isPointInPolygon startPoint room.points = true := by
  obtain ⟨e, -, he⟩ := findRoomFromPoint_some h
  obtain ⟨traced, -, hv⟩ := traceRoom_some he
  exact (validateRoom_some hv).2.2.2.1

theorem findRoomFromPoint_contains_query_witness :
    findRoomFromPoint ⟨50, 50⟩ squareWalls []
        = some ⟨[⟨100, 100⟩, ⟨0, 100⟩, ⟨0, 0⟩, ⟨100, 0⟩]⟩ ∧
      isPointInPolygon ⟨50, 50⟩ [⟨100, 100⟩, ⟨0, 100⟩, ⟨0, 0⟩, ⟨100, 0⟩] = true :=
  ⟨by decide!, findRoomFromPoint_contains_query ⟨50, 50⟩ squareWalls [] _ (by decide!)⟩

/-- C9: the signed shoelace sum of every returned room, taken over its points in listed
order with wrap-around, is not negative. -/
theorem findRoomFromPoint_signed_area_nonneg (startPoint : Point) (walls : List Wall)
    (existingRooms : List Room) (room : Room)
    (h : findRoomFromPoint startPoint walls existingRooms = some room) :
    0 ≤ shoelaceSum room.points := by
  obtain ⟨e, -, he⟩ := findRoomFromPoint_some h
  obtain ⟨traced, -, hv⟩ := traceRoom_some he
  exact (validateRoom_some hv).2.2.2.2

theorem findRoomFromPoint_signed_area_nonneg_witness :
    findRoomFromPoint ⟨50, 50⟩ squareWalls []
        = some ⟨[⟨100, 100⟩, ⟨0, 100⟩, ⟨0, 0⟩, ⟨100, 0⟩]⟩ ∧
      0 ≤ shoelaceSum [⟨100, 100⟩, ⟨0, 100⟩, ⟨0, 0⟩, ⟨100, 0⟩] :=
  ⟨by decide!, findRoomFromPoint_signed_area_nonneg ⟨50, 50⟩ squareWalls [] _ (by decide!)⟩

/-! ## Claims on every returned room -/

/-- C2: for the square of side 100 and the query point `(50, 50)` the function returns a
room whose points are the four corners, each once, listed as a rotation of the order
`(0,0), (100,0), (100,100), (0,100)`, and whose area is 10000. -/
theorem findRoomFromPoint_square :
    ∃ room, findRoomFromPoint ⟨50, 50⟩ squareWalls [] = some room ∧
      (List.IsRotated room.points [⟨0, 0⟩, ⟨100, 0⟩, ⟨100, 100⟩, ⟨0, 100⟩] ∨
        List.IsRotated room.points [⟨0, 100⟩, ⟨100, 100⟩, ⟨100, 0⟩, ⟨0, 0⟩]) ∧
      room.points.Nodup ∧ calculatePolygonArea room.points = 10000 :=
  ⟨⟨[⟨100, 100⟩, ⟨0, 100⟩, ⟨0, 0⟩, ⟨100, 0⟩]⟩, by decide!, Or.inl ⟨2, by decide!⟩, by decide!,
    by decide!⟩

/-- C7: the first three points of every returned room are pairwise different, so a
returned room has at least three different points. -/
theorem findRoomFromPoint_three_distinct (startPoint : Point) (walls : List Wall)
    (existingRooms : List Room) (room : Room)
    (h : findRoomFromPoint startPoint walls existingRooms = some room) :
    ∃ p0 p1 p2 rest, room.points = p0 :: p1 :: p2 :: rest ∧ p0 ≠ p1 ∧ p1 ≠ p2 ∧ p0 ≠ p2 := by
  obtain ⟨e, he, prevNode, startNode, visited, hdir, hct, hlen, -, hpts⟩ :=
    findRoomFromPoint_trace h
  have hg := buildGraph_graphInv walls
  have hs : startNode < (buildGraph walls).1.length := by
    obtain ⟨-, h1, h2⟩ := hg.edge_ok e he
    rcases hdir with ⟨-, hd⟩ | ⟨-, hd⟩
    · rw [hd]; exact h2
    · rw [hd]; exact h1
  obtain ⟨c1, c2, rest3, hv, h10, h21, h20, hl1, hl2⟩ := hct.three_nodes hg hlen
  refine ⟨⟨(nodeAt (buildGraph walls).1 startNode).x, (nodeAt (buildGraph walls).1 startNode).y⟩,
    ⟨(nodeAt (buildGraph walls).1 c1).x, (nodeAt (buildGraph walls).1 c1).y⟩,
    ⟨(nodeAt (buildGraph walls).1 c2).x, (nodeAt (buildGraph walls).1 c2).y⟩,
    polygonPoints (buildGraph walls).1 rest3, ?_, ?_, ?_, ?_⟩
  · rw [hpts, hv]
    rfl
  · exact fun hc => h10 (hg.coords_injective hs hl1 hc).symm
  · exact fun hc => h21 (hg.coords_injective hl1 hl2 hc).symm
  · exact fun hc => h20 (hg.coords_injective hs hl2 hc).symm

theorem findRoomFromPoint_three_distinct_witness :
    findRoomFromPoint ⟨50, 50⟩ squareWalls []
        = some ⟨[⟨100, 100⟩, ⟨0, 100⟩, ⟨0, 0⟩, ⟨100, 0⟩]⟩ ∧
      ∃ p0 p1 p2 rest, [(⟨100, 100⟩ : Point), ⟨0, 100⟩, ⟨0, 0⟩, ⟨100, 0⟩] = p0 :: p1 :: p2 :: rest ∧
        p0 ≠ p1 ∧ p1 ≠ p2 ∧ p0 ≠ p2 :=
  ⟨by decide!, findRoomFromPoint_three_distinct ⟨50, 50⟩ squareWalls [] _ (by decide!)⟩

/-- C8, as stated, fails: around a pillar that touches a wall in one point the returned
polygon passes twice through that point. -/
theorem findRoomFromPoint_not_simple :
    ∃ room, findRoomFromPoint ⟨20, 50⟩ pillarWalls [] = some room ∧ ¬ room.points.Nodup :=
  ⟨⟨[⟨100, 100⟩, ⟨0, 100⟩, ⟨0, 0⟩, ⟨50, 0⟩, ⟨40, 20⟩, ⟨60, 20⟩, ⟨50, 0⟩, ⟨100, 0⟩]⟩,
    by decide!, by decide!⟩

/-- C8, amended: in every returned room the first point occurs only once, the two ends
of every side of the closed polygon are different points, and no directed side occurs
twice. -/
theorem findRoomFromPoint_sides_nodup (startPoint : Point) (walls : List Wall)
    (existingRooms : List Room) (room : Room)
    (h : findRoomFromPoint startPoint walls existingRooms = some room) :
    (∃ p0 rest, room.points = p0 :: rest ∧ p0 ∉ rest) ∧
      (∀ s ∈ directedSides room.points, s.1 ≠ s.2) ∧ (directedSides room.points).Nodup := by
  obtain ⟨e, he, prevNode, startNode, visited, hdir, hct, -, -, hpts⟩ :=
    findRoomFromPoint_trace h
  have hg := buildGraph_graphInv walls
  have hs : startNode < (buildGraph walls).1.length := by
    obtain ⟨-, h1, h2⟩ := hg.edge_ok e he
    rcases hdir with ⟨-, hd⟩ | ⟨-, hd⟩
    · rw [hd]; exact h2
    · rw [hd]; exact h1
  obtain ⟨tl, hv⟩ := hct.head
  obtain ⟨hvalid, hsides⟩ := hct.valid hg hs
  have htail := hct.tail_ne_start
  have hnd := hct.steps_nodup.1
  have hrot : visited.rotate 1 = visited.tail ++ [startNode] := by
    rw [hv]
    simp [List.rotate_cons_succ]
  have hsucc : ∀ n ∈ visited.tail ++ [startNode], n < (buildGraph walls).1.length := by
    intro n hn
    rcases List.mem_append.mp hn with hn | hn
    · exact hvalid n (List.mem_of_mem_tail hn)
    · rw [List.mem_singleton.mp hn]; exact hs
  have hds : directedSides room.points
      = (visited.zip (visited.tail ++ [startNode])).map
          (Prod.map (fun n => (⟨(nodeAt (buildGraph walls).1 n).x,
              (nodeAt (buildGraph walls).1 n).y⟩ : Point))
            (fun n => (⟨(nodeAt (buildGraph walls).1 n).x,
              (nodeAt (buildGraph walls).1 n).y⟩ : Point))) := by
    rw [hpts, ← hrot]
    unfold directedSides polygonPoints
    rw [← List.map_rotate, List.zip_map]
  refine ⟨⟨_, polygonPoints (buildGraph walls).1 tl, by rw [hpts, hv]; rfl, ?_⟩, ?_, ?_⟩
  · intro hmem
    unfold polygonPoints at hmem
    obtain ⟨n, hn, hc⟩ := List.mem_map.mp hmem
    have hnt : n ∈ visited.tail := by rw [hv]; exact hn
    have hnl : n < (buildGraph walls).1.length := hvalid n (List.mem_of_mem_tail hnt)
    exact htail n hnt (hg.coords_injective hnl hs hc)
  · intro s hsm
    rw [hds] at hsm
    obtain ⟨⟨a, b⟩, hab, rfl⟩ := List.mem_map.mp hsm
    have ha := hvalid a (List.of_mem_zip hab).1
    have hb := hsucc b (List.of_mem_zip hab).2
    exact fun hc => hsides a b hab (hg.coords_injective ha hb hc)
  · rw [hds]
    refine List.Nodup.map_on ?_ hnd
    rintro ⟨a, b⟩ hab ⟨c, d⟩ hcd heq
    simp only [Prod.map_apply, Prod.mk.injEq] at heq
    have ha := hvalid a (List.of_mem_zip hab).1
    have hb := hsucc b (List.of_mem_zip hab).2
    have hc := hvalid c (List.of_mem_zip hcd).1
    have hd := hsucc d (List.of_mem_zip hcd).2
    rw [hg.coords_injective ha hc heq.1, hg.coords_injective hb hd heq.2]

theorem findRoomFromPoint_sides_nodup_witness :
    findRoomFromPoint ⟨20, 50⟩ pillarWalls []
        = some ⟨[⟨100, 100⟩, ⟨0, 100⟩, ⟨0, 0⟩, ⟨50, 0⟩, ⟨40, 20⟩, ⟨60, 20⟩, ⟨50, 0⟩,
            ⟨100, 0⟩]⟩ ∧
      (directedSides [(⟨100, 100⟩ : Point), ⟨0, 100⟩, ⟨0, 0⟩, ⟨50, 0⟩, ⟨40, 20⟩, ⟨60, 20⟩,
        ⟨50, 0⟩, ⟨100, 0⟩]).Nodup :=
  ⟨by decide!, (findRoomFromPoint_sides_nodup ⟨20, 50⟩ pillarWalls [] _ (by decide!)).2.2⟩

/-- C10: the function is total; a returned room has at most `nodeCount + 1` points; when
the trace loop ends on another node than the start node it has run `nodeCount + 1`
iterations and the result is `null`; and an iteration at a node all of whose edges lead
back to the previous node returns `null` at once. -/
theorem findRoomFromPoint_trace_bounded :
    (∀ startPoint walls existingRooms,
      findRoomFromPoint startPoint walls existingRooms = none ∨
        ∃ room, findRoomFromPoint startPoint walls existingRooms = some room ∧
          room.points.length ≤ (buildGraph walls).1.length + 1) ∧
    (∀ nodes startPoint startingEdge traced,
      traceLoop nodes (seedDirection nodes startPoint startingEdge).2 (nodes.length + 1)
          (seedDirection nodes startPoint startingEdge).1
          (seedDirection nodes startPoint startingEdge).2 [] = some traced →
        traced.2 ≠ (seedDirection nodes startPoint startingEdge).2 →
        traced.1.length = nodes.length + 1 ∧ traceRoom nodes startPoint startingEdge = none) ∧
    (∀ nodes startNode fuel prevNode currentNode polygon,
      (∀ e ∈ (nodeAt nodes currentNode).edges, farNode e currentNode = prevNode) →
        traceLoop nodes startNode (fuel + 1) prevNode currentNode polygon = none) := by
  refine ⟨?_, ?_, ?_⟩
  · intro startPoint walls existingRooms
    cases h : findRoomFromPoint startPoint walls existingRooms with
    | none => exact Or.inl rfl
    | some room =>
      refine Or.inr ⟨room, rfl, ?_⟩
      obtain ⟨e, -, prevNode, startNode, visited, -, -, -, hlen, hpts⟩ :=
        findRoomFromPoint_trace h
      rw [hpts]
      simpa [polygonPoints] using hlen
  · intro nodes startPoint startingEdge traced htr hne
    refine ⟨by simpa using traceLoop_open _ _ _ _ traced htr hne, ?_⟩
    unfold traceRoom
    simp only [htr]
    unfold validateRoom
    rw [if_pos (Or.inl hne)]
  · intro nodes startNode fuel prevNode currentNode polygon hdead
    exact traceLoop_dead_end fuel prevNode currentNode polygon hdead

/-- C1, as stated, fails: for the rectangle of width and height `1/100000` all four corners
get the same node key, the graph has no edge and the function returns `null` at the centre;
for the rectangle of width `4000000` and height `1` the seed ray, of length `1000000`, ends
before the right side and the function returns `null` at the centre. -/
theorem findRoomFromPoint_rectangle_null :
    findRoomFromPoint ⟨1 / 100000 / 2, 1 / 100000 / 2⟩
        (rectWalls (1 / 100000) (1 / 100000)) [] = none ∧
      findRoomFromPoint ⟨4000000 / 2, 1 / 2⟩ (rectWalls 4000000 1) [] = none :=
  ⟨by decide!, by decide!⟩

/-- C1, amended: for every width `w` with `1/10000 ≤ w ≤ 1000000` and every height
`h ≥ 1/10000`, with the four sides of the rectangle with corners `(0,0), (w,0), (w,h), (0,h)`
as walls, listed around the perimeter, the function called with the centre and no existing
rooms returns a room with exactly 4 points whose `calculatePolygonArea` is `w * h`. -/
theorem findRoomFromPoint_rectangle (w h : ℚ) (hw : 1 / 10000 ≤ w) (hw2 : w ≤ 1000000)
    (hh : 1 / 10000 ≤ h) :
    ∃ room, findRoomFromPoint ⟨w / 2, h / 2⟩ (rectWalls w h) [] = some room ∧
      room.points.length = 4 ∧ calculatePolygonArea room.points = w * h := by
  refine ⟨_, rect_room hw hh hw2, rfl, ?_⟩
  unfold calculatePolygonArea
  rw [rect_shoelaceSum, mul_div_cancel_left₀ _ (by norm_num : (2 : ℚ) ≠ 0)]
  exact abs_of_nonneg (mul_nonneg (by linarith) (by linarith))

theorem findRoomFromPoint_rectangle_witness :
    ((1 : ℚ) / 10000 ≤ 3 ∧ (3 : ℚ) ≤ 1000000 ∧ (1 : ℚ) / 10000 ≤ 2) ∧
      ∃ room, findRoomFromPoint ⟨3 / 2, 2 / 2⟩ (rectWalls 3 2) [] = some room ∧
        room.points.length = 4 ∧ calculatePolygonArea room.points = 3 * 2 :=
  ⟨⟨by norm_num, by norm_num, by norm_num⟩,
    findRoomFromPoint_rectangle 3 2 (by norm_num) (by norm_num) (by norm_num)⟩

/-- C3: for every `w > 0` and `h > 0`, every list of three walls that run along three
different sides of the rectangle with corners `(0,0), (w,0), (w,h), (0,h)`, each in either
direction, and every query point, so in particular every point strictly inside the
rectangle, the function called with no existing rooms returns `null`. -/
theorem findRoomFromPoint_open_rectangle (w h : ℚ) (hw : 0 < w) (hh : 0 < h)
    (k1 k2 k3 : Fin 4) (h12 : k1 ≠ k2) (h13 : k1 ≠ k3) (h23 : k2 ≠ k3)
    (wall1 wall2 wall3 : Wall) (h1 : IsRectSide w h k1 wall1) (h2 : IsRectSide w h k2 wall2)
    (h3 : IsRectSide w h k3 wall3) (startPoint : Point) :
    findRoomFromPoint startPoint [wall1, wall2, wall3] [] = none := by
  have hm : ∀ a b c : Fin 4, a ≠ b → a ≠ c → b ≠ c → ∃ m, a ≠ m ∧ b ≠ m ∧ c ≠ m := by
    decide
  obtain ⟨m, m1, m2, m3⟩ := hm k1 k2 k3 h12 h13 h23
  apply findRoomFromPoint_missing_side hw hh m
  intro wall hwall
  simp only [List.mem_cons, List.mem_singleton, List.not_mem_nil, or_false] at hwall
  rcases hwall with rfl | rfl | rfl
  · exact ⟨k1, m1, h1⟩
  · exact ⟨k2, m2, h2⟩
  · exact ⟨k3, m3, h3⟩

theorem findRoomFromPoint_open_rectangle_witness :
    ((0 : ℚ) < 100 ∧ (0 : ℚ) < 80) ∧
      ((0 : Fin 4) ≠ 1 ∧ (0 : Fin 4) ≠ 2 ∧ (1 : Fin 4) ≠ 2) ∧
      (IsRectSide 100 80 0 ⟨0, 0, 100, 0⟩ ∧ IsRectSide 100 80 1 ⟨100, 80, 100, 0⟩ ∧
        IsRectSide 100 80 2 ⟨100, 80, 0, 80⟩) ∧
      findRoomFromPoint ⟨50, 40⟩ [⟨0, 0, 100, 0⟩, ⟨100, 80, 100, 0⟩, ⟨100, 80, 0, 80⟩] []
        = none :=
  ⟨⟨by norm_num, by norm_num⟩, ⟨by decide, by decide, by decide⟩,
    ⟨Or.inl rfl, Or.inr rfl, Or.inl rfl⟩,
    findRoomFromPoint_open_rectangle 100 80 (by norm_num) (by norm_num) 0 1 2 (by decide)
      (by decide) (by decide) _ _ _ (Or.inl rfl) (Or.inr rfl) (Or.inl rfl) ⟨50, 40⟩⟩

/-- C4: for all `a, b, h` with `1 ≤ a, b, h ≤ 100000` and the six walls `L, M, R, T, BL, BR`
of the two adjacent cells, the function called with the centre `(a/2, h/2)` of the left cell
and no existing rooms returns a room whose points are the four corners
`(0,0), (a,0), (a,h), (0,h)` of the left cell, each once; neither `(a+b, 0)` nor `(a+b, h)`
is among them. -/
theorem findRoomFromPoint_two_cells (a b h : ℚ) (ha : 1 ≤ a ∧ a ≤ 100000)
    (hb : 1 ≤ b ∧ b ≤ 100000) (hh : 1 ≤ h ∧ h ≤ 100000) :
    ∃ room, findRoomFromPoint ⟨a / 2, h / 2⟩ (twoCellWalls a b h) [] = some room ∧
      List.Perm room.points [⟨0, 0⟩, ⟨a, 0⟩, ⟨a, h⟩, ⟨0, h⟩] ∧ room.points.Nodup ∧
      (⟨a + b, 0⟩ : Point) ∉ room.points ∧ (⟨a + b, h⟩ : Point) ∉ room.points := by
  have ha0 : a ≠ 0 := by linarith [ha.1]
  have hb0 : b ≠ 0 := by linarith [hb.1]
  have hh0 : h ≠ 0 := by linarith [hh.1]
  have hcycle : List.Perm [(⟨a, h⟩ : Point), ⟨0, h⟩, ⟨0, 0⟩, ⟨a, 0⟩]
      [⟨0, 0⟩, ⟨a, 0⟩, ⟨a, h⟩, ⟨0, h⟩] :=
    (List.IsRotated.perm ⟨2, rfl⟩)
  have hnodup : List.Nodup [(⟨0, 0⟩ : Point), ⟨a, 0⟩, ⟨a, h⟩, ⟨0, h⟩] := by
    simp [ha0, hh0, ha0.symm, hh0.symm]
  have hnot1 : (⟨a + b, 0⟩ : Point) ∉ [(⟨0, 0⟩ : Point), ⟨a, 0⟩, ⟨a, h⟩, ⟨0, h⟩] := by
    have hab : a + b ≠ 0 := by linarith [ha.1, hb.1]
    simp [hab, hb0]
  have hnot2 : (⟨a + b, h⟩ : Point) ∉ [(⟨0, 0⟩ : Point), ⟨a, 0⟩, ⟨a, h⟩, ⟨0, h⟩] := by
    have hab : a + b ≠ 0 := by linarith [ha.1, hb.1]
    simp [hab, hb0]
  refine ⟨_, twoCell_room ha.1 hb.1 hh.1 ha.2, ?_⟩
  by_cases hc : a ≤ 2
  · simp only [if_pos hc]
    exact ⟨List.Perm.refl _, hnodup, hnot1, hnot2⟩
  · simp only [if_neg hc]
    exact ⟨hcycle, hcycle.nodup_iff.mpr hnodup, fun hmem => hnot1 (hcycle.subset hmem),
      fun hmem => hnot2 (hcycle.subset hmem)⟩

theorem findRoomFromPoint_two_cells_witness :
    (((1 : ℚ) ≤ 4 ∧ (4 : ℚ) ≤ 100000) ∧ ((1 : ℚ) ≤ 6 ∧ (6 : ℚ) ≤ 100000) ∧
        ((1 : ℚ) ≤ 3 ∧ (3 : ℚ) ≤ 100000)) ∧
      ∃ room, findRoomFromPoint ⟨4 / 2, 3 / 2⟩ (twoCellWalls 4 6 3) [] = some room ∧
        List.Perm room.points [⟨0, 0⟩, ⟨4, 0⟩, ⟨4, 3⟩, ⟨0, 3⟩] ∧ room.points.Nodup ∧
        (⟨4 + 6, 0⟩ : Point) ∉ room.points ∧ (⟨4 + 6, 3⟩ : Point) ∉ room.points :=
  ⟨⟨⟨by norm_num, by norm_num⟩, ⟨by norm_num, by norm_num⟩, ⟨by norm_num, by norm_num⟩⟩,
    findRoomFromPoint_two_cells 4 6 3 ⟨by norm_num, by norm_num⟩ ⟨by norm_num, by norm_num⟩
      ⟨by norm_num, by norm_num⟩⟩

/-- C11, as stated, fails: the segments from `(0,0)` to `(1,0)` and from `(0,0)` to
`(1, 1/2000000)` have positive length and share the endpoint `(0,0)` and no other point,
but their determinant is `1/2000000`, below `EPSILON`, and `findIntersection` returns
`null`. -/
theorem findIntersection_shared_endpoint_null :
    ((0 : ℚ) ≠ 1 ∧
      (∀ s t : ℚ, 0 ≤ s → s ≤ 1 → 0 ≤ t → t ≤ 1 →
        0 + s * (1 - 0) = 0 + t * (1 - 0) → 0 + s * (0 - 0) = 0 + t * (1 / 2000000 - 0) →
        s = 0 ∧ t = 0)) ∧
      findIntersection 0 0 1 0 0 0 1 (1 / 2000000) = none := by
  refine ⟨⟨by norm_num, ?_⟩, by decide!⟩
  intro s t _ _ _ _ h1 h2
  have ht : t = 0 := by linarith
  have hs : s = 0 := by linarith
  exact ⟨hs, ht⟩

/-- C11, amended: for two segments `p1 p2` and `p3 p4` that share an endpoint,
`findIntersection` returns the shared endpoint whenever the determinant
`(x1 - x2) * (y3 - y4) - (y1 - y2) * (x3 - x4)` has magnitude at least `1/1000000`, and
`null` otherwise. -/
theorem findIntersection_shared_endpoint (x1 y1 x2 y2 x3 y3 x4 y4 : ℚ) (shared : Point)
    (h12 : shared = ⟨x1, y1⟩ ∨ shared = ⟨x2, y2⟩)
    (h34 : shared = ⟨x3, y3⟩ ∨ shared = ⟨x4, y4⟩) :
    findIntersection x1 y1 x2 y2 x3 y3 x4 y4
      = if |(x1 - x2) * (y3 - y4) - (y1 - y2) * (x3 - x4)| < 1 / 1000000 then none
        else some shared := by
  unfold findIntersection EPSILON
  simp only []
  split
  · rfl
  · rename_i hden
    have hd : (x1 - x2) * (y3 - y4) - (y1 - y2) * (x3 - x4) ≠ 0 := by
      intro h0
      apply hden
      rw [h0]
      norm_num
    rcases h12 with rfl | rfl <;> rcases h34 with h | h <;>
      obtain ⟨hx, hy⟩ := Point.mk.inj h
    · subst hx hy
      have ht : ((x1 - x1) * (y1 - y4) - (y1 - y1) * (x1 - x4))
          / ((x1 - x2) * (y1 - y4) - (y1 - y2) * (x1 - x4)) = 0 := by
        rw [div_eq_zero_iff]
        left
        ring
      have hu : -((x1 - x2) * (y1 - y1) - (y1 - y2) * (x1 - x1))
          / ((x1 - x2) * (y1 - y4) - (y1 - y2) * (x1 - x4)) = 0 := by
        rw [div_eq_zero_iff]
        left
        ring
      rw [ht, hu, if_pos (by norm_num)]
      simp
    · subst hx hy
      have ht : ((x1 - x3) * (y3 - y1) - (y1 - y3) * (x3 - x1))
          / ((x1 - x2) * (y3 - y1) - (y1 - y2) * (x3 - x1)) = 0 := by
        rw [div_eq_zero_iff]
        left
        ring
      have hu : -((x1 - x2) * (y1 - y3) - (y1 - y2) * (x1 - x3))
          / ((x1 - x2) * (y3 - y1) - (y1 - y2) * (x3 - x1)) = 1 := by
        rw [div_eq_one_iff_eq hd]
        ring
      rw [ht, hu, if_pos (by norm_num)]
      simp
    · subst hx hy
      have ht : ((x1 - x2) * (y2 - y4) - (y1 - y2) * (x2 - x4))
          / ((x1 - x2) * (y2 - y4) - (y1 - y2) * (x2 - x4)) = 1 := div_self hd
      have hu : -((x1 - x2) * (y1 - y2) - (y1 - y2) * (x1 - x2))
          / ((x1 - x2) * (y2 - y4) - (y1 - y2) * (x2 - x4)) = 0 := by
        rw [div_eq_zero_iff]
        left
        ring
      rw [ht, hu, if_pos (by norm_num)]
      simp
    · subst hx hy
      have ht : ((x1 - x3) * (y3 - y2) - (y1 - y3) * (x3 - x2))
          / ((x1 - x2) * (y3 - y2) - (y1 - y2) * (x3 - x2)) = 1 := by
        rw [div_eq_one_iff_eq hd]
        ring
      have hu : -((x1 - x2) * (y1 - y3) - (y1 - y2) * (x1 - x3))
          / ((x1 - x2) * (y3 - y2) - (y1 - y2) * (x3 - x2)) = 1 := by
        rw [div_eq_one_iff_eq hd]
        ring
      rw [ht, hu, if_pos (by norm_num)]
      simp

theorem findIntersection_shared_endpoint_witness :
    (((⟨100, 0⟩ : Point) = ⟨0, 0⟩ ∨ (⟨100, 0⟩ : Point) = ⟨100, 0⟩) ∧
        ((⟨100, 0⟩ : Point) = ⟨100, 0⟩ ∨ (⟨100, 0⟩ : Point) = ⟨100, 100⟩)) ∧
      findIntersection 0 0 100 0 100 0 100 100
        = if |(0 - 100) * (0 - 100) - (0 - 0) * ((100 : ℚ) - 100)| < 1 / 1000000 then none
          else some ⟨100, 0⟩ :=
  ⟨⟨Or.inr rfl, Or.inl rfl⟩,
    findIntersection_shared_endpoint 0 0 100 0 100 0 100 100 ⟨100, 0⟩ (Or.inr rfl) (Or.inl rfl)⟩

/-- C12: with `den = (x1-x2)(y3-y4) - (y1-y2)(x3-x4)`,
`t = ((x1-x3)(y3-y4) - (y1-y3)(x3-x4)) / den` and
`u = -((x1-x2)(y1-y3) - (y1-y2)(x1-x3)) / den`, `findIntersection` returns `null` exactly
when `|den| < 1/1000000` or `t` or `u` lies outside `[-1/1000000, 1 + 1/1000000]`, and in
every other case the point `(x1 + t * (x2 - x1), y1 + t * (y2 - y1))`. -/
theorem findIntersection_eq (x1 y1 x2 y2 x3 y3 x4 y4 : ℚ) :
    (findIntersection x1 y1 x2 y2 x3 y3 x4 y4 = none ↔
      |(x1 - x2) * (y3 - y4) - (y1 - y2) * (x3 - x4)| < 1 / 1000000 ∨
        (((x1 - x3) * (y3 - y4) - (y1 - y3) * (x3 - x4))
          / ((x1 - x2) * (y3 - y4) - (y1 - y2) * (x3 - x4))) < -(1 / 1000000) ∨
        1 + 1 / 1000000 < (((x1 - x3) * (y3 - y4) - (y1 - y3) * (x3 - x4))
          / ((x1 - x2) * (y3 - y4) - (y1 - y2) * (x3 - x4))) ∨
        (-((x1 - x2) * (y1 - y3) - (y1 - y2) * (x1 - x3))
          / ((x1 - x2) * (y3 - y4) - (y1 - y2) * (x3 - x4))) < -(1 / 1000000) ∨
        1 + 1 / 1000000 < (-((x1 - x2) * (y1 - y3) - (y1 - y2) * (x1 - x3))
          / ((x1 - x2) * (y3 - y4) - (y1 - y2) * (x3 - x4)))) ∧
    findIntersection x1 y1 x2 y2 x3 y3 x4 y4
      = if |(x1 - x2) * (y3 - y4) - (y1 - y2) * (x3 - x4)| < 1 / 1000000 ∨
        (((x1 - x3) * (y3 - y4) - (y1 - y3) * (x3 - x4))
          / ((x1 - x2) * (y3 - y4) - (y1 - y2) * (x3 - x4))) < -(1 / 1000000) ∨
        1 + 1 / 1000000 < (((x1 - x3) * (y3 - y4) - (y1 - y3) * (x3 - x4))
          / ((x1 - x2) * (y3 - y4) - (y1 - y2) * (x3 - x4))) ∨
        (-((x1 - x2) * (y1 - y3) - (y1 - y2) * (x1 - x3))
          / ((x1 - x2) * (y3 - y4) - (y1 - y2) * (x3 - x4))) < -(1 / 1000000) ∨
        1 + 1 / 1000000 < (-((x1 - x2) * (y1 - y3) - (y1 - y2) * (x1 - x3))
          / ((x1 - x2) * (y3 - y4) - (y1 - y2) * (x3 - x4))) then none
        else some ⟨x1 + (((x1 - x3) * (y3 - y4) - (y1 - y3) * (x3 - x4))
          / ((x1 - x2) * (y3 - y4) - (y1 - y2) * (x3 - x4))) * (x2 - x1),
          y1 + (((x1 - x3) * (y3 - y4) - (y1 - y3) * (x3 - x4))
          / ((x1 - x2) * (y3 - y4) - (y1 - y2) * (x3 - x4))) * (y2 - y1)⟩ :=
  findIntersection_cases x1 y1 x2 y2 x3 y3 x4 y4

/-- C15: for every point and segment, the two ends equal or not, the record returned by
`findClosestPointOnSegment` has `0 ≤ t ≤ 1`, its point is `a + t * (b - a)`, and its `dist`
is the distance from `p` to that point (stated on the squares). -/
theorem findClosestPointOnSegment_spec (px py x1 y1 x2 y2 : ℚ) :
    0 ≤ (findClosestPointOnSegment px py x1 y1 x2 y2).t ∧
      (findClosestPointOnSegment px py x1 y1 x2 y2).t ≤ 1 ∧
      (findClosestPointOnSegment px py x1 y1 x2 y2).x
        = x1 + (findClosestPointOnSegment px py x1 y1 x2 y2).t * (x2 - x1) ∧
      (findClosestPointOnSegment px py x1 y1 x2 y2).y
        = y1 + (findClosestPointOnSegment px py x1 y1 x2 y2).t * (y2 - y1) ∧
      (findClosestPointOnSegment px py x1 y1 x2 y2).distSq
        = (px - (findClosestPointOnSegment px py x1 y1 x2 y2).x) ^ 2
          + (py - (findClosestPointOnSegment px py x1 y1 x2 y2).y) ^ 2 := by
  unfold findClosestPointOnSegment
  simp only []
  split
  · simp
  · exact ⟨(clampedParameter_mem _).1, (clampedParameter_mem _).2, rfl, rfl, rfl⟩

/-- C16: the point returned by `findClosestPointOnSegment` is a closest point of the
segment: for every `s` in `[0, 1]` the returned `dist` is at most the distance from `p` to
`a + s * (b - a)` (stated on the squares). -/
theorem findClosestPointOnSegment_closest (px py x1 y1 x2 y2 s : ℚ) (hs0 : 0 ≤ s)
    (hs1 : s ≤ 1) :
    (findClosestPointOnSegment px py x1 y1 x2 y2).distSq
      ≤ (px - (x1 + s * (x2 - x1))) ^ 2 + (py - (y1 + s * (y2 - y1))) ^ 2 := by
  rw [findClosestPointOnSegment_distSq]
  exact pointToSegmentDistanceSq_le px py x1 y1 x2 y2 hs0 hs1

theorem findClosestPointOnSegment_closest_witness :
    ((0 : ℚ) ≤ 1 / 4 ∧ (1 : ℚ) / 4 ≤ 1) ∧
      (findClosestPointOnSegment 3 5 0 0 10 0).distSq
        ≤ (3 - (0 + 1 / 4 * (10 - 0))) ^ 2 + (5 - (0 + 1 / 4 * (0 - 0))) ^ 2 :=
  ⟨⟨by norm_num, by norm_num⟩,
    findClosestPointOnSegment_closest 3 5 0 0 10 0 (1 / 4) (by norm_num) (by norm_num)⟩

/-- C17: `pointToSegmentDistance` returns the perpendicular distance
`|(b - a) × (p - a)| / |b - a|` when `a ≠ b` and the projection parameter
`((p - a) · (b - a)) / |b - a|²` lies in `[0, 1]`, and the distance `|p - a|` when `a = b`
(both stated on the squares). -/
theorem pointToSegmentDistanceSq_spec (px py x1 y1 x2 y2 : ℚ) :
    ((x1 ≠ x2 ∨ y1 ≠ y2) →
        0 ≤ ((px - x1) * (x2 - x1) + (py - y1) * (y2 - y1))
          / ((x2 - x1) ^ 2 + (y2 - y1) ^ 2) →
        ((px - x1) * (x2 - x1) + (py - y1) * (y2 - y1))
          / ((x2 - x1) ^ 2 + (y2 - y1) ^ 2) ≤ 1 →
        pointToSegmentDistanceSq px py x1 y1 x2 y2
          = |(x2 - x1) * (py - y1) - (y2 - y1) * (px - x1)| ^ 2
            / ((x2 - x1) ^ 2 + (y2 - y1) ^ 2)) ∧
      pointToSegmentDistanceSq px py x1 y1 x1 y1 = (px - x1) ^ 2 + (py - y1) ^ 2 := by
  refine ⟨fun hab h0 h1 => ?_, ?_⟩
  · rw [sq_abs]
    exact pointToSegmentDistanceSq_of_mem hab h0 h1
  · unfold pointToSegmentDistanceSq
    simp

theorem pointToSegmentDistanceSq_spec_witness :
    ((0 : ℚ) ≠ 10 ∨ (0 : ℚ) ≠ 0) ∧
      pointToSegmentDistanceSq 3 5 0 0 10 0
        = |(10 - 0) * (5 - 0) - (0 - 0) * ((3 : ℚ) - 0)| ^ 2 / ((10 - 0) ^ 2 + (0 - 0) ^ 2) :=
  ⟨Or.inl (by norm_num),
    (pointToSegmentDistanceSq_spec 3 5 0 0 10 0).1 (Or.inl (by norm_num)) (by norm_num)
      (by norm_num)⟩

/-- C14, as stated, fails: the trapezoid `(0,0), (1/2000,0), (1/2000,1/1000), (0,2/1000)`
has signed area `3/4000000`, below `1/1000000` in magnitude, but the function returns its
area-weighted centroid `(1/4500, 7/9000)`, not the vertex mean `(1/4000, 3/4000)`: the
test reads the shoelace sum, twice the area. -/
theorem calculatePolygonCentroid_not_mean :
    |signedArea [⟨0, 0⟩, ⟨1 / 2000, 0⟩, ⟨1 / 2000, 1 / 1000⟩, ⟨0, 2 / 1000⟩]| < 1 / 1000000 ∧
      calculatePolygonCentroid [⟨0, 0⟩, ⟨1 / 2000, 0⟩, ⟨1 / 2000, 1 / 1000⟩, ⟨0, 2 / 1000⟩]
        = ⟨1 / 4500, 7 / 9000⟩ ∧
      vertexMean [⟨0, 0⟩, ⟨1 / 2000, 0⟩, ⟨1 / 2000, 1 / 1000⟩, ⟨0, 2 / 1000⟩]
        = ⟨1 / 4000, 3 / 4000⟩ :=
  ⟨by decide!, by decide!, by decide!⟩

/-- C14, amended: for every non-empty vertex list, `calculatePolygonCentroid` returns the
arithmetic mean of the vertices when the signed shoelace area `A` satisfies
`|A| < 1/2000000` (the shoelace sum `2 * A` is below `1/1000000` in magnitude), and the
area-weighted centroid, the sums of `(x_i + x_(i+1)) * a_i` and `(y_i + y_(i+1)) * a_i`
over `6 * A`, otherwise. -/
theorem calculatePolygonCentroid_spec (points : List Point) (hne : points ≠ []) :
    calculatePolygonCentroid points
      = if |signedArea points| < 1 / 2000000 then vertexMean points
        else weightedCentroid points := by
  rw [calculatePolygonCentroid_eq hne]
  have hiff : |2 * signedArea points| < 1 / 1000000 ↔ |signedArea points| < 1 / 2000000 := by
    rw [abs_mul, abs_of_pos (by norm_num : (0 : ℚ) < 2)]
    constructor <;> intro h <;> linarith
  simp only [hiff]

theorem calculatePolygonCentroid_spec_witness :
    ([⟨0, 0⟩, ⟨4, 0⟩, ⟨4, 2⟩, ⟨0, 4⟩] : List Point) ≠ [] ∧
      calculatePolygonCentroid [⟨0, 0⟩, ⟨4, 0⟩, ⟨4, 2⟩, ⟨0, 4⟩]
        = if |signedArea [⟨0, 0⟩, ⟨4, 0⟩, ⟨4, 2⟩, ⟨0, 4⟩]| < 1 / 2000000 then
            vertexMean [⟨0, 0⟩, ⟨4, 0⟩, ⟨4, 2⟩, ⟨0, 4⟩]
          else weightedCentroid [⟨0, 0⟩, ⟨4, 0⟩, ⟨4, 2⟩, ⟨0, 4⟩] :=
  ⟨by simp, calculatePolygonCentroid_spec _ (by simp)⟩

/-- C18: `calculatePolygonArea` is unsigned: it is never negative, and it is the same for
a point list and for its reversal. -/
theorem calculatePolygonArea_unsigned (points : List Point) :
    0 ≤ calculatePolygonArea points ∧
      calculatePolygonArea points.reverse = calculatePolygonArea points := by
  unfold calculatePolygonArea
  refine ⟨abs_nonneg _, ?_⟩
  rw [shoelaceSum_reverse, neg_div, abs_neg]

/-- C19: for the rectangle `[(x0,y0), (x1,y0), (x1,y1), (x0,y1)]` with `x0 < x1` and
`y0 < y1` and every point `p`, `isPointInPolygon` is true exactly when `x0 ≤ p.x < x1` and
`y0 ≤ p.y < y1`. -/
theorem isPointInPolygon_rectangle (x0 y0 x1 y1 : ℚ) (hx : x0 < x1) (hy : y0 < y1)
    (p : Point) :
    isPointInPolygon p [⟨x0, y0⟩, ⟨x1, y0⟩, ⟨x1, y1⟩, ⟨x0, y1⟩] = true
      ↔ x0 ≤ p.x ∧ p.x < x1 ∧ y0 ≤ p.y ∧ p.y < y1 :=
  isPointInPolygon_rectangle_iff hx hy p

theorem isPointInPolygon_rectangle_witness :
    ((1 : ℚ) < 5 ∧ (2 : ℚ) < 4) ∧
      (isPointInPolygon ⟨1, 2⟩ [⟨1, 2⟩, ⟨5, 2⟩, ⟨5, 4⟩, ⟨1, 4⟩] = true
        ↔ (1 : ℚ) ≤ 1 ∧ (1 : ℚ) < 5 ∧ (2 : ℚ) ≤ 2 ∧ (2 : ℚ) < 4) ∧
      isPointInPolygon ⟨1, 2⟩ [⟨1, 2⟩, ⟨5, 2⟩, ⟨5, 4⟩, ⟨1, 4⟩] = true ∧
      isPointInPolygon ⟨5, 4⟩ [⟨1, 2⟩, ⟨5, 2⟩, ⟨5, 4⟩, ⟨1, 4⟩] = false :=
  ⟨⟨by norm_num, by norm_num⟩,
    isPointInPolygon_rectangle 1 2 5 4 (by norm_num) (by norm_num) ⟨1, 2⟩, by decide!,
    by decide!⟩

/-- C13: for every convex polygon given as its vertex list (at least three pairwise
different vertices, not all on one line, listed around the boundary in either orientation;
vertices in the interior of a side are allowed),
`isPointInPolygon (calculatePolygonCentroid points) points` is true. -/
theorem isPointInPolygon_centroid_of_convex (points : List Point)
    (h : IsConvexPolygon points) :
    isPointInPolygon (calculatePolygonCentroid points) points = true :=
  isPointInPolygon_centroid h

theorem isPointInPolygon_centroid_of_convex_witness :
    IsConvexPolygon [⟨0, 0⟩, ⟨4, 0⟩, ⟨5, 3⟩, ⟨2, 5⟩, ⟨-1, 2⟩] ∧
      calculatePolygonCentroid [⟨0, 0⟩, ⟨4, 0⟩, ⟨5, 3⟩, ⟨2, 5⟩, ⟨-1, 2⟩] = ⟨25 / 12, 251 / 120⟩ ∧
      isPointInPolygon (calculatePolygonCentroid [⟨0, 0⟩, ⟨4, 0⟩, ⟨5, 3⟩, ⟨2, 5⟩, ⟨-1, 2⟩])
        [⟨0, 0⟩, ⟨4, 0⟩, ⟨5, 3⟩, ⟨2, 5⟩, ⟨-1, 2⟩] = true :=
  ⟨by decide!, by decide!, isPointInPolygon_centroid_of_convex _ (by decide!)⟩

/-- C20: for the square walls of side 100 and every query point strictly inside the
square, `findRoomFromPoint` with no existing rooms returns a room whose points are a cyclic
rotation of the one sequence `(0,0), (100,0), (100,100), (0,100)`: the same corners in the
same winding wherever the point is, also within 1 unit of a wall. -/
theorem findRoomFromPoint_square_any_point (startPoint : Point)
    (hx : 0 < startPoint.x ∧ startPoint.x < 100) (hy : 0 < startPoint.y ∧ startPoint.y < 100) :
    ∃ room, findRoomFromPoint startPoint squareWalls [] = some room ∧
      List.IsRotated room.points [⟨0, 0⟩, ⟨100, 0⟩, ⟨100, 100⟩, ⟨0, 100⟩] := by
  have hsq : squareWalls = rectWalls 100 100 := rfl
  rw [hsq]
  exact rect_room_inside (by norm_num) (by norm_num) (by norm_num) (by norm_num) hx.1 hx.2
    hy.1 hy.2

theorem findRoomFromPoint_square_any_point_witness :
    (((0 : ℚ) < 1 / 2 ∧ (1 : ℚ) / 2 < 100) ∧ ((0 : ℚ) < 50 ∧ (50 : ℚ) < 100)) ∧
      findRoomFromPoint ⟨1 / 2, 50⟩ squareWalls []
        = some ⟨[⟨0, 0⟩, ⟨100, 0⟩, ⟨100, 100⟩, ⟨0, 100⟩]⟩ ∧
      ∃ room, findRoomFromPoint ⟨1 / 2, 50⟩ squareWalls [] = some room ∧
        List.IsRotated room.points [⟨0, 0⟩, ⟨100, 0⟩, ⟨100, 100⟩, ⟨0, 100⟩] :=
  ⟨⟨⟨by norm_num, by norm_num⟩, ⟨by norm_num, by norm_num⟩⟩, by decide!,
    findRoomFromPoint_square_any_point ⟨1 / 2, 50⟩ ⟨by norm_num, by norm_num⟩
      ⟨by norm_num, by norm_num⟩⟩

/-- C21, as stated, fails in both directions.  The wall from `(0, 0)` to `(0.00004, 0)`
has one node, at `(0, 0)`: its two endpoints print to the same key, and no node is within
`1e-6` of the second endpoint.  The endpoints `(0.0000504, 0)` and `(0.0000496, 0)` of two
parallel walls are `8e-7` apart and print to different keys: two nodes are within `1e-6`
of the first of them. -/
theorem buildGraph_node_not_within_epsilon :
    ¬ (nodesNear (buildGraph [⟨0, 0, 1 / 25000, 0⟩]).1 ⟨1 / 25000, 0⟩).length = 1 ∧
      nodesNear (buildGraph [⟨0, 0, 1 / 25000, 0⟩]).1 ⟨1 / 25000, 0⟩ = [] ∧
      ¬ (nodesNear (buildGraph [⟨63 / 1250000, 0, 1, 0⟩, ⟨62 / 1250000, 0, -1, 0⟩]).1
          ⟨63 / 1250000, 0⟩).length = 1 ∧
      nodesNear (buildGraph [⟨63 / 1250000, 0, 1, 0⟩, ⟨62 / 1250000, 0, -1, 0⟩]).1
          ⟨63 / 1250000, 0⟩ = [⟨63 / 1250000, 0⟩, ⟨62 / 1250000, 0⟩] := by
  refine ⟨by decide!, by decide!, by decide!, by decide!⟩

/-- C21, amended: for every wall list, every wall endpoint and every intersection point
`P` of two walls, the first earlier in the list than the second, is represented by exactly
one node by key: exactly one node of the graph has coordinates that print with 4 decimals
to the key of `P`.  The coordinates of a node with the key of `P` differ from those of `P`
by less than `0.0001` each. -/
theorem buildGraph_one_node_per_key (walls : List Wall) :
    (∀ w ∈ walls, (nodesWithKey (buildGraph walls).1 ⟨w.x1, w.y1⟩).length = 1 ∧
      (nodesWithKey (buildGraph walls).1 ⟨w.x2, w.y2⟩).length = 1) ∧
    (∀ (i j : Nat) (w1 w2 : Wall) (P : Point), i < j → walls[i]? = some w1 →
      walls[j]? = some w2 →
      findIntersection w1.x1 w1.y1 w1.x2 w1.y2 w2.x1 w2.y1 w2.x2 w2.y2 = some P →
      (nodesWithKey (buildGraph walls).1 P).length = 1) ∧
    ∀ (P c : Point), c ∈ nodesWithKey (buildGraph walls).1 P →
      |c.x - P.x| < 1 / 10000 ∧ |c.y - P.y| < 1 / 10000 := by
  have hg := buildGraph_graphInv walls
  obtain ⟨h1, h2⟩ := buildGraph_keys walls
  refine ⟨?_, ?_, ?_⟩
  · intro w hw
    exact ⟨length_nodesWithKey hg (h1 w hw).1, length_nodesWithKey hg (h1 w hw).2⟩
  · intro i j w1 w2 P hij hi hj hP
    exact length_nodesWithKey hg (h2 i j w1 w2 P hij hi hj hP)
  · intro P c hc
    unfold nodesWithKey at hc
    exact abs_sub_lt_of_pointKey_eq (by simpa using (List.mem_filter.mp hc).2)

theorem buildGraph_one_node_per_key_witness :
    (⟨0, 0, 1 / 25000, 0⟩ : Wall) ∈ [(⟨0, 0, 1 / 25000, 0⟩ : Wall)] ∧
      nodesWithKey (buildGraph [⟨0, 0, 1 / 25000, 0⟩]).1 ⟨1 / 25000, 0⟩ = [⟨0, 0⟩] ∧
      (nodesWithKey (buildGraph [⟨0, 0, 1 / 25000, 0⟩]).1 ⟨1 / 25000, 0⟩).length = 1 :=
  ⟨List.mem_singleton.mpr rfl, by decide!,
    ((buildGraph_one_node_per_key [⟨0, 0, 1 / 25000, 0⟩]).1 ⟨0, 0, 1 / 25000, 0⟩
      (List.mem_singleton.mpr rfl)).2⟩

/-- C22: for every wall list, every edge of the graph has two different end nodes, both
in the node map, at points whose squared distance is at least `EPSILON ^ 2` (their
distance is at least `1e-6`), and both ends are within `1e-6` of the wall of the edge,
which is a wall of the list. -/
theorem buildGraph_edge_endpoints (walls : List Wall) (e : Edge)
    (he : e ∈ (buildGraph walls).2) :
    e.node1 ≠ e.node2 ∧ e.node1 < (buildGraph walls).1.length ∧
      e.node2 < (buildGraph walls).1.length ∧
      EPSILON ^ 2 ≤ distanceSq (nodePoint (buildGraph walls).1 e.node1)
        (nodePoint (buildGraph walls).1 e.node2) ∧
      pointToSegmentDistanceSq (nodePoint (buildGraph walls).1 e.node1).x
        (nodePoint (buildGraph walls).1 e.node1).y
        e.wall.x1 e.wall.y1 e.wall.x2 e.wall.y2 < EPSILON ^ 2 ∧
      pointToSegmentDistanceSq (nodePoint (buildGraph walls).1 e.node2).x
        (nodePoint (buildGraph walls).1 e.node2).y
        e.wall.x1 e.wall.y1 e.wall.x2 e.wall.y2 < EPSILON ^ 2 ∧
      e.wall ∈ walls := by
  obtain ⟨hg, hwall, -⟩ := buildGraph_inv (S := fun _ => True) walls
    (fun _ _ => ⟨trivial, trivial⟩) (fun _ _ _ _ _ _ => trivial)
  obtain ⟨h1, h2, h3⟩ := hg.edge_ok e he
  exact ⟨h1, h2, h3, not_lt.mp (buildGraph_edge_origin walls e he).2, (hg.on_wall e he).1,
    (hg.on_wall e he).2, hwall e he⟩

theorem buildGraph_edge_endpoints_witness :
    (⟨0, 1, ⟨0, 0, 100, 0⟩⟩ : Edge) ∈ (buildGraph squareWalls).2 ∧
      distanceSq (nodePoint (buildGraph squareWalls).1 0) (nodePoint (buildGraph squareWalls).1 1)
        = 10000 ∧
      EPSILON ^ 2 ≤ distanceSq (nodePoint (buildGraph squareWalls).1 0)
        (nodePoint (buildGraph squareWalls).1 1) :=
  ⟨by decide!, by decide!,
    (buildGraph_edge_endpoints squareWalls ⟨0, 1, ⟨0, 0, 100, 0⟩⟩ (by decide!)).2.2.2.1⟩

/-- C23: for every wall list and every edge of the graph, the points of the two ends of
the edge are consecutive entries of the sorted array of the nodes on its wall, the first
end not farther from the wall's first endpoint than the second, and no node of the graph
that lies on that wall has a squared distance from the wall's first endpoint strictly
between those of the two ends. -/
theorem buildGraph_edge_consecutive (walls : List Wall) (e : Edge)
    (he : e ∈ (buildGraph walls).2) :
    (∃ l1 l2, pointsOnWall (buildGraph walls).1 e.wall
      = l1 ++ nodePoint (buildGraph walls).1 e.node1
          :: nodePoint (buildGraph walls).1 e.node2 :: l2) ∧
    wallOrderKey e.wall (nodePoint (buildGraph walls).1 e.node1)
      ≤ wallOrderKey e.wall (nodePoint (buildGraph walls).1 e.node2) ∧
    ∀ i, i < (buildGraph walls).1.length →
      liesOnWall e.wall (nodePoint (buildGraph walls).1 i) = true →
      ¬ (wallOrderKey e.wall (nodePoint (buildGraph walls).1 e.node1)
          < wallOrderKey e.wall (nodePoint (buildGraph walls).1 i) ∧
        wallOrderKey e.wall (nodePoint (buildGraph walls).1 i)
          < wallOrderKey e.wall (nodePoint (buildGraph walls).1 e.node2)) := by
  obtain ⟨⟨l1, l2, hl⟩, -⟩ := buildGraph_edge_origin walls e he
  have hs := pointsOnWall_sorted (buildGraph walls).1 e.wall
  rw [hl, List.pairwise_append] at hs
  obtain ⟨-, hs2, hs3⟩ := hs
  rw [List.pairwise_cons] at hs2
  refine ⟨⟨l1, l2, hl⟩, hs2.1 _ (List.mem_cons_self _ _), ?_⟩
  intro i hi hon hbetween
  have hmem : nodePoint (buildGraph walls).1 i ∈ pointsOnWall (buildGraph walls).1 e.wall := by
    rw [mem_pointsOnWall]
    refine ⟨nodePoint_mem hi, ?_⟩
    unfold liesOnWall at hon
    simpa using hon
  rw [hl] at hmem
  rcases List.mem_append.mp hmem with hm | hm
  · exact absurd hbetween.1 (not_lt.mpr (hs3 _ hm _ (List.mem_cons_self _ _)))
  · rcases List.mem_cons.mp hm with hm | hm
    · rw [hm] at hbetween
      exact lt_irrefl _ hbetween.1
    · rcases List.mem_cons.mp hm with hm | hm
      · rw [hm] at hbetween
        exact lt_irrefl _ hbetween.2
      · exact absurd hbetween.2 (not_lt.mpr ((List.pairwise_cons.mp hs2.2).1 _ hm))

theorem buildGraph_edge_consecutive_witness :
    (⟨0, 2, ⟨0, 0, 10, 0⟩⟩ : Edge) ∈ (buildGraph [⟨0, 0, 10, 0⟩, ⟨3, 0, 5, 0⟩]).2 ∧
      pointsOnWall (buildGraph [⟨0, 0, 10, 0⟩, ⟨3, 0, 5, 0⟩]).1 ⟨0, 0, 10, 0⟩
        = [⟨0, 0⟩, ⟨3, 0⟩, ⟨5, 0⟩, ⟨10, 0⟩] ∧
      ∃ l1 l2, pointsOnWall (buildGraph [⟨0, 0, 10, 0⟩, ⟨3, 0, 5, 0⟩]).1 ⟨0, 0, 10, 0⟩
        = l1 ++ nodePoint (buildGraph [⟨0, 0, 10, 0⟩, ⟨3, 0, 5, 0⟩]).1 0
            :: nodePoint (buildGraph [⟨0, 0, 10, 0⟩, ⟨3, 0, 5, 0⟩]).1 2 :: l2 :=
  ⟨by decide!, by decide!,
    (buildGraph_edge_consecutive [⟨0, 0, 10, 0⟩, ⟨3, 0, 5, 0⟩] ⟨0, 2, ⟨0, 0, 10, 0⟩⟩
      (by decide!)).1⟩

/-- C24: for every wall list, the edge list of every node of the graph is the list of the
edges of the graph of which the node is `node1` or `node2`, in the order in which they
were made: every made edge is once in the list of each of its two ends and in no other
list.  The edge assembly makes no node: the graph has the keys and the coordinates of the
registered nodes. -/
theorem buildGraph_incident_edges (walls : List Wall) :
    (∀ i, (nodeAt (buildGraph walls).1 i).edges = incidentEdges (buildGraph walls).2 i) ∧
      nodeKeys (buildGraph walls).1 = nodeKeys (registeredNodes walls) ∧
      nodeCoords (buildGraph walls).1 = nodeCoords (registeredNodes walls) ∧
      (buildGraph walls).1.length = (registeredNodes walls).length :=
  ⟨buildGraph_edge_lists walls, (buildGraph_nodes walls).2.1, (buildGraph_nodes walls).1,
    (buildGraph_nodes walls).2.2⟩

/-- C25, as stated, fails: of the two walls from `(0, 0)` to `(10, 0)` and from `(3, 0)`
to `(5, 0)`, which lie on one line, neither crosses the other (`findIntersection` is
`null`), and the first wall has three edges. -/
theorem buildGraph_collinear_walls_edges :
    crossingCount [⟨0, 0, 10, 0⟩, ⟨3, 0, 5, 0⟩] ⟨0, 0, 10, 0⟩ = 0 ∧
      (edgesOfWall (buildGraph [⟨0, 0, 10, 0⟩, ⟨3, 0, 5, 0⟩]).2 ⟨0, 0, 10, 0⟩).length = 3 ∧
      ¬ (edgesOfWall (buildGraph [⟨0, 0, 10, 0⟩, ⟨3, 0, 5, 0⟩]).2 ⟨0, 0, 10, 0⟩).length
        ≤ crossingCount [⟨0, 0, 10, 0⟩, ⟨3, 0, 5, 0⟩] ⟨0, 0, 10, 0⟩ + 1 := by
  refine ⟨by decide!, by decide!, by decide!⟩

/-- C25, amended: for every wall list and every wall `W`, the number of edges whose wall
is `W` is at most `m - 1` for each time `W` occurs in the list, where `m` is the number
of nodes of the graph that lie on `W` (within `1e-6`). -/
theorem buildGraph_edges_per_wall (walls : List Wall) (W : Wall) :
    (edgesOfWall (buildGraph walls).2 W).length
      ≤ walls.count W * ((nodesOnWall (buildGraph walls).1 W).length - 1) :=
  buildGraph_edgesOfWall walls W

/-- C26: when the ray from the query point to `(x + 1e6, y + 1e-4)` meets no edge of the
graph, there is no seed edge and `findRoomFromPoint` returns `null`; otherwise the seed
edge is an edge that the ray meets, no edge made earlier is met at the same or a smaller
distance from the query point, and no edge made later is met at a smaller distance. -/
theorem findStartingEdge_nearest (startPoint : Point) (walls : List Wall)
    (existingRooms : List Room) :
    ((∀ e ∈ (buildGraph walls).2, rayHit (buildGraph walls).1 startPoint e = none) →
      findStartingEdge (buildGraph walls).1 (buildGraph walls).2 startPoint = none ∧
        findRoomFromPoint startPoint walls existingRooms = none) ∧
    ((∃ e ∈ (buildGraph walls).2, rayHit (buildGraph walls).1 startPoint e ≠ none) →
      ∃ pre seed post p, (buildGraph walls).2 = pre ++ seed :: post ∧
        findStartingEdge (buildGraph walls).1 (buildGraph walls).2 startPoint = some seed ∧
        rayHit (buildGraph walls).1 startPoint seed = some p ∧
        (∀ e ∈ pre, ∀ q, rayHit (buildGraph walls).1 startPoint e = some q →
          distanceSq p startPoint < distanceSq q startPoint) ∧
        ∀ e ∈ post, ∀ q, rayHit (buildGraph walls).1 startPoint e = some q →
          distanceSq p startPoint ≤ distanceSq q startPoint) := by
  rcases findStartingEdge_cases (buildGraph walls).1 (buildGraph walls).2 startPoint with
    ⟨h1, h2⟩ | ⟨pre, seed, post, p, h1, h2, h3, h4, h5⟩
  · refine ⟨fun _ => ⟨h1, ?_⟩, ?_⟩
    · unfold findRoomFromPoint
      split
      · rfl
      · split
        · rfl
        · simp only [h1]
    · rintro ⟨e, he, hne⟩
      exact absurd (h2 e he) hne
  · refine ⟨?_, fun _ => ⟨pre, seed, post, p, h1, h2, h3, h4, h5⟩⟩
    intro hmiss
    have hs : seed ∈ (buildGraph walls).2 := by
      rw [h1]
      exact List.mem_append_right _ (List.mem_cons_self _ _)
    rw [hmiss seed hs] at h3
    exact absurd h3 (by simp)

theorem findStartingEdge_nearest_witness :
    (∃ e ∈ (buildGraph squareWalls).2, rayHit (buildGraph squareWalls).1 ⟨50, 50⟩ e ≠ none) ∧
      findStartingEdge (buildGraph squareWalls).1 (buildGraph squareWalls).2 ⟨50, 50⟩
        = some ⟨1, 2, ⟨100, 0, 100, 100⟩⟩ ∧
      ∃ pre seed post p, (buildGraph squareWalls).2 = pre ++ seed :: post ∧
        findStartingEdge (buildGraph squareWalls).1 (buildGraph squareWalls).2 ⟨50, 50⟩
          = some seed ∧
        rayHit (buildGraph squareWalls).1 ⟨50, 50⟩ seed = some p ∧
        (∀ e ∈ pre, ∀ q, rayHit (buildGraph squareWalls).1 ⟨50, 50⟩ e = some q →
          distanceSq p ⟨50, 50⟩ < distanceSq q ⟨50, 50⟩) ∧
        ∀ e ∈ post, ∀ q, rayHit (buildGraph squareWalls).1 ⟨50, 50⟩ e = some q →
          distanceSq p ⟨50, 50⟩ ≤ distanceSq q ⟨50, 50⟩ :=
  ⟨⟨⟨1, 2, ⟨100, 0, 100, 100⟩⟩, by decide!, by decide!⟩, by decide!,
    (findStartingEdge_nearest ⟨50, 50⟩ squareWalls []).2
      ⟨⟨1, 2, ⟨100, 0, 100, 100⟩⟩, by decide!, by decide!⟩⟩

/-- C27, as stated, fails: for the square of side 100 and the query point `(0.5, 50)` the
seed edge is the left wall, which the ray meets at `x = 0`, half a unit behind the query
point. -/
theorem findStartingEdge_behind_query :
    findStartingEdge (buildGraph squareWalls).1 (buildGraph squareWalls).2 ⟨1 / 2, 50⟩
        = some ⟨3, 0, ⟨0, 100, 0, 0⟩⟩ ∧
      rayHit (buildGraph squareWalls).1 ⟨1 / 2, 50⟩ ⟨3, 0, ⟨0, 100, 0, 0⟩⟩
        = some ⟨0, 50 - 1 / 20000000000⟩ ∧
      ¬ ((⟨1 / 2, 50⟩ : Point).x ≤ (⟨0, 50 - 1 / 20000000000⟩ : Point).x) := by
  refine ⟨by decide!, by decide!, by decide!⟩

/-- C27, amended: whenever a seed edge is selected, the ray meets it in a point whose
x-coordinate is at least `q.x - 1`: the parameter of the hit on the ray, which is 1e6 long
in x, is at least `-1e-6`, so an edge up to 1 behind the query point can be the seed, and
no edge farther behind. -/
theorem findStartingEdge_hit_x (startPoint : Point) (walls : List Wall) (seed : Edge)
    (h : findStartingEdge (buildGraph walls).1 (buildGraph walls).2 startPoint = some seed) :
    ∃ p, rayHit (buildGraph walls).1 startPoint seed = some p ∧ startPoint.x - 1 ≤ p.x := by
  obtain ⟨p, hp⟩ := findStartingEdge_hit h
  exact ⟨p, hp, (rayHit_x hp).1⟩

theorem findStartingEdge_hit_x_witness :
    findStartingEdge (buildGraph squareWalls).1 (buildGraph squareWalls).2 ⟨1 / 2, 50⟩
        = some ⟨3, 0, ⟨0, 100, 0, 0⟩⟩ ∧
      ∃ p, rayHit (buildGraph squareWalls).1 ⟨1 / 2, 50⟩ ⟨3, 0, ⟨0, 100, 0, 0⟩⟩ = some p ∧
        (⟨1 / 2, 50⟩ : Point).x - 1 ≤ p.x :=
  ⟨by decide!, findStartingEdge_hit_x ⟨1 / 2, 50⟩ squareWalls _ (by decide!)⟩

/-- C28: at a step of the trace the candidates are the edges of the current node, in the
order of its edge list, whose far end is not the previous node.  The turn onto a
candidate, the angle `Math.atan2` of the outgoing vector minus that of the incoming
vector, is normalised into `(-π, π]`: the normalised value differs from the difference by
a multiple of `2π`.  Without a candidate no node is chosen; otherwise the chosen node is
the far end of a candidate whose turn is not smaller than the turn of any candidate and
larger than the turn of every candidate before it. -/
theorem bestNextNode_largest_turn (nodes : NodeMap) (prevNode currentNode : Nat) :
    (∀ inX inY outX outY : ℚ,
      -Real.pi < ((Complex.arg ⟨(outX : ℝ), (outY : ℝ)⟩ : Real.Angle)
          - (Complex.arg ⟨(inX : ℝ), (inY : ℝ)⟩ : Real.Angle)).toReal ∧
        ((Complex.arg ⟨(outX : ℝ), (outY : ℝ)⟩ : Real.Angle)
          - (Complex.arg ⟨(inX : ℝ), (inY : ℝ)⟩ : Real.Angle)).toReal ≤ Real.pi ∧
        ∃ k : ℤ, ((Complex.arg ⟨(outX : ℝ), (outY : ℝ)⟩ : Real.Angle)
            - (Complex.arg ⟨(inX : ℝ), (inY : ℝ)⟩ : Real.Angle)).toReal
          = Complex.arg ⟨(outX : ℝ), (outY : ℝ)⟩ - Complex.arg ⟨(inX : ℝ), (inY : ℝ)⟩
            + k * (2 * Real.pi)) ∧
    ((bestNextNode nodes prevNode currentNode = none ∧
        turnCandidates nodes prevNode currentNode = []) ∨
      ∃ pre c post, turnCandidates nodes prevNode currentNode = pre ++ c :: post ∧
        bestNextNode nodes prevNode currentNode = some (farNode c currentNode) ∧
        (∀ e ∈ pre, EdgeTurnLess nodes prevNode currentNode e c) ∧
        ∀ e ∈ post, ¬ EdgeTurnLess nodes prevNode currentNode c e) := by
  refine ⟨fun inX inY outX outY => toReal_sub_spec _ _, ?_⟩
  rcases bestNextNode_cases nodes prevNode currentNode with h | ⟨pre, c, post, h1, h2, h3, h4⟩
  · exact Or.inl h
  · refine Or.inr ⟨pre, c, post, h1, h2, ?_, ?_⟩
    · intro e he
      exact (turnOf_lt_iff nodes prevNode currentNode e c).mp (h3 e he)
    · intro e he hlt
      exact absurd ((turnOf_lt_iff nodes prevNode currentNode c e).mpr hlt)
        (not_lt.mpr (h4 e he))

/-- C29: every side of a returned room, the closing side from the last point to the first
included, joins the points of the two end nodes of an edge of the graph; the wall of that
edge is a wall of the list, and both ends of the side are within `1e-6` of it. -/
theorem findRoomFromPoint_sides_on_edges (startPoint : Point) (walls : List Wall)
    (existingRooms : List Room) (room : Room)
    (h : findRoomFromPoint startPoint walls existingRooms = some room) :
    ∀ s ∈ directedSides room.points, ∃ e ∈ (buildGraph walls).2,
      ((nodePoint (buildGraph walls).1 e.node1 = s.1 ∧
          nodePoint (buildGraph walls).1 e.node2 = s.2) ∨
        (nodePoint (buildGraph walls).1 e.node2 = s.1 ∧
          nodePoint (buildGraph walls).1 e.node1 = s.2)) ∧
      e.wall ∈ walls ∧
      pointToSegmentDistanceSq s.1.x s.1.y e.wall.x1 e.wall.y1 e.wall.x2 e.wall.y2
        < EPSILON ^ 2 ∧
      pointToSegmentDistanceSq s.2.x s.2.y e.wall.x1 e.wall.y1 e.wall.x2 e.wall.y2
        < EPSILON ^ 2 := by
  obtain ⟨hg, hwall, -⟩ := buildGraph_inv (S := fun _ => True) walls
    (fun _ _ => ⟨trivial, trivial⟩) (fun _ _ _ _ _ _ => trivial)
  obtain ⟨prevNode, startNode, visited, hct, hds⟩ := findRoomFromPoint_sides h
  intro s hs
  rw [hds] at hs
  obtain ⟨⟨a, b⟩, hab, rfl⟩ := List.mem_map.mp hs
  obtain ⟨e, he, hinc⟩ := hct.along_edges hg a b hab
  refine ⟨e, he, ?_, hwall e he, ?_⟩
  · rcases hinc with ⟨h1, h2⟩ | ⟨h1, h2⟩
    · exact Or.inl ⟨by rw [h1]; rfl, by rw [h2]; rfl⟩
    · exact Or.inr ⟨by rw [h1]; rfl, by rw [h2]; rfl⟩
  · have hon := hg.on_wall e he
    rcases hinc with ⟨h1, h2⟩ | ⟨h1, h2⟩
    · rw [h1, h2] at hon
      exact hon
    · rw [h1, h2] at hon
      exact ⟨hon.2, hon.1⟩

theorem findRoomFromPoint_sides_on_edges_witness :
    findRoomFromPoint ⟨50, 50⟩ squareWalls []
        = some ⟨[⟨100, 100⟩, ⟨0, 100⟩, ⟨0, 0⟩, ⟨100, 0⟩]⟩ ∧
      ((⟨100, 0⟩, ⟨100, 100⟩) : Point × Point)
        ∈ directedSides [(⟨100, 100⟩ : Point), ⟨0, 100⟩, ⟨0, 0⟩, ⟨100, 0⟩] ∧
      ∀ s ∈ directedSides [(⟨100, 100⟩ : Point), ⟨0, 100⟩, ⟨0, 0⟩, ⟨100, 0⟩],
        ∃ e ∈ (buildGraph squareWalls).2,
          ((nodePoint (buildGraph squareWalls).1 e.node1 = s.1 ∧
              nodePoint (buildGraph squareWalls).1 e.node2 = s.2) ∨
            (nodePoint (buildGraph squareWalls).1 e.node2 = s.1 ∧
              nodePoint (buildGraph squareWalls).1 e.node1 = s.2)) ∧
          e.wall ∈ squareWalls ∧
          pointToSegmentDistanceSq s.1.x s.1.y e.wall.x1 e.wall.y1 e.wall.x2 e.wall.y2
            < EPSILON ^ 2 ∧
          pointToSegmentDistanceSq s.2.x s.2.y e.wall.x1 e.wall.y1 e.wall.x2 e.wall.y2
            < EPSILON ^ 2 :=
  ⟨by decide!, by decide!,
    findRoomFromPoint_sides_on_edges ⟨50, 50⟩ squareWalls [] _ (by decide!)⟩

/-- C30: `findIntersection` is symmetric in its two segments: with the segments exchanged
the result is the same, `null` or the same point; a returned point lies on the supporting
lines of both segments; and registering the intersection of two walls gives the same node
map in either order of the two walls. -/
theorem findIntersection_symmetric (x1 y1 x2 y2 x3 y3 x4 y4 : ℚ) :
    findIntersection x3 y3 x4 y4 x1 y1 x2 y2 = findIntersection x1 y1 x2 y2 x3 y3 x4 y4 ∧
    (∀ p, findIntersection x1 y1 x2 y2 x3 y3 x4 y4 = some p →
      (x2 - x1) * (p.y - y1) - (y2 - y1) * (p.x - x1) = 0 ∧
        (x4 - x3) * (p.y - y3) - (y4 - y3) * (p.x - x3) = 0) ∧
    ∀ nodes : NodeMap,
      registerIntersectionsWith ⟨x3, y3, x4, y4⟩ [⟨x1, y1, x2, y2⟩] nodes
        = registerIntersectionsWith ⟨x1, y1, x2, y2⟩ [⟨x3, y3, x4, y4⟩] nodes := by
  refine ⟨findIntersection_swap x1 y1 x2 y2 x3 y3 x4 y4,
    fun p hp => findIntersection_on_lines hp, ?_⟩
  intro nodes
  unfold registerIntersectionsWith
  simp only [List.foldl_cons, List.foldl_nil]
  rw [findIntersection_swap x1 y1 x2 y2 x3 y3 x4 y4]

end PhacThao
